import Mathlib

/-!
# Smart pointers: shared / weak / self-observing / unique / intrusive

A shallow embedding of `smart-ptrs/weak/sw_fwd.h`, `smart-ptrs/weak/shared.h`,
`smart-ptrs/shared-from-this/shared.h` and `smart-ptrs/shared-from-this/weak.h` (and of
`ControlBlock::DecWeakRef` of `smart-ptrs/shared/shared.h`), of the primary template
of `smart-ptrs/unique/unique.h` (and the move constructor of its array
specialisation), and of `smart-ptrs/intrusive/intrusive.h`.

Memory is explicit.  Control blocks live in a block table indexed by allocation
order, pointees are identified by their address, and every pointer method is a
function that takes the heap (and the pointer objects it touches) and returns the
heap (and the pointer objects) afterwards.

* `int` counters are unbounded integers (`Int`); overflowing a signed `int` is
  undefined in C++ and needs `2^31` simultaneous references.
* A deleted block stays in the table with its `deleted` counter raised, so that a
  second `delete` or a later access can be observed.
* The pointee's own destructor body is not modelled beyond the fact that it ran
  (logged in `dtors`); what is modelled is the destruction of one `WeakPtr` held
  inside the pointee: the member `weak_this_` of `EnableSharedFromThis`, or a
  `WeakPtr` data member that the pointee type declares itself (the scenarios
  `selfWeak`).  Its destructor runs with the pointee's.  The second member of the
  base, `const_weak_this_`, is only written by `Helper` for a const-qualified `U`
  and stays a default `WeakPtr` otherwise, so its destruction does nothing and it
  is left out.
* Programs are lists of operations on numbered pointer objects: `Op` for pointee
  types that hold no pointer, `EOp` for programs in which pointees may have the
  `EnableSharedFromThis` base.
* A method called with `&other == this` reads fields of `other` after `*this` was
  written; such calls have their own definitions (`assignSelf`, `moveAssignSelf`).
* The `size_t` counter of `SimpleCounter` is a natural number reduced modulo `2^64`
  at every increment and decrement.  Objects with an embedded counter are numbered
  in allocation order; the calls of `IncRef`, `DecRef` and `Deleter::Destroy` are
  logged, newest first.
-/

namespace SmartPtrs

/-! ## Addresses, blocks, heap -/

/-- Pointee addresses: `nullptr`, an object the caller allocated with `new`, or the
`storage_` member of the fused block with the given id (`Block<T>::GetPtr`). -/
inductive Addr where
  | null
  | raw (n : Nat)
  | storage (b : Nat)
  deriving DecidableEq, Repr


/-- The argument of `SharedPtr(T*)` or `Reset(T*)`: `nullptr`, or the object number `n`
that the caller allocated with `new`. -/
def Addr.ofNew : Option Nat → Addr
  | none => .null
  | some n => .raw n

/-- The implicit conversion of an `int` to `size_t` (64 bits) in the `return` of
`UseCount` (shared.h:277-282, weak.h:115-120): a negative value wraps around modulo
`2^64`.  Counters are not bounded above in this development, so a non-negative value
converts to itself. -/
def toSizeT (c : Int) : Nat := if 0 ≤ c then c.toNat else (c % 2 ^ 64).toNat

/-- The two classes derived from `BaseBlock` (sw_fwd.h:46, sw_fwd.h:74). -/
inductive BlockKind where
  | ControlBlock
  | Block
  deriving DecidableEq, Repr

/-- One heap-allocated block: the `BaseBlock` counters, the dynamic type, the member
`ptr_` of `ControlBlock<T>` (unused for `Block<T>`), and two specification-only
fields the code never reads: `obj`, the address of the object the block was created
for, and `deleted`, the number of times `delete` ran on the block. -/
structure BaseBlock where
  kind : BlockKind
  strong_ref_counter : Int
  weak_reaf_counter : Int
  ptr_ : Addr
  obj : Addr
  deleted : Nat
  deriving DecidableEq, Repr

/-- Source: `WeakPtr<T>` (weak.h:148-150). `none` is a null `block_`. -/
structure WeakPtr where
  field_ : Addr
  block_ : Option Nat
  deriving DecidableEq, Repr

/-- Source: `SharedPtr<T>` (shared.h:317-319). -/
structure SharedPtr where
  block_ : Option Nat
  field_ : Addr
  deriving DecidableEq, Repr

/-- Pointwise update of a table. -/
def upd {α β : Type} [DecidableEq α] (f : α → β) (a : α) (v : β) : α → β :=
  fun x => if x = a then v else f x

/-- The heap.
* `blocks` / `next`: the block table and the id the next `new` returns;
* `weak_this_ a`: the `WeakPtr` held inside the object at `a`: the member
  `weak_this_` of its `EnableSharedFromThis` base, or a `WeakPtr` data member of its
  own (a default `WeakPtr` for objects that hold none);
* `dtors`: log of pointee destructor runs, newest first;
* `stuck`: set if the nested-destruction recursion ran out of fuel. -/
structure Heap where
  blocks : Nat → BaseBlock
  next : Nat
  weak_this_ : Addr → WeakPtr
  dtors : List Addr
  stuck : Bool

/-- Apply `f` to block `b`. -/
def Heap.modify (h : Heap) (b : Nat) (f : BaseBlock → BaseBlock) : Heap :=
  { h with blocks := upd h.blocks b (f (h.blocks b)) }

/-- Write the member `weak_this_` of the object at `a`. -/
def Heap.setSlot (h : Heap) (a : Addr) (w : WeakPtr) : Heap :=
  { h with weak_this_ := upd h.weak_this_ a w }

/-- Number of times the destructor of the object at `a` has run. -/
def Heap.dtorRuns (h : Heap) (a : Addr) : Nat := h.dtors.count a

/-- Bound used for nested destruction: one level per allocated block, plus one. -/
def Heap.fuel (h : Heap) : Nat := h.next + 1

/-- The heap before anything was allocated. -/
def Heap.init : Heap :=
  { blocks := fun _ => ⟨.ControlBlock, 0, 0, .null, .null, 0⟩
    next := 0
    weak_this_ := fun _ => ⟨.null, none⟩
    dtors := []
    stuck := false }

/-! ## `BaseBlock` (sw_fwd.h:5-44) -/

/-- sw_fwd.h:7 -/
def BaseBlock.AddStrongRef (c : BaseBlock) : BaseBlock :=
  { c with strong_ref_counter := c.strong_ref_counter + 1 }

/-- sw_fwd.h:11, the counter part shared by both overrides. -/
def BaseBlock.DecStrongRef (c : BaseBlock) : BaseBlock :=
  { c with strong_ref_counter := c.strong_ref_counter - 1 }

/-- sw_fwd.h:15 -/
def BaseBlock.AddWeakRef (c : BaseBlock) : BaseBlock :=
  { c with weak_reaf_counter := c.weak_reaf_counter + 1 }

/-- sw_fwd.h:19; the overrides at sw_fwd.h:60 and sw_fwd.h:95 have the same body. -/
def BaseBlock.DecWeakRef (c : BaseBlock) : BaseBlock :=
  { c with weak_reaf_counter := c.weak_reaf_counter - 1 }

/-- sw_fwd.h:23 -/
def BaseBlock.GetCount (c : BaseBlock) : Int := c.strong_ref_counter

/-- sw_fwd.h:27 -/
def BaseBlock.IsEmpty (c : BaseBlock) : Bool := decide (c.strong_ref_counter = 0)

/-- sw_fwd.h:31 -/
def BaseBlock.WholeEmpty (c : BaseBlock) : Bool :=
  decide (c.strong_ref_counter = 0) && decide (c.weak_reaf_counter = 0)

/-- sw_fwd.h:35 -/
def BaseBlock.WeakCount (c : BaseBlock) : Int := c.weak_reaf_counter

/-- Source: `new ControlBlock<T>(ptr)` (sw_fwd.h:49): counters start at 0. -/
def Heap.newControlBlock (h : Heap) (ptr : Addr) : Heap × Nat :=
  ({ h with blocks := upd h.blocks h.next ⟨.ControlBlock, 0, 0, ptr, ptr, 0⟩
            next := h.next + 1 }, h.next)

/-- Source: `new Block<T>(args...)` (sw_fwd.h:78): the object is built inside `storage_`;
its `EnableSharedFromThis` base, if any, starts with a default `weak_this_`. -/
def Heap.newBlock (h : Heap) : Heap × Nat :=
  ({ h with blocks := upd h.blocks h.next ⟨.Block, 0, 0, .null, .storage h.next, 0⟩
            next := h.next + 1
            weak_this_ := upd h.weak_this_ (.storage h.next) ⟨.null, none⟩ }, h.next)

/-- Source: `Block<T>::GetPtr` (sw_fwd.h:82). -/
def Block.GetPtr (b : Nat) : Addr := .storage b

/-! ## Destruction

`delete ptr_` runs `~T`, which destroys the member `weak_this_` (`~WeakPtr`,
weak.h:95), which may `delete block_` (weak.h:30), whose destructor may `delete ptr_`
again (sw_fwd.h:64).  The recursion is cut by fuel. -/

/-- Source: `delete block_` given what `delete ptr_` does: the virtual destructor runs
(`~ControlBlock`, sw_fwd.h:64: `if (ptr_) delete ptr_`; `~Block` is defaulted,
sw_fwd.h:86) and the block is released. -/
def deleteBlockWith (del : Heap → Addr → Heap) (h : Heap) (b : Nat) : Heap :=
  let h1 :=
    match (h.blocks b).kind with
    | .ControlBlock => if (h.blocks b).ptr_ = Addr.null then h else del h (h.blocks b).ptr_
    | .Block => h
  h1.modify b (fun c => { c with deleted := c.deleted + 1 })

/-- Source: `WeakPtr::DecWeakRef` (weak.h:24-34) given what `delete ptr_` does. -/
def WeakPtr.DecWeakRefWith (del : Heap → Addr → Heap) (h : Heap) (w : WeakPtr) :
    Heap × WeakPtr :=
  match w.block_ with
  | none => (h, w)
  | some b =>
    let h1 := h.modify b BaseBlock.DecWeakRef
    if (h1.blocks b).WholeEmpty then (deleteBlockWith del h1 b, ⟨.null, none⟩)
    else (h1, w)

/-- The destructor of the object at `a` runs: logged, then the member `weak_this_` is
destroyed in place (`~WeakPtr` is `DecWeakRef`, weak.h:95-97). -/
def runDtor : Nat → Heap → Addr → Heap
  | 0, h, _ => { h with stuck := true }
  | fuel + 1, h, a =>
    let h1 : Heap := { h with dtors := a :: h.dtors }
    let r := WeakPtr.DecWeakRefWith (fun h2 a2 => runDtor fuel h2 a2) h1 (h1.weak_this_ a)
    r.1.setSlot a r.2

/-- Source: `delete ptr_;` for a pointee address (no effect on `nullptr`). -/
def Heap.deletePointee (h : Heap) (a : Addr) : Heap :=
  if a = Addr.null then h else runDtor h.fuel h a

/-- Source: `delete block_;` -/
def Heap.deleteBlock (h : Heap) (b : Nat) : Heap :=
  deleteBlockWith (runDtor h.fuel) h b

/-- Source: `ControlBlock<T>::DecStrongRef` (sw_fwd.h:52-58). -/
def ControlBlock.DecStrongRef (h : Heap) (b : Nat) : Heap :=
  let h1 := h.modify b BaseBlock.DecStrongRef
  if (h1.blocks b).strong_ref_counter = 0 then
    (h1.deletePointee (h1.blocks b).ptr_).modify b (fun c => { c with ptr_ := Addr.null })
  else h1

/-- Source: `Block<T>::DecStrongRef` (sw_fwd.h:88-93): the destructor runs in place. -/
def Block.DecStrongRef (h : Heap) (b : Nat) : Heap :=
  let h1 := h.modify b BaseBlock.DecStrongRef
  if (h1.blocks b).strong_ref_counter = 0 then runDtor h1.fuel h1 (Block.GetPtr b)
  else h1

/-- Virtual call `block_->DecStrongRef()`. -/
def Heap.DecStrongRef (h : Heap) (b : Nat) : Heap :=
  match (h.blocks b).kind with
  | .ControlBlock => ControlBlock.DecStrongRef h b
  | .Block => Block.DecStrongRef h b

/-- Virtual call `block_->DecWeakRef()` (sw_fwd.h:60, sw_fwd.h:95). -/
def Heap.DecWeakRef (h : Heap) (b : Nat) : Heap := h.modify b BaseBlock.DecWeakRef

/-- Source: `ControlBlock<T>::DecWeakRef` of the first snapshot (shared/shared.h:58-63), which
also deletes `ptr_` when both counters are zero. -/
def ControlBlock.DecWeakRef_shared (h : Heap) (b : Nat) : Heap :=
  let h1 := h.modify b BaseBlock.DecWeakRef
  if (h1.blocks b).strong_ref_counter = 0 ∧ (h1.blocks b).weak_reaf_counter = 0 then
    h1.deletePointee (h1.blocks b).ptr_
  else h1

/-! ## `WeakPtr` (shared-from-this/weak.h) -/

/-- Source: `WeakPtr() = default` (weak.h:15). -/
def WeakPtr.default : WeakPtr := ⟨.null, none⟩

/-- weak.h:140 -/
def WeakPtr.GetField (w : WeakPtr) : Addr := w.field_

/-- weak.h:144 -/
def WeakPtr.GetBlock (w : WeakPtr) : Option Nat := w.block_

/-- weak.h:17-22 -/
def WeakPtr.AddWeakRef (h : Heap) (w : WeakPtr) : Heap :=
  match w.block_ with
  | none => h
  | some b => h.modify b BaseBlock.AddWeakRef

/-- weak.h:24-34 -/
def WeakPtr.DecWeakRef (h : Heap) (w : WeakPtr) : Heap × WeakPtr :=
  WeakPtr.DecWeakRefWith (runDtor h.fuel) h w

/-- Copy constructor (weak.h:36-40). -/
def WeakPtr.copy (h : Heap) (other : WeakPtr) : Heap × WeakPtr :=
  let this : WeakPtr := ⟨other.field_, other.block_⟩
  (this.AddWeakRef h, this)

/-- Move constructor (weak.h:42-47): the new pointer and the moved-from source. -/
def WeakPtr.move (other : WeakPtr) : WeakPtr × WeakPtr :=
  (⟨other.field_, other.block_⟩, ⟨.null, none⟩)

/-- Source: `WeakPtr(const SharedPtr<T>&)` (weak.h:51-55, weak.h:57-62). -/
def WeakPtr.ofShared (h : Heap) (other : SharedPtr) : Heap × WeakPtr :=
  let this : WeakPtr := ⟨other.field_, other.block_⟩
  (this.AddWeakRef h, this)

/-- Source: `operator=(const SharedPtr<T>&)` (weak.h:64-70). -/
def WeakPtr.assignShared (h : Heap) (this : WeakPtr) (other : SharedPtr) : Heap × WeakPtr :=
  let r := this.DecWeakRef h
  let this2 : WeakPtr := ⟨other.field_, other.block_⟩
  (this2.AddWeakRef r.1, this2)

/-- Source: `operator=(const WeakPtr&)` (weak.h:75-81) on two distinct objects. -/
def WeakPtr.assign (h : Heap) (this other : WeakPtr) : Heap × WeakPtr :=
  let r := this.DecWeakRef h
  let this2 : WeakPtr := ⟨other.field_, other.block_⟩
  (this2.AddWeakRef r.1, this2)

/-- Source: `operator=(const WeakPtr&)` (weak.h:75-81) when `&other == this`: `other.block_`
is read after `DecWeakRef` has possibly cleared it. -/
def WeakPtr.assignSelf (h : Heap) (this : WeakPtr) : Heap × WeakPtr :=
  let r := this.DecWeakRef h
  let this2 : WeakPtr := ⟨r.2.field_, r.2.block_⟩
  (this2.AddWeakRef r.1, this2)

/-- Source: `operator=(WeakPtr&&)` (weak.h:83-90) on two distinct objects: heap, `*this`,
`other`. -/
def WeakPtr.moveAssign (h : Heap) (this other : WeakPtr) : Heap × WeakPtr × WeakPtr :=
  let r := this.DecWeakRef h
  (r.1, ⟨other.field_, other.block_⟩, ⟨.null, none⟩)

/-- Source: `operator=(WeakPtr&&)` (weak.h:83-90) when `&other == this`: the object ends
cleared. -/
def WeakPtr.moveAssignSelf (h : Heap) (this : WeakPtr) : Heap × WeakPtr :=
  let r := this.DecWeakRef h
  (r.1, ⟨.null, none⟩)

/-- Source: `~WeakPtr` (weak.h:95-97). -/
def WeakPtr.dtor (h : Heap) (this : WeakPtr) : Heap := (this.DecWeakRef h).1

/-- Source: `WeakPtr::Reset` (weak.h:102-106). -/
def WeakPtr.Reset (h : Heap) (this : WeakPtr) : Heap × WeakPtr :=
  ((this.DecWeakRef h).1, ⟨.null, none⟩)

/-- Source: `WeakPtr::Swap` (weak.h:108-110): only `block_` is exchanged. -/
def WeakPtr.Swap (this other : WeakPtr) : WeakPtr × WeakPtr :=
  (⟨this.field_, other.block_⟩, ⟨other.field_, this.block_⟩)

/-- Source: `WeakPtr::UseCount` (weak.h:115-120); the `int` count is returned as `size_t`. -/
def WeakPtr.UseCount (h : Heap) (w : WeakPtr) : Nat :=
  match w.block_ with
  | some b => toSizeT (h.blocks b).GetCount
  | none => 0

/-- Source: `WeakPtr::Expired` (weak.h:122-127). -/
def WeakPtr.Expired (h : Heap) (w : WeakPtr) : Bool :=
  match w.block_ with
  | none => true
  | some b => (h.blocks b).IsEmpty

/-! ## `SharedPtr` (weak/shared.h and shared-from-this/shared.h)

The two files agree on everything in this section. -/

/-- Source: `SharedPtr()` and `SharedPtr(nullptr)` (shared.h:71-77). -/
def SharedPtr.default : SharedPtr := ⟨none, .null⟩

/-- shared.h:265 -/
def SharedPtr.Get (p : SharedPtr) : Addr := p.field_

/-- shared.h:309 -/
def SharedPtr.GetField (p : SharedPtr) : Addr := p.field_

/-- shared.h:313 -/
def SharedPtr.GetBlock (p : SharedPtr) : Option Nat := p.block_

/-- Source: `explicit operator bool` (shared.h:284-286). -/
def SharedPtr.toBool (p : SharedPtr) : Bool := decide (p.field_ ≠ Addr.null)

/-- Source: `SharedPtr::UseCount` (shared.h:277-282); the `int` count is returned as
`size_t`. -/
def SharedPtr.UseCount (h : Heap) (p : SharedPtr) : Nat :=
  match p.block_ with
  | none => 0
  | some b => toSizeT (h.blocks b).GetCount

/-- Source: `operator==` (shared-from-this/shared.h:325-328). -/
def SharedPtr.eq (left right : SharedPtr) : Bool := decide (left.GetBlock = right.GetBlock)

/-- shared.h:129-133 -/
def SharedPtr.AddStrongRef (h : Heap) (p : SharedPtr) : Heap :=
  match p.block_ with
  | some b => h.modify b BaseBlock.AddStrongRef
  | none => h

/-- shared.h:135-139 -/
def SharedPtr.DecStrongRef (h : Heap) (p : SharedPtr) : Heap :=
  match p.block_ with
  | some b => h.DecStrongRef b
  | none => h

/-- Source: `SharedPtr::CLear` (shared.h:189-195). -/
def SharedPtr.CLear (h : Heap) (p : SharedPtr) : Heap × SharedPtr :=
  let h1 :=
    match p.block_ with
    | some b =>
      if (h.blocks b).IsEmpty && decide ((h.blocks b).WeakCount = 0) then h.deleteBlock b
      else h
    | none => h
  (h1, ⟨none, .null⟩)

/-- Copy constructor (shared.h:95-110): the members start as `nullptr`, and the source
is adopted only if its `field_` differs from that. -/
def SharedPtr.copy (h : Heap) (other : SharedPtr) : Heap × SharedPtr :=
  let this : SharedPtr := ⟨none, .null⟩
  if this.field_ ≠ other.field_ then
    let this1 : SharedPtr := ⟨other.block_, other.field_⟩
    (this1.AddStrongRef h, this1)
  else (h, this)

/-- Move constructor (shared.h:112-127): heap, the new pointer, the moved-from source. -/
def SharedPtr.move (h : Heap) (other : SharedPtr) : Heap × SharedPtr × SharedPtr :=
  let this : SharedPtr := ⟨none, .null⟩
  let h1 := this.DecStrongRef h
  (h1, ⟨other.block_, other.field_⟩, ⟨none, .null⟩)

/-- Aliasing constructor (shared.h:143-147). -/
def SharedPtr.alias (h : Heap) (other : SharedPtr) (ptr : Addr) : Heap × SharedPtr :=
  let this : SharedPtr := ⟨other.GetBlock, ptr⟩
  (this.AddStrongRef h, this)

/-- The exception type (sw_fwd.h:103). -/
inductive BadWeakPtr where
  | mk
  deriving DecidableEq, Repr

/-- Promoting constructor `SharedPtr(const WeakPtr<T>&)` (shared.h:154-161). -/
def SharedPtr.ofWeak (h : Heap) (other : WeakPtr) : Except BadWeakPtr (Heap × SharedPtr) :=
  if other.Expired h then .error .mk
  else
    let this : SharedPtr := ⟨other.GetBlock, other.GetField⟩
    .ok (this.AddStrongRef h, this)

/-- Copy assignment (shared.h:166-187) on two distinct objects. -/
def SharedPtr.assign (h : Heap) (this other : SharedPtr) : Heap × SharedPtr :=
  if this.field_ ≠ other.field_ then
    let h1 := this.DecStrongRef h
    let r := this.CLear h1
    let this2 : SharedPtr := ⟨other.block_, other.field_⟩
    (this2.AddStrongRef r.1, this2)
  else (h, this)

/-- Copy assignment when `&other == this`: the guard `field_ != other.field_` is
false. -/
def SharedPtr.assignSelf (h : Heap) (this : SharedPtr) : Heap × SharedPtr :=
  if this.field_ ≠ this.field_ then
    let h1 := this.DecStrongRef h
    let r := this.CLear h1
    let this2 : SharedPtr := ⟨r.2.block_, r.2.field_⟩
    (this2.AddStrongRef r.1, this2)
  else (h, this)

/-- Move assignment (shared.h:197-216) on two distinct objects: heap, `*this`,
`other`. -/
def SharedPtr.moveAssign (h : Heap) (this other : SharedPtr) :
    Heap × SharedPtr × SharedPtr :=
  let h1 := this.DecStrongRef h
  let r := this.CLear h1
  (r.1, ⟨other.block_, other.field_⟩, ⟨none, .null⟩)

/-- Move assignment when `&other == this`: `other.block_` is read after `CLear`. -/
def SharedPtr.moveAssignSelf (h : Heap) (this : SharedPtr) : Heap × SharedPtr :=
  let h1 := this.DecStrongRef h
  let r := this.CLear h1
  (r.1, ⟨none, .null⟩)

/-- Source: `Reset(T* ptr)` (shared.h:240-255; weak/shared.h:176-191 is the same text). -/
def SharedPtr.ResetRaw (h : Heap) (this : SharedPtr) (ptr : Addr) : Heap × SharedPtr :=
  let h1 := this.DecStrongRef h
  let r := this.CLear h1
  let nb := r.1.newControlBlock ptr
  let this2 : SharedPtr := ⟨some nb.2, ptr⟩
  (this2.AddStrongRef nb.1, this2)

/-- Source: `SharedPtr::Swap` (shared.h:257-260). -/
def SharedPtr.Swap (this other : SharedPtr) : SharedPtr × SharedPtr :=
  (⟨other.block_, other.field_⟩, ⟨this.block_, this.field_⟩)

/-! ### weak/shared.h only -/

/-- Source: `SharedPtr(T* ptr)` of weak/shared.h:25-34. -/
def SharedPtr.ofRaw_weak (h : Heap) (ptr : Addr) : Heap × SharedPtr :=
  let nb := h.newControlBlock ptr
  let this : SharedPtr := ⟨some nb.2, ptr⟩
  (this.AddStrongRef nb.1, this)

/-- Source: `Reset()` of weak/shared.h:169-174. -/
def SharedPtr.Reset_weak (h : Heap) (this : SharedPtr) : Heap × SharedPtr :=
  let h1 := this.DecStrongRef h
  let r := this.CLear h1
  (r.1, ⟨none, .null⟩)

/-- Source: `~SharedPtr` of weak/shared.h:161-164. -/
def SharedPtr.dtor_weak (h : Heap) (this : SharedPtr) : Heap :=
  let h1 := this.DecStrongRef h
  (this.CLear h1).1

/-- Source: `MakeShared` of weak/shared.h:248-256; `return std::move(obj)` move-constructs the
result and destroys the moved-from local. -/
def MakeShared_weak (h : Heap) : Heap × SharedPtr :=
  let nb := h.newBlock
  let obj : SharedPtr := ⟨some nb.2, Block.GetPtr nb.2⟩
  let h1 := obj.AddStrongRef nb.1
  let m := SharedPtr.move h1 obj
  (SharedPtr.dtor_weak m.1 m.2.2, m.2.1)

/-! ### shared-from-this/shared.h only -/

/-- Source: `Reset()` (shared.h:227-238). -/
def SharedPtr.Reset (h : Heap) (this : SharedPtr) : Heap × SharedPtr :=
  match this.block_ with
  | some b =>
    let h1 := h.modify b BaseBlock.AddWeakRef
    let h2 := this.DecStrongRef h1
    let h3 := h2.DecWeakRef b
    let r := this.CLear h3
    (r.1, ⟨none, .null⟩)
  | none => (h, ⟨none, .null⟩)

/-- Source: `~SharedPtr` (shared.h:220-222). -/
def SharedPtr.dtor (h : Heap) (this : SharedPtr) : Heap := (this.Reset h).1

/-- Source: `SharedPtr::Helper` (shared.h:288-296) for a non-const `U`: a local weak pointer to
`*this` is copy-assigned into `ptr->weak_this_` and destroyed at the end of the scope. -/
def SharedPtr.Helper (h : Heap) (this : SharedPtr) (ptr : Addr) : Heap :=
  let wt := WeakPtr.ofShared h this
  let r := WeakPtr.assign wt.1 (wt.1.weak_this_ ptr) wt.2
  WeakPtr.dtor (r.1.setSlot ptr r.2) wt.2

/-- Source: `SharedPtr::Assign` (shared.h:298-303); `esft` is the compile-time test
`is_convertible_v<U*, EnabledSharedFromThisBase*>`. -/
def SharedPtr.Assign (esft : Bool) (h : Heap) (this : SharedPtr) (ptr : Addr) : Heap :=
  if esft then this.Helper h ptr else h

/-- Source: `SharedPtr(T* ptr)` (shared.h:79-93). -/
def SharedPtr.ofRaw (esft : Bool) (h : Heap) (ptr : Addr) : Heap × SharedPtr :=
  let nb := h.newControlBlock ptr
  let this : SharedPtr := ⟨some nb.2, ptr⟩
  let h1 := this.AddStrongRef nb.1
  (this.Assign esft h1 ptr, this)

/-- Source: `MakeShared` (shared.h:331-340). -/
def MakeShared (esft : Bool) (h : Heap) : Heap × SharedPtr :=
  let nb := h.newBlock
  let obj : SharedPtr := ⟨some nb.2, Block.GetPtr nb.2⟩
  let h1 := obj.AddStrongRef nb.1
  let h2 := obj.Assign esft h1 (Block.GetPtr nb.2)
  let m := SharedPtr.move h2 obj
  (SharedPtr.dtor m.1 m.2.2, m.2.1)

/-- Source: `WeakPtr::Lock` (weak.h:129-138); both returns move-construct the result from a
local that is then destroyed empty. -/
def WeakPtr.Lock (h : Heap) (w : WeakPtr) : Heap × SharedPtr :=
  match w.block_ with
  | none =>
    let m := SharedPtr.move h SharedPtr.default
    (SharedPtr.dtor m.1 m.2.2, m.2.1)
  | some b =>
    if (h.blocks b).IsEmpty then
      let m := SharedPtr.move h SharedPtr.default
      (SharedPtr.dtor m.1 m.2.2, m.2.1)
    else
      let obj : SharedPtr := ⟨w.block_, w.field_⟩
      let h1 := obj.AddStrongRef h
      let m := SharedPtr.move h1 obj
      (SharedPtr.dtor m.1 m.2.2, m.2.1)

/-- Source: `EnableSharedFromThis::SharedFromThis` (shared.h:17-19) called on the object at
`x`. -/
def EnableSharedFromThis.SharedFromThis (h : Heap) (x : Addr) : Heap × SharedPtr :=
  (h.weak_this_ x).Lock h

/-- Source: `EnableSharedFromThis::WeakFromThis` (shared.h:25-27): a copy of the slot. -/
def EnableSharedFromThis.WeakFromThis (h : Heap) (x : Addr) : Heap × WeakPtr :=
  WeakPtr.copy h (h.weak_this_ x)

/-! ## Programs over pointer variables

A program state is the heap together with the pointer objects of the program.  An
entry `none` is an object whose lifetime has ended (or has not begun); operations
naming such an object are skipped.  Constructors append the new object. -/

structure State where
  heap : Heap
  sp : List (Option SharedPtr)
  wp : List (Option WeakPtr)

/-- The state of a program that has not run yet. -/
def State.init : State := ⟨Heap.init, [], []⟩

/-- The live `SharedPtr` object number `i`, if any. -/
def State.getS (s : State) (i : Nat) : Option SharedPtr := s.sp.getD i none

/-- The live `WeakPtr` object number `i`, if any. -/
def State.getW (s : State) (i : Nat) : Option WeakPtr := s.wp.getD i none

/-- Does the (possibly dead) `SharedPtr` object hold block `b`? -/
def refS (b : Nat) (o : Option SharedPtr) : Bool :=
  match o with
  | some p => decide (p.block_ = some b)
  | none => false

/-- Does the (possibly dead) `WeakPtr` object hold block `b`? -/
def refW (b : Nat) (o : Option WeakPtr) : Bool :=
  match o with
  | some w => decide (w.block_ = some b)
  | none => false

/-- Number of live `SharedPtr` objects referencing block `b`. -/
def State.liveS (s : State) (b : Nat) : Nat := s.sp.countP (refS b)

/-- Number of live `WeakPtr` objects referencing block `b`. -/
def State.liveW (s : State) (b : Nat) : Nat := s.wp.countP (refW b)

/-- The operations on numbered pointer objects.  The `sp*` operations are those of
weak/shared.h, the `wp*` operations those of weak.h, and the four `sft*` operations
are the members of shared-from-this/shared.h that differ from weak/shared.h (raw
constructor, `MakeShared`, `Reset()`, destructor), for a pointee type without the
`EnableSharedFromThis` base. -/
inductive Op where
  | spDefault
  | spRaw (r : Option Nat)
  | spMake
  | spCopy (j : Nat)
  | spMove (j : Nat)
  | spAlias (j : Nat) (a : Addr)
  | spPromote (w : Nat)
  | spAssign (i j : Nat)
  | spMoveAssign (i j : Nat)
  | spReset (i : Nat)
  | spResetRaw (i : Nat) (r : Option Nat)
  | spSwap (i j : Nat)
  | spDtor (i : Nat)
  | wpDefault
  | wpCopy (v : Nat)
  | wpMove (v : Nat)
  | wpOfShared (j : Nat)
  | wpAssignShared (w j : Nat)
  | wpAssign (w v : Nat)
  | wpMoveAssign (w v : Nat)
  | wpReset (w : Nat)
  | wpSwap (w v : Nat)
  | wpDtor (w : Nat)
  | wpLock (w : Nat)
  | sftRaw (r : Option Nat)
  | sftMake
  | sftReset (i : Nat)
  | sftDtor (i : Nat)
  deriving DecidableEq, Repr

/-- Append a newly constructed `SharedPtr`. -/
def State.pushS (s : State) (r : Heap × SharedPtr) : State :=
  { s with heap := r.1, sp := s.sp ++ [some r.2] }

/-- Append a newly constructed `WeakPtr`. -/
def State.pushW (s : State) (r : Heap × WeakPtr) : State :=
  { s with heap := r.1, wp := s.wp ++ [some r.2] }

/-- Store the result of a method of `SharedPtr` object `i`. -/
def State.putS (s : State) (i : Nat) (r : Heap × SharedPtr) : State :=
  { s with heap := r.1, sp := s.sp.set i (some r.2) }

/-- Store the result of a method of `WeakPtr` object `i`. -/
def State.putW (s : State) (i : Nat) (r : Heap × WeakPtr) : State :=
  { s with heap := r.1, wp := s.wp.set i (some r.2) }

/-- One operation of the program. -/
def step (s : State) : Op → State
  | .spDefault => s.pushS (s.heap, SharedPtr.default)
  | .spRaw r => s.pushS (SharedPtr.ofRaw_weak s.heap (Addr.ofNew r))
  | .spMake => s.pushS (MakeShared_weak s.heap)
  | .spCopy j =>
    match s.getS j with
    | some q => s.pushS (SharedPtr.copy s.heap q)
    | none => s
  | .spMove j =>
    match s.getS j with
    | some q =>
      let r := SharedPtr.move s.heap q
      { s with heap := r.1, sp := s.sp.set j (some r.2.2) ++ [some r.2.1] }
    | none => s
  | .spAlias j a =>
    match s.getS j with
    | some q => s.pushS (SharedPtr.alias s.heap q a)
    | none => s
  | .spPromote w =>
    match s.getW w with
    | some v =>
      match SharedPtr.ofWeak s.heap v with
      | .ok r => s.pushS r
      | .error _ => s
    | none => s
  | .spAssign i j =>
    match s.getS i, s.getS j with
    | some p, some q =>
      if i = j then s.putS i (SharedPtr.assignSelf s.heap p)
      else s.putS i (SharedPtr.assign s.heap p q)
    | _, _ => s
  | .spMoveAssign i j =>
    match s.getS i, s.getS j with
    | some p, some q =>
      if i = j then s.putS i (SharedPtr.moveAssignSelf s.heap p)
      else
        let r := SharedPtr.moveAssign s.heap p q
        { s with heap := r.1, sp := (s.sp.set i (some r.2.1)).set j (some r.2.2) }
    | _, _ => s
  | .spReset i =>
    match s.getS i with
    | some p => s.putS i (SharedPtr.Reset_weak s.heap p)
    | none => s
  | .spResetRaw i r =>
    match s.getS i with
    | some p => s.putS i (SharedPtr.ResetRaw s.heap p (Addr.ofNew r))
    | none => s
  | .spSwap i j =>
    match s.getS i, s.getS j with
    | some p, some q =>
      if i = j then s
      else
        let r := SharedPtr.Swap p q
        { s with sp := (s.sp.set i (some r.1)).set j (some r.2) }
    | _, _ => s
  | .spDtor i =>
    match s.getS i with
    | some p => { s with heap := SharedPtr.dtor_weak s.heap p, sp := s.sp.set i none }
    | none => s
  | .wpDefault => s.pushW (s.heap, WeakPtr.default)
  | .wpCopy v =>
    match s.getW v with
    | some x => s.pushW (WeakPtr.copy s.heap x)
    | none => s
  | .wpMove v =>
    match s.getW v with
    | some x =>
      let r := WeakPtr.move x
      { s with wp := s.wp.set v (some r.2) ++ [some r.1] }
    | none => s
  | .wpOfShared j =>
    match s.getS j with
    | some q => s.pushW (WeakPtr.ofShared s.heap q)
    | none => s
  | .wpAssignShared w j =>
    match s.getW w, s.getS j with
    | some x, some q => s.putW w (WeakPtr.assignShared s.heap x q)
    | _, _ => s
  | .wpAssign w v =>
    match s.getW w, s.getW v with
    | some x, some y =>
      if w = v then s.putW w (WeakPtr.assignSelf s.heap x)
      else s.putW w (WeakPtr.assign s.heap x y)
    | _, _ => s
  | .wpMoveAssign w v =>
    match s.getW w, s.getW v with
    | some x, some y =>
      if w = v then s.putW w (WeakPtr.moveAssignSelf s.heap x)
      else
        let r := WeakPtr.moveAssign s.heap x y
        { s with heap := r.1, wp := (s.wp.set w (some r.2.1)).set v (some r.2.2) }
    | _, _ => s
  | .wpReset w =>
    match s.getW w with
    | some x => s.putW w (WeakPtr.Reset s.heap x)
    | none => s
  | .wpSwap w v =>
    match s.getW w, s.getW v with
    | some x, some y =>
      if w = v then s
      else
        let r := WeakPtr.Swap x y
        { s with wp := (s.wp.set w (some r.1)).set v (some r.2) }
    | _, _ => s
  | .wpDtor w =>
    match s.getW w with
    | some x => { s with heap := WeakPtr.dtor s.heap x, wp := s.wp.set w none }
    | none => s
  | .wpLock w =>
    match s.getW w with
    | some x => s.pushS (WeakPtr.Lock s.heap x)
    | none => s
  | .sftRaw r => s.pushS (SharedPtr.ofRaw false s.heap (Addr.ofNew r))
  | .sftMake => s.pushS (MakeShared false s.heap)
  | .sftReset i =>
    match s.getS i with
    | some p => s.putS i (SharedPtr.Reset s.heap p)
    | none => s
  | .sftDtor i =>
    match s.getS i with
    | some p => { s with heap := SharedPtr.dtor s.heap p, sp := s.sp.set i none }
    | none => s

/-- Run a program from a state. -/
def run (s : State) (ops : List Op) : State := ops.foldl step s

/-- The caller-allocated objects a program hands to `SharedPtr(T*)` or `Reset(T*)`, in
order (null arguments are not listed). -/
def handed : List Op → List Nat
  | [] => []
  | .spRaw (some n) :: ops => n :: handed ops
  | .spResetRaw _ (some n) :: ops => n :: handed ops
  | .sftRaw (some n) :: ops => n :: handed ops
  | _ :: ops => handed ops

/-- The addresses an operation adds to the handed-over list. -/
def Op.gives : Op → List Addr
  | .spRaw r => [Addr.ofNew r]
  | .spResetRaw _ r => [Addr.ofNew r]
  | .sftRaw r => [Addr.ofNew r]
  | _ => []

/-- The ownership discipline of a program: no object is handed to a raw constructor or
to `Reset(T*)` twice. -/
def Disciplined (ops : List Op) : Prop := (handed ops).Nodup

instance (ops : List Op) : Decidable (Disciplined ops) := by
  unfold Disciplined; infer_instance

/-- What `DecStrongRef(); CLear();` leaves of the heap. -/
def Heap.release (h : Heap) (p : SharedPtr) : Heap := (p.CLear (p.DecStrongRef h)).1

/-- Heap `h2` comes from `h1` without allocation: every block keeps its kind and its
object, no `deleted` mark is taken back, and the destructor log only grows. -/
def Heap.SameObjs (h1 h2 : Heap) : Prop :=
  (∀ b, (h2.blocks b).obj = (h1.blocks b).obj ∧ (h2.blocks b).kind = (h1.blocks b).kind ∧
    (h1.blocks b).deleted ≤ (h2.blocks b).deleted) ∧
  h1.dtors <:+ h2.dtors

/-- Heap `h2` comes from `h1`, possibly with allocation: the blocks allocated in `h1`
keep their kind and object, no `deleted` mark is taken back, the destructor log only
grows, and no block id is given back. -/
def Heap.Extends (h1 h2 : Heap) : Prop :=
  (∀ b, b < h1.next →
    (h2.blocks b).obj = (h1.blocks b).obj ∧ (h2.blocks b).kind = (h1.blocks b).kind ∧
    (h1.blocks b).deleted ≤ (h2.blocks b).deleted) ∧
  h1.dtors <:+ h2.dtors ∧ h1.next ≤ h2.next

/-- The pointee of block `c` as the block itself knows it: `ptr_` for a `ControlBlock`,
the inline storage for a `Block`. -/
def Heap.pointee (h : Heap) (c : Nat) : Addr :=
  match (h.blocks c).kind with
  | .ControlBlock => (h.blocks c).ptr_
  | .Block => Block.GetPtr c

/-- A sample program: an object is handed to a `SharedPtr`, copied, observed by a
`WeakPtr`, and both owners are dropped; then the observer is locked. -/
def sampleProgram : List Op :=
  [.spRaw (some 5), .spCopy 0, .wpOfShared 1, .spReset 0, .spDtor 1, .wpLock 0]

/-- The end-to-end scenario of the spec, on heap `h` and for a pointee type with
(`esft`) or without the self-observation base: `auto a = MakeShared<Widget>(42);` -/
def endToEnd.a (esft : Bool) (h : Heap) : Heap × SharedPtr := MakeShared esft h

/-- Scenario step `auto b = a;` -/
def endToEnd.b (esft : Bool) (h : Heap) : Heap × SharedPtr :=
  SharedPtr.copy (endToEnd.a esft h).1 (endToEnd.a esft h).2

/-- Scenario step `auto w = WeakPtr(a);` -/
def endToEnd.w (esft : Bool) (h : Heap) : Heap × WeakPtr :=
  WeakPtr.ofShared (endToEnd.b esft h).1 (endToEnd.a esft h).2

/-- Scenario step `a.Reset();` -/
def endToEnd.aReset (esft : Bool) (h : Heap) : Heap × SharedPtr :=
  SharedPtr.Reset (endToEnd.w esft h).1 (endToEnd.a esft h).2

/-- Scenario step `b.Reset();` -/
def endToEnd.bReset (esft : Bool) (h : Heap) : Heap × SharedPtr :=
  SharedPtr.Reset (endToEnd.aReset esft h).1 (endToEnd.b esft h).2

/-- The statement `SharedPtr<T> b(static_cast<T*>(nullptr));` on heap `h`: a pointer with
a block of its own and a null address. -/
def nullOwner (h : Heap) : Heap × SharedPtr := SharedPtr.ofRaw_weak h Addr.null

/-- The statements `SharedPtr<T> o(x); SharedPtr<T> b(o, nullptr);` on heap `h`, `x` being
object `n`: the heap afterwards and the aliasing pointer `b`, which shares the block of
`o` and has a null address. -/
def nullAlias (h : Heap) (n : Nat) : Heap × SharedPtr :=
  SharedPtr.alias (SharedPtr.ofRaw_weak h (Addr.raw n)).1
    (SharedPtr.ofRaw_weak h (Addr.raw n)).2 Addr.null

/-- The statements `SharedPtr<T> o1(x1); SharedPtr<T> o2(x2); SharedPtr<M> a(o1, m);
SharedPtr<M> b(o2, m);` on heap `h`: the heap afterwards and the two aliasing pointers
`a` and `b`, which have the same address `m` and different blocks. -/
def twoAliases (h : Heap) (m : Addr) : Heap × SharedPtr × SharedPtr :=
  let o1 := SharedPtr.ofRaw_weak h (Addr.raw 1)
  let o2 := SharedPtr.ofRaw_weak o1.1 (Addr.raw 2)
  let a := SharedPtr.alias o2.1 o1.2 m
  let b := SharedPtr.alias a.1 o2.2 m
  (b.1, a.2, b.2)

/-- The scenario `p = MakeShared<T>(); WeakPtr<T> w(p); p.Reset();` of
shared-from-this/shared.h on heap `h`, for a pointee type `T` with (`esft = true`) or
without the `EnableSharedFromThis` base: the pointer `p`. -/
def resetScenario.p (esft : Bool) (h : Heap) : Heap × SharedPtr := MakeShared esft h

/-- The weak pointer `w` of the scenario. -/
def resetScenario.w (esft : Bool) (h : Heap) : Heap × WeakPtr :=
  WeakPtr.ofShared (resetScenario.p esft h).1 (resetScenario.p esft h).2

/-- The call `p.Reset()` of the scenario. -/
def resetScenario.reset (esft : Bool) (h : Heap) : Heap × SharedPtr :=
  (resetScenario.p esft h).2.Reset (resetScenario.w esft h).1

/-! ## `UniquePtr` (unique/unique.h, primary template)

The pointer is its member `pair_` (unique.h:165): the held address and the destruction
policy.  A policy type is any type `δ`; the value `Deleter()` and the value a policy
takes when a policy of another type is assigned to it are parameters.  The calls of a
policy are logged, newest first; what the policy does to the object is not modelled,
and a policy is taken not to change when it is called. -/

/-- One call `pair_.GetSecond()(temp)`: the policy instance, the address passed to it,
and the address the calling pointer held (`pair_.GetFirst()`) at that moment. -/
structure PolicyCall (δ : Type) where
  policy : δ
  arg : Addr
  held : Addr
  deriving DecidableEq, Repr

/-- Source: `UniquePtr<T, Deleter>`; `first` and `second` are what `pair_.GetFirst()` and
`pair_.GetSecond()` return. -/
structure UniquePtr (δ : Type) where
  first : Addr
  second : δ
  deriving DecidableEq, Repr

/-- Number of policy calls that were passed the address `a`. -/
def policyRuns {δ : Type} (log : List (PolicyCall δ)) (a : Addr) : Nat :=
  log.countP (fun c => decide (c.arg = a))

/-- Source: `explicit UniquePtr(T* ptr = nullptr)` (unique.h:52-53); `dflt` is `Deleter()`. -/
def UniquePtr.ofRaw {δ : Type} (dflt : δ) (ptr : Addr) : UniquePtr δ := ⟨ptr, dflt⟩

/-- Source: `UniquePtr(T* ptr, Del&& deleter)` (unique.h:55-57). -/
def UniquePtr.ofRawWith {δ : Type} (ptr : Addr) (deleter : δ) : UniquePtr δ := ⟨ptr, deleter⟩

/-- unique.h:137-139 -/
def UniquePtr.Get {δ : Type} (u : UniquePtr δ) : Addr := u.first

/-- Source: `UniquePtr::CorrectDelete` (unique.h:91-97): the held address is read and
cleared, then the policy is called on what was read. -/
def UniquePtr.CorrectDelete {δ : Type} (log : List (PolicyCall δ)) (u : UniquePtr δ) :
    List (PolicyCall δ) × UniquePtr δ :=
  let temp := u.first
  let u1 : UniquePtr δ := { u with first := Addr.null }
  if temp ≠ Addr.null then (⟨u1.second, temp, u1.first⟩ :: log, u1) else (log, u1)

/-- Move constructor (unique.h:59-69) from a `UniquePtr<U, Deleter2>`: the log, the new
pointer, the moved-from source.  `pair_` is default-constructed first (null address,
`dflt = Deleter()`); `conv` is the assignment of a `Deleter2` to a `Deleter`, `dflt2` is
`Deleter2()`. -/
def UniquePtr.move {δ δ2 : Type} (conv : δ2 → δ) (dflt : δ) (dflt2 : δ2)
    (log : List (PolicyCall δ)) (other : UniquePtr δ2) :
    List (PolicyCall δ) × UniquePtr δ × UniquePtr δ2 :=
  let this : UniquePtr δ := ⟨Addr.null, dflt⟩
  if this.first = other.first then (log, this, other)
  else
    let r := this.CorrectDelete log
    let this1 : UniquePtr δ := { r.2 with first := other.first }
    let this2 : UniquePtr δ := { this1 with second := conv other.second }
    let other1 : UniquePtr δ2 := { other with first := Addr.null }
    (r.1, this2, { other1 with second := dflt2 })

/-- Move assignment (unique.h:78-89) on two distinct objects: the log, `*this`, `other`. -/
def UniquePtr.moveAssign {δ δ2 : Type} (conv : δ2 → δ) (dflt2 : δ2)
    (log : List (PolicyCall δ)) (this : UniquePtr δ) (other : UniquePtr δ2) :
    List (PolicyCall δ) × UniquePtr δ × UniquePtr δ2 :=
  if this.first = other.first then (log, this, other)
  else
    let r := this.CorrectDelete log
    let this1 : UniquePtr δ := { r.2 with first := other.first }
    let this2 : UniquePtr δ := { this1 with second := conv other.second }
    let other1 : UniquePtr δ2 := { other with second := dflt2 }
    (r.1, this2, { other1 with first := Addr.null })

/-- Move assignment when `&other == this`: the guard compares the held address with
itself and returns. -/
def UniquePtr.moveAssignSelf {δ : Type} (conv : δ → δ) (dflt : δ)
    (log : List (PolicyCall δ)) (this : UniquePtr δ) : List (PolicyCall δ) × UniquePtr δ :=
  if this.first = this.first then (log, this)
  else
    let r := this.CorrectDelete log
    let this1 : UniquePtr δ := { r.2 with first := r.2.first }
    let this2 : UniquePtr δ := { this1 with second := conv this1.second }
    let this3 : UniquePtr δ := { this2 with second := dflt }
    (r.1, { this3 with first := Addr.null })

/-- Source: `operator=(std::nullptr_t)` (unique.h:99-103). -/
def UniquePtr.assignNull {δ : Type} (log : List (PolicyCall δ)) (this : UniquePtr δ) :
    List (PolicyCall δ) × UniquePtr δ :=
  let r := this.CorrectDelete log
  (r.1, { r.2 with first := Addr.null })

/-- Source: `~UniquePtr` (unique.h:108-110): the log after the destructor. -/
def UniquePtr.dtor {δ : Type} (log : List (PolicyCall δ)) (this : UniquePtr δ) :
    List (PolicyCall δ) :=
  (this.CorrectDelete log).1

/-- unique.h:141-147 -/
def UniquePtr.GetDeleter {δ : Type} (u : UniquePtr δ) : δ := u.second

/-- Source: `UniquePtr::Release` (unique.h:115-119): the returned address and the pointer
afterwards. -/
def UniquePtr.Release {δ : Type} (u : UniquePtr δ) : Addr × UniquePtr δ :=
  let tmp := u.first
  (tmp, { u with first := Addr.null })

/-- Source: `UniquePtr::Reset` (unique.h:121-127; unique.h:239-245 of the array
specialisation is the same text): the held address is read, the new address is stored,
then the policy is called on what was read. -/
def UniquePtr.Reset {δ : Type} (log : List (PolicyCall δ)) (u : UniquePtr δ) (ptr : Addr) :
    List (PolicyCall δ) × UniquePtr δ :=
  let temp := u.first
  let u1 : UniquePtr δ := { u with first := ptr }
  if temp ≠ Addr.null then (⟨u1.second, temp, u1.first⟩ :: log, u1) else (log, u1)

/-- Source: `UniquePtr::Swap` (unique.h:129-132) on two distinct objects. -/
def UniquePtr.Swap {δ : Type} (this other : UniquePtr δ) : UniquePtr δ × UniquePtr δ :=
  (⟨other.first, other.second⟩, ⟨this.first, this.second⟩)

/-- Move constructor of the array specialisation `UniquePtr<T[], Deleter>`
(unique.h:180-188): the log, the new pointer, the moved-from source; `conv` is the move
assignment of a `Deleter`.  The policy of the source is not reset. -/
def UniquePtr.move_array {δ : Type} (conv : δ → δ) (dflt : δ) (log : List (PolicyCall δ))
    (other : UniquePtr δ) : List (PolicyCall δ) × UniquePtr δ × UniquePtr δ :=
  let this : UniquePtr δ := ⟨Addr.null, dflt⟩
  if this.first = other.first then (log, this, other)
  else
    let r := this.CorrectDelete log
    let this1 : UniquePtr δ := { r.2 with first := other.first }
    let other1 : UniquePtr δ := { other with first := Addr.null }
    (r.1, { this1 with second := conv other1.second }, other1)

/-! ### Programs over `UniquePtr` variables

All pointers of a program have the same policy type, `Deleter()` is `dflt`, and assigning
a policy stores it.  An entry `none` is a pointer whose lifetime has ended; operations
naming such a pointer are skipped. -/

/-- The policy log and the pointer variables. -/
structure UniqState (δ : Type) where
  log : List (PolicyCall δ)
  ptrs : List (Option (UniquePtr δ))

/-- The state before any pointer was constructed. -/
def UniqState.init {δ : Type} : UniqState δ := ⟨[], []⟩

/-- Pointer variable `i`, if it is live. -/
def UniqState.get {δ : Type} (s : UniqState δ) (i : Nat) : Option (UniquePtr δ) :=
  s.ptrs.getD i none

/-- Pointer `o` is live and holds the address `a`. -/
def holdsU {δ : Type} (a : Addr) (o : Option (UniquePtr δ)) : Bool :=
  match o with
  | some p => decide (p.first = a)
  | none => false

/-- Number of live pointers that hold the address `a`. -/
def UniqState.holders {δ : Type} (s : UniqState δ) (a : Addr) : Nat :=
  s.ptrs.countP (holdsU a)

/-- Operations on `UniquePtr` variables: construction from a raw address (`none` is
`nullptr`, `some n` the object number `n`), move construction from variable `j`, move
assignment `p_i = std::move(p_j)`, `Release`, `Reset(nullptr)`, `Reset` to object `n`,
`Swap`, and the end of the lifetime of variable `i`. -/
inductive UniqOp where
  | ofRaw (r : Option Nat)
  | move (j : Nat)
  | moveAssign (i j : Nat)
  | release (i : Nat)
  | resetNull (i : Nat)
  | reset (i : Nat) (n : Nat)
  | swap (i j : Nat)
  | dtor (i : Nat)
  deriving DecidableEq, Repr

/-- One operation of a `UniquePtr` program. -/
def ustep {δ : Type} (dflt : δ) (s : UniqState δ) : UniqOp → UniqState δ
  | .ofRaw r => { s with ptrs := s.ptrs ++ [some (UniquePtr.ofRaw dflt (Addr.ofNew r))] }
  | .move j =>
    match s.get j with
    | some q =>
      let r := UniquePtr.move id dflt dflt s.log q
      { log := r.1, ptrs := s.ptrs.set j (some r.2.2) ++ [some r.2.1] }
    | none => s
  | .moveAssign i j =>
    match s.get i, s.get j with
    | some p, some q =>
      if i = j then
        let r := UniquePtr.moveAssignSelf id dflt s.log p
        { log := r.1, ptrs := s.ptrs.set i (some r.2) }
      else
        let r := UniquePtr.moveAssign id dflt s.log p q
        { log := r.1, ptrs := (s.ptrs.set i (some r.2.1)).set j (some r.2.2) }
    | _, _ => s
  | .release i =>
    match s.get i with
    | some p => { s with ptrs := s.ptrs.set i (some p.Release.2) }
    | none => s
  | .resetNull i =>
    match s.get i with
    | some p =>
      let r := UniquePtr.Reset s.log p Addr.null
      { log := r.1, ptrs := s.ptrs.set i (some r.2) }
    | none => s
  | .reset i n =>
    match s.get i with
    | some p =>
      let r := UniquePtr.Reset s.log p (Addr.raw n)
      { log := r.1, ptrs := s.ptrs.set i (some r.2) }
    | none => s
  | .swap i j =>
    match s.get i, s.get j with
    | some p, some q =>
      if i = j then s
      else
        let r := UniquePtr.Swap p q
        { s with ptrs := (s.ptrs.set i (some r.1)).set j (some r.2) }
    | _, _ => s
  | .dtor i =>
    match s.get i with
    | some p => { log := p.dtor s.log, ptrs := s.ptrs.set i none }
    | none => s

/-- Run a `UniquePtr` program. -/
def urun {δ : Type} (dflt : δ) (s : UniqState δ) (ops : List UniqOp) : UniqState δ :=
  ops.foldl (ustep dflt) s

/-- The addresses a `UniquePtr` program hands to a constructor or to `Reset`, in order
(null arguments are not listed). -/
def handedU : List UniqOp → List Addr
  | [] => []
  | .ofRaw (some n) :: ops => Addr.raw n :: handedU ops
  | .reset _ n :: ops => Addr.raw n :: handedU ops
  | _ :: ops => handedU ops

/-- The addresses handed over are pairwise distinct: every constructor and every
`Reset` gets an address that no pointer was given before. -/
def FreshAddresses (ops : List UniqOp) : Prop := (handedU ops).Nodup

instance (ops : List UniqOp) : Decidable (FreshAddresses ops) := by
  unfold FreshAddresses; infer_instance

/-- The single-owner invariant: a non-null address is held by at most one live pointer
or was passed to a policy at most once, never both, and only if it was handed over. -/
def UniqInv {δ : Type} (used : List Addr) (s : UniqState δ) : Prop :=
  (∀ a, a ≠ Addr.null → s.holders a + policyRuns s.log a ≤ (if a ∈ used then 1 else 0)) ∧
  policyRuns s.log Addr.null = 0

/-! ## `IntrusivePtr` (intrusive/intrusive.h)

Objects are numbered in allocation order.  The heap keeps the embedded counter of
every object and a trace of the counter events, newest first.  What `Deleter::Destroy`
does to the object is not modelled beyond the fact that it was called; a destroyed
object stays in the table so that a later access can be observed. -/

/-- The events of the embedded counters. -/
inductive IEvent where
  | inc (o : Nat)
  | dec (o : Nat)
  | destroy (o : Nat)
  deriving DecidableEq, Repr

/-- The heap of ref-counted objects: `count_ o` is the member `count_` of the
`SimpleCounter` of object `o`, `next` the number the next `new` returns. -/
structure IHeap where
  count_ : Nat → Nat
  next : Nat
  events : List IEvent

/-- The heap before anything was allocated. -/
def IHeap.init : IHeap := ⟨fun _ => 0, 0, []⟩

/-- Number of calls of `Deleter::Destroy` on object `o`. -/
def IHeap.destroyRuns (h : IHeap) (o : Nat) : Nat := h.events.count (IEvent.destroy o)

/-- Source: `SimpleCounter::IncRef` (intrusive.h:8-11): `++count_` on a `size_t`. -/
def SimpleCounter.IncRef (c : Nat) : Nat := (c + 1) % 2 ^ 64

/-- Source: `SimpleCounter::DecRef` (intrusive.h:13-16): `--count_` on a `size_t`. -/
def SimpleCounter.DecRef (c : Nat) : Nat := (c + (2 ^ 64 - 1)) % 2 ^ 64

/-- Source: `SimpleCounter::RefCount` (intrusive.h:18-20). -/
def SimpleCounter.RefCount (c : Nat) : Nat := c

/-- Source: `new T(...)` for a `T` derived from `SimpleRefCounted<T>`: the counter starts at 0
(intrusive.h:31). -/
def IHeap.alloc (h : IHeap) : IHeap × Nat :=
  ({ h with count_ := upd h.count_ h.next 0, next := h.next + 1 }, h.next)

/-- Source: `RefCounted::IncRef` (intrusive.h:45-47). -/
def RefCounted.IncRef (h : IHeap) (o : Nat) : IHeap :=
  { h with count_ := upd h.count_ o (SimpleCounter.IncRef (h.count_ o))
           events := IEvent.inc o :: h.events }

/-- Source: `RefCounted::DecRef` (intrusive.h:51-56). -/
def RefCounted.DecRef (h : IHeap) (o : Nat) : IHeap :=
  let h1 : IHeap := { h with count_ := upd h.count_ o (SimpleCounter.DecRef (h.count_ o))
                             events := IEvent.dec o :: h.events }
  if SimpleCounter.RefCount (h1.count_ o) = 0 then
    { h1 with events := IEvent.destroy o :: h1.events }
  else h1

/-- Source: `RefCounted::RefCount` (intrusive.h:59-61). -/
def RefCounted.RefCount (h : IHeap) (o : Nat) : Nat := SimpleCounter.RefCount (h.count_ o)

/-- Source: `IntrusivePtr<T>` (intrusive.h:195); `none` is a null `ptr_`. -/
structure IntrusivePtr where
  ptr_ : Option Nat
  deriving DecidableEq, Repr

/-- Source: `IntrusivePtr()` and `IntrusivePtr(nullptr)` (intrusive.h:77-80). -/
def IntrusivePtr.default : IntrusivePtr := ⟨none⟩

/-- intrusive.h:86-90 -/
def IntrusivePtr.Inc (h : IHeap) (p : IntrusivePtr) : IHeap :=
  match p.ptr_ with
  | some o => RefCounted.IncRef h o
  | none => h

/-- intrusive.h:92-97 -/
def IntrusivePtr.Dec (h : IHeap) (p : IntrusivePtr) : IHeap × IntrusivePtr :=
  match p.ptr_ with
  | some o => (RefCounted.DecRef h o, ⟨none⟩)
  | none => (h, p)

/-- Source: `IntrusivePtr(T* ptr)` (intrusive.h:82-84). -/
def IntrusivePtr.ofRaw (h : IHeap) (ptr : Option Nat) : IHeap × IntrusivePtr :=
  let this : IntrusivePtr := ⟨ptr⟩
  (this.Inc h, this)

/-- Copy constructor (intrusive.h:115-120, intrusive.h:99-105): `ptr_` starts as `nullptr`. -/
def IntrusivePtr.copy (h : IHeap) (other : IntrusivePtr) : IHeap × IntrusivePtr :=
  let this : IntrusivePtr := ⟨none⟩
  if this.ptr_ ≠ other.ptr_ then
    let this1 : IntrusivePtr := ⟨other.ptr_⟩
    (this1.Inc h, this1)
  else (h, this)

/-- Move constructor (intrusive.h:122-127, intrusive.h:107-113): the new pointer and the
moved-from source. -/
def IntrusivePtr.move (other : IntrusivePtr) : IntrusivePtr × IntrusivePtr :=
  let this : IntrusivePtr := ⟨none⟩
  if this.ptr_ ≠ other.ptr_ then (⟨other.ptr_⟩, ⟨none⟩) else (this, other)

/-- Copy assignment (intrusive.h:130-138); with `&other == this` the guard returns. -/
def IntrusivePtr.assign (h : IHeap) (this other : IntrusivePtr) : IHeap × IntrusivePtr :=
  if this.ptr_ = other.ptr_ then (h, this)
  else
    let r := this.Dec h
    let this1 : IntrusivePtr := ⟨other.ptr_⟩
    (this1.Inc r.1, this1)

/-- Move assignment (intrusive.h:140-148): the heap, `*this`, `other`; with
`&other == this` the guard returns. -/
def IntrusivePtr.moveAssign (h : IHeap) (this other : IntrusivePtr) :
    IHeap × IntrusivePtr × IntrusivePtr :=
  if this.ptr_ = other.ptr_ then (h, this, other)
  else
    let r := this.Dec h
    (r.1, ⟨other.ptr_⟩, ⟨none⟩)

/-- Source: `IntrusivePtr::Reset()` (intrusive.h:156-158). -/
def IntrusivePtr.Reset (h : IHeap) (this : IntrusivePtr) : IHeap × IntrusivePtr := this.Dec h

/-- Source: `~IntrusivePtr` (intrusive.h:151-153). -/
def IntrusivePtr.dtor (h : IHeap) (this : IntrusivePtr) : IHeap := (this.Reset h).1

/-- Source: `IntrusivePtr::Reset(T* ptr)` (intrusive.h:160-164). -/
def IntrusivePtr.ResetRaw (h : IHeap) (this : IntrusivePtr) (ptr : Option Nat) :
    IHeap × IntrusivePtr :=
  let r := this.Dec h
  let this1 : IntrusivePtr := ⟨ptr⟩
  (this1.Inc r.1, this1)

/-- Source: `IntrusivePtr::Swap` (intrusive.h:166-168). -/
def IntrusivePtr.Swap (this other : IntrusivePtr) : IntrusivePtr × IntrusivePtr :=
  (⟨other.ptr_⟩, ⟨this.ptr_⟩)

/-- intrusive.h:171-173 -/
def IntrusivePtr.Get (p : IntrusivePtr) : Option Nat := p.ptr_

/-- Source: `IntrusivePtr::UseCount` (intrusive.h:183-188). -/
def IntrusivePtr.UseCount (h : IHeap) (p : IntrusivePtr) : Nat :=
  match p.ptr_ with
  | none => 0
  | some o => RefCounted.RefCount h o

/-- Source: `MakeIntrusive` (intrusive.h:198-201): the temporary is built from the new
object, the result is move-constructed from it, and the temporary is destroyed. -/
def MakeIntrusive (h : IHeap) : IHeap × IntrusivePtr :=
  let a := h.alloc
  let t := IntrusivePtr.ofRaw a.1 (some a.2)
  let m := IntrusivePtr.move t.2
  (IntrusivePtr.dtor t.1 m.2, m.1)

/-! ### Programs over `IntrusivePtr` variables -/

/-- The heap of objects and the pointer variables (`none`: lifetime ended). -/
structure IntrState where
  heap : IHeap
  ptrs : List (Option IntrusivePtr)

/-- The state before anything was allocated. -/
def IntrState.init : IntrState := ⟨IHeap.init, []⟩

/-- Pointer variable `i`, if it is live. -/
def IntrState.get (s : IntrState) (i : Nat) : Option IntrusivePtr := s.ptrs.getD i none

/-- Pointer `p` is live and references object `o`. -/
def refI (o : Nat) (p : Option IntrusivePtr) : Bool :=
  match p with
  | some q => decide (q.ptr_ = some o)
  | none => false

/-- Number of live pointers that reference object `o`. -/
def IntrState.live (s : IntrState) (o : Nat) : Nat := s.ptrs.countP (refI o)

/-- Operations on `IntrusivePtr` variables: `new T` without a pointer, the default
constructor, the constructor from the raw address of object `o` (`none`: `nullptr`),
`MakeIntrusive`, copy and move construction from variable `j`, copy and move
assignment `p_i = p_j`, `Reset()`, `Reset(o)`, `Swap`, and the end of the lifetime of
variable `i`. -/
inductive IntrOp where
  | alloc
  | default
  | ofRaw (r : Option Nat)
  | make
  | copy (j : Nat)
  | move (j : Nat)
  | assign (i j : Nat)
  | moveAssign (i j : Nat)
  | reset (i : Nat)
  | resetRaw (i : Nat) (r : Option Nat)
  | swap (i j : Nat)
  | dtor (i : Nat)
  deriving DecidableEq, Repr

/-- One operation of an `IntrusivePtr` program. -/
def istep (s : IntrState) : IntrOp → IntrState
  | .alloc => { s with heap := s.heap.alloc.1 }
  | .default => { s with ptrs := s.ptrs ++ [some IntrusivePtr.default] }
  | .ofRaw r =>
    let x := IntrusivePtr.ofRaw s.heap r
    { heap := x.1, ptrs := s.ptrs ++ [some x.2] }
  | .make =>
    let x := MakeIntrusive s.heap
    { heap := x.1, ptrs := s.ptrs ++ [some x.2] }
  | .copy j =>
    match s.get j with
    | some q =>
      let x := IntrusivePtr.copy s.heap q
      { heap := x.1, ptrs := s.ptrs ++ [some x.2] }
    | none => s
  | .move j =>
    match s.get j with
    | some q =>
      let x := IntrusivePtr.move q
      { s with ptrs := s.ptrs.set j (some x.2) ++ [some x.1] }
    | none => s
  | .assign i j =>
    match s.get i, s.get j with
    | some p, some q =>
      let x := IntrusivePtr.assign s.heap p q
      { heap := x.1, ptrs := s.ptrs.set i (some x.2) }
    | _, _ => s
  | .moveAssign i j =>
    match s.get i, s.get j with
    | some p, some q =>
      if i = j then s
      else
        let x := IntrusivePtr.moveAssign s.heap p q
        { heap := x.1, ptrs := (s.ptrs.set i (some x.2.1)).set j (some x.2.2) }
    | _, _ => s
  | .reset i =>
    match s.get i with
    | some p =>
      let x := IntrusivePtr.Reset s.heap p
      { heap := x.1, ptrs := s.ptrs.set i (some x.2) }
    | none => s
  | .resetRaw i r =>
    match s.get i with
    | some p =>
      let x := IntrusivePtr.ResetRaw s.heap p r
      { heap := x.1, ptrs := s.ptrs.set i (some x.2) }
    | none => s
  | .swap i j =>
    match s.get i, s.get j with
    | some p, some q =>
      if i = j then s
      else
        let x := IntrusivePtr.Swap p q
        { s with ptrs := (s.ptrs.set i (some x.1)).set j (some x.2) }
    | _, _ => s
  | .dtor i =>
    match s.get i with
    | some p => { heap := IntrusivePtr.dtor s.heap p, ptrs := s.ptrs.set i none }
    | none => s

/-- Run an `IntrusivePtr` program. -/
def irun (s : IntrState) (ops : List IntrOp) : IntrState := ops.foldl istep s

/-- Object `o` may be named by a raw address in state `s`: it was allocated and has not
been destroyed. -/
def IntrState.alive (s : IntrState) (o : Nat) : Bool :=
  decide (o < s.heap.next) && decide (s.heap.destroyRuns o = 0)

/-- The operation is given a usable raw address: the constructor from a raw address and
`Reset(o)` name an object that is alive, and `Reset(o)` is not called on the last
pointer that references `o` itself. -/
def okOp (s : IntrState) : IntrOp → Bool
  | .ofRaw (some o) => s.alive o
  | .resetRaw i (some o) =>
    s.alive o && !(refI o (s.get i) && decide (s.live o = 1))
  | _ => true

/-- Every operation of the program is given a usable raw address at the time it
runs. -/
def okProgram (s : IntrState) : List IntrOp → Bool
  | [] => true
  | op :: ops => okOp s op && okProgram (istep s op) ops

/-- Source: `SimpleCounter(const SimpleCounter& other){}` (intrusive.h:24): the body is
empty and `count_` is not in an initialiser list, so it takes its default member
initialiser 0 (intrusive.h:31); `other` is not read.  The count of the new counter. -/
def SimpleCounter.copy (_other : Nat) : Nat := 0

/-- Source: `SimpleCounter::operator=` (intrusive.h:26-28): the body is `return *this;`.
The count of `*this` after the call. -/
def SimpleCounter.assign (this _other : Nat) : Nat := this

/-- Source: `new T(*src)` for a `T` derived from `SimpleRefCounted<T>`: the implicit copy
constructor of `RefCounted` (intrusive.h:41-65) copy-constructs the member `counter_`
(intrusive.h:64). -/
def RefCounted.copy (h : IHeap) (src : Nat) : IHeap × Nat :=
  ({ h with count_ := upd h.count_ h.next (SimpleCounter.copy (h.count_ src))
            next := h.next + 1 }, h.next)

/-- Source: `*dst = *src` for a `T` derived from `SimpleRefCounted<T>`: the implicit copy
assignment of `RefCounted` (intrusive.h:41-65) copy-assigns the member `counter_`. -/
def RefCounted.assign (h : IHeap) (dst src : Nat) : IHeap :=
  { h with count_ := upd h.count_ dst (SimpleCounter.assign (h.count_ dst) (h.count_ src)) }

/-- The program `auto p = MakeIntrusive<T>(); IntrusivePtr<T> q(p);`: object 0 is
referenced by two pointers. -/
def twoOwners : List IntrOp := [.make, .copy 0]

/-- The program `p = MakeIntrusive<T>(); p.Reset(p.Get());` followed by the destructor of
`p`. -/
def resetToSelf : List IntrOp := [.make, .resetRaw 0 (some 0), .dtor 0]

/-- The program `T* o = new T; IntrusivePtr<T> a(o); IntrusivePtr<T> b(a); IntrusivePtr<T> c;
c = std::move(a); c.Reset(o); b.Reset();` followed by the destructor of `c`. -/
def intrProgram : List IntrOp :=
  [.alloc, .ofRaw (some 0), .copy 0, .default, .moveAssign 2 0, .resetRaw 2 (some 0),
    .reset 1, .dtor 2]

/-- The heap is consistent with the numbers `live o` of pointers that reference each
object: the counter of every allocated object is that number, an object that a pointer
references was counted before, and `Deleter::Destroy` was called on an object exactly
once if it was counted before and no pointer references it, and not at all
otherwise. -/
structure IHInv (h : IHeap) (live : Nat → Nat) : Prop where
  out : ∀ o, h.next ≤ o → live o = 0 ∧ IEvent.inc o ∉ h.events
  count_eq : ∀ o, o < h.next → h.count_ o = live o
  owned : ∀ o, 1 ≤ live o → IEvent.inc o ∈ h.events
  destroy_eq : ∀ o, h.destroyRuns o =
    if IEvent.inc o ∈ h.events ∧ live o = 0 then 1 else 0

/-- The invariant of a program state: the heap is consistent with the numbers of live
pointers. -/
def IntrInv (s : IntrState) : Prop := IHInv s.heap s.live

/-- The net effect of `Reset()` as the specification words it: the strong count of the
block is lowered by 1, the weak count is kept, the pointee is destroyed if the strong
count is then 0, the block is freed if and only if both counts are then 0, and the
pointer is left empty. -/
def SharedPtr.Reset_netEffect (h : Heap) (this : SharedPtr) : Heap × SharedPtr :=
  match this.block_ with
  | none => (h, ⟨none, Addr.null⟩)
  | some B =>
    let c := h.blocks B
    let n := c.strong_ref_counter - 1
    let c1 : BaseBlock :=
      { c with strong_ref_counter := n
               ptr_ := if n = 0 ∧ c.kind = BlockKind.ControlBlock then Addr.null else c.ptr_
               deleted := if n = 0 ∧ c.weak_reaf_counter = 0 then c.deleted + 1
                          else c.deleted }
    ({ h with blocks := upd h.blocks B c1
              dtors := if n = 0 ∧ h.pointee B ≠ Addr.null then h.pointee B :: h.dtors
                       else h.dtors },
      ⟨none, Addr.null⟩)

/-- The last owner of a self-observing pointee in shared-from-this/shared.h:
`SharedPtr<T> p(x)` for a freshly constructed object `x` (number 7) of a type with the
`EnableSharedFromThis` base; afterwards block 0 has strong count 1 and weak count 1,
the weak reference being the member `weak_this_` of `x`. -/
def lastOwner.raw : Heap × SharedPtr := SharedPtr.ofRaw true Heap.init (Addr.raw 7)

/-- The same with `p = MakeShared<T>()`: the pointee lives in the fused block 0. -/
def lastOwner.fused : Heap × SharedPtr := MakeShared true Heap.init

/-- The four ways to release the pointer `o.2` on heap `o.1`: `p.Reset()`, `p = q` with
an empty `q`, `p = std::move(q)` with an empty `q`, and `p.Reset(y)` with a fresh `y`
(number 8); each gives the heap afterwards. -/
def lastOwner.byReset (o : Heap × SharedPtr) : Heap := (o.2.Reset o.1).1

/-- Release by copy assignment. -/
def lastOwner.byAssign (o : Heap × SharedPtr) : Heap :=
  (SharedPtr.assign o.1 o.2 SharedPtr.default).1

/-- Release by move assignment. -/
def lastOwner.byMoveAssign (o : Heap × SharedPtr) : Heap :=
  (SharedPtr.moveAssign o.1 o.2 SharedPtr.default).1

/-- Release by `Reset(y)`. -/
def lastOwner.byResetRaw (o : Heap × SharedPtr) : Heap :=
  (SharedPtr.ResetRaw o.1 o.2 (Addr.raw 8)).1

/-- The statements `SharedPtr<Node> p(new Node); p->self = p;` of weak/shared.h and
weak.h, for a pointee type `struct Node { WeakPtr<Node> self; }` without the
`EnableSharedFromThis` base (the object is number 7): the heap afterwards and the
pointer `p`.  The `WeakPtr` member of the object is its slot `weak_this_` in the heap;
the assignment is `WeakPtr::operator=(const SharedPtr&)` on that member.  Block 0 then
has strong count 1 and weak count 1. -/
def selfWeak.raw : Heap × SharedPtr :=
  let o := SharedPtr.ofRaw_weak Heap.init (Addr.raw 7)
  let r := WeakPtr.assignShared o.1 (o.1.weak_this_ (Addr.raw 7)) o.2
  (r.1.setSlot (Addr.raw 7) r.2, o.2)

/-- The same with `auto p = MakeShared<Node>(); p->self = p;` of weak/shared.h: the
object lives in the fused block 0. -/
def selfWeak.fused : Heap × SharedPtr :=
  let o := MakeShared_weak Heap.init
  let r := WeakPtr.assignShared o.1 (o.1.weak_this_ (Addr.storage 0)) o.2
  (r.1.setSlot (Addr.storage 0) r.2, o.2)

/-! ## The ownership invariant -/

/-- The heap is consistent with reference counts `cs` (strong) and `cw` (weak) per
block, for pointees without a populated `weak_this_`; `used` lists the raw addresses
handed over so far.  The facts about pointees (`obj_raw`, `obj_inj`, `dtor_eq`,
`dtor_src`) are only kept under `P`, which stands for "the program respects the
ownership discipline"; the facts about blocks hold for every program. -/
structure HInv (P : Prop) (used : List Addr) (h : Heap) (cs cw : Nat → Nat) : Prop where
  out_s : ∀ b, h.next ≤ b → cs b = 0
  out_w : ∀ b, h.next ≤ b → cw b = 0
  strong_eq : ∀ b, b < h.next → (h.blocks b).strong_ref_counter = cs b
  weak_eq : ∀ b, b < h.next → (h.blocks b).weak_reaf_counter = cw b
  deleted_eq : ∀ b, b < h.next →
    (h.blocks b).deleted = if cs b = 0 ∧ cw b = 0 then 1 else 0
  ptr_eq : ∀ b, b < h.next →
    (h.blocks b).ptr_ =
      if (h.blocks b).kind = BlockKind.ControlBlock ∧ cs b ≠ 0 then (h.blocks b).obj
      else Addr.null
  obj_fused : ∀ b, b < h.next → (h.blocks b).kind = BlockKind.Block →
    (h.blocks b).obj = Addr.storage b
  obj_raw : P → ∀ b, b < h.next → (h.blocks b).kind = BlockKind.ControlBlock →
    (h.blocks b).obj = Addr.null ∨ ∃ n, (h.blocks b).obj = Addr.raw n ∧ Addr.raw n ∈ used
  obj_inj : P → ∀ b c, b < h.next → c < h.next → (h.blocks b).obj = (h.blocks c).obj →
    (h.blocks b).obj ≠ Addr.null → b = c
  dtor_eq : P → ∀ b, b < h.next → (h.blocks b).obj ≠ Addr.null →
    h.dtors.count (h.blocks b).obj = if cs b = 0 then 1 else 0
  dtor_src : P → ∀ a, a ∈ h.dtors → a ≠ Addr.null ∧ ∃ b, b < h.next ∧ (h.blocks b).obj = a
  slots : ∀ a, (h.weak_this_ a).block_ = none
  not_stuck : h.stuck = false

/-- The program state is consistent: the heap agrees with the numbers of live pointer
objects. -/
def Inv (P : Prop) (used : List Addr) (s : State) : Prop :=
  HInv P used s.heap s.liveS s.liveW

/-! ## Programs with self-observing pointees

The operations of `Op` together with the raw constructor and `MakeShared` of
shared-from-this/shared.h for a pointee type with the `EnableSharedFromThis` base, and
the two member functions of that base. -/

/-- An operation of a program whose pointees may have the `EnableSharedFromThis` base: an
operation of `Op`; `SharedPtr<T> p(x)` for the caller-allocated object number `n` of a
type with the base (shared.h:79-93); `MakeShared<T>()` for such a type
(shared.h:331-340); `x.SharedFromThis()` and `x.WeakFromThis()` on the object at address
`x` (shared.h:17-27). -/
inductive EOp where
  | base (op : Op)
  | raw (n : Nat)
  | make
  | sharedFromThis (x : Addr)
  | weakFromThis (x : Addr)
  deriving DecidableEq, Repr

/-- One operation of such a program. -/
def estep (s : State) : EOp → State
  | .base op => step s op
  | .raw n => s.pushS (SharedPtr.ofRaw true s.heap (Addr.raw n))
  | .make => s.pushS (MakeShared true s.heap)
  | .sharedFromThis x => s.pushS (EnableSharedFromThis.SharedFromThis s.heap x)
  | .weakFromThis x => s.pushW (EnableSharedFromThis.WeakFromThis s.heap x)

/-- Run such a program from a state. -/
def erun (s : State) (ops : List EOp) : State := ops.foldl estep s

/-- The caller-allocated objects such a program hands to a raw constructor or to
`Reset(T*)`, in order. -/
def handedE : List EOp → List Nat
  | [] => []
  | .base op :: ops => handed [op] ++ handedE ops
  | .raw n :: ops => n :: handedE ops
  | _ :: ops => handedE ops

/-- The ownership discipline of such a program: no object is handed over twice. -/
def DisciplinedE (ops : List EOp) : Prop := (handedE ops).Nodup

instance (ops : List EOp) : Decidable (DisciplinedE ops) := by
  unfold DisciplinedE; infer_instance

/-- The addresses an operation adds to the handed-over list. -/
def EOp.gives : EOp → List Addr
  | .base op => op.gives
  | .raw n => [Addr.raw n]
  | _ => []

/-- The blocks an operation allocates for a self-observing pointee, given the id the
next allocation returns. -/
def EOp.wires (next : Nat) : EOp → List Nat
  | .raw _ => [next]
  | .make => [next]
  | _ => []

/-- The object for which a creating operation allocates block `B`: the caller's object
for the raw constructor, the storage of the block for `MakeShared`. -/
def EOp.created (B : Nat) : EOp → Option Addr
  | .raw n => some (Addr.raw n)
  | .make => some (Addr.storage B)
  | _ => none

/-- The heap is consistent with the numbers `cs` of owners per block, for programs whose
pointees may hold a weak reference to their own block: the strong count of every block
is its number of owners; `ptr_` of a `ControlBlock` is its object while it has owners
and null afterwards; the objects of different blocks are different; a populated member
`weak_this_` refers to the block of its own object; and the member of the object of a
block in `W` (allocated by the raw constructor or `MakeShared` for a type with the
base) refers to that block as long as the block has owners. -/
structure EHInv (W : List Nat) (used : List Addr) (h : Heap) (cs : Nat → Nat) : Prop where
  out_s : ∀ b, h.next ≤ b → cs b = 0
  strong_eq : ∀ b, (h.blocks b).strong_ref_counter = cs b
  ptr_eq : ∀ b, (h.blocks b).kind = BlockKind.ControlBlock →
    (h.blocks b).ptr_ = if cs b ≠ 0 then (h.blocks b).obj else Addr.null
  obj_fused : ∀ b, b < h.next → (h.blocks b).kind = BlockKind.Block →
    (h.blocks b).obj = Addr.storage b
  obj_raw : ∀ b, b < h.next → (h.blocks b).kind = BlockKind.ControlBlock →
    (h.blocks b).obj = Addr.null ∨ ∃ n, (h.blocks b).obj = Addr.raw n ∧ Addr.raw n ∈ used
  obj_inj : ∀ b c, b < h.next → c < h.next → (h.blocks b).obj = (h.blocks c).obj →
    (h.blocks b).obj ≠ Addr.null → b = c
  slot_src : ∀ a b, (h.weak_this_ a).block_ = some b →
    b < h.next ∧ (h.blocks b).obj = a ∧ a ≠ Addr.null
  slot_own : ∀ b, b ∈ W → cs b ≠ 0 →
    h.weak_this_ (h.blocks b).obj = ⟨(h.blocks b).obj, some b⟩
  wired_lt : ∀ b, b ∈ W → b < h.next

/-- The program state is consistent. -/
def EInv (W : List Nat) (used : List Addr) (s : State) : Prop :=
  EHInv W used s.heap s.liveS

/-! # Theorems -/

/-! ## Basic facts -/

@[simp] theorem toSizeT_natCast (n : Nat) : toSizeT (n : Int) = n := by
  simp [toSizeT]

@[simp] theorem toSizeT_one : toSizeT 1 = 1 := by
  simp [toSizeT]

@[simp] theorem toSizeT_zero : toSizeT 0 = 0 := by
  simp [toSizeT]

theorem toSizeT_of_nonneg (c : Int) (h : 0 ≤ c) : toSizeT c = c.toNat := by
  simp [toSizeT, h]

theorem toSizeT_eq_zero_iff (c : Int) (h : -(2 : Int) ^ 31 ≤ c) : toSizeT c = 0 ↔ c = 0 := by
  unfold toSizeT
  split_ifs with h0 <;> omega

@[simp] theorem upd_same {α β : Type} [DecidableEq α] (f : α → β) (a : α) (v : β) :
    upd f a v a = v := by simp [upd]

@[simp] theorem upd_ne {α β : Type} [DecidableEq α] (f : α → β) (a x : α) (v : β)
    (hx : x ≠ a) : upd f a v x = f x := by simp [upd, hx]

theorem upd_apply {α β : Type} [DecidableEq α] (f : α → β) (a x : α) (v : β) :
    upd f a v x = if x = a then v else f x := rfl

@[simp] theorem Heap.modify_blocks (h : Heap) (b : Nat) (f : BaseBlock → BaseBlock) :
    (h.modify b f).blocks = upd h.blocks b (f (h.blocks b)) := rfl

@[simp] theorem Heap.modify_next (h : Heap) (b : Nat) (f : BaseBlock → BaseBlock) :
    (h.modify b f).next = h.next := rfl

@[simp] theorem Heap.modify_weak_this (h : Heap) (b : Nat) (f : BaseBlock → BaseBlock) :
    (h.modify b f).weak_this_ = h.weak_this_ := rfl

@[simp] theorem Heap.modify_dtors (h : Heap) (b : Nat) (f : BaseBlock → BaseBlock) :
    (h.modify b f).dtors = h.dtors := rfl

@[simp] theorem Heap.modify_stuck (h : Heap) (b : Nat) (f : BaseBlock → BaseBlock) :
    (h.modify b f).stuck = h.stuck := rfl

@[simp] theorem Heap.modify_fuel (h : Heap) (b : Nat) (f : BaseBlock → BaseBlock) :
    (h.modify b f).fuel = h.fuel := rfl

/-! ## Heap operations preserve consistency -/

/-- Changing one block, its counts and the log of its pointee, in a way that keeps the
block's own bookkeeping right, preserves consistency. -/
theorem HInv.frame {P : Prop} {used : List Addr} {h : Heap} {cs cw : Nat → Nat}
    (hi : HInv P used h cs cw) (b : Nat) (hb : b < h.next) (h' : Heap)
    (cs' cw' : Nat → Nat)
    (hnext : h'.next = h.next)
    (hblk : ∀ x, x ≠ b → h'.blocks x = h.blocks x)
    (hcs : ∀ x, x ≠ b → cs' x = cs x) (hcw : ∀ x, x ≠ b → cw' x = cw x)
    (hkind : (h'.blocks b).kind = (h.blocks b).kind)
    (hobj : (h'.blocks b).obj = (h.blocks b).obj)
    (hstrong : (h'.blocks b).strong_ref_counter = cs' b)
    (hweak : (h'.blocks b).weak_reaf_counter = cw' b)
    (hdel : (h'.blocks b).deleted = if cs' b = 0 ∧ cw' b = 0 then 1 else 0)
    (hptr : (h'.blocks b).ptr_ =
      if (h.blocks b).kind = BlockKind.ControlBlock ∧ cs' b ≠ 0 then (h.blocks b).obj
      else Addr.null)
    (hd1 : ∀ a, (a ≠ (h.blocks b).obj ∨ a = Addr.null) → h'.dtors.count a = h.dtors.count a)
    (hd2 : P → (h.blocks b).obj ≠ Addr.null →
      h'.dtors.count (h.blocks b).obj = if cs' b = 0 then 1 else 0)
    (hslots : ∀ a, (h'.weak_this_ a).block_ = none)
    (hstuck : h'.stuck = false) : HInv P used h' cs' cw' := by
  have hobj' : ∀ x, (h'.blocks x).obj = (h.blocks x).obj := by
    intro x; by_cases hx : x = b
    · subst hx; exact hobj
    · rw [hblk x hx]
  have hkind' : ∀ x, (h'.blocks x).kind = (h.blocks x).kind := by
    intro x; by_cases hx : x = b
    · subst hx; exact hkind
    · rw [hblk x hx]
  constructor
  · intro x hx
    rw [hnext] at hx
    rw [hcs x (by omega)]; exact hi.out_s x hx
  · intro x hx
    rw [hnext] at hx
    rw [hcw x (by omega)]; exact hi.out_w x hx
  · intro x hx
    rw [hnext] at hx
    by_cases hxb : x = b
    · subst hxb; exact hstrong
    · rw [hblk x hxb, hcs x hxb]; exact hi.strong_eq x hx
  · intro x hx
    rw [hnext] at hx
    by_cases hxb : x = b
    · subst hxb; exact hweak
    · rw [hblk x hxb, hcw x hxb]; exact hi.weak_eq x hx
  · intro x hx
    rw [hnext] at hx
    by_cases hxb : x = b
    · subst hxb; exact hdel
    · rw [hblk x hxb, hcs x hxb, hcw x hxb]; exact hi.deleted_eq x hx
  · intro x hx
    rw [hnext] at hx
    by_cases hxb : x = b
    · subst hxb; rw [hptr, hkind, hobj]
    · rw [hblk x hxb, hcs x hxb]; exact hi.ptr_eq x hx
  · intro x hx hk
    rw [hnext] at hx
    rw [hobj' x]; rw [hkind' x] at hk; exact hi.obj_fused x hx hk
  · intro hP x hx hk
    rw [hnext] at hx
    rw [hobj' x]; rw [hkind' x] at hk; exact hi.obj_raw hP x hx hk
  · intro hP x y hx hy he hn
    rw [hnext] at hx hy
    rw [hobj' x] at he hn; rw [hobj' y] at he
    exact hi.obj_inj hP x y hx hy he hn
  · intro hP x hx hn
    rw [hnext] at hx
    rw [hobj' x] at hn ⊢
    by_cases hxb : x = b
    · subst hxb; exact hd2 hP hn
    · have hne : (h.blocks x).obj ≠ (h.blocks b).obj := by
        intro he; exact hxb (hi.obj_inj hP x b hx hb he hn)
      rw [hd1 _ (Or.inl hne), hcs x hxb]; exact hi.dtor_eq hP x hx hn
  · intro hP a ha
    by_cases hab : a ≠ (h.blocks b).obj ∨ a = Addr.null
    · have hc := hd1 a hab
      have hpos : 0 < h'.dtors.count a := List.count_pos_iff.mpr ha
      rw [hc] at hpos
      have hm : a ∈ h.dtors := List.count_pos_iff.mp hpos
      obtain ⟨h1, x, hx, hxo⟩ := hi.dtor_src hP a hm
      exact ⟨h1, x, by rw [hnext]; exact hx, by rw [hobj' x]; exact hxo⟩
    · push_neg at hab
      exact ⟨hab.2, b, by rw [hnext]; exact hb, by rw [hobj' b]; exact hab.1.symm⟩
  · exact hslots
  · exact hstuck

theorem runDtor_of_slot_none (n : Nat) (h : Heap) (a : Addr)
    (hs : (h.weak_this_ a).block_ = none) :
    runDtor (n + 1) h a = ({ h with dtors := a :: h.dtors } : Heap).setSlot a (h.weak_this_ a) := by
  simp [runDtor, WeakPtr.DecWeakRefWith, hs]

theorem HInv.addStrong {P : Prop} {used : List Addr} {h : Heap} {cs cw cs' cw' : Nat → Nat}
    (hi : HInv P used h cs cw) (b : Nat) (hb : b < h.next) (hc : 1 ≤ cs b)
    (hcs : ∀ x, cs' x = if x = b then cs b + 1 else cs x) (hcw : ∀ x, cw' x = cw x) :
    HInv P used (h.modify b BaseBlock.AddStrongRef) cs' cw' := by
  have e1 := hi.strong_eq b hb
  have e2 := hi.weak_eq b hb
  have e3 := hi.deleted_eq b hb
  have e4 := hi.ptr_eq b hb
  have hcb : cs' b = cs b + 1 := by simp [hcs]
  have hcs0 : cs b ≠ 0 := by omega
  apply hi.frame b hb
  · rfl
  · intro x hx; simp [hx]
  · intro x hx; simp [hcs, hx]
  · intro x _; exact hcw x
  · simp [BaseBlock.AddStrongRef]
  · simp [BaseBlock.AddStrongRef]
  · simp [BaseBlock.AddStrongRef, e1, hcb]
  · simp [BaseBlock.AddStrongRef, e2, hcw]
  · simp [BaseBlock.AddStrongRef, e3, hcb, hcs0]
  · simp [BaseBlock.AddStrongRef, e4, hcb, hcs0]
  · intro a _; rfl
  · intro hP hn; simp [hi.dtor_eq hP b hb hn, hcb, hcs0]
  · exact hi.slots
  · exact hi.not_stuck

theorem HInv.addWeak {P : Prop} {used : List Addr} {h : Heap} {cs cw cs' cw' : Nat → Nat}
    (hi : HInv P used h cs cw) (b : Nat) (hb : b < h.next) (hc : 1 ≤ cs b ∨ 1 ≤ cw b)
    (hcs : ∀ x, cs' x = cs x) (hcw : ∀ x, cw' x = if x = b then cw b + 1 else cw x) :
    HInv P used (h.modify b BaseBlock.AddWeakRef) cs' cw' := by
  have e1 := hi.strong_eq b hb
  have e2 := hi.weak_eq b hb
  have e3 := hi.deleted_eq b hb
  have e4 := hi.ptr_eq b hb
  have hcb : cw' b = cw b + 1 := by simp [hcw]
  have hd0 : ¬ (cs b = 0 ∧ cw b = 0) := by omega
  apply hi.frame b hb
  · rfl
  · intro x hx; simp [hx]
  · intro x _; exact hcs x
  · intro x hx; simp [hcw, hx]
  · simp [BaseBlock.AddWeakRef]
  · simp [BaseBlock.AddWeakRef]
  · simp [BaseBlock.AddWeakRef, e1, hcs]
  · simp [BaseBlock.AddWeakRef, e2, hcb]
  · simp [BaseBlock.AddWeakRef, e3, hcb, hcs, hd0]
  · simp [BaseBlock.AddWeakRef, e4, hcs]
  · intro a _; rfl
  · intro hP hn; simp [hi.dtor_eq hP b hb hn, hcs]
  · exact hi.slots
  · exact hi.not_stuck


theorem Heap.release_spec (h : Heap) (b : Nat) (f : Addr)
    (hs : ∀ a, (h.weak_this_ a).block_ = none)
    (hp : (h.blocks b).ptr_ =
      if (h.blocks b).kind = BlockKind.ControlBlock then (h.blocks b).obj else Addr.null)
    (ho : (h.blocks b).kind = BlockKind.Block → (h.blocks b).obj = Addr.storage b) :
    let r := h.release ⟨some b, f⟩
    let z : Prop := (h.blocks b).strong_ref_counter - 1 = 0
    r.next = h.next ∧ (∀ x, x ≠ b → r.blocks x = h.blocks x) ∧
    (r.blocks b).kind = (h.blocks b).kind ∧ (r.blocks b).obj = (h.blocks b).obj ∧
    (r.blocks b).strong_ref_counter = (h.blocks b).strong_ref_counter - 1 ∧
    (r.blocks b).weak_reaf_counter = (h.blocks b).weak_reaf_counter ∧
    (r.blocks b).deleted =
      (if z ∧ (h.blocks b).weak_reaf_counter = 0 then (h.blocks b).deleted + 1
       else (h.blocks b).deleted) ∧
    (r.blocks b).ptr_ = (if z then Addr.null else (h.blocks b).ptr_) ∧
    r.dtors = (if z ∧ (h.blocks b).obj ≠ Addr.null then (h.blocks b).obj :: h.dtors
       else h.dtors) ∧
    (∀ a, (r.weak_this_ a).block_ = none) ∧ r.stuck = h.stuck := by
  intro r z
  rcases hk : (h.blocks b).kind with _ | _
  · -- detached
    simp only [hk, if_true] at hp
    by_cases hz : (h.blocks b).strong_ref_counter - 1 = 0 <;>
    by_cases ho : (h.blocks b).obj = Addr.null <;>
    by_cases hw : (h.blocks b).weak_reaf_counter = 0 <;>
    simp +contextual [r, z, Heap.release, SharedPtr.CLear, SharedPtr.DecStrongRef,
      Heap.DecStrongRef, ControlBlock.DecStrongRef, Heap.deletePointee, Heap.deleteBlock,
      deleteBlockWith, BaseBlock.DecStrongRef, BaseBlock.IsEmpty, BaseBlock.WeakCount, hk, hz,
      ho, hw, hp, hs, Heap.fuel, runDtor_of_slot_none, Heap.setSlot, upd_apply] <;>
    (intro a; split_ifs <;> simp [hs])
  · -- fused
    have ho' := ho hk
    simp [hk] at hp
    by_cases hz : (h.blocks b).strong_ref_counter - 1 = 0 <;>
    by_cases hw : (h.blocks b).weak_reaf_counter = 0 <;>
    simp +contextual [r, z, Heap.release, SharedPtr.CLear, SharedPtr.DecStrongRef,
      Heap.DecStrongRef, Block.DecStrongRef, Heap.deletePointee, Heap.deleteBlock,
      deleteBlockWith, BaseBlock.DecStrongRef, BaseBlock.IsEmpty, BaseBlock.WeakCount, hk, hz,
      ho', hw, hp, hs, Heap.fuel, runDtor_of_slot_none, Heap.setSlot, upd_apply, Block.GetPtr] <;>
    (intro a; split_ifs <;> simp [hs])

theorem HInv.release {P : Prop} {used : List Addr} {h : Heap} {cs cw cs' cw' : Nat → Nat}
    (hi : HInv P used h cs cw) (b : Nat) (f : Addr) (hb : b < h.next) (hc : 1 ≤ cs b)
    (hcs : ∀ x, cs' x = if x = b then cs b - 1 else cs x) (hcw : ∀ x, cw' x = cw x) :
    HInv P used (h.release ⟨some b, f⟩) cs' cw' := by
  have e1 := hi.strong_eq b hb
  have e2 := hi.weak_eq b hb
  have e3 := hi.deleted_eq b hb
  have e4 := hi.ptr_eq b hb
  have hcb : cs' b = cs b - 1 := by simp [hcs]
  have hcs0 : cs b ≠ 0 := by omega
  have hp : (h.blocks b).ptr_ =
      if (h.blocks b).kind = BlockKind.ControlBlock then (h.blocks b).obj else Addr.null := by
    rw [e4]; simp [hcs0]
  obtain ⟨r1, r2, r3, r4, r5, r6, r7, r8, r9, r10, r11⟩ :=
    Heap.release_spec h b f hi.slots hp (hi.obj_fused b hb)
  have hz : ((h.blocks b).strong_ref_counter - 1 = 0) ↔ cs' b = 0 := by
    rw [e1, hcb]; omega
  have hwz : ((h.blocks b).weak_reaf_counter = 0) ↔ cw' b = 0 := by
    rw [e2, hcw]; omega
  simp only [hz, hwz] at r7 r8 r9
  apply hi.frame b hb
  · exact r1
  · exact r2
  · intro x hx; simp [hcs, hx]
  · intro x _; exact hcw x
  · exact r3
  · exact r4
  · rw [r5, e1, hcb]; omega
  · rw [r6, e2, hcw]
  · rw [r7, e3]; simp [hcs0]
  · rw [r8, hp]
    by_cases h0 : cs' b = 0 <;> simp [h0]
  · intro a ha
    rw [r9]
    by_cases h0 : cs' b = 0 ∧ (h.blocks b).obj ≠ Addr.null
    · rw [if_pos h0]
      rcases ha with ha | ha
      · exact List.count_cons_of_ne ha _
      · subst ha; exact List.count_cons_of_ne (Ne.symm h0.2) _
    · rw [if_neg h0]
  · intro hP hn
    rw [r9]
    have e5' := hi.dtor_eq hP b hb hn
    simp only [hcs0, if_false] at e5'
    by_cases h0 : cs' b = 0
    · simp [h0, hn, e5']
    · simp [h0, e5']
  · exact r10
  · rw [r11]; exact hi.not_stuck

theorem WeakPtr.DecWeakRef_spec (h : Heap) (b : Nat) (f : Addr)
    (hp : (h.blocks b).strong_ref_counter = 0 → (h.blocks b).ptr_ = Addr.null) :
    let r := WeakPtr.DecWeakRef h ⟨f, some b⟩
    let z : Prop := (h.blocks b).strong_ref_counter = 0 ∧ (h.blocks b).weak_reaf_counter - 1 = 0
    r.1.next = h.next ∧ (∀ x, x ≠ b → r.1.blocks x = h.blocks x) ∧
    (r.1.blocks b).kind = (h.blocks b).kind ∧ (r.1.blocks b).obj = (h.blocks b).obj ∧
    (r.1.blocks b).strong_ref_counter = (h.blocks b).strong_ref_counter ∧
    (r.1.blocks b).weak_reaf_counter = (h.blocks b).weak_reaf_counter - 1 ∧
    (r.1.blocks b).deleted =
      (if z then (h.blocks b).deleted + 1 else (h.blocks b).deleted) ∧
    (r.1.blocks b).ptr_ = (h.blocks b).ptr_ ∧
    r.1.dtors = h.dtors ∧ r.1.weak_this_ = h.weak_this_ ∧ r.1.stuck = h.stuck ∧
    r.2 = (if z then ⟨Addr.null, none⟩ else ⟨f, some b⟩) := by
  intro r z
  rcases hk : (h.blocks b).kind with _ | _ <;>
  by_cases hz : (h.blocks b).strong_ref_counter = 0 <;>
  by_cases hw : (h.blocks b).weak_reaf_counter - 1 = 0 <;>
  simp +contextual [r, z, WeakPtr.DecWeakRef, WeakPtr.DecWeakRefWith, deleteBlockWith,
    BaseBlock.DecWeakRef, BaseBlock.WholeEmpty, hk, hz, hw, hp, upd_apply]

theorem HInv.releaseW {P : Prop} {used : List Addr} {h : Heap} {cs cw cs' cw' : Nat → Nat}
    (hi : HInv P used h cs cw) (b : Nat) (f : Addr) (hb : b < h.next) (hc : 1 ≤ cw b)
    (hcs : ∀ x, cs' x = cs x) (hcw : ∀ x, cw' x = if x = b then cw b - 1 else cw x) :
    HInv P used (WeakPtr.DecWeakRef h ⟨f, some b⟩).1 cs' cw' ∧
    (WeakPtr.DecWeakRef h ⟨f, some b⟩).2 =
      (if cs b = 0 ∧ cw b = 1 then ⟨Addr.null, none⟩ else ⟨f, some b⟩) := by
  have e1 := hi.strong_eq b hb
  have e2 := hi.weak_eq b hb
  have e3 := hi.deleted_eq b hb
  have e4 := hi.ptr_eq b hb
  have hcb : cw' b = cw b - 1 := by simp [hcw]
  have hcw0 : cw b ≠ 0 := by omega
  have hp : (h.blocks b).strong_ref_counter = 0 → (h.blocks b).ptr_ = Addr.null := by
    intro h0
    rw [e1] at h0
    have : cs b = 0 := by omega
    rw [e4]; simp [this]
  obtain ⟨r1, r2, r3, r4, r5, r6, r7, r8, r9, r10, r11, r12⟩ :=
    WeakPtr.DecWeakRef_spec h b f hp
  have hz : ((h.blocks b).strong_ref_counter = 0 ∧ (h.blocks b).weak_reaf_counter - 1 = 0) ↔
      (cs' b = 0 ∧ cw' b = 0) := by
    rw [e1, e2, hcb, hcs]; omega
  have hz2 : ((h.blocks b).strong_ref_counter = 0 ∧ (h.blocks b).weak_reaf_counter - 1 = 0) ↔
      (cs b = 0 ∧ cw b = 1) := by
    rw [e1, e2]; omega
  refine ⟨?_, ?_⟩
  · simp only [hz] at r7
    apply hi.frame b hb
    · exact r1
    · exact r2
    · intro x _; exact hcs x
    · intro x hx; simp [hcw, hx]
    · exact r3
    · exact r4
    · rw [r5, e1, hcs]
    · rw [r6, e2, hcb]; omega
    · rw [r7, e3]; simp [hcw0]
    · rw [r8, e4, hcs]
    · intro a _; rw [r9]
    · intro hP hn; rw [r9, hi.dtor_eq hP b hb hn, hcs]
    · intro a; rw [r10]; exact hi.slots a
    · rw [r11]; exact hi.not_stuck
  · rw [r12]; simp only [hz2]

theorem HInv.alloc (used' : List Addr) {P : Prop} {used : List Addr} {h h' : Heap}
    {cs cw cs' cw' : Nat → Nat}
    (hi : HInv P used h cs cw)
    (hused : ∀ a, a ∈ used → a ∈ used')
    (hnext : h'.next = h.next + 1)
    (hblk : ∀ x, x ≠ h.next → h'.blocks x = h.blocks x)
    (hcs : ∀ x, cs' x = if x = h.next then 1 else cs x) (hcw : ∀ x, cw' x = cw x)
    (hstrong : (h'.blocks h.next).strong_ref_counter = 1)
    (hweak : (h'.blocks h.next).weak_reaf_counter = 0)
    (hdel : (h'.blocks h.next).deleted = 0)
    (hptr : (h'.blocks h.next).ptr_ =
      if (h'.blocks h.next).kind = BlockKind.ControlBlock then (h'.blocks h.next).obj
      else Addr.null)
    (hfused : (h'.blocks h.next).kind = BlockKind.Block →
      (h'.blocks h.next).obj = Addr.storage h.next)
    (hraw : P → (h'.blocks h.next).kind = BlockKind.ControlBlock →
      (h'.blocks h.next).obj = Addr.null ∨
        ∃ n, (h'.blocks h.next).obj = Addr.raw n ∧ Addr.raw n ∈ used' ∧ Addr.raw n ∉ used)
    (hd : h'.dtors = h.dtors)
    (hslots : ∀ a, (h'.weak_this_ a).block_ = none)
    (hstuck : h'.stuck = false) : HInv P used' h' cs' cw' := by
  -- the object of the new block is not the object of an older block
  have hfresh : P → ∀ x, x < h.next → (h.blocks x).obj ≠ Addr.null →
      (h.blocks x).obj ≠ (h'.blocks h.next).obj := by
    intro hP x hx hn he
    rcases hk : (h'.blocks h.next).kind with _ | _
    · rcases hraw hP hk with h0 | ⟨n, h1, _, h3⟩
      · exact hn (he.trans h0)
      · rcases hkx : (h.blocks x).kind with _ | _
        · rcases hi.obj_raw hP x hx hkx with h4 | ⟨m, h5, h6⟩
          · exact hn h4
          · rw [he, h1] at h5; rw [h5] at h3; exact h3 h6
        · have := hi.obj_fused x hx hkx
          rw [he, h1] at this; cases this
    · have h1 := hfused hk
      rcases hkx : (h.blocks x).kind with _ | _
      · rcases hi.obj_raw hP x hx hkx with h4 | ⟨m, h5, _⟩
        · exact hn h4
        · rw [he, h1] at h5; cases h5
      · have := hi.obj_fused x hx hkx
        rw [he, h1] at this
        injection this with this
        omega
  have hnd : P → (h'.blocks h.next).obj ≠ Addr.null → (h'.blocks h.next).obj ∉ h.dtors := by
    intro hP hn hm
    obtain ⟨_, x, hx, hxo⟩ := hi.dtor_src hP _ hm
    exact hfresh hP x hx (by rw [hxo]; exact hn) hxo
  constructor
  · intro x hx
    rw [hnext] at hx
    rw [hcs, if_neg (by omega)]; exact hi.out_s x (by omega)
  · intro x hx
    rw [hnext] at hx
    rw [hcw]; exact hi.out_w x (by omega)
  · intro x hx
    rw [hnext] at hx
    by_cases hxn : x = h.next
    · subst hxn; rw [hstrong, hcs]; simp
    · rw [hblk x hxn, hcs, if_neg hxn]; exact hi.strong_eq x (by omega)
  · intro x hx
    rw [hnext] at hx
    by_cases hxn : x = h.next
    · subst hxn; rw [hweak, hcw, hi.out_w _ (le_refl _)]; simp
    · rw [hblk x hxn, hcw]; exact hi.weak_eq x (by omega)
  · intro x hx
    rw [hnext] at hx
    by_cases hxn : x = h.next
    · subst hxn; rw [hdel, hcs]; simp
    · rw [hblk x hxn, hcs, if_neg hxn, hcw]; exact hi.deleted_eq x (by omega)
  · intro x hx
    rw [hnext] at hx
    by_cases hxn : x = h.next
    · subst hxn; rw [hptr, hcs]; simp
    · rw [hblk x hxn, hcs, if_neg hxn]; exact hi.ptr_eq x (by omega)
  · intro x hx hk
    rw [hnext] at hx
    by_cases hxn : x = h.next
    · subst hxn; exact hfused hk
    · rw [hblk x hxn] at hk ⊢; exact hi.obj_fused x (by omega) hk
  · intro hP x hx hk
    rw [hnext] at hx
    by_cases hxn : x = h.next
    · subst hxn
      rcases hraw hP hk with h0 | ⟨n, h1, h2, _⟩
      · exact Or.inl h0
      · exact Or.inr ⟨n, h1, h2⟩
    · rw [hblk x hxn] at hk ⊢
      rcases hi.obj_raw hP x (by omega) hk with h0 | ⟨n, h1, h2⟩
      · exact Or.inl h0
      · exact Or.inr ⟨n, h1, hused _ h2⟩
  · intro hP x y hx hy he hn
    rw [hnext] at hx hy
    by_cases hxn : x = h.next <;> by_cases hyn : y = h.next
    · rw [hxn, hyn]
    · subst hxn
      rw [hblk y hyn] at he
      have hy' : y < h.next := by omega
      exact absurd he.symm (hfresh hP y hy' (by rw [← he]; exact hn))
    · subst hyn
      rw [hblk x hxn] at he hn
      exact absurd he (hfresh hP x (by omega) hn)
    · rw [hblk x hxn] at he hn; rw [hblk y hyn] at he
      exact hi.obj_inj hP x y (by omega) (by omega) he hn
  · intro hP x hx hn
    rw [hnext] at hx
    rw [hd]
    by_cases hxn : x = h.next
    · subst hxn
      rw [hcs]; simp
      exact List.count_eq_zero_of_not_mem (hnd hP hn)
    · rw [hblk x hxn] at hn ⊢
      rw [hcs, if_neg hxn]; exact hi.dtor_eq hP x (by omega) hn
  · intro hP a ha
    rw [hd] at ha
    obtain ⟨h1, x, hx, hxo⟩ := hi.dtor_src hP a ha
    refine ⟨h1, x, by rw [hnext]; omega, ?_⟩
    rw [hblk x (by omega)]; exact hxo
  · exact hslots
  · exact hstuck

/-! ## Counting live pointer objects -/

theorem countP_set_toNat {α : Type} (p : α → Bool) (l : List α) (i : Nat) (x : α)
    (hi : i < l.length) :
    (l.set i x).countP p + (p l[i]).toNat = l.countP p + (p x).toNat := by
  induction l generalizing i with
  | nil => simp at hi
  | cons y ys ih =>
    cases i with
    | zero =>
      simp only [List.set_cons_zero, List.countP_cons, List.getElem_cons_zero]
      cases p y <;> cases p x <;> simp
    | succ k =>
      simp only [List.length_cons, Nat.add_lt_add_iff_right] at hi
      have := ih k hi
      simp only [List.set_cons_succ, List.countP_cons, List.getElem_cons_succ]
      omega

theorem countP_push_toNat {α : Type} (p : α → Bool) (l : List α) (x : α) :
    (l ++ [x]).countP p = l.countP p + (p x).toNat := by
  rw [List.countP_append]
  cases hx : p x <;> simp [List.countP_cons, hx]

theorem getD_none_eq_some {α : Type} (l : List (Option α)) (i : Nat) (x : α)
    (h : l.getD i none = some x) : ∃ hi : i < l.length, l[i] = some x := by
  by_cases hi : i < l.length
  · refine ⟨hi, ?_⟩
    rw [List.getD_eq_getElem?_getD, List.getElem?_eq_getElem hi] at h
    simpa using h
  · rw [List.getD_eq_getElem?_getD, List.getElem?_eq_none (by omega)] at h
    simp at h

theorem countP_pos_of_getElem {α : Type} (p : α → Bool) (l : List α) (i : Nat)
    (hi : i < l.length) (hp : p l[i] = true) : 1 ≤ l.countP p := by
  have : 0 < l.countP p := List.countP_pos_iff.mpr ⟨l[i], List.getElem_mem hi, hp⟩
  omega

theorem HInv.congr {P : Prop} {used : List Addr} {h : Heap} {cs cw cs' cw' : Nat → Nat}
    (hi : HInv P used h cs cw) (hcs : ∀ x, cs' x = cs x) (hcw : ∀ x, cw' x = cw x) :
    HInv P used h cs' cw' := by
  have e1 : cs' = cs := funext hcs
  have e2 : cw' = cw := funext hcw
  rw [e1, e2]; exact hi

theorem HInv.mono {P : Prop} {used used' : List Addr} {h : Heap} {cs cw : Nat → Nat}
    (hi : HInv P used h cs cw) (hu : ∀ a, a ∈ used → a ∈ used') : HInv P used' h cs cw := by
  refine { hi with obj_raw := ?_ }
  intro hP b hb hk
  rcases hi.obj_raw hP b hb hk with h0 | ⟨n, h1, h2⟩
  · exact Or.inl h0
  · exact Or.inr ⟨n, h1, hu _ h2⟩

@[simp] theorem refS_some (x : Nat) (blk : Option Nat) (f : Addr) :
    refS x (some ⟨blk, f⟩) = decide (blk = some x) := rfl

@[simp] theorem refS_none (x : Nat) : refS x none = false := rfl

@[simp] theorem refW_some (x : Nat) (blk : Option Nat) (f : Addr) :
    refW x (some ⟨f, blk⟩) = decide (blk = some x) := rfl

@[simp] theorem refW_none (x : Nat) : refW x none = false := rfl

theorem Inv.blockS_lt {P : Prop} {used : List Addr} {s : State} (hi : Inv P used s) (b : Nat)
    (hb : 1 ≤ s.liveS b) : b < s.heap.next := by
  by_contra hlt
  have := hi.out_s b (by omega)
  omega

theorem Inv.blockW_lt {P : Prop} {used : List Addr} {s : State} (hi : Inv P used s) (b : Nat)
    (hb : 1 ≤ s.liveW b) : b < s.heap.next := by
  by_contra hlt
  have := hi.out_w b (by omega)
  omega

theorem Inv.store {P : Prop} {used : List Addr} {s : State} (hi : Inv P used s)
    (sp' : List (Option SharedPtr)) (wp' : List (Option WeakPtr))
    (h1 : ∀ x, sp'.countP (refS x) = s.sp.countP (refS x))
    (h2 : ∀ x, wp'.countP (refW x) = s.wp.countP (refW x)) :
    Inv P used ⟨s.heap, sp', wp'⟩ :=
  HInv.congr hi h1 h2

theorem Inv.acquireS {P : Prop} {used : List Addr} {s : State} (hi : Inv P used s) (q : SharedPtr)
    (sp' : List (Option SharedPtr))
    (hq : ∀ b, q.block_ = some b → 1 ≤ s.liveS b)
    (hcount : ∀ x, sp'.countP (refS x) = s.sp.countP (refS x) + (refS x (some q)).toNat) :
    Inv P used ⟨q.AddStrongRef s.heap, sp', s.wp⟩ := by
  rcases q with ⟨blk, f⟩
  cases blk with
  | none =>
    apply HInv.congr hi
    · intro x; simpa using hcount x
    · intro x; rfl
  | some b =>
    have hb := hq b rfl
    apply HInv.addStrong hi b (hi.blockS_lt b hb) hb
    · intro x
      have := hcount x
      simp only [refS_some, Option.some.injEq] at this
      show sp'.countP (refS x) = _
      rw [this]
      by_cases hx : x = b
      · subst hx; simp [State.liveS]
      · have : ¬ b = x := fun e => hx e.symm
        simp [hx, this, State.liveS]
    · intro x; rfl

theorem Inv.releaseS {P : Prop} {used : List Addr} {s : State} (hi : Inv P used s) (p : SharedPtr)
    (sp' : List (Option SharedPtr))
    (hcount : ∀ x, sp'.countP (refS x) + (refS x (some p)).toNat = s.sp.countP (refS x)) :
    Inv P used ⟨s.heap.release p, sp', s.wp⟩ := by
  rcases p with ⟨blk, f⟩
  cases blk with
  | none =>
    apply HInv.congr hi
    · intro x; simpa using hcount x
    · intro x; rfl
  | some b =>
    have hb : 1 ≤ s.liveS b := by
      have := hcount b
      simp at this
      simp only [State.liveS]; omega
    apply HInv.release hi b f (hi.blockS_lt b hb) hb
    · intro x
      have := hcount x
      simp only [refS_some, Option.some.injEq] at this
      show sp'.countP (refS x) = _
      by_cases hx : x = b
      · subst hx; simp at this; simp [State.liveS]; omega
      · have hx' : ¬ b = x := fun e => hx e.symm
        simp [hx'] at this; simp [hx, State.liveS, this]
    · intro x; rfl

theorem Inv.acquireW {P : Prop} {used : List Addr} {s : State} (hi : Inv P used s) (w : WeakPtr)
    (wp' : List (Option WeakPtr))
    (hw : ∀ b, w.block_ = some b → 1 ≤ s.liveS b ∨ 1 ≤ s.liveW b)
    (hcount : ∀ x, wp'.countP (refW x) = s.wp.countP (refW x) + (refW x (some w)).toNat) :
    Inv P used ⟨w.AddWeakRef s.heap, s.sp, wp'⟩ := by
  rcases w with ⟨f, blk⟩
  cases blk with
  | none =>
    apply HInv.congr hi
    · intro x; rfl
    · intro x; simpa using hcount x
  | some b =>
    have hb := hw b rfl
    have hlt : b < s.heap.next := by
      rcases hb with hb | hb
      · exact hi.blockS_lt b hb
      · exact hi.blockW_lt b hb
    apply HInv.addWeak hi b hlt hb
    · intro x; rfl
    · intro x
      have := hcount x
      simp only [refW_some, Option.some.injEq] at this
      show wp'.countP (refW x) = _
      rw [this]
      by_cases hx : x = b
      · subst hx; simp [State.liveW]
      · have : ¬ b = x := fun e => hx e.symm
        simp [hx, this, State.liveW]

theorem Inv.dropWeak {P : Prop} {used : List Addr} {s : State} (hi : Inv P used s) (w : WeakPtr)
    (wp' : List (Option WeakPtr))
    (hcount : ∀ x, wp'.countP (refW x) + (refW x (some w)).toNat = s.wp.countP (refW x)) :
    Inv P used ⟨(w.DecWeakRef s.heap).1, s.sp, wp'⟩ ∧
    (((w.DecWeakRef s.heap).2 = w ∧
        ∀ b, w.block_ = some b → 1 ≤ s.liveS b ∨ 1 ≤ wp'.countP (refW b)) ∨
      (w.DecWeakRef s.heap).2 = ⟨Addr.null, none⟩) := by
  rcases w with ⟨f, blk⟩
  cases blk with
  | none =>
    refine ⟨?_, Or.inl ⟨rfl, by simp⟩⟩
    apply HInv.congr hi
    · intro x; rfl
    · intro x; simpa using hcount x
  | some b =>
    have hcb := hcount b
    simp at hcb
    have hb : 1 ≤ s.liveW b := by
      simp only [State.liveW]; omega
    have hr := @HInv.releaseW P used s.heap s.liveS s.liveW s.liveS
      (fun x => wp'.countP (refW x)) hi b f (hi.blockW_lt b hb) hb (fun x => rfl) (by
        intro x
        have := hcount x
        simp only [refW_some, Option.some.injEq] at this
        by_cases hx : x = b
        · subst hx; simp at this; simp [State.liveW]; omega
        · have hx' : ¬ b = x := fun e => hx e.symm
          simp [hx'] at this; simp [hx, State.liveW, this])
    refine ⟨hr.1, ?_⟩
    rw [hr.2]
    by_cases hz : s.liveS b = 0 ∧ s.liveW b = 1
    · right
      rw [if_pos hz]
    · left; rw [if_neg hz]
      refine ⟨rfl, ?_⟩
      intro c hc
      cases hc
      simp only [State.liveW] at hz hb
      omega

theorem ofRaw_weak_heap (h : Heap) (a : Addr) :
    (SharedPtr.ofRaw_weak h a).1.next = h.next + 1 ∧
    (∀ x, x ≠ h.next → (SharedPtr.ofRaw_weak h a).1.blocks x = h.blocks x) ∧
    (SharedPtr.ofRaw_weak h a).1.blocks h.next = ⟨BlockKind.ControlBlock, 1, 0, a, a, 0⟩ ∧
    (SharedPtr.ofRaw_weak h a).1.dtors = h.dtors ∧
    (SharedPtr.ofRaw_weak h a).1.weak_this_ = h.weak_this_ ∧
    (SharedPtr.ofRaw_weak h a).1.stuck = h.stuck ∧
    (SharedPtr.ofRaw_weak h a).2 = ⟨some h.next, a⟩ := by
  simp +contextual [SharedPtr.ofRaw_weak, Heap.newControlBlock, SharedPtr.AddStrongRef,
    BaseBlock.AddStrongRef, upd_apply]

theorem MakeShared_weak_heap (h : Heap) :
    (MakeShared_weak h).1.next = h.next + 1 ∧
    (∀ x, x ≠ h.next → (MakeShared_weak h).1.blocks x = h.blocks x) ∧
    (MakeShared_weak h).1.blocks h.next =
      ⟨BlockKind.Block, 1, 0, Addr.null, Addr.storage h.next, 0⟩ ∧
    (MakeShared_weak h).1.dtors = h.dtors ∧
    (MakeShared_weak h).1.weak_this_ = upd h.weak_this_ (Addr.storage h.next) ⟨Addr.null, none⟩ ∧
    (MakeShared_weak h).1.stuck = h.stuck ∧
    (MakeShared_weak h).2 = ⟨some h.next, Addr.storage h.next⟩ := by
  simp +contextual [MakeShared_weak, Heap.newBlock, SharedPtr.AddStrongRef,
    BaseBlock.AddStrongRef, upd_apply, SharedPtr.move, SharedPtr.dtor_weak, SharedPtr.CLear,
    SharedPtr.DecStrongRef, Block.GetPtr]

theorem Inv.allocRaw {P : Prop} {used : List Addr} {s : State} (hi : Inv P used s) (a : Addr)
    (ha : P → a = Addr.null ∨ ∃ n, a = Addr.raw n ∧ Addr.raw n ∉ used)
    (sp' : List (Option SharedPtr))
    (hcount : ∀ x, sp'.countP (refS x) =
      s.sp.countP (refS x) + (if x = s.heap.next then 1 else 0)) :
    Inv P (a :: used) ⟨(SharedPtr.ofRaw_weak s.heap a).1, sp', s.wp⟩ := by
  obtain ⟨r1, r2, r3, r4, r5, r6, _⟩ := ofRaw_weak_heap s.heap a
  apply HInv.alloc (a :: used) hi
  · intro x hx; exact List.mem_cons_of_mem _ hx
  · exact r1
  · exact r2
  · intro x
    show sp'.countP (refS x) = _
    rw [hcount x]
    by_cases hx : x = s.heap.next
    · subst hx
      have := hi.out_s s.heap.next (le_refl _)
      simp only [State.liveS] at this
      simp [this]
    · simp [hx, State.liveS]
  · intro x; rfl
  · simp [r3]
  · simp [r3]
  · simp [r3]
  · simp [r3]
  · simp [r3]
  · intro hP _
    simp only [r3]
    rcases ha hP with h0 | ⟨n, h1, h2⟩
    · exact Or.inl h0
    · exact Or.inr ⟨n, h1, by simp [h1], h2⟩
  · exact r4
  · intro x; simp only [r5]; exact hi.slots x
  · simp only [r6]; exact hi.not_stuck

theorem Inv.allocFused {P : Prop} {used : List Addr} {s : State} (hi : Inv P used s)
    (sp' : List (Option SharedPtr))
    (hcount : ∀ x, sp'.countP (refS x) =
      s.sp.countP (refS x) + (if x = s.heap.next then 1 else 0)) :
    Inv P used ⟨(MakeShared_weak s.heap).1, sp', s.wp⟩ := by
  obtain ⟨r1, r2, r3, r4, r5, r6, _⟩ := MakeShared_weak_heap s.heap
  apply HInv.alloc used hi
  · intro x hx; exact hx
  · exact r1
  · exact r2
  · intro x
    show sp'.countP (refS x) = _
    rw [hcount x]
    by_cases hx : x = s.heap.next
    · subst hx
      have := hi.out_s s.heap.next (le_refl _)
      simp only [State.liveS] at this
      simp [this]
    · simp [hx, State.liveS]
  · intro x; rfl
  · simp [r3]
  · simp [r3]
  · simp [r3]
  · simp [r3]
  · simp [r3]
  · simp [r3]
  · exact r4
  · intro x
    simp only [r5, upd_apply]
    split_ifs
    · rfl
    · exact hi.slots x
  · simp only [r6]; exact hi.not_stuck

/-! ## Every operation preserves consistency -/

theorem refS_some' (x : Nat) (p : SharedPtr) :
    refS x (some p) = decide (p.block_ = some x) := rfl

theorem refW_some' (x : Nat) (w : WeakPtr) :
    refW x (some w) = decide (w.block_ = some x) := rfl

theorem State.getS_spec (s : State) (i : Nat) (p : SharedPtr) (h : s.getS i = some p) :
    ∃ hi : i < s.sp.length, s.sp[i] = some p := getD_none_eq_some _ _ _ h

theorem State.getW_spec (s : State) (i : Nat) (w : WeakPtr) (h : s.getW i = some w) :
    ∃ hi : i < s.wp.length, s.wp[i] = some w := getD_none_eq_some _ _ _ h

theorem State.liveS_of_get (s : State) (i : Nat) (p : SharedPtr) (h : s.getS i = some p)
    (b : Nat) (hb : p.block_ = some b) : 1 ≤ s.liveS b := by
  obtain ⟨hi, hp⟩ := s.getS_spec i p h
  exact countP_pos_of_getElem _ _ i hi (by rw [hp]; simp [refS_some', hb])

theorem State.liveW_of_get (s : State) (i : Nat) (w : WeakPtr) (h : s.getW i = some w)
    (b : Nat) (hb : w.block_ = some b) : 1 ≤ s.liveW b := by
  obtain ⟨hi, hp⟩ := s.getW_spec i w h
  exact countP_pos_of_getElem _ _ i hi (by rw [hp]; simp [refW_some', hb])

theorem State.countS_set (s : State) (i : Nat) (p : SharedPtr) (h : s.getS i = some p)
    (o : Option SharedPtr) (x : Nat) :
    (s.sp.set i o).countP (refS x) + (refS x (some p)).toNat =
      s.sp.countP (refS x) + (refS x o).toNat := by
  obtain ⟨hi, hp⟩ := s.getS_spec i p h
  have := countP_set_toNat (refS x) s.sp i o hi
  rw [hp] at this; exact this

theorem State.countW_set (s : State) (i : Nat) (w : WeakPtr) (h : s.getW i = some w)
    (o : Option WeakPtr) (x : Nat) :
    (s.wp.set i o).countP (refW x) + (refW x (some w)).toNat =
      s.wp.countP (refW x) + (refW x o).toNat := by
  obtain ⟨hi, hp⟩ := s.getW_spec i w h
  have := countP_set_toNat (refW x) s.wp i o hi
  rw [hp] at this; exact this

theorem State.getS_set_ne (s : State) (i j : Nat) (o : Option SharedPtr) (hij : i ≠ j)
    (h : Heap) : (State.mk h (s.sp.set i o) s.wp).getS j = s.getS j := by
  simp [State.getS, List.getD_eq_getElem?_getD, List.getElem?_set_ne hij]

theorem State.getW_set_ne (s : State) (i j : Nat) (o : Option WeakPtr) (hij : i ≠ j)
    (h : Heap) : (State.mk h s.sp (s.wp.set i o)).getW j = s.getW j := by
  simp [State.getW, List.getD_eq_getElem?_getD, List.getElem?_set_ne hij]

theorem State.getS_set_eq (s : State) (i : Nat) (p q : SharedPtr) (hp : s.getS i = some p)
    (h : Heap) : (State.mk h (s.sp.set i (some q)) s.wp).getS i = some q := by
  obtain ⟨hi, _⟩ := s.getS_spec i p hp
  simp [State.getS, List.getD_eq_getElem?_getD, List.getElem?_set_self hi]

theorem State.getW_set_eq (s : State) (i : Nat) (p q : WeakPtr) (hp : s.getW i = some p)
    (h : Heap) : (State.mk h s.sp (s.wp.set i (some q))).getW i = some q := by
  obtain ⟨hi, _⟩ := s.getW_spec i p hp
  simp [State.getW, List.getD_eq_getElem?_getD, List.getElem?_set_self hi]

theorem Inv.spDefault {P : Prop} {used : List Addr} {s : State} (hi : Inv P used s) :
    Inv P used (step s .spDefault) := by
  apply hi.store
  · intro x; rw [countP_push_toNat]; simp [SharedPtr.default]
  · intro x; rfl

theorem Addr.ofNew_cases (r : Option Nat) (used : List Addr)
    (hr : ∀ n, r = some n → Addr.raw n ∉ used) :
    Addr.ofNew r = Addr.null ∨ ∃ n, Addr.ofNew r = Addr.raw n ∧ Addr.raw n ∉ used := by
  cases r with
  | none => exact Or.inl rfl
  | some n => exact Or.inr ⟨n, rfl, hr n rfl⟩

theorem Inv.spRaw {P : Prop} {used : List Addr} {s : State} (hi : Inv P used s)
    (r : Option Nat) (hr : P → ∀ n, r = some n → Addr.raw n ∉ used) :
    Inv P (Addr.ofNew r :: used) (step s (.spRaw r)) := by
  apply hi.allocRaw (Addr.ofNew r) (fun hP => Addr.ofNew_cases r used (hr hP))
  intro x
  rw [countP_push_toNat, (ofRaw_weak_heap s.heap (Addr.ofNew r)).2.2.2.2.2.2]
  by_cases hx : x = s.heap.next
  · simp [hx]
  · have : ¬ s.heap.next = x := fun e => hx e.symm
    simp [hx, this]

theorem Inv.spMake {P : Prop} {used : List Addr} {s : State} (hi : Inv P used s) :
    Inv P used (step s .spMake) := by
  apply hi.allocFused
  intro x
  rw [countP_push_toNat, (MakeShared_weak_heap s.heap).2.2.2.2.2.2]
  by_cases hx : x = s.heap.next
  · simp [hx]
  · have : ¬ s.heap.next = x := fun e => hx e.symm
    simp [hx, this]

theorem Inv.spCopy {P : Prop} {used : List Addr} {s : State} (hi : Inv P used s) (j : Nat) :
    Inv P used (step s (.spCopy j)) := by
  simp only [step]
  cases hq : s.getS j with
  | none => exact hi
  | some q =>
    simp only [SharedPtr.copy, State.pushS]
    split_ifs with hf
    · apply hi.acquireS
      · intro b hb; exact s.liveS_of_get j q hq b hb
      · intro x; rw [countP_push_toNat]
    · apply hi.store
      · intro x; rw [countP_push_toNat]; simp
      · intro x; rfl

theorem Inv.spMove {P : Prop} {used : List Addr} {s : State} (hi : Inv P used s) (j : Nat) :
    Inv P used (step s (.spMove j)) := by
  simp only [step]
  cases hq : s.getS j with
  | none => exact hi
  | some q =>
    apply hi.store
    · intro x
      have := s.countS_set j q hq (some ⟨none, Addr.null⟩) x
      simp only [SharedPtr.move]
      rw [countP_push_toNat]
      simp [refS_some'] at this ⊢
      omega
    · intro x; rfl

theorem Inv.spAlias {P : Prop} {used : List Addr} {s : State} (hi : Inv P used s) (j : Nat) (a : Addr) :
    Inv P used (step s (.spAlias j a)) := by
  simp only [step]
  cases hq : s.getS j with
  | none => exact hi
  | some q =>
    simp only [SharedPtr.alias, State.pushS]
    apply hi.acquireS
    · intro b hb; exact s.liveS_of_get j q hq b hb
    · intro x; rw [countP_push_toNat]

theorem Inv.spPromote {P : Prop} {used : List Addr} {s : State} (hi : Inv P used s) (w : Nat) :
    Inv P used (step s (.spPromote w)) := by
  simp only [step]
  cases hv : s.getW w with
  | none => exact hi
  | some v =>
    simp only [SharedPtr.ofWeak]
    split_ifs with he
    · exact hi
    · simp only [State.pushS, WeakPtr.GetBlock, WeakPtr.GetField]
      apply hi.acquireS
      · intro b hb
        simp only at hb
        have hlw := s.liveW_of_get w v hv b hb
        have hlt := hi.blockW_lt b hlw
        have hs := hi.strong_eq b hlt
        simp [WeakPtr.Expired, hb, BaseBlock.IsEmpty] at he
        have : (s.liveS b : Int) ≠ 0 := by rw [← hs]; exact he
        have : s.liveS b ≠ 0 := by exact_mod_cast this
        omega
      · intro x; rw [countP_push_toNat]

theorem Inv.spAssign {P : Prop} {used : List Addr} {s : State} (hi : Inv P used s) (i j : Nat) :
    Inv P used (step s (.spAssign i j)) := by
  simp only [step]
  cases hp : s.getS i with
  | none => exact hi
  | some p =>
    cases hq : s.getS j with
    | none => exact hi
    | some q =>
      simp only
      have hkeep : Inv P used ⟨s.heap, s.sp.set i (some p), s.wp⟩ := by
        apply hi.store
        · intro x
          have := s.countS_set i p hp (some p) x
          omega
        · intro x; rfl
      split_ifs with hij
      · simp only [SharedPtr.assignSelf, State.putS, ne_eq, not_true_eq_false, if_false]
        exact hkeep
      · simp only [SharedPtr.assign, State.putS]
        split_ifs with hf
        · -- release the old block, then take a reference to the new one
          have h1 : Inv P used ⟨s.heap.release p, s.sp.set i (some ⟨none, Addr.null⟩), s.wp⟩ := by
            apply hi.releaseS p
            intro x
            have := s.countS_set i p hp (some ⟨none, Addr.null⟩) x
            simp at this ⊢
            omega
          have hq1 : (State.mk (s.heap.release p) (s.sp.set i (some ⟨none, Addr.null⟩)) s.wp).getS j
              = some q := by
            rw [State.getS_set_ne s i j _ hij]; exact hq
          have h2 := h1.acquireS ⟨q.block_, q.field_⟩ (s.sp.set i (some ⟨q.block_, q.field_⟩))
            (by intro b hb; exact State.liveS_of_get _ j q hq1 b hb)
            (by
              intro x
              have e1 := s.countS_set i p hp (some ⟨none, Addr.null⟩) x
              have e2 := s.countS_set i p hp (some ⟨q.block_, q.field_⟩) x
              simp at e1 e2 ⊢
              omega)
          exact h2
        · exact hkeep

theorem Inv.spMoveAssign {P : Prop} {used : List Addr} {s : State} (hi : Inv P used s) (i j : Nat) :
    Inv P used (step s (.spMoveAssign i j)) := by
  simp only [step]
  cases hp : s.getS i with
  | none => exact hi
  | some p =>
    cases hq : s.getS j with
    | none => exact hi
    | some q =>
      simp only
      have h1 : Inv P used ⟨s.heap.release p, s.sp.set i (some ⟨none, Addr.null⟩), s.wp⟩ := by
        apply hi.releaseS p
        intro x
        have := s.countS_set i p hp (some ⟨none, Addr.null⟩) x
        simp at this ⊢
        omega
      split_ifs with hij
      · exact h1
      · simp only [SharedPtr.moveAssign]
        have hq1 : (State.mk (s.heap.release p) (s.sp.set i (some ⟨none, Addr.null⟩)) s.wp).getS j
            = some q := by
          rw [State.getS_set_ne s i j _ hij]; exact hq
        have hq2 : (State.mk (s.heap.release p) (s.sp.set i (some ⟨q.block_, q.field_⟩)) s.wp).getS j
            = some q := by
          rw [State.getS_set_ne s i j _ hij]; exact hq
        apply h1.store
        · intro x
          have e1 := s.countS_set i p hp (some ⟨none, Addr.null⟩) x
          have e2 := s.countS_set i p hp (some ⟨q.block_, q.field_⟩) x
          have e3 := State.countS_set _ j q hq2 (some ⟨none, Addr.null⟩) x
          simp [refS_some'] at e1 e2 e3 ⊢
          omega
        · intro x; rfl

theorem Inv.spReset {P : Prop} {used : List Addr} {s : State} (hi : Inv P used s) (i : Nat) :
    Inv P used (step s (.spReset i)) := by
  simp only [step]
  cases hp : s.getS i with
  | none => exact hi
  | some p =>
    apply hi.releaseS p
    intro x
    have := s.countS_set i p hp (some ⟨none, Addr.null⟩) x
    simp [SharedPtr.Reset_weak] at this ⊢
    omega

theorem Inv.spDtor {P : Prop} {used : List Addr} {s : State} (hi : Inv P used s) (i : Nat) :
    Inv P used (step s (.spDtor i)) := by
  simp only [step]
  cases hp : s.getS i with
  | none => exact hi
  | some p =>
    apply hi.releaseS p
    intro x
    have := s.countS_set i p hp none x
    simp at this ⊢
    omega

theorem Inv.spSwap {P : Prop} {used : List Addr} {s : State} (hi : Inv P used s) (i j : Nat) :
    Inv P used (step s (.spSwap i j)) := by
  simp only [step]
  cases hp : s.getS i with
  | none => exact hi
  | some p =>
    cases hq : s.getS j with
    | none => exact hi
    | some q =>
      simp only
      split_ifs with hij
      · exact hi
      · simp only [SharedPtr.Swap]
        have hq2 : (State.mk s.heap (s.sp.set i (some ⟨q.block_, q.field_⟩)) s.wp).getS j
            = some q := by
          rw [State.getS_set_ne s i j _ hij]; exact hq
        apply hi.store
        · intro x
          have e2 := s.countS_set i p hp (some ⟨q.block_, q.field_⟩) x
          have e3 := State.countS_set _ j q hq2 (some ⟨p.block_, p.field_⟩) x
          simp [refS_some'] at e2 e3 ⊢
          omega
        · intro x; rfl

theorem ResetRaw_eq (h : Heap) (p : SharedPtr) (a : Addr) :
    SharedPtr.ResetRaw h p a = SharedPtr.ofRaw_weak (h.release p) a := rfl

theorem Inv.spResetRaw {P : Prop} {used : List Addr} {s : State} (hi : Inv P used s) (i : Nat)
    (r : Option Nat) (hr : P → ∀ n, r = some n → Addr.raw n ∉ used) :
    Inv P (Addr.ofNew r :: used) (step s (.spResetRaw i r)) := by
  have ha := fun hP => Addr.ofNew_cases r used (hr hP)
  simp only [step]
  generalize Addr.ofNew r = a at ha ⊢
  cases hp : s.getS i with
  | none => exact hi.mono (fun x hx => List.mem_cons_of_mem _ hx)
  | some p =>
    simp only [State.putS, ResetRaw_eq]
    have h1 : Inv P used ⟨s.heap.release p, s.sp.set i (some ⟨none, Addr.null⟩), s.wp⟩ := by
      apply hi.releaseS p
      intro x
      have := s.countS_set i p hp (some ⟨none, Addr.null⟩) x
      simp at this ⊢
      omega
    have h2 := h1.allocRaw a ha
      (s.sp.set i (some (SharedPtr.ofRaw_weak (s.heap.release p) a).2)) (by
        intro x
        have e1 := s.countS_set i p hp (some ⟨none, Addr.null⟩) x
        have e2 := s.countS_set i p hp (some (SharedPtr.ofRaw_weak (s.heap.release p) a).2) x
        rw [(ofRaw_weak_heap (s.heap.release p) a).2.2.2.2.2.2] at e2 ⊢
        simp only
        by_cases hx : x = (s.heap.release p).next
        · have : (s.heap.release p).next = x := hx.symm
          simp [hx] at e1 e2 ⊢
          simp [this] at e1 e2 ⊢
          omega
        · have : ¬ (s.heap.release p).next = x := fun e => hx e.symm
          simp [hx, this] at e1 e2 ⊢
          omega)
    exact h2

theorem Inv.wpDefault {P : Prop} {used : List Addr} {s : State} (hi : Inv P used s) :
    Inv P used (step s .wpDefault) := by
  apply hi.store
  · intro x; rfl
  · intro x; rw [countP_push_toNat]; simp [WeakPtr.default]

theorem Inv.wpCopy {P : Prop} {used : List Addr} {s : State} (hi : Inv P used s) (v : Nat) :
    Inv P used (step s (.wpCopy v)) := by
  simp only [step]
  cases hx : s.getW v with
  | none => exact hi
  | some x =>
    simp only [WeakPtr.copy, State.pushW]
    apply hi.acquireW
    · intro b hb; exact Or.inr (s.liveW_of_get v x hx b hb)
    · intro y; rw [countP_push_toNat]

theorem Inv.wpMove {P : Prop} {used : List Addr} {s : State} (hi : Inv P used s) (v : Nat) :
    Inv P used (step s (.wpMove v)) := by
  simp only [step]
  cases hx : s.getW v with
  | none => exact hi
  | some x =>
    apply hi.store
    · intro y; rfl
    · intro y
      have := s.countW_set v x hx (some ⟨Addr.null, none⟩) y
      simp only [WeakPtr.move]
      rw [countP_push_toNat]
      simp [refW_some'] at this ⊢
      omega

theorem Inv.wpOfShared {P : Prop} {used : List Addr} {s : State} (hi : Inv P used s) (j : Nat) :
    Inv P used (step s (.wpOfShared j)) := by
  simp only [step]
  cases hq : s.getS j with
  | none => exact hi
  | some q =>
    simp only [WeakPtr.ofShared, State.pushW]
    apply hi.acquireW
    · intro b hb; exact Or.inl (s.liveS_of_get j q hq b hb)
    · intro y; rw [countP_push_toNat]

theorem Inv.wpRelease {P : Prop} {used : List Addr} {s : State} (hi : Inv P used s) (w : Nat)
    (x : WeakPtr) (hx : s.getW w = some x) (o : Option WeakPtr) (ho : ∀ b, refW b o = false) :
    Inv P used ⟨(x.DecWeakRef s.heap).1, s.sp, s.wp.set w o⟩ := by
  apply (hi.dropWeak x _ _).1
  intro y
  have := s.countW_set w x hx o y
  rw [ho y] at this
  simpa using this

theorem Inv.wpReset {P : Prop} {used : List Addr} {s : State} (hi : Inv P used s) (w : Nat) :
    Inv P used (step s (.wpReset w)) := by
  simp only [step]
  cases hx : s.getW w with
  | none => exact hi
  | some x => exact hi.wpRelease w x hx (some ⟨Addr.null, none⟩) (by simp)

theorem Inv.wpDtor {P : Prop} {used : List Addr} {s : State} (hi : Inv P used s) (w : Nat) :
    Inv P used (step s (.wpDtor w)) := by
  simp only [step]
  cases hx : s.getW w with
  | none => exact hi
  | some x => exact hi.wpRelease w x hx none (by simp)

theorem Inv.wpAssignShared {P : Prop} {used : List Addr} {s : State} (hi : Inv P used s) (w j : Nat) :
    Inv P used (step s (.wpAssignShared w j)) := by
  simp only [step]
  cases hx : s.getW w with
  | none => exact hi
  | some x =>
    cases hq : s.getS j with
    | none => exact hi
    | some q =>
      simp only [WeakPtr.assignShared, State.putW]
      have h1 := hi.wpRelease w x hx (some ⟨Addr.null, none⟩) (by simp)
      have h2 := h1.acquireW ⟨q.field_, q.block_⟩ (s.wp.set w (some ⟨q.field_, q.block_⟩))
        (by intro b hb; exact Or.inl (s.liveS_of_get j q hq b hb))
        (by
          intro y
          have e1 := s.countW_set w x hx (some ⟨Addr.null, none⟩) y
          have e2 := s.countW_set w x hx (some ⟨q.field_, q.block_⟩) y
          simp at e1 e2 ⊢
          omega)
      exact h2

theorem Inv.wpAssign {P : Prop} {used : List Addr} {s : State} (hi : Inv P used s) (w v : Nat) :
    Inv P used (step s (.wpAssign w v)) := by
  simp only [step]
  cases hx : s.getW w with
  | none => exact hi
  | some x =>
    cases hy : s.getW v with
    | none => exact hi
    | some y =>
      simp only
      have h1 := hi.wpRelease w x hx (some ⟨Addr.null, none⟩) (by simp)
      split_ifs with hwv
      · -- self-assignment
        simp only [WeakPtr.assignSelf, State.putW]
        have hr := (hi.dropWeak x (s.wp.set w (some ⟨Addr.null, none⟩)) (by
          intro z
          have := s.countW_set w x hx (some ⟨Addr.null, none⟩) z
          simpa using this)).2
        rcases hr with ⟨hr, hpos⟩ | hr
        · rw [hr]
          have h2 := h1.acquireW ⟨x.field_, x.block_⟩ (s.wp.set w (some ⟨x.field_, x.block_⟩))
            (by intro b hb; exact hpos b hb)
            (by
              intro z
              have e1 := s.countW_set w x hx (some ⟨Addr.null, none⟩) z
              have e2 := s.countW_set w x hx (some ⟨x.field_, x.block_⟩) z
              simp at e1 e2 ⊢
              omega)
          exact h2
        · rw [hr]
          exact h1
      · simp only [WeakPtr.assign, State.putW]
        have hy1 : (State.mk (x.DecWeakRef s.heap).1 s.sp
            (s.wp.set w (some ⟨Addr.null, none⟩))).getW v = some y := by
          rw [State.getW_set_ne s w v _ hwv]; exact hy
        have h2 := h1.acquireW ⟨y.field_, y.block_⟩ (s.wp.set w (some ⟨y.field_, y.block_⟩))
          (by intro b hb; exact Or.inr (State.liveW_of_get _ v y hy1 b hb))
          (by
            intro z
            have e1 := s.countW_set w x hx (some ⟨Addr.null, none⟩) z
            have e2 := s.countW_set w x hx (some ⟨y.field_, y.block_⟩) z
            simp at e1 e2 ⊢
            omega)
        exact h2

theorem Inv.wpMoveAssign {P : Prop} {used : List Addr} {s : State} (hi : Inv P used s) (w v : Nat) :
    Inv P used (step s (.wpMoveAssign w v)) := by
  simp only [step]
  cases hx : s.getW w with
  | none => exact hi
  | some x =>
    cases hy : s.getW v with
    | none => exact hi
    | some y =>
      simp only
      have h1 := hi.wpRelease w x hx (some ⟨Addr.null, none⟩) (by simp)
      split_ifs with hwv
      · exact h1
      · simp only [WeakPtr.moveAssign]
        have hy2 : (State.mk (x.DecWeakRef s.heap).1 s.sp
            (s.wp.set w (some ⟨y.field_, y.block_⟩))).getW v = some y := by
          rw [State.getW_set_ne s w v _ hwv]; exact hy
        apply h1.store
        · intro z; rfl
        · intro z
          have e1 := s.countW_set w x hx (some ⟨Addr.null, none⟩) z
          have e2 := s.countW_set w x hx (some ⟨y.field_, y.block_⟩) z
          have e3 := State.countW_set _ v y hy2 (some ⟨Addr.null, none⟩) z
          simp [refW_some'] at e1 e2 e3 ⊢
          omega

theorem Inv.wpSwap {P : Prop} {used : List Addr} {s : State} (hi : Inv P used s) (w v : Nat) :
    Inv P used (step s (.wpSwap w v)) := by
  simp only [step]
  cases hx : s.getW w with
  | none => exact hi
  | some x =>
    cases hy : s.getW v with
    | none => exact hi
    | some y =>
      simp only
      split_ifs with hwv
      · exact hi
      · simp only [WeakPtr.Swap]
        have hy2 : (State.mk s.heap s.sp (s.wp.set w (some ⟨x.field_, y.block_⟩))).getW v
            = some y := by
          rw [State.getW_set_ne s w v _ hwv]; exact hy
        apply hi.store
        · intro z; rfl
        · intro z
          have e2 := s.countW_set w x hx (some ⟨x.field_, y.block_⟩) z
          have e3 := State.countW_set _ v y hy2 (some ⟨y.field_, x.block_⟩) z
          simp [refW_some'] at e2 e3 ⊢
          omega

theorem WeakPtr.Lock_eq (h : Heap) (w : WeakPtr) :
    w.Lock h =
      if w.Expired h then (h, ⟨none, Addr.null⟩)
      else (SharedPtr.AddStrongRef h ⟨w.block_, w.field_⟩, ⟨w.block_, w.field_⟩) := by
  rcases w with ⟨f, blk⟩
  cases blk with
  | none => rfl
  | some b =>
    by_cases he : (h.blocks b).IsEmpty = true
    · simp [WeakPtr.Lock, WeakPtr.Expired, he, SharedPtr.move, SharedPtr.dtor, SharedPtr.Reset,
        SharedPtr.DecStrongRef, SharedPtr.default]
    · simp [WeakPtr.Lock, WeakPtr.Expired, he, SharedPtr.move, SharedPtr.dtor, SharedPtr.Reset,
        SharedPtr.DecStrongRef]

theorem Inv.wpLock {P : Prop} {used : List Addr} {s : State} (hi : Inv P used s) (w : Nat) :
    Inv P used (step s (.wpLock w)) := by
  simp only [step]
  cases hv : s.getW w with
  | none => exact hi
  | some v =>
    simp only [State.pushS, WeakPtr.Lock_eq]
    split_ifs with he
    · apply hi.store
      · intro x; rw [countP_push_toNat]; simp
      · intro x; rfl
    · apply hi.acquireS
      · intro b hb
        simp only at hb
        have hlw := s.liveW_of_get w v hv b hb
        have hlt := hi.blockW_lt b hlw
        have hs := hi.strong_eq b hlt
        simp [WeakPtr.Expired, hb, BaseBlock.IsEmpty] at he
        have : (s.liveS b : Int) ≠ 0 := by rw [← hs]; exact he
        have : s.liveS b ≠ 0 := by exact_mod_cast this
        omega
      · intro x; rw [countP_push_toNat]

theorem upd_upd {α β : Type} [DecidableEq α] (f : α → β) (a : α) (v w : β) :
    upd (upd f a v) a w = upd f a w := by
  funext x; simp only [upd]; split_ifs <;> rfl

theorem upd_self {α β : Type} [DecidableEq α] (f : α → β) (a : α) : upd f a (f a) = f := by
  funext x
  simp only [upd]
  split_ifs with hx
  · rw [hx]
  · rfl

/-- On a heap without populated self-references, `Reset()` of shared-from-this/shared.h
(with the temporary weak reference) leaves exactly what `Reset()` of weak/shared.h
leaves. -/
theorem SharedPtr.Reset_eq_Reset_weak (h : Heap) (p : SharedPtr)
    (hs : ∀ a, (h.weak_this_ a).block_ = none) : p.Reset h = p.Reset_weak h := by
  rcases p with ⟨blk, f⟩
  cases blk with
  | none => rfl
  | some b =>
    rcases hk : (h.blocks b).kind with _ | _ <;>
    by_cases hz : (h.blocks b).strong_ref_counter - 1 = 0 <;>
    by_cases hp : (h.blocks b).ptr_ = Addr.null <;>
    by_cases hw : (h.blocks b).weak_reaf_counter = 0 <;>
    simp [SharedPtr.Reset, SharedPtr.Reset_weak, SharedPtr.CLear, SharedPtr.DecStrongRef,
      Heap.DecStrongRef, ControlBlock.DecStrongRef, Block.DecStrongRef, Heap.deletePointee,
      Heap.deleteBlock, deleteBlockWith, BaseBlock.DecStrongRef, BaseBlock.IsEmpty,
      BaseBlock.WeakCount, BaseBlock.AddWeakRef, BaseBlock.DecWeakRef, Heap.DecWeakRef, hk, hz,
      hp, hw, hs, Heap.fuel, runDtor_of_slot_none, Heap.setSlot, Heap.modify, upd_upd,
      Block.GetPtr]

theorem SharedPtr.ofRaw_false (h : Heap) (a : Addr) :
    SharedPtr.ofRaw false h a = SharedPtr.ofRaw_weak h a := rfl

theorem MakeShared_false (h : Heap) : MakeShared false h = MakeShared_weak h := by
  simp [MakeShared, MakeShared_weak, SharedPtr.Assign, SharedPtr.move, SharedPtr.dtor,
    SharedPtr.dtor_weak, SharedPtr.Reset, SharedPtr.CLear, SharedPtr.DecStrongRef]

theorem step_sftRaw (s : State) (r : Option Nat) : step s (.sftRaw r) = step s (.spRaw r) := rfl

theorem step_sftMake (s : State) : step s .sftMake = step s .spMake := by
  simp only [step, MakeShared_false]

theorem step_sftReset (s : State) (i : Nat) (hs : ∀ a, (s.heap.weak_this_ a).block_ = none) :
    step s (.sftReset i) = step s (.spReset i) := by
  simp only [step]
  cases s.getS i with
  | none => rfl
  | some p => simp only [SharedPtr.Reset_eq_Reset_weak s.heap p hs]

theorem step_sftDtor (s : State) (i : Nat) (hs : ∀ a, (s.heap.weak_this_ a).block_ = none) :
    step s (.sftDtor i) = step s (.spDtor i) := by
  simp only [step]
  cases s.getS i with
  | none => rfl
  | some p =>
    simp only [SharedPtr.dtor, SharedPtr.Reset_eq_Reset_weak s.heap p hs]
    rfl

theorem Inv.init (P : Prop) : Inv P [] State.init := by
  constructor <;> simp [State.init, Heap.init, State.liveS, State.liveW]

theorem Inv.step {P : Prop} {used : List Addr} {s : State} (hi : Inv P used s) (op : Op)
    (hf : P → ∀ n, n ∈ handed [op] → Addr.raw n ∉ used) :
    Inv P (op.gives ++ used) (step s op) := by
  cases op with
  | spDefault => exact hi.spDefault
  | spRaw r => exact hi.spRaw r (fun hP n hn => hf hP n (by simp [handed, hn]))
  | spMake => exact hi.spMake
  | spCopy j => exact hi.spCopy j
  | spMove j => exact hi.spMove j
  | spAlias j a => exact hi.spAlias j a
  | spPromote w => exact hi.spPromote w
  | spAssign i j => exact hi.spAssign i j
  | spMoveAssign i j => exact hi.spMoveAssign i j
  | spReset i => exact hi.spReset i
  | spResetRaw i r =>
    exact hi.spResetRaw i r (fun hP n hn => hf hP n (by simp [handed, hn]))
  | spSwap i j => exact hi.spSwap i j
  | spDtor i => exact hi.spDtor i
  | wpDefault => exact hi.wpDefault
  | wpCopy v => exact hi.wpCopy v
  | wpMove v => exact hi.wpMove v
  | wpOfShared j => exact hi.wpOfShared j
  | wpAssignShared w j => exact hi.wpAssignShared w j
  | wpAssign w v => exact hi.wpAssign w v
  | wpMoveAssign w v => exact hi.wpMoveAssign w v
  | wpReset w => exact hi.wpReset w
  | wpSwap w v => exact hi.wpSwap w v
  | wpDtor w => exact hi.wpDtor w
  | wpLock w => exact hi.wpLock w
  | sftRaw r =>
    rw [step_sftRaw]
    exact hi.spRaw r (fun hP n hn => hf hP n (by simp [handed, hn]))
  | sftMake => rw [step_sftMake]; exact hi.spMake
  | sftReset i => rw [step_sftReset s i hi.slots]; exact hi.spReset i
  | sftDtor i => rw [step_sftDtor s i hi.slots]; exact hi.spDtor i

theorem handed_cons (op : Op) (ops : List Op) :
    handed (op :: ops) = handed [op] ++ handed ops := by
  cases op with
  | spRaw r => cases r <;> simp [handed]
  | spResetRaw i r => cases r <;> simp [handed]
  | sftRaw r => cases r <;> simp [handed]
  | _ => simp [handed]

theorem Op.gives_raw (op : Op) (n : Nat) (h : Addr.raw n ∈ op.gives) : n ∈ handed [op] := by
  cases op with
  | spRaw r => cases r <;> simp_all [Op.gives, handed, Addr.ofNew]
  | spResetRaw i r => cases r <;> simp_all [Op.gives, handed, Addr.ofNew]
  | sftRaw r => cases r <;> simp_all [Op.gives, handed, Addr.ofNew]
  | _ => simp [Op.gives] at h

theorem Inv.run {P : Prop} {used : List Addr} {s : State} (hi : Inv P used s) (ops : List Op)
    (h2 : P → (handed ops).Nodup) (h3 : P → ∀ n, n ∈ handed ops → Addr.raw n ∉ used) :
    ∃ used', Inv P used' (run s ops) := by
  induction ops generalizing used s with
  | nil => exact ⟨used, hi⟩
  | cons op ops ih =>
    rw [handed_cons] at h2 h3
    have hstep := hi.step op (fun hP n hn => h3 hP n (List.mem_append_left _ hn))
    apply ih hstep
    · intro hP
      exact (List.nodup_append.mp (h2 hP)).2.1
    · intro hP n hn hm
      rcases List.mem_append.mp hm with hm | hm
      · exact (List.nodup_append.mp (h2 hP)).2.2 (op.gives_raw n hm) hn
      · exact h3 hP n (List.mem_append_right _ hn) hm

/-- Every state a disciplined program reaches is consistent. -/
theorem reachable_inv (ops : List Op) (hd : Disciplined ops) :
    ∃ used, Inv True used (run State.init ops) :=
  (Inv.init True).run ops (fun _ => hd) (by intro _ n _; simp)

/-- Every state any program reaches is consistent as far as the blocks go. -/
theorem reachable_blocks_inv (ops : List Op) :
    ∃ used, Inv False used (run State.init ops) :=
  (Inv.init False).run ops (fun hF => hF.elim) (fun hF => hF.elim)

/-! ## Allocation is monotone -/

theorem deleteBlockWith_next (del : Heap → Addr → Heap)
    (hdel : ∀ g a, (del g a).next = g.next) (h : Heap) (b : Nat) :
    (deleteBlockWith del h b).next = h.next := by
  unfold deleteBlockWith
  rcases (h.blocks b).kind with _ | _
  · by_cases hp : (h.blocks b).ptr_ = Addr.null <;> simp [hp, hdel]
  · simp

theorem DecWeakRefWith_next (del : Heap → Addr → Heap)
    (hdel : ∀ g a, (del g a).next = g.next) (h : Heap) (w : WeakPtr) :
    (WeakPtr.DecWeakRefWith del h w).1.next = h.next := by
  unfold WeakPtr.DecWeakRefWith
  rcases w.block_ with _ | b
  · rfl
  · simp only
    split_ifs
    · simp [deleteBlockWith_next del hdel]
    · simp

@[simp] theorem runDtor_next (n : Nat) (h : Heap) (a : Addr) : (runDtor n h a).next = h.next := by
  induction n generalizing h a with
  | zero => rfl
  | succ k ih =>
    simp only [runDtor, Heap.setSlot]
    exact DecWeakRefWith_next _ (fun g x => ih g x) _ _

@[simp] theorem Heap.deletePointee_next (h : Heap) (a : Addr) :
    (h.deletePointee a).next = h.next := by
  unfold Heap.deletePointee; split_ifs <;> simp

@[simp] theorem Heap.deleteBlock_next (h : Heap) (b : Nat) : (h.deleteBlock b).next = h.next :=
  deleteBlockWith_next _ (fun g a => runDtor_next _ g a) h b

@[simp] theorem Heap.DecStrongRef_next (h : Heap) (b : Nat) :
    (h.DecStrongRef b).next = h.next := by
  unfold Heap.DecStrongRef ControlBlock.DecStrongRef Block.DecStrongRef
  rcases (h.blocks b).kind with _ | _ <;> simp only <;> split_ifs <;> simp

@[simp] theorem SharedPtr.AddStrongRef_next (h : Heap) (p : SharedPtr) :
    (p.AddStrongRef h).next = h.next := by
  unfold SharedPtr.AddStrongRef; rcases p.block_ with _ | b <;> simp

@[simp] theorem SharedPtr.decStrong_next (h : Heap) (p : SharedPtr) :
    (p.DecStrongRef h).next = h.next := by
  unfold SharedPtr.DecStrongRef; rcases p.block_ with _ | b <;> simp

@[simp] theorem SharedPtr.CLear_next (h : Heap) (p : SharedPtr) :
    (p.CLear h).1.next = h.next := by
  unfold SharedPtr.CLear
  rcases p.block_ with _ | b
  · rfl
  · simp only; split_ifs <;> simp

@[simp] theorem Heap.release_next (h : Heap) (p : SharedPtr) : (h.release p).next = h.next := by
  simp [Heap.release]

@[simp] theorem WeakPtr.AddWeakRef_next (h : Heap) (w : WeakPtr) :
    (w.AddWeakRef h).next = h.next := by
  unfold WeakPtr.AddWeakRef; rcases w.block_ with _ | b <;> simp

@[simp] theorem WeakPtr.DecWeakRef_next (h : Heap) (w : WeakPtr) :
    (w.DecWeakRef h).1.next = h.next :=
  DecWeakRefWith_next _ (fun g a => runDtor_next _ g a) h w

theorem SharedPtr.ofWeak_next (h : Heap) (w : WeakPtr) (r : Heap × SharedPtr)
    (hr : SharedPtr.ofWeak h w = .ok r) : r.1.next = h.next := by
  unfold SharedPtr.ofWeak at hr
  split_ifs at hr
  cases hr
  simp

/-! ## Blocks keep their kind and their object -/

theorem Heap.SameObjs.refl (h : Heap) : h.SameObjs h :=
  ⟨fun _ => ⟨rfl, rfl, le_refl _⟩, List.suffix_refl _⟩

theorem Heap.SameObjs.trans {h1 h2 h3 : Heap} (a : h1.SameObjs h2) (b : h2.SameObjs h3) :
    h1.SameObjs h3 :=
  ⟨fun x => ⟨(b.1 x).1.trans (a.1 x).1, (b.1 x).2.1.trans (a.1 x).2.1,
    le_trans (a.1 x).2.2 (b.1 x).2.2⟩, a.2.trans b.2⟩

theorem Heap.SameObjs.of_blocks {h1 h2 : Heap} (e : h2.blocks = h1.blocks)
    (d : h1.dtors <:+ h2.dtors) : h1.SameObjs h2 := by
  refine ⟨fun b => ?_, d⟩
  rw [e]; exact ⟨rfl, rfl, le_refl _⟩

theorem Heap.modify_sameObjs (h : Heap) (b : Nat) (f : BaseBlock → BaseBlock)
    (hf : ∀ c, (f c).obj = c.obj ∧ (f c).kind = c.kind ∧ c.deleted ≤ (f c).deleted) :
    h.SameObjs (h.modify b f) := by
  refine ⟨fun x => ?_, List.suffix_refl _⟩
  simp only [Heap.modify_blocks, upd_apply]
  split_ifs with hx
  · subst hx; exact hf _
  · exact ⟨rfl, rfl, le_refl _⟩

theorem deleteBlockWith_sameObjs (del : Heap → Addr → Heap)
    (hdel : ∀ (g : Heap) (a : Addr), g.SameObjs (del g a)) (h : Heap) (b : Nat) :
    h.SameObjs (deleteBlockWith del h b) := by
  unfold deleteBlockWith
  refine Heap.SameObjs.trans ?_
    (Heap.modify_sameObjs _ b _ (fun c => ⟨rfl, rfl, Nat.le_succ _⟩))
  rcases (h.blocks b).kind with _ | _
  · by_cases hp : (h.blocks b).ptr_ = Addr.null
    · simp only [hp, if_true]; exact Heap.SameObjs.refl h
    · simp only [hp, if_false]; exact hdel _ _
  · exact Heap.SameObjs.refl h

theorem DecWeakRefWith_sameObjs (del : Heap → Addr → Heap)
    (hdel : ∀ (g : Heap) (a : Addr), g.SameObjs (del g a)) (h : Heap) (w : WeakPtr) :
    h.SameObjs (WeakPtr.DecWeakRefWith del h w).1 := by
  unfold WeakPtr.DecWeakRefWith
  rcases w.block_ with _ | b
  · exact Heap.SameObjs.refl h
  · simp only
    have h1 := Heap.modify_sameObjs h b BaseBlock.DecWeakRef (fun c => ⟨rfl, rfl, le_refl _⟩)
    split_ifs
    · exact h1.trans (deleteBlockWith_sameObjs del hdel _ b)
    · exact h1

theorem runDtor_sameObjs (n : Nat) (h : Heap) (a : Addr) : h.SameObjs (runDtor n h a) := by
  induction n generalizing h a with
  | zero => exact Heap.SameObjs.of_blocks rfl (List.suffix_refl _)
  | succ k ih =>
    simp only [runDtor]
    have h0 : h.SameObjs ({ h with dtors := a :: h.dtors } : Heap) :=
      Heap.SameObjs.of_blocks rfl (List.suffix_cons _ _)
    have h1 := DecWeakRefWith_sameObjs (fun h2 a2 => runDtor k h2 a2) (fun g x => ih g x)
      ({ h with dtors := a :: h.dtors } : Heap) (h.weak_this_ a)
    exact (h0.trans h1).trans (Heap.SameObjs.of_blocks rfl (List.suffix_refl _))

theorem Heap.deletePointee_sameObjs (h : Heap) (a : Addr) : h.SameObjs (h.deletePointee a) := by
  unfold Heap.deletePointee
  split_ifs
  · exact Heap.SameObjs.refl h
  · exact runDtor_sameObjs _ _ _

theorem Heap.deleteBlock_sameObjs (h : Heap) (b : Nat) : h.SameObjs (h.deleteBlock b) :=
  deleteBlockWith_sameObjs _ (fun g a => runDtor_sameObjs _ g a) h b

theorem Heap.DecStrongRef_sameObjs (h : Heap) (b : Nat) : h.SameObjs (h.DecStrongRef b) := by
  have h1 := Heap.modify_sameObjs h b BaseBlock.DecStrongRef (fun c => ⟨rfl, rfl, le_refl _⟩)
  unfold Heap.DecStrongRef ControlBlock.DecStrongRef Block.DecStrongRef
  rcases (h.blocks b).kind with _ | _ <;> simp only <;> split_ifs
  · exact (h1.trans (Heap.deletePointee_sameObjs _ _)).trans
      (Heap.modify_sameObjs _ b _ (fun c => ⟨rfl, rfl, le_refl _⟩))
  · exact h1
  · exact h1.trans (runDtor_sameObjs _ _ _)
  · exact h1

theorem SharedPtr.AddStrongRef_sameObjs (h : Heap) (p : SharedPtr) :
    h.SameObjs (p.AddStrongRef h) := by
  unfold SharedPtr.AddStrongRef
  rcases p.block_ with _ | b
  · exact Heap.SameObjs.refl h
  · exact Heap.modify_sameObjs h b _ (fun c => ⟨rfl, rfl, le_refl _⟩)

theorem Heap.release_sameObjs (h : Heap) (p : SharedPtr) : h.SameObjs (h.release p) := by
  unfold Heap.release SharedPtr.CLear SharedPtr.DecStrongRef
  rcases p.block_ with _ | b
  · exact Heap.SameObjs.refl h
  · simp only
    split_ifs
    · exact (Heap.DecStrongRef_sameObjs h b).trans (Heap.deleteBlock_sameObjs _ b)
    · exact Heap.DecStrongRef_sameObjs h b

theorem WeakPtr.AddWeakRef_sameObjs (h : Heap) (w : WeakPtr) : h.SameObjs (w.AddWeakRef h) := by
  unfold WeakPtr.AddWeakRef
  rcases w.block_ with _ | b
  · exact Heap.SameObjs.refl h
  · exact Heap.modify_sameObjs h b _ (fun c => ⟨rfl, rfl, le_refl _⟩)

theorem WeakPtr.DecWeakRef_sameObjs (h : Heap) (w : WeakPtr) :
    h.SameObjs (w.DecWeakRef h).1 :=
  DecWeakRefWith_sameObjs _ (fun g a => runDtor_sameObjs _ g a) h w

theorem SharedPtr.CLear_sameObjs (h : Heap) (p : SharedPtr) : h.SameObjs (p.CLear h).1 := by
  unfold SharedPtr.CLear
  rcases p.block_ with _ | b
  · exact Heap.SameObjs.refl h
  · simp only
    split_ifs
    · exact Heap.deleteBlock_sameObjs _ b
    · exact Heap.SameObjs.refl h

theorem SharedPtr.Reset_sameObjs (h : Heap) (p : SharedPtr) : h.SameObjs (p.Reset h).1 := by
  rcases p with ⟨blk, f⟩
  cases blk with
  | none => exact Heap.SameObjs.refl h
  | some b =>
    simp only [SharedPtr.Reset, SharedPtr.DecStrongRef, Heap.DecWeakRef]
    exact (((Heap.modify_sameObjs h b BaseBlock.AddWeakRef
      (fun c => ⟨rfl, rfl, le_refl _⟩)).trans
      (Heap.DecStrongRef_sameObjs _ b)).trans
      (Heap.modify_sameObjs _ b BaseBlock.DecWeakRef (fun c => ⟨rfl, rfl, le_refl _⟩))).trans
      (SharedPtr.CLear_sameObjs _ _)

@[simp] theorem SharedPtr.Reset_next (h : Heap) (p : SharedPtr) :
    (p.Reset h).1.next = h.next := by
  rcases p with ⟨blk, f⟩
  cases blk with
  | none => rfl
  | some b => simp [SharedPtr.Reset, SharedPtr.DecStrongRef, Heap.DecWeakRef]

theorem Heap.SameObjs.extends {h1 h2 : Heap} (a : h1.SameObjs h2) (hn : h2.next = h1.next) :
    h1.Extends h2 :=
  ⟨fun b _ => a.1 b, a.2, by omega⟩

theorem Heap.Extends.same (h : Heap) : h.Extends h :=
  ⟨fun _ _ => ⟨rfl, rfl, le_refl _⟩, List.suffix_refl _, le_refl _⟩

theorem Heap.Extends.chain {h1 h2 h3 : Heap} (a : h1.Extends h2) (b : h2.Extends h3) :
    h1.Extends h3 := by
  refine ⟨fun x hx => ?_, a.2.1.trans b.2.1, le_trans a.2.2 b.2.2⟩
  have a1 := a.1 x hx
  have b1 := b.1 x (lt_of_lt_of_le hx a.2.2)
  exact ⟨b1.1.trans a1.1, b1.2.1.trans a1.2.1, le_trans a1.2.2 b1.2.2⟩

theorem ofRaw_weak_extends (h1 h : Heap) (a : Addr) (e : h1.SameObjs h) (hn : h.next = h1.next) :
    h1.Extends (SharedPtr.ofRaw_weak h a).1 := by
  obtain ⟨r1, r2, _, r4, _⟩ := ofRaw_weak_heap h a
  refine ⟨fun b hb => ?_, by rw [r4]; exact e.2, by omega⟩
  rw [r2 b (by omega)]; exact e.1 b

theorem MakeShared_weak_extends (h : Heap) : h.Extends (MakeShared_weak h).1 := by
  obtain ⟨r1, r2, _, r4, _⟩ := MakeShared_weak_heap h
  refine ⟨fun b hb => ?_, by rw [r4], by omega⟩
  rw [r2 b (by omega)]; exact ⟨rfl, rfl, le_refl _⟩

theorem SharedPtr.ofWeak_sameObjs (h : Heap) (w : WeakPtr) (r : Heap × SharedPtr)
    (hr : SharedPtr.ofWeak h w = .ok r) : h.SameObjs r.1 := by
  unfold SharedPtr.ofWeak at hr
  split_ifs at hr
  cases hr
  exact SharedPtr.AddStrongRef_sameObjs _ _

theorem step_extends (s : State) (op : Op) : s.heap.Extends (step s op).heap := by
  cases op with
  | spDefault => exact Heap.Extends.same _
  | spRaw r => exact ofRaw_weak_extends _ _ _ (Heap.SameObjs.refl _) rfl
  | spMake => exact MakeShared_weak_extends _
  | spCopy j =>
    simp only [step]; split
    · simp only [State.pushS, SharedPtr.copy]
      split_ifs
      · exact (SharedPtr.AddStrongRef_sameObjs _ _).extends (by simp)
      · exact Heap.Extends.same _
    · exact Heap.Extends.same _
  | spMove j => simp only [step]; split <;> exact Heap.Extends.same _
  | spAlias j a =>
    simp only [step]; split
    · exact (SharedPtr.AddStrongRef_sameObjs _ _).extends (by simp)
    · exact Heap.Extends.same _
  | spPromote w =>
    simp only [step]; split
    · split
      · rename_i hr
        exact (SharedPtr.ofWeak_sameObjs _ _ _ hr).extends (SharedPtr.ofWeak_next _ _ _ hr)
      · exact Heap.Extends.same _
    · exact Heap.Extends.same _
  | spAssign i j =>
    simp only [step]; split
    · split_ifs
      · simp only [State.putS, SharedPtr.assignSelf, ne_eq, not_true_eq_false, if_false]
        exact Heap.Extends.same _
      · simp only [State.putS, SharedPtr.assign]
        split_ifs
        · exact ((Heap.release_sameObjs _ _).trans (SharedPtr.AddStrongRef_sameObjs _ _)).extends (by simp)
        · exact Heap.Extends.same _
    · exact Heap.Extends.same _
  | spMoveAssign i j =>
    simp only [step]; split
    · split_ifs
      · exact (Heap.release_sameObjs _ _).extends (by simp)
      · exact (Heap.release_sameObjs _ _).extends (by simp)
    · exact Heap.Extends.same _
  | spReset i =>
    simp only [step]; split
    · exact (Heap.release_sameObjs _ _).extends (by simp)
    · exact Heap.Extends.same _
  | spResetRaw i r =>
    simp only [step]; split
    · exact ofRaw_weak_extends _ _ _ (Heap.release_sameObjs _ _) (Heap.release_next _ _)
    · exact Heap.Extends.same _
  | spSwap i j =>
    simp only [step]; split
    · split_ifs <;> exact Heap.Extends.same _
    · exact Heap.Extends.same _
  | spDtor i =>
    simp only [step]; split
    · exact (Heap.release_sameObjs _ _).extends (by simp)
    · exact Heap.Extends.same _
  | wpDefault => exact Heap.Extends.same _
  | wpCopy v =>
    simp only [step]; split
    · exact (WeakPtr.AddWeakRef_sameObjs _ _).extends (by simp)
    · exact Heap.Extends.same _
  | wpMove v => simp only [step]; split <;> exact Heap.Extends.same _
  | wpOfShared j =>
    simp only [step]; split
    · exact (WeakPtr.AddWeakRef_sameObjs _ _).extends (by simp)
    · exact Heap.Extends.same _
  | wpAssignShared w j =>
    simp only [step]; split
    · exact ((WeakPtr.DecWeakRef_sameObjs _ _).trans (WeakPtr.AddWeakRef_sameObjs _ _)).extends (by simp)
    · exact Heap.Extends.same _
  | wpAssign w v =>
    simp only [step]; split
    · split_ifs
      · exact ((WeakPtr.DecWeakRef_sameObjs _ _).trans (WeakPtr.AddWeakRef_sameObjs _ _)).extends (by simp)
      · exact ((WeakPtr.DecWeakRef_sameObjs _ _).trans (WeakPtr.AddWeakRef_sameObjs _ _)).extends (by simp)
    · exact Heap.Extends.same _
  | wpMoveAssign w v =>
    simp only [step]; split
    · split_ifs
      · exact (WeakPtr.DecWeakRef_sameObjs _ _).extends (by simp)
      · exact (WeakPtr.DecWeakRef_sameObjs _ _).extends (by simp)
    · exact Heap.Extends.same _
  | wpReset w =>
    simp only [step]; split
    · exact (WeakPtr.DecWeakRef_sameObjs _ _).extends (by simp)
    · exact Heap.Extends.same _
  | wpSwap w v =>
    simp only [step]; split
    · split_ifs <;> exact Heap.Extends.same _
    · exact Heap.Extends.same _
  | wpDtor w =>
    simp only [step]; split
    · exact (WeakPtr.DecWeakRef_sameObjs _ _).extends (by simp)
    · exact Heap.Extends.same _
  | wpLock w =>
    simp only [step]; split
    · simp only [State.pushS, WeakPtr.Lock_eq]
      split_ifs
      · exact Heap.Extends.same _
      · exact (SharedPtr.AddStrongRef_sameObjs _ _).extends (by simp)
    · exact Heap.Extends.same _
  | sftRaw r => exact ofRaw_weak_extends _ _ _ (Heap.SameObjs.refl _) rfl
  | sftMake => rw [step_sftMake]; exact MakeShared_weak_extends _
  | sftReset i =>
    simp only [step]; split
    · exact (SharedPtr.Reset_sameObjs _ _).extends (by simp [State.putS])
    · exact Heap.Extends.same _
  | sftDtor i =>
    simp only [step]; split
    · exact (SharedPtr.Reset_sameObjs _ _).extends (by simp [SharedPtr.dtor])
    · exact Heap.Extends.same _

/-! ## Programs: prefixes -/

theorem run_snoc (s : State) (ops : List Op) (op : Op) :
    run s (ops ++ [op]) = step (run s ops) op := by
  simp [run, List.foldl_append]

theorem handed_append (ops ops' : List Op) : handed (ops ++ ops') = handed ops ++ handed ops' := by
  induction ops with
  | nil => rfl
  | cons op ops ih => rw [List.cons_append, handed_cons, handed_cons op ops, ih, List.append_assoc]

theorem Disciplined.of_snoc {ops : List Op} {op : Op} (hd : Disciplined (ops ++ [op])) :
    Disciplined ops := by
  unfold Disciplined at hd ⊢
  rw [handed_append] at hd
  exact (List.nodup_append.mp hd).1

/-! ## Claims about programs of shared and weak pointers -/

/-- C1. After any program of `SharedPtr`/`WeakPtr` operations that hands no object to a
raw constructor or `Reset(T*)` twice, `UseCount()` of a live `SharedPtr` that holds a
block is the number of live `SharedPtr` objects referencing that block, and `UseCount()`
of an empty one is 0. -/
theorem C1_UseCount_counts_live_owners (ops : List Op) (hd : Disciplined ops) (i : Nat)
    (p : SharedPtr) (hp : (run State.init ops).getS i = some p) :
    p.UseCount (run State.init ops).heap =
      match p.block_ with
      | some b => (run State.init ops).liveS b
      | none => 0 := by
  obtain ⟨used, hi⟩ := reachable_inv ops hd
  rcases p with ⟨blk, f⟩
  cases blk with
  | none => rfl
  | some b =>
    have hl := State.liveS_of_get _ i _ hp b rfl
    have hs := hi.strong_eq b (hi.blockS_lt b hl)
    simp only [SharedPtr.UseCount, BaseBlock.GetCount, hs, toSizeT_natCast]

theorem C1_witness :
    Disciplined [.spRaw (some 5), .spCopy 0, .spMake, .wpOfShared 1, .spReset 0, .wpLock 0] ∧
    (run State.init [.spRaw (some 5), .spCopy 0, .spMake, .wpOfShared 1, .spReset 0,
        .wpLock 0]).getS 3 = some ⟨some 0, .raw 5⟩ ∧
    SharedPtr.UseCount (run State.init [.spRaw (some 5), .spCopy 0, .spMake, .wpOfShared 1,
        .spReset 0, .wpLock 0]).heap ⟨some 0, .raw 5⟩ =
      (run State.init [.spRaw (some 5), .spCopy 0, .spMake, .wpOfShared 1, .spReset 0,
        .wpLock 0]).liveS 0 :=
  ⟨by decide, by decide,
    C1_UseCount_counts_live_owners
      [.spRaw (some 5), .spCopy 0, .spMake, .wpOfShared 1, .spReset 0, .wpLock 0]
      (by decide) 3 ⟨some 0, .raw 5⟩ (by decide)⟩

theorem Heap.DecStrongRef_dtors (h : Heap) (c : Nat)
    (hs : ∀ a, (h.weak_this_ a).block_ = none) :
    (h.DecStrongRef c).dtors =
      if (h.blocks c).strong_ref_counter = 1 ∧ h.pointee c ≠ Addr.null then
        h.pointee c :: h.dtors
      else h.dtors := by
  have e : (h.blocks c).strong_ref_counter - 1 = 0 ↔ (h.blocks c).strong_ref_counter = 1 := by
    omega
  rcases hk : (h.blocks c).kind with _ | _ <;>
  by_cases hz : (h.blocks c).strong_ref_counter = 1 <;>
  by_cases hp : (h.blocks c).ptr_ = Addr.null <;>
  simp [Heap.DecStrongRef, ControlBlock.DecStrongRef, Block.DecStrongRef, Heap.pointee,
    Heap.deletePointee, BaseBlock.DecStrongRef, hk, hz, hp, hs, Heap.fuel, runDtor_of_slot_none,
    Heap.setSlot, Block.GetPtr, e]

theorem Heap.DecStrongRef_dtors_local (h : Heap) (c : Nat)
    (hs : (h.weak_this_ (h.pointee c)).block_ = none) :
    (h.DecStrongRef c).dtors =
      if (h.blocks c).strong_ref_counter = 1 ∧ h.pointee c ≠ Addr.null then
        h.pointee c :: h.dtors
      else h.dtors := by
  have e : (h.blocks c).strong_ref_counter - 1 = 0 ↔ (h.blocks c).strong_ref_counter = 1 := by
    omega
  rcases hk : (h.blocks c).kind with _ | _ <;>
  simp only [Heap.pointee, hk, Block.GetPtr] at hs <;>
  by_cases hz : (h.blocks c).strong_ref_counter = 1 <;>
  by_cases hp : (h.blocks c).ptr_ = Addr.null <;>
  simp [Heap.DecStrongRef, ControlBlock.DecStrongRef, Block.DecStrongRef, Heap.pointee,
    Heap.deletePointee, BaseBlock.DecStrongRef, hk, hz, hp, hs, Heap.fuel, runDtor_of_slot_none,
    Heap.setSlot, Block.GetPtr, e]

theorem Heap.DecStrongRef_then (h : Heap) (c : Nat)
    (hs : (h.weak_this_ (h.pointee c)).block_ = none)
    (h1 : (h.blocks c).strong_ref_counter = 1) :
    ((h.DecStrongRef c).DecWeakRef c).dtors = (h.DecStrongRef c).dtors ∧
    ((h.DecStrongRef c).deleteBlock c).dtors = (h.DecStrongRef c).dtors ∧
    ((h.blocks c).kind = BlockKind.ControlBlock →
      (ControlBlock.DecWeakRef_shared (ControlBlock.DecStrongRef h c) c).dtors =
        (ControlBlock.DecStrongRef h c).dtors) := by
  refine ⟨rfl, ?_, ?_⟩
  · rcases hk : (h.blocks c).kind with _ | _ <;>
    simp only [Heap.pointee, hk, Block.GetPtr] at hs <;>
    by_cases hp : (h.blocks c).ptr_ = Addr.null <;>
    simp [Heap.DecStrongRef, ControlBlock.DecStrongRef, Block.DecStrongRef,
      Heap.deletePointee, BaseBlock.DecStrongRef, hk, h1, hp, hs, Heap.fuel,
      runDtor_of_slot_none, Heap.setSlot, Block.GetPtr, Heap.deleteBlock, deleteBlockWith]
  · intro hk
    simp only [Heap.pointee, hk] at hs
    by_cases hp : (h.blocks c).ptr_ = Addr.null <;>
    by_cases hw : (h.blocks c).weak_reaf_counter - 1 = 0 <;>
    simp [ControlBlock.DecStrongRef, ControlBlock.DecWeakRef_shared,
      Heap.deletePointee, BaseBlock.DecStrongRef, BaseBlock.DecWeakRef, h1, hp, hw, hs, Heap.fuel,
      runDtor_of_slot_none, Heap.setSlot]

theorem Inv.dtorRuns_le_one {used : List Addr} {s : State} (hi : Inv True used s) (a : Addr) :
    s.heap.dtorRuns a ≤ 1 := by
  unfold Heap.dtorRuns
  by_cases ha : a ∈ s.heap.dtors
  · obtain ⟨hn, b, hb, hbo⟩ := hi.dtor_src trivial a ha
    have := hi.dtor_eq trivial b hb (by rw [hbo]; exact hn)
    rw [hbo] at this
    rw [this]; split_ifs <;> omega
  · rw [List.count_eq_zero_of_not_mem ha]; omega

/-- C2. In every state that a disciplined program of the pointer operations reaches
(the pointees of such a program hold no pointers), the object of each block has been
destroyed exactly once if the block's strong count is 0 and not at all otherwise, and
no address has been destroyed twice.  On any heap, for a block whose pointee holds no
weak reference, `DecStrongRef` runs the pointee's destructor exactly when it takes the
strong count from 1 to 0; after that, neither `DecWeakRef` (of either snapshot) nor
`delete block_` runs it again.  A pointee that holds a `WeakPtr` to its own block is
destroyed twice by the release of its last owner in weak/shared.h: after
`SharedPtr<Node> p(new Node); p->self = p;` both `p.Reset()` and the destructor of `p`
run the destructor of the object two times. -/
theorem C2_pointee_destroyed_exactly_once (ops : List Op) (hd : Disciplined ops) (b : Nat)
    (hb : b < (run State.init ops).heap.next)
    (ho : ((run State.init ops).heap.blocks b).obj ≠ Addr.null)
    (h : Heap) (c : Nat) (hs : (h.weak_this_ (h.pointee c)).block_ = none) :
    (run State.init ops).heap.dtorRuns ((run State.init ops).heap.blocks b).obj =
      (if ((run State.init ops).heap.blocks b).strong_ref_counter = 0 then 1 else 0) ∧
    (∀ a, (run State.init ops).heap.dtorRuns a ≤ 1) ∧
    (h.DecStrongRef c).dtors =
      (if (h.blocks c).strong_ref_counter = 1 ∧ h.pointee c ≠ Addr.null then
        h.pointee c :: h.dtors
      else h.dtors) ∧
    ((h.blocks c).strong_ref_counter = 1 →
      ((h.DecStrongRef c).DecWeakRef c).dtors = (h.DecStrongRef c).dtors ∧
      ((h.DecStrongRef c).deleteBlock c).dtors = (h.DecStrongRef c).dtors ∧
      ((h.blocks c).kind = BlockKind.ControlBlock →
        (ControlBlock.DecWeakRef_shared (ControlBlock.DecStrongRef h c) c).dtors =
          (ControlBlock.DecStrongRef h c).dtors)) ∧
    ((selfWeak.raw.1.blocks 0).strong_ref_counter = 1 ∧
      (selfWeak.raw.1.blocks 0).weak_reaf_counter = 1 ∧
      selfWeak.raw.1.weak_this_ (Addr.raw 7) = ⟨Addr.raw 7, some 0⟩ ∧
      selfWeak.raw.1.dtorRuns (Addr.raw 7) = 0 ∧
      (SharedPtr.Reset_weak selfWeak.raw.1 selfWeak.raw.2).1.dtorRuns (Addr.raw 7) = 2 ∧
      (SharedPtr.dtor_weak selfWeak.raw.1 selfWeak.raw.2).dtorRuns (Addr.raw 7) = 2) := by
  obtain ⟨used, hi⟩ := reachable_inv ops hd
  refine ⟨?_, hi.dtorRuns_le_one, Heap.DecStrongRef_dtors_local h c hs,
    Heap.DecStrongRef_then h c hs, by decide⟩
  have h1 := hi.dtor_eq trivial b hb ho
  have h2 := hi.strong_eq b hb
  unfold Heap.dtorRuns
  rw [h1, h2]
  by_cases h0 : (run State.init ops).liveS b = 0
  · simp [h0]
  · have : ((run State.init ops).liveS b : Int) ≠ 0 := by exact_mod_cast h0
    simp [h0, this]

theorem C2_witness :
    Disciplined sampleProgram ∧ 0 < (run State.init sampleProgram).heap.next ∧
    ((run State.init sampleProgram).heap.blocks 0).obj ≠ Addr.null ∧
    ((SharedPtr.ofRaw_weak Heap.init (Addr.raw 5)).1.weak_this_
      ((SharedPtr.ofRaw_weak Heap.init (Addr.raw 5)).1.pointee 0)).block_ = none ∧
    (run State.init sampleProgram).heap.dtorRuns (Addr.raw 5) = 1 ∧
    ((SharedPtr.ofRaw_weak Heap.init (Addr.raw 5)).1.DecStrongRef 0).dtors = [Addr.raw 5] :=
  ⟨by decide, by decide, by decide, by decide,
    (C2_pointee_destroyed_exactly_once sampleProgram (by decide) 0 (by decide) (by decide)
      (SharedPtr.ofRaw_weak Heap.init (Addr.raw 5)).1 0 (by decide)).1,
    (C2_pointee_destroyed_exactly_once sampleProgram (by decide) 0 (by decide) (by decide)
      (SharedPtr.ofRaw_weak Heap.init (Addr.raw 5)).1 0 (by decide)).2.2.1⟩

theorem run_append (s : State) (ops ops2 : List Op) :
    run s (ops ++ ops2) = run (run s ops) ops2 := by
  simp [run, List.foldl_append]

theorem run_extends (s : State) (ops : List Op) : s.heap.Extends (run s ops).heap := by
  induction ops generalizing s with
  | nil => exact Heap.Extends.same _
  | cons op ops ih => exact (step_extends s op).chain (ih (step s op))

theorem Disciplined.of_append {ops ops2 : List Op} (hd : Disciplined (ops ++ ops2)) :
    Disciplined ops := by
  unfold Disciplined at hd ⊢
  rw [handed_append] at hd
  exact (List.nodup_append.mp hd).1

/-- C3. In every state that a program of the pointer operations reaches (`ops`; the
pointees of such a program hold no pointers), both counts of every allocated block are
non-negative and the block has been freed exactly once if both counts are 0 and not at
all while either is positive; whatever the program does afterwards (`ops2`), the block
is not freed a second time and the mark of the first free is not taken back.  So a
block is freed exactly by the operation after which both counts are 0.  For a pointee
that holds a `WeakPtr` to its own block this fails in weak/shared.h: after
`SharedPtr<Node> p(new Node); p->self = p; p.Reset();` the weak count of the block is -1,
and after `auto p = MakeShared<Node>(); p->self = p; p.Reset();` the fused block has
been freed twice. -/
theorem C3_block_freed_once_when_both_counts_zero (ops ops2 : List Op) (b : Nat)
    (hb : b < (run State.init ops).heap.next) :
    0 ≤ ((run State.init ops).heap.blocks b).strong_ref_counter ∧
    0 ≤ ((run State.init ops).heap.blocks b).weak_reaf_counter ∧
    ((run State.init ops).heap.blocks b).deleted =
      (if ((run State.init ops).heap.blocks b).strong_ref_counter = 0 ∧
          ((run State.init ops).heap.blocks b).weak_reaf_counter = 0 then 1 else 0) ∧
    ((run State.init ops).heap.blocks b).deleted ≤
      ((run State.init (ops ++ ops2)).heap.blocks b).deleted ∧
    ((run State.init (ops ++ ops2)).heap.blocks b).deleted ≤ 1 ∧
    ((selfWeak.raw.1.blocks 0).strong_ref_counter = 1 ∧
      (selfWeak.raw.1.blocks 0).weak_reaf_counter = 1 ∧
      ((SharedPtr.Reset_weak selfWeak.raw.1 selfWeak.raw.2).1.blocks 0).strong_ref_counter
        = 0 ∧
      ((SharedPtr.Reset_weak selfWeak.raw.1 selfWeak.raw.2).1.blocks 0).weak_reaf_counter
        = -1 ∧
      (selfWeak.fused.1.blocks 0).strong_ref_counter = 1 ∧
      (selfWeak.fused.1.blocks 0).weak_reaf_counter = 1 ∧
      selfWeak.fused.1.weak_this_ (Addr.storage 0) = ⟨Addr.storage 0, some 0⟩ ∧
      (selfWeak.fused.1.blocks 0).deleted = 0 ∧
      ((SharedPtr.Reset_weak selfWeak.fused.1 selfWeak.fused.2).1.blocks 0).deleted = 2 ∧
      ((SharedPtr.dtor_weak selfWeak.fused.1 selfWeak.fused.2).blocks 0).deleted = 2) := by
  obtain ⟨used, hi⟩ := reachable_blocks_inv ops
  obtain ⟨used2, hi2⟩ := reachable_blocks_inv (ops ++ ops2)
  have hext := run_extends (run State.init ops) ops2
  rw [← run_append] at hext
  have h1 := hi.strong_eq b hb
  have h2 := hi.weak_eq b hb
  have h3 := hi.deleted_eq b hb
  have h4 := hi2.deleted_eq b (lt_of_lt_of_le hb hext.2.2)
  refine ⟨by rw [h1]; exact Int.natCast_nonneg _, by rw [h2]; exact Int.natCast_nonneg _, ?_,
    (hext.1 b hb).2.2, ?_, by decide⟩
  · rw [h3, h1, h2]
    by_cases hz : (run State.init ops).liveS b = 0 ∧ (run State.init ops).liveW b = 0
    · simp [hz.1, hz.2]
    · rw [if_neg hz, if_neg]
      intro hc
      exact hz ⟨by exact_mod_cast hc.1, by exact_mod_cast hc.2⟩
  · rw [h4]; split_ifs <;> omega

theorem C3_witness :
    0 < (run State.init sampleProgram).heap.next ∧
    ((run State.init sampleProgram).heap.blocks 0).deleted = 0 ∧
    ((run State.init (sampleProgram ++ [.wpReset 0])).heap.blocks 0).deleted ≤ 1 :=
  ⟨by decide,
    (C3_block_freed_once_when_both_counts_zero sampleProgram [.wpReset 0] 0 (by decide)).2.2.1,
    (C3_block_freed_once_when_both_counts_zero sampleProgram [.wpReset 0] 0
      (by decide)).2.2.2.2.1⟩

/-- C4. Take a disciplined program `ops ++ op :: ops2` and a block with a pointee that is
owned by at least one live `SharedPtr` before `op` and by none after it (`op` drops the
last of its owners).  Then the pointee has not been destroyed before `op`, has been
destroyed exactly once right after `op`, and still exactly once after `ops2`; every
`WeakPtr` that references the block afterwards reports `Expired()`, and as long as
such a `WeakPtr` is live the block has not been freed. -/
theorem C4_weak_does_not_keep_pointee_alive (ops : List Op) (op : Op) (ops2 : List Op)
    (hd : Disciplined (ops ++ op :: ops2)) (b : Nat)
    (hk : 1 ≤ (run State.init ops).liveS b)
    (h0 : (step (run State.init ops) op).liveS b = 0)
    (ho : ((run State.init ops).heap.blocks b).obj ≠ Addr.null) :
    (run State.init ops).heap.dtorRuns ((run State.init ops).heap.blocks b).obj = 0 ∧
    (step (run State.init ops) op).heap.dtorRuns ((run State.init ops).heap.blocks b).obj = 1 ∧
    (run State.init (ops ++ op :: ops2)).heap.dtorRuns
      ((run State.init ops).heap.blocks b).obj = 1 ∧
    (∀ j w, (run State.init (ops ++ op :: ops2)).getW j = some w → w.block_ = some b →
      w.Expired (run State.init (ops ++ op :: ops2)).heap = true) ∧
    (1 ≤ (run State.init (ops ++ op :: ops2)).liveW b →
      ((run State.init (ops ++ op :: ops2)).heap.blocks b).deleted = 0) := by
  have hd1 : Disciplined (ops ++ [op]) := by
    have : ops ++ op :: ops2 = (ops ++ [op]) ++ ops2 := by simp
    rw [this] at hd; exact hd.of_append
  obtain ⟨used, hi⟩ := reachable_inv ops hd1.of_append
  obtain ⟨used1, hi1⟩ := reachable_inv (ops ++ [op]) hd1
  obtain ⟨used2, hi2⟩ := reachable_inv (ops ++ op :: ops2) hd
  rw [run_snoc] at hi1
  have hb := hi.blockS_lt b hk
  have e1 := step_extends (run State.init ops) op
  have e2 := run_extends (step (run State.init ops) op) ops2
  have hrun : run State.init (ops ++ op :: ops2) = run (step (run State.init ops) op) ops2 := by
    rw [run_append]; rfl
  rw [← hrun] at e2
  have hb1 := lt_of_lt_of_le hb e1.2.2
  have hb2 := lt_of_lt_of_le hb1 e2.2.2
  have o1 := (e1.1 b hb).1
  have o2 := (e2.1 b hb1).1
  have d0 := hi.dtor_eq trivial b hb ho
  have d1 := hi1.dtor_eq trivial b hb1 (by rw [o1]; exact ho)
  have d2 := hi2.dtor_eq trivial b hb2 (by rw [o2, o1]; exact ho)
  rw [o1] at d1
  rw [o2, o1] at d2
  rw [if_neg (by omega)] at d0
  rw [if_pos h0] at d1
  have hmono : (step (run State.init ops) op).heap.dtors.count
      ((run State.init ops).heap.blocks b).obj ≤
      (run State.init (ops ++ op :: ops2)).heap.dtors.count
        ((run State.init ops).heap.blocks b).obj := e2.2.1.sublist.count_le _
  have hz2 : (run State.init (ops ++ op :: ops2)).liveS b = 0 := by
    by_contra hne
    rw [if_neg hne] at d2
    omega
  rw [if_pos hz2] at d2
  refine ⟨d0, d1, d2, ?_, ?_⟩
  · intro j w _ hwb
    have := hi2.strong_eq b hb2
    simp [WeakPtr.Expired, hwb, BaseBlock.IsEmpty, this, hz2]
  · intro hw
    rw [hi2.deleted_eq b hb2, if_neg (by omega)]

theorem C4_witness :
    Disciplined ([.spRaw (some 5), .spCopy 0, .wpOfShared 1, .spReset 0] ++
      .spDtor 1 :: [.wpLock 0]) ∧
    1 ≤ (run State.init [.spRaw (some 5), .spCopy 0, .wpOfShared 1, .spReset 0]).liveS 0 ∧
    (step (run State.init [.spRaw (some 5), .spCopy 0, .wpOfShared 1, .spReset 0])
      (.spDtor 1)).liveS 0 = 0 ∧
    (step (run State.init [.spRaw (some 5), .spCopy 0, .wpOfShared 1, .spReset 0])
      (.spDtor 1)).heap.dtorRuns (Addr.raw 5) = 1 :=
  ⟨by decide, by decide, by decide,
    (C4_weak_does_not_keep_pointee_alive
      [.spRaw (some 5), .spCopy 0, .wpOfShared 1, .spReset 0] (.spDtor 1) [.wpLock 0]
      (by decide) 0 (by decide) (by decide) (by decide)).2.1⟩

theorem SharedPtr.alias_spec (h : Heap) (o : SharedPtr) (m : Addr) (B : Nat)
    (hB : o.block_ = some B) :
    (SharedPtr.alias h o m).2.Get = m ∧ (SharedPtr.alias h o m).2.block_ = some B ∧
    ((SharedPtr.alias h o m).1.blocks B).strong_ref_counter =
      (h.blocks B).strong_ref_counter + 1 ∧
    ((SharedPtr.alias h o m).1.blocks B).weak_reaf_counter = (h.blocks B).weak_reaf_counter ∧
    (∀ x, x ≠ B → (SharedPtr.alias h o m).1.blocks x = h.blocks x) ∧
    (SharedPtr.alias h o m).1.dtors = h.dtors := by
  simp +contextual [SharedPtr.alias, SharedPtr.AddStrongRef, SharedPtr.GetBlock, hB,
    SharedPtr.Get, BaseBlock.AddStrongRef, upd_apply]

theorem handed_snoc_spDtor (ops : List Op) (i : Nat) :
    handed (ops ++ [.spDtor i]) = handed ops := by
  rw [handed_append]; simp [handed]

theorem handed_snoc_spReset (ops : List Op) (i : Nat) :
    handed (ops ++ [.spReset i]) = handed ops := by
  rw [handed_append]; simp [handed]

/-- The last owner of a block is dropped: the object of the block is destroyed. -/
theorem Inv.drop_last {used used' : List Addr} {s s' : State} (hi : Inv True used s)
    (hi' : Inv True used' s') (he : s.heap.Extends s'.heap) (B : Nat) (hl : 1 ≤ s.liveS B)
    (h0 : s'.liveS B = 0) (ho : (s.heap.blocks B).obj ≠ Addr.null) :
    s'.heap.dtorRuns (s.heap.blocks B).obj = 1 := by
  have hb := hi.blockS_lt B hl
  have hb' := lt_of_lt_of_le hb he.2.2
  have o1 := (he.1 B hb).1
  have d1 := hi'.dtor_eq trivial B hb' (by rw [o1]; exact ho)
  rw [o1, if_pos h0] at d1
  exact d1

/-- C8. The aliasing constructor `SharedPtr(o, m)` on a non-empty owner `o` with block
`B` returns a pointer with `Get() == m` on block `B` and raises the strong count of `B`
by exactly 1, touching nothing else.  In every state a disciplined program reaches, a
live `SharedPtr` on block `B` (such as the alias, whatever address it stores and
whatever happened to the other owners) means that the strong count of `B` is at least
1 and the object of `B` has not been destroyed; if it is the only owner left, resetting
or destroying it destroys the object of `B`. -/
theorem C8_alias_keeps_owner_alive (h : Heap) (o : SharedPtr) (m : Addr) (B : Nat)
    (hB : o.block_ = some B) (ops : List Op) (hd : Disciplined ops) (i : Nat)
    (al : SharedPtr) (C : Nat) (hal : (run State.init ops).getS i = some al)
    (hC : al.block_ = some C) (ho : ((run State.init ops).heap.blocks C).obj ≠ Addr.null) :
    ((SharedPtr.alias h o m).2.Get = m ∧ (SharedPtr.alias h o m).2.block_ = some B ∧
      ((SharedPtr.alias h o m).1.blocks B).strong_ref_counter =
        (h.blocks B).strong_ref_counter + 1 ∧
      ((SharedPtr.alias h o m).1.blocks B).weak_reaf_counter =
        (h.blocks B).weak_reaf_counter ∧
      (∀ x, x ≠ B → (SharedPtr.alias h o m).1.blocks x = h.blocks x) ∧
      (SharedPtr.alias h o m).1.dtors = h.dtors) ∧
    1 ≤ ((run State.init ops).heap.blocks C).strong_ref_counter ∧
    (run State.init ops).heap.dtorRuns ((run State.init ops).heap.blocks C).obj = 0 ∧
    ((run State.init ops).liveS C = 1 →
      (step (run State.init ops) (.spReset i)).heap.dtorRuns
        ((run State.init ops).heap.blocks C).obj = 1 ∧
      (step (run State.init ops) (.spDtor i)).heap.dtorRuns
        ((run State.init ops).heap.blocks C).obj = 1 ∧
      (step (run State.init ops) (.sftReset i)).heap.dtorRuns
        ((run State.init ops).heap.blocks C).obj = 1 ∧
      (step (run State.init ops) (.sftDtor i)).heap.dtorRuns
        ((run State.init ops).heap.blocks C).obj = 1) := by
  obtain ⟨used, hi⟩ := reachable_inv ops hd
  have hl := State.liveS_of_get _ i al hal C hC
  have hb := hi.blockS_lt C hl
  have hs := hi.strong_eq C hb
  have d0 := hi.dtor_eq trivial C hb ho
  rw [if_neg (by omega)] at d0
  refine ⟨SharedPtr.alias_spec h o m B hB, by rw [hs]; exact_mod_cast hl, d0, ?_⟩
  intro h1
  have hdR : Disciplined (ops ++ [.spReset i]) := by
    unfold Disciplined; rw [handed_snoc_spReset]; exact hd
  have hdD : Disciplined (ops ++ [.spDtor i]) := by
    unfold Disciplined; rw [handed_snoc_spDtor]; exact hd
  obtain ⟨u1, hiR⟩ := reachable_inv _ hdR
  obtain ⟨u2, hiD⟩ := reachable_inv _ hdD
  rw [run_snoc] at hiR hiD
  rw [step_sftReset _ i hi.slots, step_sftDtor _ i hi.slots]
  have hR : (step (run State.init ops) (.spReset i)).heap.dtorRuns
      ((run State.init ops).heap.blocks C).obj = 1 := by
    apply hi.drop_last hiR (step_extends _ _) C hl _ ho
    simp only [step, hal, State.putS, SharedPtr.Reset_weak, State.liveS]
    have := (run State.init ops).countS_set i al hal (some ⟨none, Addr.null⟩) C
    simp [refS_some', hC] at this
    simp only [State.liveS] at h1
    omega
  have hD : (step (run State.init ops) (.spDtor i)).heap.dtorRuns
      ((run State.init ops).heap.blocks C).obj = 1 := by
    apply hi.drop_last hiD (step_extends _ _) C hl _ ho
    simp only [step, hal, State.liveS]
    have := (run State.init ops).countS_set i al hal none C
    simp [refS_some', hC] at this
    simp only [State.liveS] at h1
    omega
  exact ⟨hR, hD, hR, hD⟩

theorem C8_witness :
    (⟨some 0, Addr.raw 5⟩ : SharedPtr).block_ = some 0 ∧
    Disciplined [.spRaw (some 5), .spAlias 0 (.raw 9), .spReset 0] ∧
    (run State.init [.spRaw (some 5), .spAlias 0 (.raw 9), .spReset 0]).getS 1 =
      some ⟨some 0, .raw 9⟩ ∧
    (run State.init [.spRaw (some 5), .spAlias 0 (.raw 9), .spReset 0]).heap.dtorRuns
      (Addr.raw 5) = 0 :=
  ⟨rfl, by decide, by decide,
    (C8_alias_keeps_owner_alive (SharedPtr.ofRaw_weak Heap.init (.raw 5)).1 ⟨some 0, .raw 5⟩
      (.raw 9) 0 rfl [.spRaw (some 5), .spAlias 0 (.raw 9), .spReset 0] (by decide) 1
      ⟨some 0, .raw 9⟩ 0 (by decide) rfl (by decide)).2.2.1⟩

/-! ## Promotion -/

theorem WeakPtr.Expired_iff (h : Heap) (v : WeakPtr) :
    v.Expired h = true ↔
      (v.block_ = none ∨ ∃ b, v.block_ = some b ∧ (h.blocks b).strong_ref_counter = 0) := by
  rcases v with ⟨f, blk⟩
  cases blk with
  | none => simp [WeakPtr.Expired]
  | some b => simp [WeakPtr.Expired, BaseBlock.IsEmpty]

/-- C5. The promoting constructor `SharedPtr(const WeakPtr&)` throws `BadWeakPtr` if and
only if the weak pointer is expired, that is, has no block or a block with strong count
0; a program whose promotion throws is left in the state it was in.  On a weak pointer
`w` whose block `b` has a positive strong count it does not throw: the new pointer holds
`w`'s block and address, the strong count of `b` and `UseCount()` are exactly 1 greater
than before, and no other count changes. -/
theorem C5_promote_throws_iff_expired (h : Heap) (v : WeakPtr) (s : State) (j : Nat)
    (w : WeakPtr) (b : Nat) (hb : w.block_ = some b)
    (hpos : 0 < (h.blocks b).strong_ref_counter) :
    (SharedPtr.ofWeak h v = .error .mk ↔ v.Expired h = true) ∧
    (v.Expired h = true ↔
      (v.block_ = none ∨ ∃ c, v.block_ = some c ∧ (h.blocks c).strong_ref_counter = 0)) ∧
    (s.getW j = some v → v.Expired s.heap = true → step s (.spPromote j) = s) ∧
    (∃ r, SharedPtr.ofWeak h w = .ok r ∧ r.2.block_ = w.block_ ∧ r.2.field_ = w.field_ ∧
      (r.1.blocks b).strong_ref_counter = (h.blocks b).strong_ref_counter + 1 ∧
      r.2.UseCount r.1 = w.UseCount h + 1 ∧
      (r.1.blocks b).weak_reaf_counter = (h.blocks b).weak_reaf_counter ∧
      (∀ x, x ≠ b → r.1.blocks x = h.blocks x)) := by
  refine ⟨?_, WeakPtr.Expired_iff h v, ?_, ?_⟩
  · unfold SharedPtr.ofWeak
    split_ifs with he <;> simp [he]
  · intro hv he
    simp [step, hv, SharedPtr.ofWeak, he]
  · have hne : w.Expired h = false := by
      simp [WeakPtr.Expired, hb, BaseBlock.IsEmpty]; omega
    refine ⟨(SharedPtr.AddStrongRef h ⟨w.block_, w.field_⟩, ⟨w.block_, w.field_⟩), ?_, rfl, rfl,
      ?_, ?_, ?_, ?_⟩
    · simp [SharedPtr.ofWeak, hne, WeakPtr.GetBlock, WeakPtr.GetField]
    · simp [SharedPtr.AddStrongRef, hb, BaseBlock.AddStrongRef]
    · simp [SharedPtr.AddStrongRef, hb, BaseBlock.AddStrongRef, SharedPtr.UseCount,
        WeakPtr.UseCount, BaseBlock.GetCount, toSizeT, le_of_lt hpos,
        (by omega : 0 ≤ (h.blocks b).strong_ref_counter + 1)]
      omega
    · simp [SharedPtr.AddStrongRef, hb, BaseBlock.AddStrongRef]
    · intro x hx
      simp [SharedPtr.AddStrongRef, hb, hx]

theorem C5_witness :
    (⟨Addr.raw 5, some 0⟩ : WeakPtr).block_ = some 0 ∧
    0 < ((SharedPtr.ofRaw_weak Heap.init (.raw 5)).1.blocks 0).strong_ref_counter ∧
    (SharedPtr.ofWeak (SharedPtr.ofRaw_weak Heap.init (.raw 5)).1 ⟨Addr.null, none⟩ =
      .error .mk ↔
      WeakPtr.Expired (SharedPtr.ofRaw_weak Heap.init (.raw 5)).1 ⟨Addr.null, none⟩ = true) :=
  ⟨rfl, by decide,
    (C5_promote_throws_iff_expired (SharedPtr.ofRaw_weak Heap.init (.raw 5)).1
      ⟨Addr.null, none⟩ State.init 0 ⟨Addr.raw 5, some 0⟩ 0 rfl (by decide)).1⟩

/-- C6. `WeakPtr::Lock()` always returns a pointer.  On an expired weak pointer it
returns the empty `SharedPtr` (no block, `Get() == nullptr`, `UseCount() == 0`) and
leaves the heap as it was.  On a weak pointer whose block `b` has a positive strong count
it returns a pointer with the same block and address, raises the strong count of `b` by
exactly 1 and leaves its weak count and every other block unchanged. -/
theorem C6_Lock_never_fails (h : Heap) (v : WeakPtr) (w : WeakPtr) (b : Nat)
    (hb : w.block_ = some b) (hpos : 0 < (h.blocks b).strong_ref_counter) :
    (v.Expired h = true →
      (v.Lock h).1 = h ∧ (v.Lock h).2.block_ = none ∧ (v.Lock h).2.Get = Addr.null ∧
      (v.Lock h).2.UseCount (v.Lock h).1 = 0) ∧
    (w.Lock h).2.block_ = some b ∧ (w.Lock h).2.Get = w.field_ ∧
    ((w.Lock h).1.blocks b).strong_ref_counter = (h.blocks b).strong_ref_counter + 1 ∧
    ((w.Lock h).1.blocks b).weak_reaf_counter = (h.blocks b).weak_reaf_counter ∧
    (∀ x, x ≠ b → (w.Lock h).1.blocks x = h.blocks x) := by
  have hne : w.Expired h = false := by
    simp [WeakPtr.Expired, hb, BaseBlock.IsEmpty]; omega
  refine ⟨?_, ?_, ?_, ?_, ?_, ?_⟩
  · intro he
    simp [WeakPtr.Lock_eq, he, SharedPtr.Get, SharedPtr.UseCount]
  · simp [WeakPtr.Lock_eq, hne, hb]
  · simp [WeakPtr.Lock_eq, hne, SharedPtr.Get]
  · simp [WeakPtr.Lock_eq, hne, SharedPtr.AddStrongRef, hb, BaseBlock.AddStrongRef]
  · simp [WeakPtr.Lock_eq, hne, SharedPtr.AddStrongRef, hb, BaseBlock.AddStrongRef]
  · intro x hx
    simp [WeakPtr.Lock_eq, hne, SharedPtr.AddStrongRef, hb, hx]

theorem C6_witness :
    (⟨Addr.raw 5, some 0⟩ : WeakPtr).block_ = some 0 ∧
    0 < ((SharedPtr.ofRaw_weak Heap.init (.raw 5)).1.blocks 0).strong_ref_counter ∧
    (WeakPtr.Lock (SharedPtr.ofRaw_weak Heap.init (.raw 5)).1 ⟨Addr.raw 5, some 0⟩).2.block_ =
      some 0 :=
  ⟨rfl, by decide,
    (C6_Lock_never_fails (SharedPtr.ofRaw_weak Heap.init (.raw 5)).1 ⟨Addr.null, none⟩
      ⟨Addr.raw 5, some 0⟩ 0 rfl (by decide)).2.1⟩

/-! ## The shared-from-this snapshot -/

theorem MakeShared_spec (esft : Bool) (h : Heap) :
    (MakeShared esft h).2 = ⟨some h.next, Addr.storage h.next⟩ ∧
    (MakeShared esft h).1.next = h.next + 1 ∧
    (MakeShared esft h).1.blocks h.next =
      ⟨BlockKind.Block, 1, if esft then 1 else 0, Addr.null, Addr.storage h.next, 0⟩ ∧
    (∀ x, x ≠ h.next → (MakeShared esft h).1.blocks x = h.blocks x) ∧
    (MakeShared esft h).1.weak_this_ (Addr.storage h.next) =
      (if esft then ⟨Addr.storage h.next, some h.next⟩ else ⟨Addr.null, none⟩) ∧
    (∀ a, a ≠ Addr.storage h.next → (MakeShared esft h).1.weak_this_ a = h.weak_this_ a) ∧
    (MakeShared esft h).1.dtors = h.dtors ∧ (MakeShared esft h).1.stuck = h.stuck := by
  cases esft <;>
  simp +contextual [MakeShared, Heap.newBlock, SharedPtr.AddStrongRef, SharedPtr.Assign,
    SharedPtr.Helper, WeakPtr.ofShared, WeakPtr.assign, WeakPtr.dtor, WeakPtr.DecWeakRef,
    WeakPtr.DecWeakRefWith, WeakPtr.AddWeakRef, BaseBlock.AddStrongRef, BaseBlock.AddWeakRef,
    BaseBlock.DecWeakRef, BaseBlock.WholeEmpty, upd_apply, SharedPtr.move, SharedPtr.dtor,
    SharedPtr.Reset, SharedPtr.DecStrongRef, Block.GetPtr, Heap.setSlot]

/-- C7. End-to-end scenario of shared-from-this/shared.h on any heap and for a pointee
type with or without the self-observation base: after `a = MakeShared(v)`, `b = a`,
`w = WeakPtr(a)`, the call `a.Reset()` leaves `b.UseCount() == 1`, `w.Expired() == false`
and the pointee not destroyed; the following `b.Reset()` runs the pointee's destructor
(once) and leaves `w.Expired() == true`.  (The constructor arguments only determine
the value of the pointee, which no pointer operation reads.) -/
theorem C7_end_to_end (esft : Bool) (h : Heap) :
    (endToEnd.b esft h).2.UseCount (endToEnd.aReset esft h).1 = 1 ∧
    (endToEnd.w esft h).2.Expired (endToEnd.aReset esft h).1 = false ∧
    (endToEnd.aReset esft h).1.dtors = h.dtors ∧
    (endToEnd.bReset esft h).1.dtors = (endToEnd.a esft h).2.Get :: h.dtors ∧
    (endToEnd.w esft h).2.Expired (endToEnd.bReset esft h).1 = true ∧
    (endToEnd.bReset esft h).1.stuck = h.stuck := by
  unfold endToEnd.bReset endToEnd.aReset endToEnd.w endToEnd.b endToEnd.a
  cases esft <;>
  simp [MakeShared, Heap.newBlock, SharedPtr.AddStrongRef, SharedPtr.Assign,
    SharedPtr.Helper, WeakPtr.ofShared, WeakPtr.assign, WeakPtr.dtor, WeakPtr.DecWeakRef,
    WeakPtr.DecWeakRefWith, WeakPtr.AddWeakRef, BaseBlock.AddStrongRef, BaseBlock.AddWeakRef,
    BaseBlock.DecWeakRef, BaseBlock.WholeEmpty, upd_apply, SharedPtr.move, SharedPtr.dtor,
    SharedPtr.Reset, SharedPtr.DecStrongRef, Block.GetPtr, Heap.setSlot, SharedPtr.copy,
    SharedPtr.CLear, Heap.DecStrongRef, Block.DecStrongRef, BaseBlock.DecStrongRef,
    Heap.DecWeakRef, BaseBlock.IsEmpty, BaseBlock.WeakCount, SharedPtr.UseCount,
    BaseBlock.GetCount, WeakPtr.Expired, Heap.fuel, runDtor, SharedPtr.Get]

/-- C10. `Reset(T*)` of shared-from-this/shared.h does not wire the self-reference: after
`SharedPtr<T> p; p.Reset(x)` on a freshly constructed object `x` of a type with the
`EnableSharedFromThis` base, `p` owns `x` (`Get() == x`, `UseCount() == 1`), yet the
member `weak_this_` of `x` is still the default `WeakPtr`, it reports `Expired()`, and
`x.SharedFromThis()` returns an empty `SharedPtr`.  The raw constructor on the same
input does populate the member. -/
theorem C10_ResetRaw_leaves_slot_unwired :
    (SharedPtr.ResetRaw Heap.init SharedPtr.default (Addr.raw 7)).2.Get = Addr.raw 7 ∧
    (SharedPtr.ResetRaw Heap.init SharedPtr.default (Addr.raw 7)).2.UseCount
      (SharedPtr.ResetRaw Heap.init SharedPtr.default (Addr.raw 7)).1 = 1 ∧
    (SharedPtr.ResetRaw Heap.init SharedPtr.default (Addr.raw 7)).1.weak_this_ (Addr.raw 7) =
      WeakPtr.default ∧
    WeakPtr.Expired (SharedPtr.ResetRaw Heap.init SharedPtr.default (Addr.raw 7)).1
      ((SharedPtr.ResetRaw Heap.init SharedPtr.default (Addr.raw 7)).1.weak_this_
        (Addr.raw 7)) = true ∧
    (EnableSharedFromThis.SharedFromThis
      (SharedPtr.ResetRaw Heap.init SharedPtr.default (Addr.raw 7)).1 (Addr.raw 7)).2 =
      SharedPtr.default ∧
    (SharedPtr.ofRaw true Heap.init (Addr.raw 7)).1.weak_this_ (Addr.raw 7) =
      ⟨Addr.raw 7, some 0⟩ := by
  decide


/-! ## What the destruction of a pointee can touch

It changes no strong count, and it leaves alone every block that no pointee refers
to. -/

theorem Heap.modify_strong (h : Heap) (b : Nat) (f : BaseBlock → BaseBlock)
    (hf : ∀ c, (f c).strong_ref_counter = c.strong_ref_counter) (x : Nat) :
    ((h.modify b f).blocks x).strong_ref_counter = (h.blocks x).strong_ref_counter := by
  simp only [Heap.modify_blocks, upd_apply]
  split_ifs with hx
  · rw [hx]; exact hf _
  · rfl

theorem deleteBlockWith_strong (del : Heap → Addr → Heap)
    (hdel : ∀ (g : Heap) (a : Addr) (x : Nat),
      ((del g a).blocks x).strong_ref_counter = (g.blocks x).strong_ref_counter)
    (h : Heap) (b x : Nat) :
    ((deleteBlockWith del h b).blocks x).strong_ref_counter =
      (h.blocks x).strong_ref_counter := by
  unfold deleteBlockWith
  rcases (h.blocks b).kind with _ | _
  · by_cases hp : (h.blocks b).ptr_ = Addr.null
    · simp only [hp, if_true, Heap.modify_blocks, upd_apply]
      split_ifs with hx
      · rw [hx]
      · rfl
    · simp only [hp, if_false, Heap.modify_blocks, upd_apply]
      split_ifs with hx
      · rw [hx]; exact hdel _ _ _
      · exact hdel _ _ _
  · simp only [Heap.modify_blocks, upd_apply]
    split_ifs with hx
    · rw [hx]
    · rfl

theorem DecWeakRefWith_strong (del : Heap → Addr → Heap)
    (hdel : ∀ (g : Heap) (a : Addr) (x : Nat),
      ((del g a).blocks x).strong_ref_counter = (g.blocks x).strong_ref_counter)
    (h : Heap) (w : WeakPtr) (x : Nat) :
    ((WeakPtr.DecWeakRefWith del h w).1.blocks x).strong_ref_counter =
      (h.blocks x).strong_ref_counter := by
  unfold WeakPtr.DecWeakRefWith
  rcases w.block_ with _ | b
  · rfl
  · have h1 : ((h.modify b BaseBlock.DecWeakRef).blocks x).strong_ref_counter =
        (h.blocks x).strong_ref_counter := by
      simp only [Heap.modify_blocks, upd_apply]
      split_ifs with hx
      · rw [hx]; rfl
      · rfl
    simp only
    split_ifs
    · rw [deleteBlockWith_strong del hdel, h1]
    · exact h1

theorem runDtor_strong (n : Nat) (h : Heap) (a : Addr) (x : Nat) :
    ((runDtor n h a).blocks x).strong_ref_counter = (h.blocks x).strong_ref_counter := by
  induction n generalizing h a x with
  | zero => rfl
  | succ k ih =>
    simp only [runDtor]
    exact DecWeakRefWith_strong (fun h2 a2 => runDtor k h2 a2) (fun g y z => ih g y z)
      ({ h with dtors := a :: h.dtors } : Heap) (h.weak_this_ a) x

theorem WeakPtr.DecWeakRef_strong (h : Heap) (w : WeakPtr) (x : Nat) :
    ((w.DecWeakRef h).1.blocks x).strong_ref_counter = (h.blocks x).strong_ref_counter :=
  DecWeakRefWith_strong _ (fun g a y => runDtor_strong _ g a y) h w x

theorem WeakPtr.AddWeakRef_strong (h : Heap) (w : WeakPtr) (x : Nat) :
    ((w.AddWeakRef h).blocks x).strong_ref_counter = (h.blocks x).strong_ref_counter := by
  unfold WeakPtr.AddWeakRef
  rcases w.block_ with _ | b
  · rfl
  · simp only [Heap.modify_blocks, upd_apply]
    split_ifs with hx
    · rw [hx]; rfl
    · rfl


theorem Heap.deletePointee_strong (h : Heap) (a : Addr) (x : Nat) :
    ((h.deletePointee a).blocks x).strong_ref_counter = (h.blocks x).strong_ref_counter := by
  unfold Heap.deletePointee
  split_ifs
  · rfl
  · exact runDtor_strong _ _ _ _

theorem Heap.deleteBlock_strong (h : Heap) (b x : Nat) :
    ((h.deleteBlock b).blocks x).strong_ref_counter = (h.blocks x).strong_ref_counter :=
  deleteBlockWith_strong _ (fun g a y => runDtor_strong _ g a y) h b x

theorem Heap.DecStrongRef_strong (h : Heap) (b x : Nat) :
    ((h.DecStrongRef b).blocks x).strong_ref_counter =
      (h.blocks x).strong_ref_counter - (if x = b then 1 else 0) := by
  have h1 : ((h.modify b BaseBlock.DecStrongRef).blocks x).strong_ref_counter =
      (h.blocks x).strong_ref_counter - (if x = b then 1 else 0) := by
    simp only [Heap.modify_blocks, upd_apply]
    split_ifs with hx
    · rw [hx]; rfl
    · simp
  have h2 : ((h.DecStrongRef b).blocks x).strong_ref_counter =
      ((h.modify b BaseBlock.DecStrongRef).blocks x).strong_ref_counter := by
    unfold Heap.DecStrongRef ControlBlock.DecStrongRef Block.DecStrongRef
    rcases (h.blocks b).kind with _ | _ <;> simp only <;> split_ifs
    · exact (Heap.modify_strong _ b (fun c => { c with ptr_ := Addr.null }) (fun _ => rfl)
        x).trans (Heap.deletePointee_strong _ _ _)
    · rfl
    · rw [runDtor_strong]
    · rfl
  rw [h2, h1]

/-- On every heap, `DecStrongRef(); CLear();` lowers the strong count of the block of the
pointer by exactly 1 and changes no other strong count. -/
theorem Heap.release_strong (h : Heap) (p : SharedPtr) (x : Nat) :
    ((h.release p).blocks x).strong_ref_counter =
      (h.blocks x).strong_ref_counter - (if p.block_ = some x then 1 else 0) := by
  rcases p with ⟨blk, f⟩
  cases blk with
  | none => simp [Heap.release, SharedPtr.CLear, SharedPtr.DecStrongRef]
  | some b =>
    have e : (if (some b : Option Nat) = some x then (1 : Int) else 0) =
        (if x = b then 1 else 0) := by
      by_cases hx : x = b
      · simp [hx]
      · have : ¬ b = x := fun e => hx e.symm
        simp [hx, this]
    rw [e, ← Heap.DecStrongRef_strong h b x]
    simp only [Heap.release, SharedPtr.CLear, SharedPtr.DecStrongRef]
    split_ifs
    · exact Heap.deleteBlock_strong _ _ _
    · rfl

theorem deleteBlockWith_frame (B : Nat) (del : Heap → Addr → Heap)
    (hdel : ∀ (g : Heap) (a : Addr), (∀ x, (g.weak_this_ x).block_ ≠ some B) →
      (del g a).blocks B = g.blocks B ∧ ∀ x, ((del g a).weak_this_ x).block_ ≠ some B)
    (h : Heap) (c : Nat) (hc : c ≠ B) (hs : ∀ x, (h.weak_this_ x).block_ ≠ some B) :
    (deleteBlockWith del h c).blocks B = h.blocks B ∧
    ∀ x, ((deleteBlockWith del h c).weak_this_ x).block_ ≠ some B := by
  have hB : ¬ B = c := fun e => hc e.symm
  unfold deleteBlockWith
  rcases (h.blocks c).kind with _ | _
  · by_cases hp : (h.blocks c).ptr_ = Addr.null
    · simp [hp, upd_apply, hB, hs]
    · simp only [hp, if_false, Heap.modify_blocks, upd_apply, hB]
      exact hdel _ _ hs
  · simp [upd_apply, hB, hs]

theorem DecWeakRefWith_frame (B : Nat) (del : Heap → Addr → Heap)
    (hdel : ∀ (g : Heap) (a : Addr), (∀ x, (g.weak_this_ x).block_ ≠ some B) →
      (del g a).blocks B = g.blocks B ∧ ∀ x, ((del g a).weak_this_ x).block_ ≠ some B)
    (h : Heap) (w : WeakPtr) (hw : w.block_ ≠ some B)
    (hs : ∀ x, (h.weak_this_ x).block_ ≠ some B) :
    (WeakPtr.DecWeakRefWith del h w).1.blocks B = h.blocks B ∧
    (∀ x, ((WeakPtr.DecWeakRefWith del h w).1.weak_this_ x).block_ ≠ some B) ∧
    (WeakPtr.DecWeakRefWith del h w).2.block_ ≠ some B := by
  unfold WeakPtr.DecWeakRefWith
  rcases hb : w.block_ with _ | c
  · exact ⟨rfl, hs, by rw [hb]; simp⟩
  · have hc : c ≠ B := fun e => hw (by rw [hb, e])
    have hB : ¬ B = c := fun e => hc e.symm
    have h1 : (h.modify c BaseBlock.DecWeakRef).blocks B = h.blocks B := by
      simp [upd_apply, hB]
    simp only
    split_ifs
    · obtain ⟨d1, d2⟩ := deleteBlockWith_frame B del hdel (h.modify c BaseBlock.DecWeakRef) c
        hc hs
      exact ⟨d1.trans h1, d2, by simp⟩
    · exact ⟨h1, hs, by rw [hb]; simp [hc]⟩

/-- Destroying a pointee leaves alone every block that no pointee's `weak_this_` refers
to. -/
theorem runDtor_frame (B : Nat) (n : Nat) (h : Heap) (a : Addr)
    (hs : ∀ x, (h.weak_this_ x).block_ ≠ some B) :
    (runDtor n h a).blocks B = h.blocks B ∧
    ∀ x, ((runDtor n h a).weak_this_ x).block_ ≠ some B := by
  induction n generalizing h a with
  | zero => exact ⟨rfl, hs⟩
  | succ k ih =>
    simp only [runDtor]
    obtain ⟨d1, d2, d3⟩ := DecWeakRefWith_frame B (fun h2 a2 => runDtor k h2 a2)
      (fun g y hg => ih g y hg) ({ h with dtors := a :: h.dtors } : Heap) (h.weak_this_ a)
      (hs a) hs
    refine ⟨d1, ?_⟩
    intro x
    simp only [Heap.setSlot, upd_apply]
    split_ifs
    · exact d3
    · exact d2 x

/-- On a heap where no pointee refers to block `B`, `DecStrongRef(); CLear();` on a
pointer with another block leaves block `B` as it was. -/
theorem Heap.release_frame (h : Heap) (A B : Nat) (f : Addr) (hAB : A ≠ B)
    (hs : ∀ x, (h.weak_this_ x).block_ ≠ some B) :
    (h.release ⟨some A, f⟩).blocks B = h.blocks B := by
  have hB : ¬ B = A := fun e => hAB e.symm
  have hm : ∀ (g : Heap) (F : BaseBlock → BaseBlock), (g.modify A F).blocks B = g.blocks B := by
    intro g F; simp [upd_apply, hB]
  have hd : ((⟨some A, f⟩ : SharedPtr).DecStrongRef h).blocks B = h.blocks B ∧
      ∀ x, (((⟨some A, f⟩ : SharedPtr).DecStrongRef h).weak_this_ x).block_ ≠ some B := by
    simp only [SharedPtr.DecStrongRef, Heap.DecStrongRef, ControlBlock.DecStrongRef,
      Block.DecStrongRef, Heap.deletePointee]
    rcases (h.blocks A).kind with _ | _ <;> simp only <;> split_ifs
    · exact ⟨by rw [hm, hm], hs⟩
    · obtain ⟨d1, d2⟩ := runDtor_frame B (h.modify A BaseBlock.DecStrongRef).fuel
        (h.modify A BaseBlock.DecStrongRef)
        ((h.modify A BaseBlock.DecStrongRef).blocks A).ptr_ hs
      exact ⟨by rw [hm, d1, hm], d2⟩
    · exact ⟨hm _ _, hs⟩
    · obtain ⟨d1, d2⟩ := runDtor_frame B (h.modify A BaseBlock.DecStrongRef).fuel
        (h.modify A BaseBlock.DecStrongRef) (Block.GetPtr A) hs
      exact ⟨by rw [d1, hm], d2⟩
    · exact ⟨hm _ _, hs⟩
  simp only [Heap.release, SharedPtr.CLear]
  split_ifs
  · rw [← hd.1]
    exact (deleteBlockWith_frame B _ (fun g y hg => runDtor_frame B _ g y hg) _ A hAB hd.2).1
  · exact hd.1

/-! ## Copy, move, reset: the effect on the counters -/

/-- What `DecStrongRef(); CLear();` does to the counters of the block of a pointer, on a
heap without populated self-references. -/
theorem Heap.release_counts (h : Heap) (b : Nat) (f : Addr)
    (hs : ∀ a, (h.weak_this_ a).block_ = none) :
    (h.release ⟨some b, f⟩).next = h.next ∧
    (∀ x, x ≠ b → (h.release ⟨some b, f⟩).blocks x = h.blocks x) ∧
    ((h.release ⟨some b, f⟩).blocks b).strong_ref_counter =
      (h.blocks b).strong_ref_counter - 1 ∧
    ((h.release ⟨some b, f⟩).blocks b).weak_reaf_counter = (h.blocks b).weak_reaf_counter ∧
    ((h.release ⟨some b, f⟩).blocks b).deleted =
      (if (h.blocks b).strong_ref_counter - 1 = 0 ∧ (h.blocks b).weak_reaf_counter = 0 then
        (h.blocks b).deleted + 1
       else (h.blocks b).deleted) ∧
    (∀ a, ((h.release ⟨some b, f⟩).weak_this_ a).block_ = none) := by
  rcases hk : (h.blocks b).kind with _ | _ <;>
  by_cases hz : (h.blocks b).strong_ref_counter - 1 = 0 <;>
  by_cases hp : (h.blocks b).ptr_ = Addr.null <;>
  by_cases hw : (h.blocks b).weak_reaf_counter = 0 <;>
  simp +contextual [Heap.release, SharedPtr.CLear, SharedPtr.DecStrongRef,
    Heap.DecStrongRef, ControlBlock.DecStrongRef, Block.DecStrongRef, Heap.deletePointee,
    Heap.deleteBlock, deleteBlockWith, BaseBlock.DecStrongRef, BaseBlock.IsEmpty,
    BaseBlock.WeakCount, hk, hz, hp, hw, hs, Heap.fuel, runDtor_of_slot_none, Heap.setSlot,
    upd_apply, Block.GetPtr] <;>
  (intro a; split_ifs <;> simp [hs])

/-- C11. Copy assignment `a = b` on two distinct objects (the same text in
weak/shared.h and shared-from-this/shared.h) is guarded by the addresses, not by the
blocks.  If the two addresses differ, `a` ends with the block and the address of `b`;
the strong count of the block of `b` is then exactly 1 greater and that of the former
block of `a` exactly 1 smaller when the blocks differ, and no block changes when the
two pointers hold the same block (held by more than one pointer).  If the two addresses are equal the assignment does nothing,
also when the blocks differ: after `SharedPtr<T> a; SharedPtr<T> b(static_cast<T*>(nullptr));
a = b;` the pointer `a` still has no block, does not compare equal to `b`, and the
strong count of the block of `b` is still 1; two aliasing pointers with the same
address and different owners keep their own blocks and counts. -/
theorem C11_copy_assign_is_guarded_by_the_address (h : Heap) (a b : SharedPtr) (m : Addr) :
    (a.field_ ≠ b.field_ →
      (SharedPtr.assign h a b).2 = b ∧
      (∀ A B, a.block_ = some A → b.block_ = some B → A ≠ B →
        ((SharedPtr.assign h a b).1.blocks B).strong_ref_counter =
          (h.blocks B).strong_ref_counter + 1 ∧
        ((SharedPtr.assign h a b).1.blocks A).strong_ref_counter =
          (h.blocks A).strong_ref_counter - 1) ∧
      (∀ B, a.block_ = none → b.block_ = some B →
        ((SharedPtr.assign h a b).1.blocks B).strong_ref_counter =
          (h.blocks B).strong_ref_counter + 1 ∧
        ∀ x, x ≠ B → (SharedPtr.assign h a b).1.blocks x = h.blocks x) ∧
      (∀ A, a.block_ = some A → b.block_ = some A → (h.blocks A).strong_ref_counter ≠ 1 →
        ∀ x, (SharedPtr.assign h a b).1.blocks x = h.blocks x)) ∧
    (a.field_ = b.field_ → SharedPtr.assign h a b = (h, a)) ∧
    ((nullOwner h).2.block_ = some h.next ∧
      (SharedPtr.assign (nullOwner h).1 SharedPtr.default (nullOwner h).2).2.block_ = none ∧
      SharedPtr.eq (SharedPtr.assign (nullOwner h).1 SharedPtr.default (nullOwner h).2).2
        (nullOwner h).2 = false ∧
      ((SharedPtr.assign (nullOwner h).1 SharedPtr.default (nullOwner h).2).1.blocks
        h.next).strong_ref_counter = 1) ∧
    ((twoAliases h m).2.1.Get = (twoAliases h m).2.2.Get ∧
      (twoAliases h m).2.1.block_ = some h.next ∧
      (twoAliases h m).2.2.block_ = some (h.next + 1) ∧
      SharedPtr.assign (twoAliases h m).1 (twoAliases h m).2.1 (twoAliases h m).2.2 =
        ((twoAliases h m).1, (twoAliases h m).2.1) ∧
      SharedPtr.eq (SharedPtr.assign (twoAliases h m).1 (twoAliases h m).2.1
        (twoAliases h m).2.2).2 (twoAliases h m).2.2 = false) := by
  refine ⟨?_, ?_, ?_, ?_⟩
  · intro hf
    refine ⟨by simp [SharedPtr.assign, hf], ?_, ?_, ?_⟩
    · intro A B hA hB hAB
      rcases a with ⟨ab, af⟩
      rcases b with ⟨bb, bf⟩
      cases hA; cases hB
      have e : (SharedPtr.assign h ⟨some A, af⟩ ⟨some B, bf⟩).1 =
          (h.release ⟨some A, af⟩).modify B BaseBlock.AddStrongRef := by
        simp [SharedPtr.assign, hf, SharedPtr.AddStrongRef, Heap.release]
      have hBA : ¬ B = A := fun e => hAB e.symm
      have r3 := Heap.release_strong h ⟨some A, af⟩ A
      have r2 := Heap.release_strong h ⟨some A, af⟩ B
      simp only [hAB, if_true, Option.some.injEq, if_false, sub_zero] at r2 r3
      rw [e]
      simp [upd_apply, BaseBlock.AddStrongRef, hAB, r3, r2]
    · intro B hA hB
      rcases a with ⟨ab, af⟩
      rcases b with ⟨bb, bf⟩
      cases hA; cases hB
      have e : (SharedPtr.assign h ⟨none, af⟩ ⟨some B, bf⟩).1 =
          h.modify B BaseBlock.AddStrongRef := by
        simp [SharedPtr.assign, hf, SharedPtr.AddStrongRef, SharedPtr.DecStrongRef,
          SharedPtr.CLear]
      rw [e]
      simp +contextual [upd_apply, BaseBlock.AddStrongRef]
    · intro A hA hB h1 x
      rcases a with ⟨ab, af⟩
      rcases b with ⟨bb, bf⟩
      cases hA; cases hB
      have hz : ¬ ((h.blocks A).strong_ref_counter - 1 = 0) := by omega
      rcases hk : (h.blocks A).kind with _ | _ <;>
      simp [SharedPtr.assign, hf, SharedPtr.AddStrongRef, SharedPtr.DecStrongRef,
        SharedPtr.CLear, Heap.DecStrongRef, ControlBlock.DecStrongRef, Block.DecStrongRef,
        BaseBlock.DecStrongRef, BaseBlock.AddStrongRef, BaseBlock.IsEmpty, hk, hz, upd_apply] <;>
      split_ifs with hx <;> simp [hx] <;> rw [← hk]
  · intro hf
    simp [SharedPtr.assign, hf]
  · simp [nullOwner, SharedPtr.ofRaw_weak, Heap.newControlBlock, SharedPtr.AddStrongRef,
      BaseBlock.AddStrongRef, SharedPtr.assign, SharedPtr.default, SharedPtr.eq,
      SharedPtr.GetBlock]
  · simp [twoAliases, SharedPtr.alias, SharedPtr.ofRaw_weak, Heap.newControlBlock,
      SharedPtr.AddStrongRef, BaseBlock.AddStrongRef, SharedPtr.assign, SharedPtr.eq,
      SharedPtr.GetBlock, SharedPtr.Get]

theorem C11_witness :
    (SharedPtr.default.field_ ≠ (⟨some 0, Addr.raw 5⟩ : SharedPtr).field_) ∧
    (SharedPtr.assign (SharedPtr.ofRaw_weak Heap.init (Addr.raw 5)).1 SharedPtr.default
      ⟨some 0, Addr.raw 5⟩).2 = ⟨some 0, Addr.raw 5⟩ :=
  ⟨by decide,
    ((C11_copy_assign_is_guarded_by_the_address (SharedPtr.ofRaw_weak Heap.init (Addr.raw 5)).1
      SharedPtr.default ⟨some 0, Addr.raw 5⟩ Addr.null).1 (by decide)).1⟩

/-- C12. The copy constructor (the same text in the three snapshots) adopts the source
only if the address of the source is not null.  For a source `b` with a non-null
address the copy has the block and the address of `b`, and the strong count of that
block (and `b.UseCount()`) is exactly 1 greater than before, nothing else changed.  For
a source with a null address the copy is the empty pointer and the heap is unchanged,
also when the source holds a block: after `SharedPtr<T> b(static_cast<T*>(nullptr))`,
or after aliasing an owner to `nullptr`, the copy `a(b)` has no block, does not compare
equal to `b`, and `b.UseCount()` is what it was, not 1 greater.  Copying an empty
pointer yields an empty pointer. -/
theorem C12_copy_adopts_only_a_non_null_address (h : Heap) (b : SharedPtr) (n : Nat) :
    (b.field_ ≠ Addr.null →
      (SharedPtr.copy h b).2 = b ∧
      ∀ B, b.block_ = some B →
        ((SharedPtr.copy h b).1.blocks B).strong_ref_counter =
          (h.blocks B).strong_ref_counter + 1 ∧
        ((SharedPtr.copy h b).1.blocks B).weak_reaf_counter = (h.blocks B).weak_reaf_counter ∧
        (0 ≤ (h.blocks B).strong_ref_counter →
          b.UseCount (SharedPtr.copy h b).1 = b.UseCount h + 1) ∧
        (∀ x, x ≠ B → (SharedPtr.copy h b).1.blocks x = h.blocks x)) ∧
    (b.field_ = Addr.null → SharedPtr.copy h b = (h, SharedPtr.default)) ∧
    SharedPtr.copy h SharedPtr.default = (h, SharedPtr.default) ∧
    ((nullOwner h).2.block_ = some h.next ∧ (nullOwner h).2.Get = Addr.null ∧
      (nullOwner h).2.UseCount (nullOwner h).1 = 1 ∧
      (SharedPtr.copy (nullOwner h).1 (nullOwner h).2).2.block_ = none ∧
      SharedPtr.eq (SharedPtr.copy (nullOwner h).1 (nullOwner h).2).2 (nullOwner h).2 = false ∧
      (nullOwner h).2.UseCount (SharedPtr.copy (nullOwner h).1 (nullOwner h).2).1 = 1) ∧
    ((nullAlias h n).2.block_ = some h.next ∧ (nullAlias h n).2.Get = Addr.null ∧
      (nullAlias h n).2.UseCount (nullAlias h n).1 = 2 ∧
      (SharedPtr.copy (nullAlias h n).1 (nullAlias h n).2).2.block_ = none ∧
      SharedPtr.eq (SharedPtr.copy (nullAlias h n).1 (nullAlias h n).2).2 (nullAlias h n).2
        = false ∧
      (nullAlias h n).2.UseCount (SharedPtr.copy (nullAlias h n).1 (nullAlias h n).2).1 = 2) := by
  refine ⟨?_, ?_, rfl, ?_, ?_⟩
  · intro hf
    have hf' : Addr.null ≠ b.field_ := fun e => hf e.symm
    refine ⟨by simp [SharedPtr.copy, hf'], ?_⟩
    intro B hB
    refine ⟨?_, ?_, ?_, ?_⟩
    · simp [SharedPtr.copy, hf', SharedPtr.AddStrongRef, hB, BaseBlock.AddStrongRef]
    · simp [SharedPtr.copy, hf', SharedPtr.AddStrongRef, hB, BaseBlock.AddStrongRef]
    · intro h0
      simp [SharedPtr.copy, hf', SharedPtr.AddStrongRef, hB, BaseBlock.AddStrongRef,
        SharedPtr.UseCount, BaseBlock.GetCount, toSizeT, h0,
        (by omega : 0 ≤ (h.blocks B).strong_ref_counter + 1)]
      omega
    · intro x hx
      simp [SharedPtr.copy, hf', SharedPtr.AddStrongRef, hB, hx]
  · intro hf
    simp [SharedPtr.copy, hf, SharedPtr.default]
  · simp [nullOwner, SharedPtr.ofRaw_weak, Heap.newControlBlock, SharedPtr.AddStrongRef,
      BaseBlock.AddStrongRef, SharedPtr.copy, SharedPtr.UseCount, BaseBlock.GetCount,
      SharedPtr.eq, SharedPtr.GetBlock, SharedPtr.Get]
  · simp [nullAlias, SharedPtr.alias, SharedPtr.ofRaw_weak, Heap.newControlBlock,
      SharedPtr.AddStrongRef, BaseBlock.AddStrongRef, SharedPtr.copy, SharedPtr.UseCount,
      BaseBlock.GetCount, SharedPtr.eq, SharedPtr.GetBlock, SharedPtr.Get, toSizeT]

theorem C12_witness :
    (⟨some 0, Addr.raw 5⟩ : SharedPtr).field_ ≠ Addr.null ∧
    (SharedPtr.copy (SharedPtr.ofRaw_weak Heap.init (Addr.raw 5)).1 ⟨some 0, Addr.raw 5⟩).2 =
      ⟨some 0, Addr.raw 5⟩ :=
  ⟨by decide,
    ((C12_copy_adopts_only_a_non_null_address (SharedPtr.ofRaw_weak Heap.init (Addr.raw 5)).1
      ⟨some 0, Addr.raw 5⟩ 0).1 (by decide)).1⟩

/-! ## Releasing an owner: what depends on the pointee of the block only

The facts below need no assumption on the rest of the heap: they look at the strong
count of the block the pointer holds and at the `WeakPtr` member of that block's own
pointee. -/

/-- The destructor of an object whose `WeakPtr` member refers to block `B`, when that
reference is not the last reference to `B`: the run is logged and the member gives up
its weak reference. -/
theorem runDtor_of_slot_live (n : Nat) (h : Heap) (a : Addr) (B : Nat)
    (hs : (h.weak_this_ a).block_ = some B)
    (hne : ¬ ((h.blocks B).strong_ref_counter = 0 ∧ (h.blocks B).weak_reaf_counter - 1 = 0)) :
    runDtor (n + 1) h a =
      ((({ h with dtors := a :: h.dtors } : Heap).modify B BaseBlock.DecWeakRef).setSlot a
        (h.weak_this_ a)) := by
  have hne2 : ¬ ((h.blocks B).strong_ref_counter = 0 ∧ (h.blocks B).weak_reaf_counter = 1) := by
    intro hc; exact hne ⟨hc.1, by omega⟩
  by_cases h0 : (h.blocks B).strong_ref_counter = 0
  · have hw : ¬ (h.blocks B).weak_reaf_counter - 1 = 0 := fun hc => hne ⟨h0, hc⟩
    simp [runDtor, WeakPtr.DecWeakRefWith, hs, BaseBlock.WholeEmpty, BaseBlock.DecWeakRef, h0, hw]
  · simp [runDtor, WeakPtr.DecWeakRefWith, hs, BaseBlock.WholeEmpty, BaseBlock.DecWeakRef, h0]

/-- For a pointer whose block's pointee holds no weak reference, `Reset()` of
shared-from-this/shared.h leaves exactly what `Reset()` of weak/shared.h leaves,
whatever the other pointees of the heap hold. -/
theorem SharedPtr.Reset_eq_Reset_weak_local (h : Heap) (b : Nat) (f : Addr)
    (hs : (h.weak_this_ (h.pointee b)).block_ = none) :
    SharedPtr.Reset h ⟨some b, f⟩ = SharedPtr.Reset_weak h ⟨some b, f⟩ := by
  rcases hk : (h.blocks b).kind with _ | _ <;>
  simp only [Heap.pointee, hk, Block.GetPtr] at hs <;>
  by_cases hz : (h.blocks b).strong_ref_counter - 1 = 0 <;>
  by_cases hp : (h.blocks b).ptr_ = Addr.null <;>
  by_cases hw : (h.blocks b).weak_reaf_counter = 0 <;>
  simp [SharedPtr.Reset, SharedPtr.Reset_weak, SharedPtr.CLear, SharedPtr.DecStrongRef,
    Heap.DecStrongRef, ControlBlock.DecStrongRef, Block.DecStrongRef, Heap.deletePointee,
    Heap.deleteBlock, deleteBlockWith, BaseBlock.DecStrongRef, BaseBlock.IsEmpty,
    BaseBlock.WeakCount, BaseBlock.AddWeakRef, BaseBlock.DecWeakRef, Heap.DecWeakRef, hk, hz,
    hp, hw, hs, Heap.fuel, runDtor_of_slot_none, Heap.setSlot, Heap.modify, upd_upd,
    Block.GetPtr]

/-- What `DecStrongRef(); CLear();` does on a block whose pointee holds no weak
reference. -/
theorem Heap.release_counts_local (h : Heap) (b : Nat) (f : Addr)
    (hs : (h.weak_this_ (h.pointee b)).block_ = none) :
    (h.release ⟨some b, f⟩).next = h.next ∧
    (∀ x, x ≠ b → (h.release ⟨some b, f⟩).blocks x = h.blocks x) ∧
    ((h.release ⟨some b, f⟩).blocks b).strong_ref_counter =
      (h.blocks b).strong_ref_counter - 1 ∧
    ((h.release ⟨some b, f⟩).blocks b).weak_reaf_counter = (h.blocks b).weak_reaf_counter ∧
    ((h.release ⟨some b, f⟩).blocks b).deleted =
      (if (h.blocks b).strong_ref_counter - 1 = 0 ∧ (h.blocks b).weak_reaf_counter = 0 then
        (h.blocks b).deleted + 1
       else (h.blocks b).deleted) ∧
    (h.release ⟨some b, f⟩).weak_this_ = h.weak_this_ ∧
    (h.release ⟨some b, f⟩).dtors =
      (if (h.blocks b).strong_ref_counter - 1 = 0 ∧ h.pointee b ≠ Addr.null then
        h.pointee b :: h.dtors
       else h.dtors) := by
  rcases hk : (h.blocks b).kind with _ | _ <;>
  simp only [Heap.pointee, hk, Block.GetPtr] at hs <;>
  by_cases hz : (h.blocks b).strong_ref_counter - 1 = 0 <;>
  by_cases hp : (h.blocks b).ptr_ = Addr.null <;>
  by_cases hw : (h.blocks b).weak_reaf_counter = 0 <;>
  simp +contextual [Heap.release, SharedPtr.CLear, SharedPtr.DecStrongRef,
    Heap.DecStrongRef, ControlBlock.DecStrongRef, Block.DecStrongRef, Heap.deletePointee,
    Heap.deleteBlock, deleteBlockWith, BaseBlock.DecStrongRef, BaseBlock.IsEmpty,
    BaseBlock.WeakCount, hk, hz, hp, hw, hs, Heap.fuel, runDtor_of_slot_none, Heap.setSlot,
    upd_apply, Block.GetPtr, Heap.pointee, upd_self]

/-- While another owner remains, `DecStrongRef(); CLear();` only lowers the strong count,
whatever the pointees of the heap hold. -/
theorem Heap.release_of_shared (h : Heap) (b : Nat) (f : Addr)
    (hn : (h.blocks b).strong_ref_counter - 1 ≠ 0) :
    h.release ⟨some b, f⟩ = h.modify b BaseBlock.DecStrongRef := by
  rcases hk : (h.blocks b).kind with _ | _ <;>
  simp [Heap.release, SharedPtr.CLear, SharedPtr.DecStrongRef, Heap.DecStrongRef,
    ControlBlock.DecStrongRef, Block.DecStrongRef, BaseBlock.DecStrongRef, BaseBlock.IsEmpty,
    hk, hn]

/-- While another owner remains, `Reset()` of shared-from-this/shared.h only lowers the
strong count, whatever the pointees of the heap hold. -/
theorem SharedPtr.Reset_of_shared (h : Heap) (b : Nat) (f : Addr)
    (hn : (h.blocks b).strong_ref_counter - 1 ≠ 0) :
    SharedPtr.Reset h ⟨some b, f⟩ = (h.modify b BaseBlock.DecStrongRef, ⟨none, Addr.null⟩) := by
  rcases hk : (h.blocks b).kind with _ | _ <;>
  simp [SharedPtr.Reset, SharedPtr.CLear, SharedPtr.DecStrongRef, Heap.DecStrongRef,
    ControlBlock.DecStrongRef, Block.DecStrongRef, BaseBlock.DecStrongRef, BaseBlock.IsEmpty,
    BaseBlock.AddWeakRef, BaseBlock.DecWeakRef, Heap.DecWeakRef, Heap.modify, upd_upd, hk, hn]

/-- The last owner of a block whose pointee holds a weak reference to that block is
released by `Reset()` of shared-from-this/shared.h: the pointee is destroyed once, its
weak reference is given up, and the block is freed if that was the last weak
reference. -/
theorem SharedPtr.Reset_wired (h : Heap) (b : Nat) (f : Addr)
    (h1 : (h.blocks b).strong_ref_counter = 1) (hx : h.pointee b ≠ Addr.null)
    (hs : (h.weak_this_ (h.pointee b)).block_ = some b)
    (hm : (h.blocks b).weak_reaf_counter ≠ 0) :
    (SharedPtr.Reset h ⟨some b, f⟩).1.next = h.next ∧
    (∀ x, x ≠ b → (SharedPtr.Reset h ⟨some b, f⟩).1.blocks x = h.blocks x) ∧
    ((SharedPtr.Reset h ⟨some b, f⟩).1.blocks b).strong_ref_counter = 0 ∧
    ((SharedPtr.Reset h ⟨some b, f⟩).1.blocks b).weak_reaf_counter =
      (h.blocks b).weak_reaf_counter - 1 ∧
    ((SharedPtr.Reset h ⟨some b, f⟩).1.blocks b).deleted =
      (if (h.blocks b).weak_reaf_counter - 1 = 0 then (h.blocks b).deleted + 1
       else (h.blocks b).deleted) ∧
    (SharedPtr.Reset h ⟨some b, f⟩).1.weak_this_ = h.weak_this_ ∧
    (SharedPtr.Reset h ⟨some b, f⟩).1.dtors = h.pointee b :: h.dtors := by
  have hz : (h.blocks b).strong_ref_counter - 1 = 0 := by omega
  rcases hk : (h.blocks b).kind with _ | _ <;>
  simp only [Heap.pointee, hk, Block.GetPtr] at hs hx <;>
  by_cases hw : (h.blocks b).weak_reaf_counter - 1 = 0 <;>
  simp +contextual [SharedPtr.Reset, SharedPtr.CLear, SharedPtr.DecStrongRef,
    Heap.DecStrongRef, ControlBlock.DecStrongRef, Block.DecStrongRef, Heap.deletePointee,
    Heap.deleteBlock, deleteBlockWith, BaseBlock.DecStrongRef, BaseBlock.IsEmpty,
    BaseBlock.WeakCount, BaseBlock.AddWeakRef, BaseBlock.DecWeakRef, Heap.DecWeakRef,
    BaseBlock.WholeEmpty, hk, hz, h1, hx, hw, hm, hs, Heap.fuel, runDtor,
    WeakPtr.DecWeakRefWith, Heap.setSlot, upd_apply, Block.GetPtr, Heap.pointee, upd_self]

/-- The same release by `DecStrongRef(); CLear();` (copy and move assignment, `Reset(T*)`,
and `Reset()` of weak/shared.h), when the pointee's weak reference is not the only weak
reference to the block. -/
theorem Heap.release_wired (h : Heap) (b : Nat) (f : Addr)
    (h1 : (h.blocks b).strong_ref_counter = 1) (hx : h.pointee b ≠ Addr.null)
    (hs : (h.weak_this_ (h.pointee b)).block_ = some b)
    (hm : (h.blocks b).weak_reaf_counter ≠ 1) :
    (h.release ⟨some b, f⟩).next = h.next ∧
    (∀ x, x ≠ b → (h.release ⟨some b, f⟩).blocks x = h.blocks x) ∧
    ((h.release ⟨some b, f⟩).blocks b).strong_ref_counter = 0 ∧
    ((h.release ⟨some b, f⟩).blocks b).weak_reaf_counter = (h.blocks b).weak_reaf_counter - 1 ∧
    ((h.release ⟨some b, f⟩).blocks b).deleted = (h.blocks b).deleted ∧
    (h.release ⟨some b, f⟩).weak_this_ = h.weak_this_ ∧
    (h.release ⟨some b, f⟩).dtors = h.pointee b :: h.dtors := by
  have hz : (h.blocks b).strong_ref_counter - 1 = 0 := by omega
  have hw : ¬ (h.blocks b).weak_reaf_counter - 1 = 0 := by omega
  rcases hk : (h.blocks b).kind with _ | _ <;>
  simp only [Heap.pointee, hk, Block.GetPtr] at hs hx <;>
  simp +contextual [Heap.release, SharedPtr.CLear, SharedPtr.DecStrongRef,
    Heap.DecStrongRef, ControlBlock.DecStrongRef, Block.DecStrongRef, Heap.deletePointee,
    Heap.deleteBlock, deleteBlockWith, BaseBlock.DecStrongRef, BaseBlock.IsEmpty,
    BaseBlock.WeakCount, BaseBlock.DecWeakRef,
    BaseBlock.WholeEmpty, hk, hz, h1, hx, hw, hm, hs, Heap.fuel, runDtor,
    WeakPtr.DecWeakRefWith, Heap.setSlot, upd_apply, Block.GetPtr, Heap.pointee, upd_self]

/-- On every heap, `Reset()` of shared-from-this/shared.h lowers the strong count of the
block of the pointer by exactly 1 and changes no other strong count. -/
theorem SharedPtr.Reset_strong (h : Heap) (p : SharedPtr) (x : Nat) :
    (((p.Reset h).1).blocks x).strong_ref_counter =
      (h.blocks x).strong_ref_counter - (if p.block_ = some x then 1 else 0) := by
  rcases p with ⟨blk, f⟩
  cases blk with
  | none => simp [SharedPtr.Reset]
  | some b =>
    have e : (if (some b : Option Nat) = some x then (1 : Int) else 0) =
        (if x = b then 1 else 0) := by
      by_cases hx : x = b
      · simp [hx]
      · have : ¬ b = x := fun e => hx e.symm
        simp [hx, this]
    have e1 : ((h.modify b BaseBlock.AddWeakRef).blocks x).strong_ref_counter =
        (h.blocks x).strong_ref_counter :=
      Heap.modify_strong h b BaseBlock.AddWeakRef (fun _ => rfl) x
    have e2 := Heap.DecStrongRef_strong (h.modify b BaseBlock.AddWeakRef) b x
    have e3 : ((((h.modify b BaseBlock.AddWeakRef).DecStrongRef b).DecWeakRef b).blocks
        x).strong_ref_counter =
        (((h.modify b BaseBlock.AddWeakRef).DecStrongRef b).blocks x).strong_ref_counter :=
      Heap.modify_strong _ b BaseBlock.DecWeakRef (fun _ => rfl) x
    rw [e, ← e1, ← e2, ← e3]
    simp only [SharedPtr.Reset, SharedPtr.CLear, SharedPtr.DecStrongRef]
    split_ifs
    · exact Heap.deleteBlock_strong _ _ _
    · rfl


/-- C13. Move construction and move assignment (shared.h:112-127, shared.h:197-216).
Move-constructing from `b` leaves the heap as it was (so no count of any block changes),
gives a pointer with the block and address of `b`, and leaves `b` empty (no block,
`Get() == nullptr`, `UseCount() == 0`).  Move-assigning `b` into another object `a`
gives `a` the block and address of `b` and leaves `b` empty in the same way; on every
heap it lowers the strong count of the former block `A` of `a` by exactly 1 and changes
no other strong count, and it leaves the heap unchanged if `a` had no block.  If other
owners of `A` remain, or if the pointee of `A` holds no weak reference, every other
block (so the block of `b`) is unchanged, the weak count of `A` is unchanged, and `A` is
freed exactly if its strong count is then 0 and its weak count is 0.  If `a` was the
last owner and the pointee of `A` holds a weak reference to `A` that is not the only
weak reference, the pointee is destroyed once, that reference is given up and nothing
is freed.  If it is the only weak reference (an object with the `EnableSharedFromThis`
base and no `WeakPtr` to it), the claim fails: the pointee made by the raw constructor
is destroyed twice and the weak count ends at -1; the fused block of `MakeShared` is
freed twice. -/
theorem C13_move_transfers_ownership (h : Heap) (a b : SharedPtr) :
    ((SharedPtr.move h b).1 = h ∧ (SharedPtr.move h b).2.1 = b ∧
      (SharedPtr.move h b).2.2.block_ = none ∧
      (SharedPtr.move h b).2.2.Get = Addr.null ∧
      (SharedPtr.move h b).2.2.UseCount (SharedPtr.move h b).1 = 0) ∧
    ((SharedPtr.moveAssign h a b).2.1 = b ∧
      (SharedPtr.moveAssign h a b).2.2.block_ = none ∧
      (SharedPtr.moveAssign h a b).2.2.Get = Addr.null ∧
      (SharedPtr.moveAssign h a b).2.2.UseCount (SharedPtr.moveAssign h a b).1 = 0 ∧
      (∀ x, ((SharedPtr.moveAssign h a b).1.blocks x).strong_ref_counter =
        (h.blocks x).strong_ref_counter - (if a.block_ = some x then 1 else 0)) ∧
      (a.block_ = none → (SharedPtr.moveAssign h a b).1 = h)) ∧
    (∀ A, a.block_ = some A →
      ((h.blocks A).strong_ref_counter - 1 ≠ 0 ∨
        (h.weak_this_ (h.pointee A)).block_ = none) →
      (∀ x, x ≠ A → (SharedPtr.moveAssign h a b).1.blocks x = h.blocks x) ∧
      ((SharedPtr.moveAssign h a b).1.blocks A).weak_reaf_counter =
        (h.blocks A).weak_reaf_counter ∧
      ((SharedPtr.moveAssign h a b).1.blocks A).deleted =
        (if (h.blocks A).strong_ref_counter - 1 = 0 ∧ (h.blocks A).weak_reaf_counter = 0
          then (h.blocks A).deleted + 1 else (h.blocks A).deleted)) ∧
    (∀ A, a.block_ = some A → (h.blocks A).strong_ref_counter = 1 →
      h.pointee A ≠ Addr.null → (h.weak_this_ (h.pointee A)).block_ = some A →
      (h.blocks A).weak_reaf_counter ≠ 1 →
      (∀ x, x ≠ A → (SharedPtr.moveAssign h a b).1.blocks x = h.blocks x) ∧
      (SharedPtr.moveAssign h a b).1.dtors = h.pointee A :: h.dtors ∧
      ((SharedPtr.moveAssign h a b).1.blocks A).weak_reaf_counter =
        (h.blocks A).weak_reaf_counter - 1 ∧
      ((SharedPtr.moveAssign h a b).1.blocks A).deleted = (h.blocks A).deleted) ∧
    ((lastOwner.raw.1.blocks 0).strong_ref_counter = 1 ∧
      (lastOwner.raw.1.blocks 0).weak_reaf_counter = 1 ∧
      (lastOwner.raw.1.weak_this_ (lastOwner.raw.1.pointee 0)).block_ = some 0 ∧
      (SharedPtr.moveAssign lastOwner.raw.1 lastOwner.raw.2 SharedPtr.default).1.dtorRuns
        (Addr.raw 7) = 2 ∧
      ((SharedPtr.moveAssign lastOwner.raw.1 lastOwner.raw.2 SharedPtr.default).1.blocks
        0).weak_reaf_counter = -1 ∧
      ((SharedPtr.moveAssign lastOwner.fused.1 lastOwner.fused.2 SharedPtr.default).1.blocks
        0).deleted = 2) := by
  have e : (SharedPtr.moveAssign h a b).1 = h.release a := rfl
  refine ⟨⟨rfl, rfl, rfl, rfl, rfl⟩, ⟨rfl, rfl, rfl, rfl, ?_, ?_⟩, ?_, ?_, by decide⟩
  · intro x
    exact Heap.release_strong h a x
  · intro hn
    rcases a with ⟨blk, f⟩
    cases hn
    rfl
  · intro A hA hc
    rcases a with ⟨blk, f⟩
    cases hA
    rw [e]
    by_cases hn : (h.blocks A).strong_ref_counter - 1 = 0
    · obtain ⟨-, r2, -, r4, r5, -, -⟩ :=
        Heap.release_counts_local h A f (hc.resolve_left (fun c => c hn))
      exact ⟨r2, r4, r5⟩
    · rw [Heap.release_of_shared h A f hn]
      refine ⟨?_, ?_, ?_⟩
      · intro x hx; simp [upd_apply, hx]
      · simp [BaseBlock.DecStrongRef]
      · simp [BaseBlock.DecStrongRef, hn]
  · intro A hA h1 hx hs hm
    rcases a with ⟨blk, f⟩
    cases hA
    rw [e]
    obtain ⟨-, v2, -, v4, v5, -, v7⟩ := Heap.release_wired h A f h1 hx hs hm
    exact ⟨v2, v7, v4, v5⟩

theorem C13_witness :
    ((SharedPtr.ofRaw_weak (MakeShared true Heap.init).1 (Addr.raw 5)).1.weak_this_
      (Addr.storage 0)).block_ = some 0 ∧
    ((SharedPtr.ofRaw_weak (MakeShared true Heap.init).1 (Addr.raw 5)).1.weak_this_
      ((SharedPtr.ofRaw_weak (MakeShared true Heap.init).1 (Addr.raw 5)).1.pointee 1)).block_ =
      none ∧
    (((SharedPtr.moveAssign (SharedPtr.ofRaw_weak (MakeShared true Heap.init).1 (Addr.raw 5)).1
      ⟨some 1, Addr.raw 5⟩ ⟨some 0, Addr.storage 0⟩).1.blocks 1).deleted = 1) :=
  ⟨by decide, by decide,
    ((C13_move_transfers_ownership (SharedPtr.ofRaw_weak (MakeShared true Heap.init).1
      (Addr.raw 5)).1 ⟨some 1, Addr.raw 5⟩ ⟨some 0, Addr.storage 0⟩).2.2.1 1 rfl
      (Or.inr (by decide))).2.2⟩

/-- The block that `MakeShared` allocates in a program keeps its kind and its object. -/
theorem run_spMake_block (ops ops2 : List Op) :
    (run State.init ops).heap.next < (run State.init (ops ++ .spMake :: ops2)).heap.next ∧
    ((run State.init (ops ++ .spMake :: ops2)).heap.blocks (run State.init ops).heap.next).kind =
      BlockKind.Block ∧
    ((run State.init (ops ++ .spMake :: ops2)).heap.blocks (run State.init ops).heap.next).obj =
      Block.GetPtr (run State.init ops).heap.next := by
  have e : run State.init (ops ++ .spMake :: ops2) =
      run (step (run State.init ops) .spMake) ops2 := by
    rw [run_append]; rfl
  have hext := run_extends (step (run State.init ops) .spMake) ops2
  rw [← e] at hext
  obtain ⟨r1, -, r3, -⟩ := MakeShared_weak_heap (run State.init ops).heap
  have hn : (step (run State.init ops) .spMake).heap.next = (run State.init ops).heap.next + 1 :=
    r1
  have hb : (step (run State.init ops) .spMake).heap.blocks (run State.init ops).heap.next =
      ⟨BlockKind.Block, 1, 0, Addr.null, Addr.storage (run State.init ops).heap.next, 0⟩ := r3
  obtain ⟨x1, x2, -⟩ := hext.1 (run State.init ops).heap.next (by omega)
  refine ⟨by have := hext.2.2; omega, ?_, ?_⟩
  · rw [x2, hb]
  · rw [x1, hb]; rfl

theorem MakeShared_weak_slots (h : Heap) (hs : ∀ a, (h.weak_this_ a).block_ = none) (a : Addr) :
    ((MakeShared_weak h).1.weak_this_ a).block_ = none := by
  rw [(MakeShared_weak_heap h).2.2.2.2.1, upd_apply]
  split_ifs
  · rfl
  · exact hs a

/-- C16. `MakeShared` of weak/shared.h on any heap `h` returns one pointer on the newly
allocated fused block: `UseCount() == 1`, `Get()` is the address of the storage inside
that block, the object has not been destroyed and nothing else changed.  On a heap
without populated self-references, `DecStrongRef` on a fused block `c` with strong count
1 runs the destructor of the object in the storage of `c` exactly once, leaves the
strong count 0 and does not free the block; with any other strong count it runs no
destructor.  In every state a disciplined program reaches after a `MakeShared`, the
object in the fused block has been destroyed exactly once if the strong count of the
block is 0 and not at all otherwise, and the block has been freed exactly if its strong
count and its weak count are both 0 (so never while its weak count is positive).  (The
constructor arguments only determine the value of the pointee, which no pointer
operation reads.) -/
theorem C16_MakeShared_fused_block (h : Heap) (c : Nat)
    (hs : ∀ a, (h.weak_this_ a).block_ = none) (hk : (h.blocks c).kind = BlockKind.Block)
    (ops ops2 : List Op) (hd : Disciplined (ops ++ .spMake :: ops2)) :
    ((MakeShared_weak h).2.block_ = some h.next ∧
      (MakeShared_weak h).2.Get = Block.GetPtr h.next ∧
      (MakeShared_weak h).2.UseCount (MakeShared_weak h).1 = 1 ∧
      (MakeShared_weak h).1.blocks h.next =
        ⟨BlockKind.Block, 1, 0, Addr.null, Block.GetPtr h.next, 0⟩ ∧
      (MakeShared_weak h).1.dtors = h.dtors ∧
      (∀ x, x ≠ h.next → (MakeShared_weak h).1.blocks x = h.blocks x)) ∧
    ((h.blocks c).strong_ref_counter = 1 →
      (h.DecStrongRef c).dtors = Block.GetPtr c :: h.dtors ∧
      ((h.DecStrongRef c).blocks c).strong_ref_counter = 0 ∧
      ((h.DecStrongRef c).blocks c).deleted = (h.blocks c).deleted) ∧
    ((h.blocks c).strong_ref_counter ≠ 1 → (h.DecStrongRef c).dtors = h.dtors) ∧
    ((run State.init (ops ++ .spMake :: ops2)).heap.dtorRuns
        (Block.GetPtr (run State.init ops).heap.next) =
      (if ((run State.init (ops ++ .spMake :: ops2)).heap.blocks
          (run State.init ops).heap.next).strong_ref_counter = 0 then 1 else 0) ∧
    ((run State.init (ops ++ .spMake :: ops2)).heap.blocks
        (run State.init ops).heap.next).deleted =
      (if ((run State.init (ops ++ .spMake :: ops2)).heap.blocks
            (run State.init ops).heap.next).strong_ref_counter = 0 ∧
          ((run State.init (ops ++ .spMake :: ops2)).heap.blocks
            (run State.init ops).heap.next).weak_reaf_counter = 0 then 1 else 0)) := by
  obtain ⟨m1, m2, m3, m4, -, -, m7⟩ := MakeShared_weak_heap h
  refine ⟨⟨by rw [m7], by rw [m7]; rfl, ?_, m3, m4, m2⟩, ?_, ?_, ?_⟩
  · rw [m7]; simp [SharedPtr.UseCount, m3, BaseBlock.GetCount]
  · intro h1
    have hd1 := Heap.DecStrongRef_dtors h c hs
    simp only [h1, Heap.pointee, hk, Block.GetPtr, true_and, ne_eq, not_false_eq_true,
      reduceCtorEq, if_true] at hd1
    refine ⟨hd1, ?_, ?_⟩ <;>
    simp [Heap.DecStrongRef, Block.DecStrongRef, BaseBlock.DecStrongRef, hk, h1, hs,
      Heap.fuel, runDtor_of_slot_none, Heap.setSlot]
  · intro h1
    have hd1 := Heap.DecStrongRef_dtors h c hs
    simp only [h1, false_and, if_false] at hd1
    exact hd1
  · obtain ⟨used, hi⟩ := reachable_inv _ hd
    obtain ⟨b1, b2, b3⟩ := run_spMake_block ops ops2
    have e1 := hi.strong_eq _ b1
    have e2 := hi.weak_eq _ b1
    have e3 := hi.deleted_eq _ b1
    have e4 := hi.dtor_eq trivial _ b1 (by rw [b3]; simp [Block.GetPtr])
    rw [b3] at e4
    constructor
    · unfold Heap.dtorRuns
      rw [e4, e1]
      by_cases h0 : (run State.init (ops ++ .spMake :: ops2)).liveS
          (run State.init ops).heap.next = 0
      · simp [h0]
      · have : ((run State.init (ops ++ .spMake :: ops2)).liveS
            (run State.init ops).heap.next : Int) ≠ 0 := by exact_mod_cast h0
        simp [h0, this]
    · rw [e3, e1, e2]
      by_cases hz : (run State.init (ops ++ .spMake :: ops2)).liveS
          (run State.init ops).heap.next = 0 ∧
          (run State.init (ops ++ .spMake :: ops2)).liveW (run State.init ops).heap.next = 0
      · simp [hz.1, hz.2]
      · rw [if_neg hz, if_neg]
        intro hc
        exact hz ⟨by exact_mod_cast hc.1, by exact_mod_cast hc.2⟩

theorem C16_witness :
    (∀ a, ((MakeShared_weak Heap.init).1.weak_this_ a).block_ = none) ∧
    ((MakeShared_weak Heap.init).1.blocks 0).kind = BlockKind.Block ∧
    Disciplined ([.spRaw (some 5)] ++ .spMake :: [.wpOfShared 1, .spReset 1]) ∧
    (run State.init ([.spRaw (some 5)] ++ .spMake :: [.wpOfShared 1, .spReset 1])).heap.dtorRuns
      (Block.GetPtr 1) = 1 ∧
    ((run State.init ([.spRaw (some 5)] ++ .spMake :: [.wpOfShared 1, .spReset 1])).heap.blocks
      1).deleted = 0 :=
  ⟨MakeShared_weak_slots Heap.init (fun _ => rfl), by decide, by decide,
    (C16_MakeShared_fused_block (MakeShared_weak Heap.init).1 0
      (MakeShared_weak_slots Heap.init (fun _ => rfl)) (by decide)
      [.spRaw (some 5)] [.wpOfShared 1, .spReset 1] (by decide)).2.2.2.1,
    (C16_MakeShared_fused_block (MakeShared_weak Heap.init).1 0
      (MakeShared_weak_slots Heap.init (fun _ => rfl)) (by decide)
      [.spRaw (some 5)] [.wpOfShared 1, .spReset 1] (by decide)).2.2.2.2⟩

/-! ## Equality and expiry -/

/-- C17. `operator==` (shared-from-this/shared.h:325-328) is true exactly if the two
pointers hold the same block, whatever their addresses: two pointers without a block
are equal, two pointers with the same address and different blocks are unequal (so two
pointers made by the raw constructor from the same address), and an aliasing pointer
is equal to its owner whatever address it was given. -/
theorem C17_eq_iff_same_block (a b o : SharedPtr) (h : Heap) (m x : Addr) :
    (SharedPtr.eq a b = true ↔ a.block_ = b.block_) ∧
    (a.block_ = none → b.block_ = none → SharedPtr.eq a b = true) ∧
    (a.Get = b.Get → a.block_ ≠ b.block_ → SharedPtr.eq a b = false) ∧
    ((SharedPtr.ofRaw_weak h x).2.Get =
        (SharedPtr.ofRaw_weak (SharedPtr.ofRaw_weak h x).1 x).2.Get ∧
      SharedPtr.eq (SharedPtr.ofRaw_weak h x).2
        (SharedPtr.ofRaw_weak (SharedPtr.ofRaw_weak h x).1 x).2 = false) ∧
    ((SharedPtr.alias h o m).2.Get = m ∧ SharedPtr.eq (SharedPtr.alias h o m).2 o = true) := by
  refine ⟨by simp [SharedPtr.eq, SharedPtr.GetBlock], ?_, ?_, ?_, ?_⟩
  · intro ha hb
    simp [SharedPtr.eq, SharedPtr.GetBlock, ha, hb]
  · intro _ hne
    simp [SharedPtr.eq, SharedPtr.GetBlock, hne]
  · simp [SharedPtr.ofRaw_weak, Heap.newControlBlock, SharedPtr.eq, SharedPtr.GetBlock,
      SharedPtr.Get, SharedPtr.AddStrongRef]
  · simp [SharedPtr.alias, SharedPtr.eq, SharedPtr.GetBlock, SharedPtr.Get]

theorem C17_witness :
    (⟨some 0, Addr.raw 5⟩ : SharedPtr).Get = (⟨some 1, Addr.raw 5⟩ : SharedPtr).Get ∧
    (⟨some 0, Addr.raw 5⟩ : SharedPtr).block_ ≠ (⟨some 1, Addr.raw 5⟩ : SharedPtr).block_ ∧
    SharedPtr.eq ⟨some 0, Addr.raw 5⟩ ⟨some 1, Addr.raw 5⟩ = false :=
  ⟨rfl, by decide,
    (C17_eq_iff_same_block ⟨some 0, Addr.raw 5⟩ ⟨some 1, Addr.raw 5⟩ SharedPtr.default Heap.init
      Addr.null Addr.null).2.2.1 rfl (by decide)⟩

/-- C18. For a weak pointer `w` whose block, if any, has a strong count that is a value
of `int`, `w.Expired()` is true exactly if `w.UseCount() == 0`, and exactly if `w` has no
block or the strong count of its block is 0.  In every state a program reaches, a live
weak pointer `v` whose block has strong count 0 is expired and reports
`UseCount() == 0`, while the weak count of the block is positive and the block has not
been freed. -/
theorem C18_Expired_iff_UseCount_is_zero (h : Heap) (w : WeakPtr)
    (hr : ∀ b, w.block_ = some b → -(2 : Int) ^ 31 ≤ (h.blocks b).strong_ref_counter)
    (ops : List Op) (i : Nat) (v : WeakPtr) (c : Nat)
    (hv : (run State.init ops).getW i = some v) (hc : v.block_ = some c)
    (h0 : ((run State.init ops).heap.blocks c).strong_ref_counter = 0) :
    (w.Expired h = true ↔ w.UseCount h = 0) ∧
    (w.Expired h = true ↔
      (w.block_ = none ∨ ∃ b, w.block_ = some b ∧ (h.blocks b).strong_ref_counter = 0)) ∧
    (v.Expired (run State.init ops).heap = true ∧ v.UseCount (run State.init ops).heap = 0 ∧
      0 < ((run State.init ops).heap.blocks c).weak_reaf_counter ∧
      ((run State.init ops).heap.blocks c).deleted = 0) := by
  refine ⟨?_, WeakPtr.Expired_iff h w, ?_⟩
  · rcases w with ⟨f, blk⟩
    cases blk with
    | none => simp [WeakPtr.Expired, WeakPtr.UseCount]
    | some b =>
      simp only [WeakPtr.Expired, WeakPtr.UseCount, BaseBlock.IsEmpty, BaseBlock.GetCount,
        decide_eq_true_eq]
      exact (toSizeT_eq_zero_iff _ (hr b rfl)).symm
  · obtain ⟨used, hi⟩ := reachable_blocks_inv ops
    have hl := State.liveW_of_get _ i v hv c hc
    have hb := hi.blockW_lt c hl
    have e2 := hi.weak_eq c hb
    have e3 := hi.deleted_eq c hb
    refine ⟨?_, ?_, ?_, ?_⟩
    · simp [WeakPtr.Expired, hc, BaseBlock.IsEmpty, h0]
    · simp [WeakPtr.UseCount, hc, BaseBlock.GetCount, h0]
    · rw [e2]; exact_mod_cast hl
    · rw [e3, if_neg]; omega

theorem C18_witness :
    (∀ b, (⟨Addr.raw 5, some 0⟩ : WeakPtr).block_ = some b →
      -(2 : Int) ^ 31 ≤ ((run State.init sampleProgram).heap.blocks b).strong_ref_counter) ∧
    (run State.init sampleProgram).getW 0 = some ⟨Addr.raw 5, some 0⟩ ∧
    ((run State.init sampleProgram).heap.blocks 0).strong_ref_counter = 0 ∧
    WeakPtr.Expired (run State.init sampleProgram).heap ⟨Addr.raw 5, some 0⟩ = true ∧
    ((run State.init sampleProgram).heap.blocks 0).deleted = 0 :=
  ⟨fun b hb => by cases hb; decide, by decide, by decide,
    (C18_Expired_iff_UseCount_is_zero (run State.init sampleProgram).heap ⟨Addr.raw 5, some 0⟩
      (fun b hb => by cases hb; decide) sampleProgram 0 ⟨Addr.raw 5, some 0⟩ 0 (by decide) rfl
      (by decide)).2.2.1,
    (C18_Expired_iff_UseCount_is_zero (run State.init sampleProgram).heap ⟨Addr.raw 5, some 0⟩
      (fun b hb => by cases hb; decide) sampleProgram 0 ⟨Addr.raw 5, some 0⟩ 0 (by decide) rfl
      (by decide)).2.2.2.2.2⟩

/-! ## `UniquePtr` -/

theorem policyRuns_cons {δ : Type} (c : PolicyCall δ) (log : List (PolicyCall δ)) (a : Addr) :
    policyRuns (c :: log) a = policyRuns log a + (if c.arg = a then 1 else 0) := by
  unfold policyRuns
  rw [List.countP_cons]
  simp

/-- What `CorrectDelete` does: the held address is cleared, and if it was not null the
policy is called once on it, at a moment when the pointer already holds `nullptr`. -/
theorem UniquePtr.CorrectDelete_eq {δ : Type} (log : List (PolicyCall δ)) (u : UniquePtr δ) :
    u.CorrectDelete log =
      (if u.first ≠ Addr.null then ⟨u.second, u.first, Addr.null⟩ :: log else log,
        ⟨Addr.null, u.second⟩) := by
  simp only [UniquePtr.CorrectDelete]
  split_ifs <;> rfl

/-- C19. Moving a `UniquePtr` (unique.h:59-69, unique.h:78-89).  Move-constructing from a
source that holds `p` leaves the source with `Get() == nullptr` and the new pointer with
`Get() == p`, and calls no policy.  Move-assigning a source that holds `p` into another
pointer `dst` that does not hold the same object (the two held addresses differ, or both
are null) leaves the source with `Get() == nullptr` and `dst` with `Get() == p`; the
policy has not been called on `p`; and if the address `dst` held before is not null and
differs from `p`, the policy of `dst` has been called on it exactly once, with `dst`
holding `nullptr` at that moment, and on no other address.  Move-assigning a pointer to
itself does nothing. -/
theorem C19_unique_move_hands_over_the_address {δ δ2 : Type} (conv : δ2 → δ) (dflt : δ)
    (dflt2 : δ2) (log : List (PolicyCall δ)) (dst : UniquePtr δ) (src : UniquePtr δ2)
    (hne : dst.first = src.first → src.first = Addr.null) :
    ((UniquePtr.move conv dflt dflt2 log src).2.2.Get = Addr.null ∧
      (UniquePtr.move conv dflt dflt2 log src).2.1.Get = src.first ∧
      (UniquePtr.move conv dflt dflt2 log src).1 = log) ∧
    ((UniquePtr.moveAssign conv dflt2 log dst src).2.2.Get = Addr.null ∧
      (UniquePtr.moveAssign conv dflt2 log dst src).2.1.Get = src.first ∧
      policyRuns (UniquePtr.moveAssign conv dflt2 log dst src).1 src.first =
        policyRuns log src.first ∧
      (dst.first ≠ Addr.null → dst.first ≠ src.first →
        (UniquePtr.moveAssign conv dflt2 log dst src).1 =
          ⟨dst.second, dst.first, Addr.null⟩ :: log ∧
        policyRuns (UniquePtr.moveAssign conv dflt2 log dst src).1 dst.first =
          policyRuns log dst.first + 1) ∧
      (dst.first = Addr.null → (UniquePtr.moveAssign conv dflt2 log dst src).1 = log)) ∧
    (∀ cv : δ → δ, UniquePtr.moveAssignSelf cv dflt log dst = (log, dst)) := by
  refine ⟨?_, ?_, fun cv => by simp [UniquePtr.moveAssignSelf]⟩
  · unfold UniquePtr.move
    by_cases e : Addr.null = src.first
    · simp [e.symm, UniquePtr.Get]
    · simp [e, UniquePtr.CorrectDelete_eq, UniquePtr.Get]
  · by_cases e : dst.first = src.first
    · have hp := hne e
      have hd : dst.first = Addr.null := e.trans hp
      simp [UniquePtr.moveAssign, e, UniquePtr.Get, hp, hd]
    · by_cases hd : dst.first = Addr.null
      · have e2 : ¬ Addr.null = src.first := by rw [← hd]; exact e
        simp [UniquePtr.moveAssign, e2, UniquePtr.Get, UniquePtr.CorrectDelete_eq, hd]
      · simp [UniquePtr.moveAssign, e, UniquePtr.Get, UniquePtr.CorrectDelete_eq, hd,
          policyRuns_cons]

theorem C19_witness :
    ((UniquePtr.ofRaw () (Addr.raw 1)).first = (UniquePtr.ofRaw () (Addr.raw 2)).first →
      (UniquePtr.ofRaw () (Addr.raw 2)).first = Addr.null) ∧
    (UniquePtr.moveAssign id () [] (UniquePtr.ofRaw () (Addr.raw 1))
      (UniquePtr.ofRaw () (Addr.raw 2))).2.1.Get = Addr.raw 2 ∧
    (UniquePtr.moveAssign id () [] (UniquePtr.ofRaw () (Addr.raw 1))
      (UniquePtr.ofRaw () (Addr.raw 2))).1 = [⟨(), Addr.raw 1, Addr.null⟩] :=
  ⟨by decide,
    (C19_unique_move_hands_over_the_address id () () [] (UniquePtr.ofRaw () (Addr.raw 1))
      (UniquePtr.ofRaw () (Addr.raw 2)) (by decide)).2.1.2.1,
    ((C19_unique_move_hands_over_the_address id () () [] (UniquePtr.ofRaw () (Addr.raw 1))
      (UniquePtr.ofRaw () (Addr.raw 2)) (by decide)).2.1.2.2.2.1 (by decide) (by decide)).1⟩

/-- C20. Destroying a `UniquePtr` (unique.h:108-110) that holds a non-null address `p`
calls its policy exactly once, on `p`, at a moment when the pointer already holds
`nullptr`; destroying one that holds `nullptr` calls no policy.  Assigning `nullptr`
(unique.h:99-103) makes the same calls and leaves the pointer holding `nullptr` with
its policy unchanged. -/
theorem C20_unique_dtor_calls_policy_once {δ : Type} (log : List (PolicyCall δ))
    (u : UniquePtr δ) :
    (u.first ≠ Addr.null →
      u.dtor log = ⟨u.second, u.first, Addr.null⟩ :: log ∧
      policyRuns (u.dtor log) u.first = policyRuns log u.first + 1 ∧
      ∀ a, a ≠ u.first → policyRuns (u.dtor log) a = policyRuns log a) ∧
    (u.first = Addr.null → u.dtor log = log) ∧
    (u.assignNull log).1 = u.dtor log ∧
    (u.assignNull log).2.Get = Addr.null ∧
    (u.assignNull log).2.second = u.second := by
  refine ⟨?_, ?_, ?_, ?_, ?_⟩
  · intro hp
    have e : u.dtor log = ⟨u.second, u.first, Addr.null⟩ :: log := by
      simp [UniquePtr.dtor, UniquePtr.CorrectDelete_eq, hp]
    refine ⟨e, ?_, ?_⟩
    · rw [e, policyRuns_cons]; simp
    · intro a ha
      rw [e, policyRuns_cons]
      simp [Ne.symm ha]
  · intro hp
    simp [UniquePtr.dtor, UniquePtr.CorrectDelete_eq, hp]
  · rfl
  · rfl
  · simp [UniquePtr.assignNull, UniquePtr.CorrectDelete_eq]

theorem C20_witness :
    (UniquePtr.ofRaw () (Addr.raw 1)).first ≠ Addr.null ∧
    (UniquePtr.ofRaw () (Addr.raw 1)).dtor [] = [⟨(), Addr.raw 1, Addr.null⟩] ∧
    policyRuns ((UniquePtr.ofRaw () (Addr.raw 1)).dtor []) (Addr.raw 1) = 1 :=
  ⟨by decide,
    ((C20_unique_dtor_calls_policy_once [] (UniquePtr.ofRaw () (Addr.raw 1))).1
      (by decide)).1,
    ((C20_unique_dtor_calls_policy_once [] (UniquePtr.ofRaw () (Addr.raw 1))).1
      (by decide)).2.1⟩


/-! ## Counting pointer variables -/

theorem getD_set_ne {α : Type} (l : List (Option α)) (i j : Nat) (o : Option α) (hij : i ≠ j) :
    (l.set i o).getD j none = l.getD j none := by
  simp [List.getD_eq_getElem?_getD, List.getElem?_set_ne hij]

theorem countP_set_getD {α : Type} (p : Option α → Bool) (l : List (Option α)) (i : Nat)
    (x : α) (h : l.getD i none = some x) (o : Option α) :
    (l.set i o).countP p + (p (some x)).toNat = l.countP p + (p o).toNat := by
  obtain ⟨hi, hx⟩ := getD_none_eq_some l i x h
  have := countP_set_toNat p l i o hi
  rw [hx] at this
  exact this

theorem countP_set_set {α : Type} (p : Option α → Bool) (l : List (Option α)) (i j : Nat)
    (x y : α) (hij : i ≠ j) (hx : l.getD i none = some x) (hy : l.getD j none = some y)
    (o1 o2 : Option α) :
    ((l.set i o1).set j o2).countP p + (p (some x)).toNat + (p (some y)).toNat =
      l.countP p + (p o1).toNat + (p o2).toNat := by
  have h1 := countP_set_getD p l i x hx o1
  have hy' : (l.set i o1).getD j none = some y := by rw [getD_set_ne l i j o1 hij]; exact hy
  have h2 := countP_set_getD p (l.set i o1) j y hy' o2
  omega

/-- If two different variables satisfy `p`, at least two entries do. -/
theorem two_le_countP {α : Type} (p : α → Bool) (l : List α) (i j : Nat) (hij : i < j)
    (hj : j < l.length) (hpi : p (l.get ⟨i, by omega⟩) = true) (hpj : p (l.get ⟨j, hj⟩) = true) :
    2 ≤ l.countP p := by
  induction l generalizing i j with
  | nil => simp at hj
  | cons x xs ih =>
    cases j with
    | zero => omega
    | succ j' =>
      simp only [List.length_cons, Nat.add_lt_add_iff_right] at hj
      cases i with
      | zero =>
        simp only [List.get_eq_getElem, List.getElem_cons_zero] at hpi
        simp only [List.get_eq_getElem, List.getElem_cons_succ] at hpj
        have := countP_pos_of_getElem p xs j' hj hpj
        simp only [List.countP_cons, hpi, if_true]
        omega
      | succ i' =>
        simp only [List.get_eq_getElem, List.getElem_cons_succ] at hpi hpj
        have := ih i' j' (by omega) hj hpi hpj
        simp only [List.countP_cons]
        omega
/-- What `Reset(ptr)` does: the new address is stored, and if the old one was not null
the policy is called once on it, at a moment when the pointer already holds the new
address. -/
theorem UniquePtr.Reset_eq {δ : Type} (log : List (PolicyCall δ)) (u : UniquePtr δ)
    (ptr : Addr) :
    UniquePtr.Reset log u ptr =
      (if u.first ≠ Addr.null then ⟨u.second, u.first, ptr⟩ :: log else log,
        ⟨ptr, u.second⟩) := by
  simp only [UniquePtr.Reset]
  split_ifs <;> rfl

/-! ## `UniquePtr`: release, reset, policy transfer -/

/-- C21. `Release()` (unique.h:115-119) on a pointer that holds `p` (null or not) returns
`p` and leaves the pointer with `Get() == nullptr` and the same policy instance; it
takes no policy log, so it calls no policy.  Destroying the pointer afterwards leaves
the policy log as it was: no policy call is made, on `p` or on anything else. -/
theorem C21_Release_hands_back_the_address {δ : Type} (log : List (PolicyCall δ))
    (u : UniquePtr δ) :
    u.Release.1 = u.first ∧ u.Release.2.Get = Addr.null ∧
    u.Release.2.GetDeleter = u.GetDeleter ∧
    u.Release.2.dtor log = log ∧
    policyRuns (u.Release.2.dtor log) u.first = policyRuns log u.first := by
  have e : u.Release.2.dtor log = log := by
    simp [UniquePtr.Release, UniquePtr.dtor, UniquePtr.CorrectDelete_eq]
  exact ⟨rfl, rfl, rfl, e, by rw [e]⟩

/-- C23, counterexample.  `UniquePtr<T> u(x1); u.Reset(x2);` calls the policy on `x1`
once, and at that call the pointer already holds `x2`, not `x1`: the store of the new
address precedes the policy call. -/
theorem C23_Reset_stores_before_the_policy_call :
    (UniquePtr.Reset [] (UniquePtr.ofRaw () (Addr.raw 1)) (Addr.raw 2)).1 =
      [⟨(), Addr.raw 1, Addr.raw 2⟩] ∧
    (∀ c ∈ (UniquePtr.Reset [] (UniquePtr.ofRaw () (Addr.raw 1)) (Addr.raw 2)).1,
      c.arg = Addr.raw 1 ∧ c.held = Addr.raw 2 ∧ c.held ≠ Addr.raw 1) := by
  decide

/-- C23, amended.  `Reset(q)` (unique.h:121-127, and the same text at unique.h:239-245)
on a pointer that holds a non-null address `p` calls the policy on `p` exactly once and
on no other address, and does so after the pointer has adopted `q`: at the call the
pointer holds `q`.  Afterwards `Get() == q` and the policy instance is unchanged.  When
the held address is `nullptr` no policy is called and `Get() == q`. -/
theorem C23_Reset_calls_policy_after_the_store {δ : Type} (log : List (PolicyCall δ))
    (u : UniquePtr δ) (q : Addr) :
    (u.first ≠ Addr.null →
      (UniquePtr.Reset log u q).1 = ⟨u.second, u.first, q⟩ :: log ∧
      policyRuns (UniquePtr.Reset log u q).1 u.first = policyRuns log u.first + 1 ∧
      (∀ a, a ≠ u.first →
        policyRuns (UniquePtr.Reset log u q).1 a = policyRuns log a)) ∧
    (u.first = Addr.null → (UniquePtr.Reset log u q).1 = log) ∧
    (UniquePtr.Reset log u q).2.Get = q ∧
    (UniquePtr.Reset log u q).2.GetDeleter = u.GetDeleter := by
  refine ⟨?_, ?_, ?_, ?_⟩
  · intro hp
    have e : (UniquePtr.Reset log u q).1 = ⟨u.second, u.first, q⟩ :: log := by
      simp [UniquePtr.Reset_eq, hp]
    refine ⟨e, ?_, ?_⟩
    · rw [e, policyRuns_cons]; simp
    · intro a ha
      rw [e, policyRuns_cons]
      simp [Ne.symm ha]
  · intro hp
    simp [UniquePtr.Reset_eq, hp]
  · simp [UniquePtr.Reset_eq, UniquePtr.Get]
  · simp [UniquePtr.Reset_eq, UniquePtr.GetDeleter]

theorem C23_witness :
    (UniquePtr.ofRaw () (Addr.raw 1)).first ≠ Addr.null ∧
    policyRuns (UniquePtr.Reset [] (UniquePtr.ofRaw () (Addr.raw 1)) (Addr.raw 2)).1
      (Addr.raw 1) = 1 :=
  ⟨by decide,
    ((C23_Reset_calls_policy_after_the_store [] (UniquePtr.ofRaw () (Addr.raw 1))
      (Addr.raw 2)).1 (by decide)).2.1⟩

/-- C29. Moving a `UniquePtr` hands over the policy only if the addresses differ.  A
source that holds a non-null address and the policy `d`: the new pointer of the move
constructor (primary template and array specialisation) has `GetDeleter()` equal to the
policy converted from `d`, and the source is left holding `nullptr`.  A source that
holds `nullptr`: the constructor returns before anything is handed over, and the new
pointer has the policy `Deleter()`, not the one converted from `d`.  Move assignment
hands over the policy if the two held addresses differ and keeps the policy of the
destination if they are equal, so also when both pointers hold `nullptr`.  With
policies that are numbers, moving a source `(nullptr, 7)` gives a pointer with policy 0
from the constructor, and leaves the destination `(nullptr, 3)` of an assignment with
policy 3. -/
theorem C29_move_hands_over_policy_only_with_an_address {δ δ2 : Type} (conv : δ2 → δ)
    (cv : δ → δ) (dflt : δ) (dflt2 : δ2) (log : List (PolicyCall δ)) (dst : UniquePtr δ)
    (src : UniquePtr δ2) (srcA : UniquePtr δ) :
    (src.first ≠ Addr.null →
      (UniquePtr.move conv dflt dflt2 log src).2.1.GetDeleter = conv src.GetDeleter ∧
      (UniquePtr.move conv dflt dflt2 log src).2.2.Get = Addr.null) ∧
    (srcA.first ≠ Addr.null →
      (UniquePtr.move_array cv dflt log srcA).2.1.GetDeleter = cv srcA.GetDeleter ∧
      (UniquePtr.move_array cv dflt log srcA).2.2.Get = Addr.null) ∧
    (src.first = Addr.null →
      (UniquePtr.move conv dflt dflt2 log src).2.1.GetDeleter = dflt ∧
      (UniquePtr.move conv dflt dflt2 log src).2.2 = src) ∧
    (srcA.first = Addr.null →
      (UniquePtr.move_array cv dflt log srcA).2.1.GetDeleter = dflt) ∧
    (dst.first ≠ src.first →
      (UniquePtr.moveAssign conv dflt2 log dst src).2.1.GetDeleter = conv src.GetDeleter ∧
      (UniquePtr.moveAssign conv dflt2 log dst src).2.2.Get = Addr.null) ∧
    (dst.first = src.first →
      (UniquePtr.moveAssign conv dflt2 log dst src).2.1.GetDeleter = dst.GetDeleter ∧
      (UniquePtr.moveAssign conv dflt2 log dst src).2.2 = src) ∧
    ((UniquePtr.move id 0 0 ([] : List (PolicyCall Nat)) ⟨Addr.null, 7⟩).2.1.GetDeleter = 0 ∧
      (UniquePtr.move_array id 0 ([] : List (PolicyCall Nat))
        ⟨Addr.null, 7⟩).2.1.GetDeleter = 0 ∧
      (UniquePtr.moveAssign id 0 ([] : List (PolicyCall Nat)) ⟨Addr.null, 3⟩
        ⟨Addr.null, 7⟩).2.1.GetDeleter = 3) := by
  refine ⟨?_, ?_, ?_, ?_, ?_, ?_, ⟨rfl, rfl, rfl⟩⟩
  · intro hp
    have e : ¬ Addr.null = src.first := fun e => hp e.symm
    simp [UniquePtr.move, e, UniquePtr.GetDeleter, UniquePtr.Get, UniquePtr.CorrectDelete_eq]
  · intro hp
    have e : ¬ Addr.null = srcA.first := fun e => hp e.symm
    simp [UniquePtr.move_array, e, UniquePtr.GetDeleter, UniquePtr.Get,
      UniquePtr.CorrectDelete_eq]
  · intro hp
    simp [UniquePtr.move, hp, UniquePtr.GetDeleter]
  · intro hp
    simp [UniquePtr.move_array, hp, UniquePtr.GetDeleter]
  · intro hp
    simp [UniquePtr.moveAssign, hp, UniquePtr.GetDeleter, UniquePtr.Get,
      UniquePtr.CorrectDelete_eq]
  · intro hp
    simp [UniquePtr.moveAssign, hp, UniquePtr.GetDeleter]

theorem C29_witness :
    (⟨Addr.raw 1, 7⟩ : UniquePtr Nat).first ≠ Addr.null ∧
    (UniquePtr.move id 0 0 ([] : List (PolicyCall Nat)) ⟨Addr.raw 1, 7⟩).2.1.GetDeleter = 7 :=
  ⟨by decide,
    ((C29_move_hands_over_policy_only_with_an_address id id 0 0 [] ⟨Addr.null, 0⟩
      ⟨Addr.raw 1, 7⟩ ⟨Addr.null, 0⟩).1 (by decide)).1⟩
/-! ## `UniquePtr`: one owner per address -/

theorem holdsU_some {δ : Type} (a : Addr) (p : UniquePtr δ) :
    (holdsU a (some p)).toNat = if p.first = a then 1 else 0 := by
  by_cases h : p.first = a <;> simp [holdsU, h]

theorem holdsU_none {δ : Type} (a : Addr) :
    (holdsU a (none : Option (UniquePtr δ))).toNat = 0 := rfl

theorem UniqInv.uniq_mono {δ : Type} {used used2 : List Addr} {s : UniqState δ}
    (hi : UniqInv used s) (hu : ∀ a, a ∈ used → a ∈ used2) : UniqInv used2 s := by
  refine ⟨fun a ha => ?_, hi.2⟩
  have h0 := hi.1 a ha
  by_cases hm : a ∈ used
  · simp only [hm, hu a hm, if_true] at h0 ⊢
    exact h0
  · simp only [hm, if_false] at h0
    omega

theorem UniqInv.uniq_init {δ : Type} : UniqInv [] (UniqState.init : UniqState δ) := by
  refine ⟨fun a _ => ?_, rfl⟩
  simp [UniqState.init, UniqState.holders, policyRuns]

/-- A live pointer that holds a non-null address is the only one, and no policy was
called on that address. -/
theorem UniqInv.of_get {δ : Type} {used : List Addr} {s : UniqState δ} (hi : UniqInv used s)
    (i : Nat) (p : UniquePtr δ) (hp : s.get i = some p) (hn : p.first ≠ Addr.null) :
    s.holders p.first = 1 ∧ policyRuns s.log p.first = 0 ∧ p.first ∈ used := by
  have h0 := hi.1 p.first hn
  obtain ⟨hl, he⟩ := getD_none_eq_some s.ptrs i p hp
  have h1 : 1 ≤ s.holders p.first :=
    countP_pos_of_getElem _ _ i hl (by rw [he]; simp [holdsU])
  by_cases hm : p.first ∈ used
  · simp only [hm, if_true] at h0
    exact ⟨by omega, by omega, hm⟩
  · simp only [hm, if_false] at h0
    omega

/-- An address that was not handed over is held by no pointer and was passed to no
policy. -/
theorem UniqInv.of_fresh {δ : Type} {used : List Addr} {s : UniqState δ} (hi : UniqInv used s)
    (a : Addr) (ha : a ≠ Addr.null) (hf : a ∉ used) :
    s.holders a = 0 ∧ policyRuns s.log a = 0 := by
  have h0 := hi.1 a ha
  simp only [hf, if_false] at h0
  omega

theorem UniqInv.uniq_ofRaw {δ : Type} (dflt : δ) {used : List Addr} {s : UniqState δ}
    (hi : UniqInv used s) (r : Option Nat) (hf : ∀ a ∈ handedU [.ofRaw r], a ∉ used) :
    UniqInv (used ++ handedU [.ofRaw r]) (ustep dflt s (.ofRaw r)) := by
  cases r with
  | none =>
    refine ⟨fun a ha => ?_, hi.2⟩
    have h0 := hi.1 a ha
    have hne : ¬ Addr.null = a := fun e => ha e.symm
    simp only [ustep, UniqState.holders, countP_push_toNat, holdsU_some, UniquePtr.ofRaw,
      Addr.ofNew, hne, if_false, handedU, List.append_nil] at h0 ⊢
    exact h0
  | some n =>
    have hfr : Addr.raw n ∉ used := hf _ (by simp [handedU])
    obtain ⟨f1, f2⟩ := hi.of_fresh (Addr.raw n) (by simp) hfr
    refine ⟨fun a ha => ?_, hi.2⟩
    have h0 := hi.1 a ha
    simp only [ustep, UniqState.holders, countP_push_toNat, holdsU_some, UniquePtr.ofRaw,
      Addr.ofNew, handedU, List.mem_append, List.mem_singleton] at h0 f1 ⊢
    by_cases e : Addr.raw n = a
    · subst e
      simp only [if_true, or_true, f1] at h0 ⊢
      omega
    · have e2 : ¬ a = Addr.raw n := fun x => e x.symm
      simp only [e, e2, if_false, or_false] at h0 ⊢
      exact h0

theorem UniqInv.uniq_release {δ : Type} (dflt : δ) {used : List Addr} {s : UniqState δ}
    (hi : UniqInv used s) (i : Nat) : UniqInv used (ustep dflt s (.release i)) := by
  simp only [ustep]
  rcases hp : s.get i with _ | p
  · exact hi
  · refine ⟨fun a ha => ?_, hi.2⟩
    have h0 := hi.1 a ha
    have hc := countP_set_getD (holdsU a) s.ptrs i p hp (some p.Release.2)
    have hne : ¬ Addr.null = a := fun e => ha e.symm
    simp only [holdsU_some, UniquePtr.Release, hne, if_false] at hc
    simp only [UniqState.holders, UniquePtr.Release] at h0 ⊢
    omega

/-- The effect of `Reset(q)` and of the destructor on the counts: the old address goes
from held to destroyed, the new one becomes held. -/
theorem UniqInv.resetTo {δ : Type} {used : List Addr} {s : UniqState δ}
    (hi : UniqInv used s) (i : Nat) (p : UniquePtr δ) (hp : s.get i = some p) (q : Addr)
    (o : Option (UniquePtr δ)) (ho : ∀ a, a ≠ Addr.null → (holdsU a o).toNat =
      if q = a then 1 else 0)
    (hq : q ≠ Addr.null → q ∉ used) (used2 : List Addr)
    (hu : ∀ a, a ∈ used2 ↔ (a ∈ used ∨ (a = q ∧ q ≠ Addr.null))) :
    UniqInv used2 ⟨(UniquePtr.Reset s.log p q).1, s.ptrs.set i o⟩ := by
  have hlog := UniquePtr.Reset_eq s.log p q
  by_cases hx : p.first = Addr.null
  · -- nothing to destroy
    have e : (UniquePtr.Reset s.log p q).1 = s.log := by rw [hlog]; simp [hx]
    rw [e]
    refine ⟨fun a ha => ?_, hi.2⟩
    have h0 := hi.1 a ha
    have hc := countP_set_getD (holdsU a) s.ptrs i p hp o
    have hne : ¬ p.first = a := by rw [hx]; exact fun e => ha e.symm
    rw [ho a ha] at hc
    simp only [holdsU_some, hne, if_false] at hc
    simp only [UniqState.holders] at h0 ⊢
    by_cases e : q = a
    · subst e
      obtain ⟨f1, f2⟩ := hi.of_fresh q ha (hq ha)
      simp only [UniqState.holders] at f1
      have hm : q ∈ used2 := (hu q).mpr (Or.inr ⟨rfl, ha⟩)
      simp only [if_true, hm] at hc ⊢
      omega
    · have hm : a ∈ used2 ↔ a ∈ used := by
        rw [hu a]; constructor
        · rintro (h | ⟨h, -⟩)
          · exact h
          · exact (e h.symm).elim
        · exact Or.inl
      simp only [e, if_false] at hc
      simp only [hm]
      omega
  · obtain ⟨g1, g2, g3⟩ := hi.of_get i p hp hx
    have e : (UniquePtr.Reset s.log p q).1 = ⟨p.second, p.first, q⟩ :: s.log := by
      rw [hlog]; simp [hx]
    rw [e]
    refine ⟨fun a ha => ?_, ?_⟩
    · have h0 := hi.1 a ha
      have hc := countP_set_getD (holdsU a) s.ptrs i p hp o
      rw [ho a ha] at hc
      simp only [holdsU_some] at hc
      simp only [UniqState.holders, policyRuns_cons] at h0 g1 ⊢
      by_cases e1 : p.first = a
      · subst e1
        have hqa : ¬ q = p.first := by
          intro e2
          exact hq (by rw [e2]; exact hx) (by rw [e2]; exact g3)
        have hm : p.first ∈ used2 := (hu _).mpr (Or.inl g3)
        simp only [if_true, hqa, if_false, hm] at hc ⊢
        omega
      · by_cases e2 : q = a
        · subst e2
          obtain ⟨f1, f2⟩ := hi.of_fresh q ha (hq ha)
          simp only [UniqState.holders] at f1
          have hm : q ∈ used2 := (hu q).mpr (Or.inr ⟨rfl, ha⟩)
          simp only [e1, if_false, if_true, hm] at hc ⊢
          omega
        · have hm : a ∈ used2 ↔ a ∈ used := by
            rw [hu a]; constructor
            · rintro (h | ⟨h, -⟩)
              · exact h
              · exact (e2 h.symm).elim
            · exact Or.inl
          simp only [e1, e2, if_false] at hc ⊢
          simp only [hm]
          omega
    · rw [policyRuns_cons, hi.2]
      simp [hx]
theorem UniqInv.uniq_same {δ : Type} {used : List Addr} {s : UniqState δ} (hi : UniqInv used s)
    (ptrs2 : List (Option (UniquePtr δ)))
    (hc : ∀ a, a ≠ Addr.null → ptrs2.countP (holdsU a) = s.holders a) :
    UniqInv used ⟨s.log, ptrs2⟩ := by
  refine ⟨fun a ha => ?_, hi.2⟩
  have h0 := hi.1 a ha
  simp only [UniqState.holders] at h0 ⊢
  rw [hc a ha]
  exact h0

theorem UniqInv.resetNull {δ : Type} (dflt : δ) {used : List Addr} {s : UniqState δ}
    (hi : UniqInv used s) (i : Nat) : UniqInv used (ustep dflt s (.resetNull i)) := by
  simp only [ustep]
  rcases hp : s.get i with _ | p
  · exact hi
  · refine hi.resetTo i p hp Addr.null _ ?_ (fun h => (h rfl).elim) used ?_
    · intro a ha
      have hne : ¬ Addr.null = a := fun e => ha e.symm
      simp [holdsU_some, UniquePtr.Reset_eq, hne]
    · intro a; simp

theorem UniqInv.uniq_reset {δ : Type} (dflt : δ) {used : List Addr} {s : UniqState δ}
    (hi : UniqInv used s) (i n : Nat) (hf : Addr.raw n ∉ used) :
    UniqInv (used ++ [Addr.raw n]) (ustep dflt s (.reset i n)) := by
  simp only [ustep]
  rcases hp : s.get i with _ | p
  · exact hi.uniq_mono (fun a ha => List.mem_append_left _ ha)
  · refine hi.resetTo i p hp (Addr.raw n) _ ?_ (fun _ => hf) _ ?_
    · intro a _
      simp [holdsU_some, UniquePtr.Reset_eq]
    · intro a; simp

theorem UniqInv.uniq_dtor {δ : Type} (dflt : δ) {used : List Addr} {s : UniqState δ}
    (hi : UniqInv used s) (i : Nat) : UniqInv used (ustep dflt s (.dtor i)) := by
  simp only [ustep]
  rcases hp : s.get i with _ | p
  · exact hi
  · have e : p.dtor s.log = (UniquePtr.Reset s.log p Addr.null).1 := by
      simp [UniquePtr.dtor, UniquePtr.CorrectDelete_eq, UniquePtr.Reset_eq]
    simp only [e]
    refine hi.resetTo i p hp Addr.null none ?_ (fun h => (h rfl).elim) used ?_
    · intro a ha
      have hne : ¬ Addr.null = a := fun e => ha e.symm
      simp [holdsU_none, hne]
    · intro a; simp

theorem UniqInv.uniq_move {δ : Type} (dflt : δ) {used : List Addr} {s : UniqState δ}
    (hi : UniqInv used s) (j : Nat) : UniqInv used (ustep dflt s (.move j)) := by
  simp only [ustep]
  rcases hq : s.get j with _ | q
  · exact hi
  · have hl : (UniquePtr.move id dflt dflt s.log q).1 = s.log := by
      unfold UniquePtr.move
      by_cases e : Addr.null = q.first
      · simp [e]
      · simp [e, UniquePtr.CorrectDelete_eq]
    simp only [hl]
    apply hi.uniq_same
    intro a ha
    have hne : ¬ Addr.null = a := fun e => ha e.symm
    have hc := countP_set_getD (holdsU a) s.ptrs j q hq
      (some (UniquePtr.move id dflt dflt s.log q).2.2)
    rw [countP_push_toNat]
    simp only [holdsU_some, UniqState.holders] at hc ⊢
    by_cases e : Addr.null = q.first
    · have e2 : ¬ q.first = a := by rw [← e]; exact hne
      simp only [UniquePtr.move, e, if_true, e2, if_false, hne] at hc ⊢
      omega
    · simp only [UniquePtr.move, e, if_false, hne, UniquePtr.CorrectDelete_eq, id] at hc ⊢
      omega

theorem UniqInv.uniq_swap {δ : Type} (dflt : δ) {used : List Addr} {s : UniqState δ}
    (hi : UniqInv used s) (i j : Nat) : UniqInv used (ustep dflt s (.swap i j)) := by
  simp only [ustep]
  rcases hp : s.get i with _ | p
  · exact hi
  · rcases hq : s.get j with _ | q
    · exact hi
    · simp only
      split_ifs with hij
      · exact hi
      · apply hi.uniq_same
        intro a _
        have hc := countP_set_set (holdsU a) s.ptrs i j p q hij hp hq
          (some (UniquePtr.Swap p q).1) (some (UniquePtr.Swap p q).2)
        simp only [holdsU_some, UniquePtr.Swap, UniqState.holders] at hc ⊢
        omega

theorem UniqInv.uniq_moveAssign {δ : Type} (dflt : δ) {used : List Addr} {s : UniqState δ}
    (hi : UniqInv used s) (i j : Nat) : UniqInv used (ustep dflt s (.moveAssign i j)) := by
  simp only [ustep]
  rcases hp : s.get i with _ | p
  · exact hi
  · rcases hq : s.get j with _ | q
    · exact hi
    · simp only
      split_ifs with hij
      · -- the pointer is assigned to itself
        simp only [UniquePtr.moveAssignSelf, if_true]
        apply hi.uniq_same
        intro a _
        have hc := countP_set_getD (holdsU a) s.ptrs i p hp (some p)
        simp only [UniqState.holders] at hc ⊢
        omega
      · by_cases e : p.first = q.first
        · simp only [UniquePtr.moveAssign, e, if_true]
          apply hi.uniq_same
          intro a _
          have hc := countP_set_set (holdsU a) s.ptrs i j p q hij hp hq (some p) (some q)
          simp only [UniqState.holders] at hc ⊢
          omega
        · have hc := fun a => countP_set_set (holdsU a) s.ptrs i j p q hij hp hq
            (some (UniquePtr.moveAssign id dflt s.log p q).2.1)
            (some (UniquePtr.moveAssign id dflt s.log p q).2.2)
          simp only [UniquePtr.moveAssign, e, if_false, UniquePtr.CorrectDelete_eq,
            holdsU_some, id] at hc ⊢
          by_cases hx : p.first = Addr.null
          · simp only [hx, ne_eq, not_true_eq_false, if_false]
            apply hi.uniq_same
            intro a ha
            have hne : ¬ Addr.null = a := fun e => ha e.symm
            have := hc a
            simp only [hx, hne, if_false, UniqState.holders] at this ⊢
            omega
          · obtain ⟨g1, g2, g3⟩ := hi.of_get i p hp hx
            simp only [hx, ne_eq, not_false_eq_true, if_true]
            refine ⟨fun a ha => ?_, ?_⟩
            · have h0 := hi.1 a ha
              have hne : ¬ Addr.null = a := fun e => ha e.symm
              have := hc a
              simp only [hne, if_false, UniqState.holders, policyRuns_cons] at this h0 g1 ⊢
              by_cases e1 : p.first = a
              · subst e1
                simp only [if_true] at this ⊢
                omega
              · simp only [e1, if_false] at this ⊢
                omega
            · rw [policyRuns_cons, hi.2]
              simp [hx]

theorem handedU_cons (op : UniqOp) (ops : List UniqOp) :
    handedU (op :: ops) = handedU [op] ++ handedU ops := by
  cases op with
  | ofRaw r => cases r <;> simp [handedU]
  | reset i n => simp [handedU]
  | _ => simp [handedU]

theorem UniqInv.uniq_step {δ : Type} (dflt : δ) {used : List Addr} {s : UniqState δ}
    (hi : UniqInv used s) (op : UniqOp) (hf : ∀ a ∈ handedU [op], a ∉ used) :
    UniqInv (used ++ handedU [op]) (ustep dflt s op) := by
  cases op with
  | ofRaw r => exact hi.uniq_ofRaw dflt r hf
  | move j => simpa [handedU] using hi.uniq_move dflt j
  | moveAssign i j => simpa [handedU] using hi.uniq_moveAssign dflt i j
  | release i => simpa [handedU] using hi.uniq_release dflt i
  | resetNull i => simpa [handedU] using hi.resetNull dflt i
  | reset i n => exact hi.uniq_reset dflt i n (hf _ (by simp [handedU]))
  | swap i j => simpa [handedU] using hi.uniq_swap dflt i j
  | dtor i => simpa [handedU] using hi.uniq_dtor dflt i

theorem UniqInv.uniq_run {δ : Type} (dflt : δ) {used : List Addr} {s : UniqState δ}
    (hi : UniqInv used s) (ops : List UniqOp) (h2 : (handedU ops).Nodup)
    (h3 : ∀ a ∈ handedU ops, a ∉ used) :
    UniqInv (used ++ handedU ops) (urun dflt s ops) := by
  induction ops generalizing used s with
  | nil => simpa [handedU, urun] using hi
  | cons op ops ih =>
    rw [handedU_cons] at h2 h3 ⊢
    have hstep := hi.uniq_step dflt op (fun a ha => h3 a (List.mem_append_left _ ha))
    have h2' := List.nodup_append.mp h2
    have := ih hstep h2'.2.1 (by
      intro a ha hm
      rcases List.mem_append.mp hm with hm | hm
      · exact h3 a (List.mem_append_right _ ha) hm
      · exact h2'.2.2 hm ha)
    rw [List.append_assoc] at this
    exact this

/-- Every state a program with fresh addresses reaches satisfies the single-owner
invariant. -/
theorem reachable_uniq {δ : Type} (dflt : δ) (ops : List UniqOp) (hd : FreshAddresses ops) :
    UniqInv (handedU ops) (urun dflt UniqState.init ops) := by
  have := (UniqInv.uniq_init : UniqInv [] (UniqState.init : UniqState δ)).uniq_run dflt ops hd
    (by simp)
  simpa using this
/-- C22. The single-owner invariant of `UniquePtr`.  Take any program of constructions
from a raw address, move constructions, move assignments, `Release`, `Reset(nullptr)`,
`Reset(x)`, `Swap` and destructions in which the addresses handed to the constructors
and to `Reset` are pairwise distinct (each is fresh when it is handed over).  In the
state it reaches, two live pointers that hold the same non-null address are the same
pointer: every non-null address is held by at most one live pointer.  No address has
been passed to a destruction policy more than once, and an address that a live pointer
holds has not been passed to a policy at all. -/
theorem C22_unique_single_owner {δ : Type} (dflt : δ) (ops : List UniqOp)
    (hd : FreshAddresses ops) (i j : Nat) (p q : UniquePtr δ)
    (hp : (urun dflt UniqState.init ops).get i = some p)
    (hq : (urun dflt UniqState.init ops).get j = some q)
    (hn : p.first ≠ Addr.null) (he : p.first = q.first) :
    i = j ∧
    (∀ a, a ≠ Addr.null → (urun dflt UniqState.init ops).holders a ≤ 1) ∧
    (∀ a, policyRuns (urun dflt UniqState.init ops).log a ≤ 1) ∧
    policyRuns (urun dflt UniqState.init ops).log p.first = 0 := by
  have hi := reachable_uniq dflt ops hd
  obtain ⟨g1, g2, -⟩ := hi.of_get i p hp hn
  have hle : ∀ a, a ≠ Addr.null → (urun dflt UniqState.init ops).holders a ≤ 1 := by
    intro a ha
    have h0 := hi.1 a ha
    split_ifs at h0 <;> omega
  refine ⟨?_, hle, ?_, g2⟩
  · obtain ⟨li, ei⟩ := getD_none_eq_some _ i p hp
    obtain ⟨lj, ej⟩ := getD_none_eq_some _ j q hq
    have hpi : holdsU p.first ((urun dflt UniqState.init ops).ptrs.get ⟨i, li⟩) = true := by
      simp only [List.get_eq_getElem, ei]; simp [holdsU]
    have hpj : holdsU p.first ((urun dflt UniqState.init ops).ptrs.get ⟨j, lj⟩) = true := by
      simp only [List.get_eq_getElem, ej]; simp [holdsU, he]
    by_contra hij
    simp only [UniqState.holders] at g1
    rcases Nat.lt_or_gt_of_ne hij with h | h
    · have := two_le_countP (holdsU p.first) _ i j h lj hpi hpj
      omega
    · have := two_le_countP (holdsU p.first) _ j i h li hpj hpi
      omega
  · intro a
    by_cases ha : a = Addr.null
    · rw [ha, hi.2]; omega
    · have h0 := hi.1 a ha
      split_ifs at h0 <;> omega

theorem C22_witness :
    FreshAddresses [.ofRaw (some 1), .ofRaw (some 2), .moveAssign 0 1] ∧
    (urun () UniqState.init [.ofRaw (some 1), .ofRaw (some 2), .moveAssign 0 1]).get 0 =
      some ⟨Addr.raw 2, ()⟩ ∧
    (⟨Addr.raw 2, ()⟩ : UniquePtr Unit).first ≠ Addr.null ∧
    policyRuns (urun () UniqState.init [.ofRaw (some 1), .ofRaw (some 2), .moveAssign 0 1]).log
      (Addr.raw 1) ≤ 1 :=
  ⟨by decide, by decide, by decide,
    (C22_unique_single_owner () [.ofRaw (some 1), .ofRaw (some 2), .moveAssign 0 1] (by decide)
      0 0 ⟨Addr.raw 2, ()⟩ ⟨Addr.raw 2, ()⟩ (by decide) (by decide) (by decide) rfl).2.2.1
      (Addr.raw 1)⟩
/-! ## `WeakPtr::Swap` -/

/-- C30. `WeakPtr::Swap` (weak.h:108-110) exchanges the blocks of the two pointers and
leaves each pointer its own address: after `a.Swap(b)` the pointer `a` has the block of
`b` and still the address of `a`.  So `a.Lock()` on a block with owners returns a
pointer on the block of `b` whose `Get()` is the former address of `a`, not the
address `b.Lock().Get()` had.  The swap does not access the heap, so no count changes,
and swapping twice restores both pointers.  For two owners of different objects
`x1`, `x2` and their weak pointers `a`, `b`: after the swap `a.Lock().Get() == x1`,
while before it `b.Lock().Get() == x2`. -/
theorem C30_WeakPtr_Swap_exchanges_only_the_block (h : Heap) (a b : WeakPtr) (B : Nat)
    (hB : b.block_ = some B) (hlive : (h.blocks B).strong_ref_counter ≠ 0) :
    ((WeakPtr.Swap a b).1 = ⟨a.field_, b.block_⟩ ∧
      (WeakPtr.Swap a b).2 = ⟨b.field_, a.block_⟩) ∧
    ((WeakPtr.Lock h (WeakPtr.Swap a b).1).2.block_ = (WeakPtr.Lock h b).2.block_ ∧
      (WeakPtr.Lock h (WeakPtr.Swap a b).1).2.Get = a.field_ ∧
      (WeakPtr.Lock h b).2.Get = b.field_) ∧
    (WeakPtr.Swap (WeakPtr.Swap a b).1 (WeakPtr.Swap a b).2 = (a, b)) ∧
    ((WeakPtr.Lock (SharedPtr.ofRaw_weak (SharedPtr.ofRaw_weak Heap.init (Addr.raw 1)).1
        (Addr.raw 2)).1 (WeakPtr.Swap ⟨Addr.raw 1, some 0⟩ ⟨Addr.raw 2, some 1⟩).1).2 =
        ⟨some 1, Addr.raw 1⟩ ∧
      (WeakPtr.Lock (SharedPtr.ofRaw_weak (SharedPtr.ofRaw_weak Heap.init (Addr.raw 1)).1
        (Addr.raw 2)).1 ⟨Addr.raw 2, some 1⟩).2 = ⟨some 1, Addr.raw 2⟩) := by
  refine ⟨⟨rfl, rfl⟩, ?_, rfl, ?_⟩
  · simp [WeakPtr.Lock_eq, WeakPtr.Swap, WeakPtr.Expired, hB, BaseBlock.IsEmpty, hlive,
      SharedPtr.Get]
  · decide

theorem C30_witness :
    (⟨Addr.raw 2, some 0⟩ : WeakPtr).block_ = some 0 ∧
    ((SharedPtr.ofRaw_weak Heap.init (Addr.raw 2)).1.blocks 0).strong_ref_counter ≠ 0 ∧
    (WeakPtr.Lock (SharedPtr.ofRaw_weak Heap.init (Addr.raw 2)).1
      (WeakPtr.Swap WeakPtr.default ⟨Addr.raw 2, some 0⟩).1).2.Get = Addr.null :=
  ⟨rfl, by decide,
    (C30_WeakPtr_Swap_exchanges_only_the_block (SharedPtr.ofRaw_weak Heap.init (Addr.raw 2)).1
      WeakPtr.default ⟨Addr.raw 2, some 0⟩ 0 rfl (by decide)).2.1.2.1⟩

/-! ## `Reset()`: the two snapshots and the net effect -/

/-- For a pointer whose block's pointee holds no weak reference, `Reset()` of weak/shared.h
leaves the net effect the specification words. -/
theorem SharedPtr.Reset_weak_eq_netEffect (h : Heap) (b : Nat) (f : Addr)
    (hs : (h.weak_this_ (h.pointee b)).block_ = none) :
    SharedPtr.Reset_weak h ⟨some b, f⟩ = SharedPtr.Reset_netEffect h ⟨some b, f⟩ := by
  rcases hk : (h.blocks b).kind with _ | _ <;>
  simp only [Heap.pointee, hk, Block.GetPtr] at hs <;>
  by_cases hz : (h.blocks b).strong_ref_counter - 1 = 0 <;>
  by_cases hp : (h.blocks b).ptr_ = Addr.null <;>
  by_cases hw : (h.blocks b).weak_reaf_counter = 0 <;>
  simp [SharedPtr.Reset_weak, SharedPtr.Reset_netEffect, SharedPtr.CLear,
    SharedPtr.DecStrongRef, Heap.DecStrongRef, ControlBlock.DecStrongRef,
    Block.DecStrongRef, Heap.deletePointee, Heap.deleteBlock, deleteBlockWith,
    BaseBlock.DecStrongRef, BaseBlock.IsEmpty, BaseBlock.WeakCount, hk, hz, hp, hw, hs,
    Heap.fuel, runDtor_of_slot_none, Heap.setSlot, upd_apply, Block.GetPtr, Heap.pointee,
    Heap.modify, upd_upd, upd_self]

/-- C27. For a pointer that holds block `B` whose pointee holds no weak self-reference
(the `WeakPtr` member of that pointee is empty; the pointees of other blocks may hold
what they like), `Reset()` of shared-from-this/shared.h (`AddWeakRef; DecStrongRef;
DecWeakRef; CLear`) leaves exactly the state that `Reset()` of weak/shared.h
(`DecStrongRef; CLear`) leaves, for every strong and weak count, and both leave the net
effect the specification describes: the pointer is empty, the strong count of `B` is
lowered by 1, its weak count is unchanged, every other block is unchanged, and `B` is
freed if and only if both counts are zero after the operation.  On an empty pointer the
two agree as well, and change nothing. -/
theorem C27_Reset_has_the_net_effect_of_plain_Reset (h : Heap) (B : Nat) (f : Addr)
    (hs : (h.weak_this_ (h.pointee B)).block_ = none) :
    SharedPtr.Reset h ⟨some B, f⟩ = SharedPtr.Reset_weak h ⟨some B, f⟩ ∧
    SharedPtr.Reset_weak h ⟨some B, f⟩ = SharedPtr.Reset_netEffect h ⟨some B, f⟩ ∧
    (SharedPtr.Reset h ⟨some B, f⟩).2 = SharedPtr.default ∧
    (((SharedPtr.Reset h ⟨some B, f⟩).1.blocks B).strong_ref_counter =
        (h.blocks B).strong_ref_counter - 1 ∧
      ((SharedPtr.Reset h ⟨some B, f⟩).1.blocks B).weak_reaf_counter =
        (h.blocks B).weak_reaf_counter ∧
      ((SharedPtr.Reset h ⟨some B, f⟩).1.blocks B).deleted =
        (if ((SharedPtr.Reset h ⟨some B, f⟩).1.blocks B).strong_ref_counter = 0 ∧
            ((SharedPtr.Reset h ⟨some B, f⟩).1.blocks B).weak_reaf_counter = 0 then
          (h.blocks B).deleted + 1
         else (h.blocks B).deleted) ∧
      (∀ x, x ≠ B → (SharedPtr.Reset h ⟨some B, f⟩).1.blocks x = h.blocks x)) ∧
    (SharedPtr.Reset h SharedPtr.default = SharedPtr.Reset_weak h SharedPtr.default ∧
      SharedPtr.Reset_weak h SharedPtr.default = SharedPtr.Reset_netEffect h SharedPtr.default ∧
      (SharedPtr.Reset h SharedPtr.default).1 = h) := by
  have e1 := SharedPtr.Reset_eq_Reset_weak_local h B f hs
  have e2 := SharedPtr.Reset_weak_eq_netEffect h B f hs
  have e : (SharedPtr.Reset_weak h ⟨some B, f⟩).1 = h.release ⟨some B, f⟩ := rfl
  obtain ⟨-, r2, r3, r4, r5, -, -⟩ := Heap.release_counts_local h B f hs
  refine ⟨e1, e2, by rw [e1]; rfl, ⟨?_, ?_, ?_, ?_⟩, rfl, rfl, rfl⟩
  · rw [e1, e, r3]
  · rw [e1, e, r4]
  · rw [e1, e, r3, r4, r5]
  · rw [e1, e]; exact r2

theorem C27_witness :
    (((SharedPtr.ofRaw_weak (MakeShared true Heap.init).1 (Addr.raw 5)).1.weak_this_
      (Addr.storage 0)).block_ = some 0 ∧
    ((SharedPtr.ofRaw_weak (MakeShared true Heap.init).1 (Addr.raw 5)).1.weak_this_
      ((SharedPtr.ofRaw_weak (MakeShared true Heap.init).1 (Addr.raw 5)).1.pointee 1)).block_ =
      none) ∧
    SharedPtr.Reset (SharedPtr.ofRaw_weak (MakeShared true Heap.init).1 (Addr.raw 5)).1
        ⟨some 1, Addr.raw 5⟩ =
      SharedPtr.Reset_weak (SharedPtr.ofRaw_weak (MakeShared true Heap.init).1 (Addr.raw 5)).1
        ⟨some 1, Addr.raw 5⟩ :=
  ⟨by decide,
    (C27_Reset_has_the_net_effect_of_plain_Reset
      (SharedPtr.ofRaw_weak (MakeShared true Heap.init).1 (Addr.raw 5)).1 1 (Addr.raw 5)
      (by decide)).1⟩

/-- C28. In shared-from-this/shared.h let `p` be the last owner of an object `x` with the
`EnableSharedFromThis` base: block 0 has strong count 1 and weak count 1, the weak
reference being the member `weak_this_` of `x`.  Released by `p.Reset()`, `x` is
destroyed once, block 0 is freed once and both counts end 0.  Released by copy
assignment, by move assignment or by `Reset(y)`, the outcome differs.  For `p` made by
the raw constructor `x` is destroyed twice and the weak count ends -1; for `p` made by
`MakeShared` the fused block is freed twice. -/
theorem C28_release_by_assignment_destroys_twice :
    ((lastOwner.raw.1.blocks 0).strong_ref_counter = 1 ∧
      (lastOwner.raw.1.blocks 0).weak_reaf_counter = 1 ∧
      lastOwner.raw.1.weak_this_ (Addr.raw 7) = ⟨Addr.raw 7, some 0⟩ ∧
      (lastOwner.fused.1.blocks 0).strong_ref_counter = 1 ∧
      (lastOwner.fused.1.blocks 0).weak_reaf_counter = 1 ∧
      lastOwner.fused.1.weak_this_ (Addr.storage 0) = ⟨Addr.storage 0, some 0⟩) ∧
    ((lastOwner.byReset lastOwner.raw).dtorRuns (Addr.raw 7) = 1 ∧
      ((lastOwner.byReset lastOwner.raw).blocks 0).deleted = 1 ∧
      ((lastOwner.byReset lastOwner.raw).blocks 0).strong_ref_counter = 0 ∧
      ((lastOwner.byReset lastOwner.raw).blocks 0).weak_reaf_counter = 0 ∧
      (lastOwner.byReset lastOwner.fused).dtorRuns (Addr.storage 0) = 1 ∧
      ((lastOwner.byReset lastOwner.fused).blocks 0).deleted = 1 ∧
      ((lastOwner.byReset lastOwner.fused).blocks 0).weak_reaf_counter = 0) ∧
    ((lastOwner.byAssign lastOwner.raw).dtorRuns (Addr.raw 7) = 2 ∧
      ((lastOwner.byAssign lastOwner.raw).blocks 0).weak_reaf_counter = -1 ∧
      (lastOwner.byMoveAssign lastOwner.raw).dtorRuns (Addr.raw 7) = 2 ∧
      ((lastOwner.byMoveAssign lastOwner.raw).blocks 0).weak_reaf_counter = -1 ∧
      (lastOwner.byResetRaw lastOwner.raw).dtorRuns (Addr.raw 7) = 2 ∧
      ((lastOwner.byResetRaw lastOwner.raw).blocks 0).weak_reaf_counter = -1) ∧
    (((lastOwner.byAssign lastOwner.fused).blocks 0).deleted = 2 ∧
      ((lastOwner.byMoveAssign lastOwner.fused).blocks 0).deleted = 2 ∧
      ((lastOwner.byResetRaw lastOwner.fused).blocks 0).deleted = 2) := by
  decide
/-! ## `IntrusivePtr` -/

theorem SimpleCounter.IncRef_eq (c : Nat) (h : c + 1 < 2 ^ 64) : SimpleCounter.IncRef c = c + 1 := by
  unfold SimpleCounter.IncRef
  exact Nat.mod_eq_of_lt h

theorem SimpleCounter.DecRef_eq (c : Nat) (h0 : 1 ≤ c) (h : c < 2 ^ 64) :
    SimpleCounter.DecRef c = c - 1 := by
  unfold SimpleCounter.DecRef
  omega

theorem IHeap.destroyRuns_cons (h : IHeap) (e : IEvent) (o : Nat) :
    ({ h with events := e :: h.events } : IHeap).destroyRuns o =
      h.destroyRuns o + (if e = IEvent.destroy o then 1 else 0) := by
  unfold IHeap.destroyRuns
  simp only [List.count_cons]
  by_cases he : e = IEvent.destroy o <;> simp [he]

/-- What `IncRef` does on a counter that does not overflow. -/
theorem RefCounted.IncRef_spec (h : IHeap) (o : Nat) (hb : h.count_ o + 1 < 2 ^ 64) :
    (RefCounted.IncRef h o).count_ o = h.count_ o + 1 ∧
    (∀ x, x ≠ o → (RefCounted.IncRef h o).count_ x = h.count_ x) ∧
    (RefCounted.IncRef h o).next = h.next ∧
    (RefCounted.IncRef h o).events = IEvent.inc o :: h.events ∧
    (∀ x, (RefCounted.IncRef h o).destroyRuns x = h.destroyRuns x) := by
  refine ⟨?_, ?_, rfl, rfl, ?_⟩
  · simp [RefCounted.IncRef, upd_apply, SimpleCounter.IncRef_eq _ hb]
  · intro x hx
    simp [RefCounted.IncRef, upd_apply, hx]
  · intro x
    simp [RefCounted.IncRef, IHeap.destroyRuns]

/-- What `DecRef` does on a counter that is at least 1: `Deleter::Destroy` is called
exactly if the counter was 1. -/
theorem RefCounted.DecRef_spec (h : IHeap) (o : Nat) (h1 : 1 ≤ h.count_ o)
    (hb : h.count_ o < 2 ^ 64) :
    (RefCounted.DecRef h o).count_ o = h.count_ o - 1 ∧
    (∀ x, x ≠ o → (RefCounted.DecRef h o).count_ x = h.count_ x) ∧
    (RefCounted.DecRef h o).next = h.next ∧
    (RefCounted.DecRef h o).events =
      (if h.count_ o = 1 then IEvent.destroy o :: IEvent.dec o :: h.events
       else IEvent.dec o :: h.events) ∧
    (∀ x, (RefCounted.DecRef h o).destroyRuns x =
      h.destroyRuns x + (if x = o ∧ h.count_ o = 1 then 1 else 0)) := by
  have e := SimpleCounter.DecRef_eq _ h1 hb
  have hz : h.count_ o - 1 = 0 ↔ h.count_ o = 1 := by omega
  by_cases h0 : h.count_ o = 1
  · have hz' : h.count_ o - 1 = 0 := hz.mpr h0
    have e1 : SimpleCounter.DecRef 1 = 0 := SimpleCounter.DecRef_eq 1 (by norm_num) (by norm_num)
    refine ⟨?_, ?_, ?_, ?_, ?_⟩
    · simp [RefCounted.DecRef, upd_apply, e, SimpleCounter.RefCount, hz']
    · intro x hx
      simp [RefCounted.DecRef, upd_apply, e, SimpleCounter.RefCount, hz', hx]
    · simp [RefCounted.DecRef, upd_apply, e, SimpleCounter.RefCount, hz']
    · simp [RefCounted.DecRef, upd_apply, e1, SimpleCounter.RefCount, h0]
    · intro x
      by_cases hx : x = o
      · simp [RefCounted.DecRef, upd_apply, e1, SimpleCounter.RefCount, h0, hx,
          IHeap.destroyRuns, List.count_cons]
      · have hx' : ¬ o = x := fun e => hx e.symm
        simp [RefCounted.DecRef, upd_apply, e, SimpleCounter.RefCount, hz', hx,
          IHeap.destroyRuns, List.count_cons, hx']
  · have hz' : ¬ h.count_ o - 1 = 0 := fun e => h0 (hz.mp e)
    refine ⟨?_, ?_, ?_, ?_, ?_⟩
    · simp [RefCounted.DecRef, upd_apply, e, SimpleCounter.RefCount, hz']
    · intro x hx
      simp [RefCounted.DecRef, upd_apply, e, SimpleCounter.RefCount, hz', hx]
    · simp [RefCounted.DecRef, upd_apply, e, SimpleCounter.RefCount, hz']
    · simp [RefCounted.DecRef, upd_apply, e, SimpleCounter.RefCount, hz', h0]
    · intro x
      simp [RefCounted.DecRef, upd_apply, e, SimpleCounter.RefCount, hz', h0,
        IHeap.destroyRuns, List.count_cons]

/-- C24. Two `IntrusivePtr`s to one object.  Let `o` be a freshly allocated ref-counted
object: its counter is 0 and `Deleter::Destroy` has not been called on it.  After
`IntrusivePtr<T> p1(o); IntrusivePtr<T> p2(o);` both pointers hold `o` and `RefCount()`
is 2.  Dropping one of them, by its destructor or by `Reset()`, leaves
`RefCount() == 1`, the other pointer reporting `UseCount() == 1`, and `o` not
destroyed; dropping the second one as well calls `Deleter::Destroy` on `o` exactly once
and on no other object. -/
theorem C24_two_pointers_to_one_object (h : IHeap) (o : Nat) (hc : h.count_ o = 0)
    (hd : h.destroyRuns o = 0) :
    ((IntrusivePtr.ofRaw h (some o)).2.Get = some o ∧
      (IntrusivePtr.ofRaw (IntrusivePtr.ofRaw h (some o)).1 (some o)).2.Get = some o ∧
      RefCounted.RefCount (IntrusivePtr.ofRaw (IntrusivePtr.ofRaw h (some o)).1 (some o)).1 o
        = 2) ∧
    (IntrusivePtr.dtor (IntrusivePtr.ofRaw (IntrusivePtr.ofRaw h (some o)).1 (some o)).1
        ⟨some o⟩ =
      (IntrusivePtr.Reset (IntrusivePtr.ofRaw (IntrusivePtr.ofRaw h (some o)).1 (some o)).1
        ⟨some o⟩).1 ∧
      (IntrusivePtr.Reset (IntrusivePtr.ofRaw (IntrusivePtr.ofRaw h (some o)).1 (some o)).1
        ⟨some o⟩).2.Get = none ∧
      RefCounted.RefCount (IntrusivePtr.dtor
        (IntrusivePtr.ofRaw (IntrusivePtr.ofRaw h (some o)).1 (some o)).1 ⟨some o⟩) o = 1 ∧
      IntrusivePtr.UseCount (IntrusivePtr.dtor
        (IntrusivePtr.ofRaw (IntrusivePtr.ofRaw h (some o)).1 (some o)).1 ⟨some o⟩) ⟨some o⟩
        = 1 ∧
      (IntrusivePtr.dtor (IntrusivePtr.ofRaw (IntrusivePtr.ofRaw h (some o)).1 (some o)).1
        ⟨some o⟩).destroyRuns o = 0) ∧
    ((IntrusivePtr.dtor (IntrusivePtr.dtor
        (IntrusivePtr.ofRaw (IntrusivePtr.ofRaw h (some o)).1 (some o)).1 ⟨some o⟩)
        ⟨some o⟩).destroyRuns o = 1 ∧
      RefCounted.RefCount (IntrusivePtr.dtor (IntrusivePtr.dtor
        (IntrusivePtr.ofRaw (IntrusivePtr.ofRaw h (some o)).1 (some o)).1 ⟨some o⟩)
        ⟨some o⟩) o = 0 ∧
      ∀ x, x ≠ o → (IntrusivePtr.dtor (IntrusivePtr.dtor
        (IntrusivePtr.ofRaw (IntrusivePtr.ofRaw h (some o)).1 (some o)).1 ⟨some o⟩)
        ⟨some o⟩).destroyRuns x = h.destroyRuns x) := by
  have a1 : (IntrusivePtr.ofRaw h (some o)).1 = RefCounted.IncRef h o := rfl
  have a2 : (IntrusivePtr.ofRaw (RefCounted.IncRef h o) (some o)).1 =
      RefCounted.IncRef (RefCounted.IncRef h o) o := rfl
  have a3 : ∀ g, IntrusivePtr.dtor g ⟨some o⟩ = RefCounted.DecRef g o := fun _ => rfl
  obtain ⟨i1, -, -, -, i5⟩ := RefCounted.IncRef_spec h o (by rw [hc]; norm_num)
  rw [hc] at i1
  obtain ⟨j1, -, -, -, j5⟩ := RefCounted.IncRef_spec (RefCounted.IncRef h o) o
    (by rw [i1]; norm_num)
  rw [i1] at j1
  obtain ⟨k1, -, -, -, k5⟩ := RefCounted.DecRef_spec (RefCounted.IncRef (RefCounted.IncRef h o) o)
    o (by rw [j1]; norm_num) (by rw [j1]; norm_num)
  rw [j1] at k1 k5
  obtain ⟨l1, -, -, -, l5⟩ := RefCounted.DecRef_spec
    (RefCounted.DecRef (RefCounted.IncRef (RefCounted.IncRef h o) o) o)
    o (by rw [k1]) (by rw [k1]; norm_num)
  rw [k1] at l1 l5
  rw [a1, a2]
  simp only [a3]
  refine ⟨⟨rfl, rfl, j1⟩, ⟨rfl, rfl, k1, k1, ?_⟩, ?_, l1, ?_⟩
  · rw [k5, j5, i5, hd]; simp
  · rw [l5, k5, j5, i5, hd]; simp
  · intro x hx
    rw [l5, k5, j5, i5]; simp [hx]

theorem C24_witness :
    IHeap.init.alloc.1.count_ 0 = 0 ∧ IHeap.init.alloc.1.destroyRuns 0 = 0 ∧
    (IntrusivePtr.dtor (IntrusivePtr.dtor
      (IntrusivePtr.ofRaw (IntrusivePtr.ofRaw IHeap.init.alloc.1 (some 0)).1 (some 0)).1
      ⟨some 0⟩) ⟨some 0⟩).destroyRuns 0 = 1 :=
  ⟨rfl, rfl, (C24_two_pointers_to_one_object IHeap.init.alloc.1 0 rfl rfl).2.2.1⟩
/-- C26. Copy assignment (intrusive.h:130-138) and `Reset(T*)` (intrusive.h:160-164)
release the old target before they count the new one.  For a pointer that holds `X`
and a new target `Y` different from `X`, the counter events of `a = b` and of
`a.Reset(Y)` are, in order of time: the decrement of `X`, the call of
`Deleter::Destroy` on `X` if that decrement brought its counter to 0, and only then the
increment of `Y`; while `X` is released and destroyed the counter of `Y` is still what
it was before.  `Reset(T*)` has no guard: after `p = MakeIntrusive<T>()` the call
`p.Reset(p.Get())` destroys the object and leaves `p` holding it with counter 1, and the
destructor of `p` then calls `Deleter::Destroy` on it a second time. -/
theorem C26_assignment_releases_before_it_counts (h : IHeap) (X Y : Nat) (hXY : X ≠ Y) :
    ((IntrusivePtr.assign h ⟨some X⟩ ⟨some Y⟩).1.events =
        IEvent.inc Y :: (RefCounted.DecRef h X).events ∧
      (IntrusivePtr.ResetRaw h ⟨some X⟩ (some Y)).1.events =
        IEvent.inc Y :: (RefCounted.DecRef h X).events ∧
      (RefCounted.DecRef h X).count_ Y = h.count_ Y) ∧
    (1 ≤ h.count_ X → h.count_ X < 2 ^ 64 →
      (RefCounted.DecRef h X).events =
        (if h.count_ X = 1 then IEvent.destroy X :: IEvent.dec X :: h.events
         else IEvent.dec X :: h.events)) ∧
    ((MakeIntrusive IHeap.init).2 = ⟨some 0⟩ ∧
      (MakeIntrusive IHeap.init).1.events = [IEvent.inc 0] ∧
      (IntrusivePtr.ResetRaw (MakeIntrusive IHeap.init).1 ⟨some 0⟩ (some 0)).2 = ⟨some 0⟩ ∧
      (IntrusivePtr.ResetRaw (MakeIntrusive IHeap.init).1 ⟨some 0⟩ (some 0)).1.events =
        [IEvent.inc 0, IEvent.destroy 0, IEvent.dec 0, IEvent.inc 0] ∧
      (IntrusivePtr.dtor (IntrusivePtr.ResetRaw (MakeIntrusive IHeap.init).1 ⟨some 0⟩
        (some 0)).1 ⟨some 0⟩).destroyRuns 0 = 2) := by
  refine ⟨⟨?_, rfl, ?_⟩, ?_, ?_⟩
  · have hne : ¬ (some X : Option Nat) = some Y := by simpa using hXY
    simp [IntrusivePtr.assign, hne, IntrusivePtr.Dec, IntrusivePtr.Inc, RefCounted.IncRef]
  · have hYX : ¬ Y = X := fun e => hXY e.symm
    unfold RefCounted.DecRef
    simp only
    split_ifs <;> simp [upd_apply, hYX]
  · intro h1 hb
    exact (RefCounted.DecRef_spec h X h1 hb).2.2.2.1
  · decide

theorem C26_witness :
    (0 : Nat) ≠ 1 ∧ 1 ≤ (MakeIntrusive (MakeIntrusive IHeap.init).1).1.count_ 0 ∧
    (IntrusivePtr.assign (MakeIntrusive (MakeIntrusive IHeap.init).1).1 ⟨some 0⟩
      ⟨some 1⟩).1.events =
      [IEvent.inc 1, IEvent.destroy 0, IEvent.dec 0, IEvent.inc 1, IEvent.inc 0] :=
  ⟨by decide, by decide,
    by
      have e := (C26_assignment_releases_before_it_counts
        (MakeIntrusive (MakeIntrusive IHeap.init).1).1 0 1 (by decide)).1.1
      rw [e]
      decide⟩
/-! ## `IntrusivePtr`: the counter is the number of live pointers -/

theorem IHInv.heap_congr {h : IHeap} {live live2 : Nat → Nat} (hi : IHInv h live)
    (hl : ∀ x, live2 x = live x) : IHInv h live2 := by
  have e : live2 = live := funext hl
  rw [e]; exact hi

theorem IHInv.lt_next {h : IHeap} {live : Nat → Nat} (hi : IHInv h live) (o : Nat)
    (h1 : 1 ≤ live o) : o < h.next := by
  by_contra hlt
  have := (hi.out o (by omega)).1
  omega

theorem IHInv.not_destroyed {h : IHeap} {live : Nat → Nat} (hi : IHInv h live) (o : Nat)
    (h1 : 1 ≤ live o) : h.destroyRuns o = 0 := by
  rw [hi.destroy_eq o, if_neg]
  intro hc
  omega

theorem IHInv.heap_alloc {h : IHeap} {live : Nat → Nat} (hi : IHInv h live) :
    IHInv h.alloc.1 live := by
  refine ⟨?_, ?_, hi.owned, hi.destroy_eq⟩
  · intro o ho
    exact hi.out o (by simp only [IHeap.alloc] at ho; omega)
  · intro o ho
    simp only [IHeap.alloc] at ho ⊢
    simp only [upd_apply]
    split_ifs with hx
    · rw [hx, (hi.out h.next (le_refl _)).1]
    · exact hi.count_eq o (by omega)

theorem IHInv.acquire {h : IHeap} {live live2 : Nat → Nat} (hi : IHInv h live) (o : Nat)
    (ho : o < h.next) (hd : h.destroyRuns o = 0) (hb : live o + 1 < 2 ^ 64)
    (hl : ∀ x, live2 x = live x + (if x = o then 1 else 0)) :
    IHInv (RefCounted.IncRef h o) live2 := by
  have hc := hi.count_eq o ho
  obtain ⟨r1, r2, r3, r4, r5⟩ := RefCounted.IncRef_spec h o (by rw [hc]; exact hb)
  refine ⟨?_, ?_, ?_, ?_⟩
  · intro x hx
    rw [r3] at hx
    have hxo : x ≠ o := by omega
    rw [hl x, r4]
    simp only [hxo, if_false, add_zero, List.mem_cons, IEvent.inc.injEq, false_or]
    exact hi.out x hx
  · intro x hx
    rw [r3] at hx
    rw [hl x]
    by_cases hxo : x = o
    · subst hxo; simp only [if_true]; rw [r1, hc]
    · simp only [hxo, if_false, add_zero]; rw [r2 x hxo]; exact hi.count_eq x hx
  · intro x hx
    rw [r4]
    by_cases hxo : x = o
    · subst hxo; simp
    · rw [hl x] at hx
      simp only [hxo, if_false, add_zero] at hx
      exact List.mem_cons_of_mem _ (hi.owned x hx)
  · intro x
    rw [r5, r4, hl x]
    by_cases hxo : x = o
    · subst hxo; simp [hd]
    · rw [hi.destroy_eq x]
      simp [hxo]

theorem IHInv.heap_release {h : IHeap} {live live2 : Nat → Nat} (hi : IHInv h live) (o : Nat)
    (h1 : 1 ≤ live o) (hb : live o < 2 ^ 64)
    (hl : ∀ x, live2 x + (if x = o then 1 else 0) = live x) :
    IHInv (RefCounted.DecRef h o) live2 := by
  have ho := hi.lt_next o h1
  have hc := hi.count_eq o ho
  have hd := hi.not_destroyed o h1
  have hown := hi.owned o h1
  obtain ⟨r1, r2, r3, r4, r5⟩ := RefCounted.DecRef_spec h o (by rw [hc]; exact h1)
    (by rw [hc]; exact hb)
  have hinc : ∀ x, IEvent.inc x ∈ (RefCounted.DecRef h o).events ↔ IEvent.inc x ∈ h.events := by
    intro x
    rw [r4]
    split_ifs <;> simp
  have hlo := hl o
  simp only [if_true] at hlo
  refine ⟨?_, ?_, ?_, ?_⟩
  · intro x hx
    rw [r3] at hx
    have hxo : x ≠ o := by omega
    have := hl x
    simp only [hxo, if_false, add_zero] at this
    rw [this, hinc]
    exact hi.out x hx
  · intro x hx
    rw [r3] at hx
    by_cases hxo : x = o
    · subst hxo; rw [r1, hc]; omega
    · have := hl x
      simp only [hxo, if_false, add_zero] at this
      rw [r2 x hxo, this]; exact hi.count_eq x hx
  · intro x hx
    rw [hinc]
    apply hi.owned
    have := hl x
    omega
  · intro x
    rw [r5]
    simp only [hinc]
    by_cases hxo : x = o
    · subst hxo
      rw [hd, hc]
      by_cases h0 : live x = 1
      · have : live2 x = 0 := by omega
        simp [h0, this, hown]
      · have : live2 x ≠ 0 := by omega
        simp [h0, this]
    · have := hl x
      simp only [hxo, if_false, add_zero] at this
      rw [hi.destroy_eq x, this]
      simp [hxo]
theorem refI_some (o : Nat) (p : IntrusivePtr) :
    (refI o (some p)).toNat = if p.ptr_ = some o then 1 else 0 := by
  by_cases h : p.ptr_ = some o <;> simp [refI, h]

theorem refI_none (o : Nat) : (refI o none).toNat = 0 := rfl

theorem IntrState.live_le (s : IntrState) (o : Nat) : s.live o ≤ s.ptrs.length :=
  List.countP_le_length _

theorem IntrState.live_of_get (s : IntrState) (i : Nat) (p : IntrusivePtr)
    (hp : s.get i = some p) (o : Nat) (ho : p.ptr_ = some o) : 1 ≤ s.live o := by
  obtain ⟨hl, he⟩ := getD_none_eq_some s.ptrs i p hp
  exact countP_pos_of_getElem _ _ i hl (by rw [he]; simp [refI, ho])

theorem RefCounted.DecRef_inc_mem (h : IHeap) (o x : Nat) :
    IEvent.inc x ∈ (RefCounted.DecRef h o).events ↔ IEvent.inc x ∈ h.events := by
  unfold RefCounted.DecRef
  simp only
  split_ifs <;> simp

theorem RefCounted.DecRef_next (h : IHeap) (o : Nat) : (RefCounted.DecRef h o).next = h.next := by
  unfold RefCounted.DecRef
  simp only
  split_ifs <;> rfl

/-- The pointer releases its reference. -/
theorem IHInv.dec {h : IHeap} {live live2 : Nat → Nat} (hi : IHInv h live) (p : IntrusivePtr)
    (hp : ∀ X, p.ptr_ = some X → 1 ≤ live X ∧ live X < 2 ^ 64)
    (hl : ∀ x, live2 x + (if p.ptr_ = some x then 1 else 0) = live x) :
    IHInv (p.Dec h).1 live2 := by
  rcases p with ⟨_ | X⟩
  · apply hi.heap_congr
    intro x
    have := hl x
    simpa using this
  · obtain ⟨a1, a2⟩ := hp X rfl
    refine hi.heap_release X a1 a2 ?_
    intro x
    have := hl x
    by_cases hx : x = X
    · subst hx; simpa using this
    · have hx' : ¬ X = x := fun e => hx e.symm
      simpa [hx, hx'] using this

/-- The pointer takes a reference. -/
theorem IHInv.inc {h : IHeap} {live live2 : Nat → Nat} (hi : IHInv h live) (p : IntrusivePtr)
    (hp : ∀ Y, p.ptr_ = some Y → Y < h.next ∧ h.destroyRuns Y = 0 ∧ live Y + 1 < 2 ^ 64)
    (hl : ∀ x, live2 x = live x + (if p.ptr_ = some x then 1 else 0)) :
    IHInv (p.Inc h) live2 := by
  rcases p with ⟨_ | Y⟩
  · apply hi.heap_congr
    intro x
    have := hl x
    simpa using this
  · obtain ⟨a1, a2, a3⟩ := hp Y rfl
    refine hi.acquire Y a1 a2 a3 ?_
    intro x
    have := hl x
    by_cases hx : x = Y
    · subst hx; simpa using this
    · have hx' : ¬ Y = x := fun e => hx e.symm
      simpa [hx, hx'] using this

theorem IntrInv.intr_init : IntrInv IntrState.init := by
  refine ⟨?_, ?_, ?_, ?_⟩
  · intro o _; simp [IntrState.init, IntrState.live, IHeap.init]
  · intro o ho; simp [IntrState.init, IHeap.init] at ho
  · intro o ho; simp [IntrState.init, IntrState.live] at ho
  · intro o; simp [IntrState.init, IHeap.init, IHeap.destroyRuns]

theorem IntrInv.pushNull {s : IntrState} (hi : IntrInv s) :
    IntrInv { s with ptrs := s.ptrs ++ [some ⟨none⟩] } := by
  apply IHInv.heap_congr hi
  intro x
  simp [IntrState.live, countP_push_toNat, refI]

/-- A new pointer is constructed with a reference to `Y` (or without one). -/
theorem IntrInv.pushInc {s : IntrState} (hi : IntrInv s) (p : IntrusivePtr)
    (hp : ∀ Y, p.ptr_ = some Y → Y < s.heap.next ∧ s.heap.destroyRuns Y = 0)
    (hb : s.ptrs.length + 1 < 2 ^ 64) :
    IntrInv ⟨p.Inc s.heap, s.ptrs ++ [some p]⟩ := by
  refine IHInv.inc hi p ?_ ?_
  · intro Y hY
    obtain ⟨a1, a2⟩ := hp Y hY
    have := s.live_le Y
    exact ⟨a1, a2, by omega⟩
  · intro x
    simp only [IntrState.live, countP_push_toNat, refI_some]

theorem MakeIntrusive_eq (h : IHeap) :
    MakeIntrusive h = (RefCounted.IncRef h.alloc.1 h.next, ⟨some h.next⟩) := by
  simp [MakeIntrusive, IntrusivePtr.ofRaw, IntrusivePtr.Inc, IntrusivePtr.move,
    IntrusivePtr.dtor, IntrusivePtr.Reset, IntrusivePtr.Dec, IHeap.alloc]

theorem IntrInv.make {s : IntrState} (hi : IntrInv s) (hb : s.ptrs.length + 1 < 2 ^ 64) :
    IntrInv (istep s .make) := by
  simp only [istep, MakeIntrusive_eq]
  have ha : IHInv s.heap.alloc.1 s.live := IHInv.heap_alloc hi
  have hd : s.heap.alloc.1.destroyRuns s.heap.next = 0 := by
    rw [ha.destroy_eq, if_neg]
    intro hc
    exact (hi.out s.heap.next (le_refl _)).2 hc.1
  have hl := s.live_le s.heap.next
  refine ha.acquire s.heap.next (by simp [IHeap.alloc]) hd (by omega) ?_
  intro x
  simp only [IntrState.live, countP_push_toNat, refI_some, Option.some.injEq]
  by_cases hx : x = s.heap.next
  · simp [hx]
  · have hx' : ¬ s.heap.next = x := fun e => hx e.symm
    simp [hx, hx']

theorem IntrInv.copy {s : IntrState} (hi : IntrInv s) (j : Nat)
    (hb : s.ptrs.length + 1 < 2 ^ 64) : IntrInv (istep s (.copy j)) := by
  simp only [istep]
  rcases hq : s.get j with _ | q
  · exact hi
  · rcases q with ⟨_ | Y⟩
    · simp only [IntrusivePtr.copy, ne_eq, not_true_eq_false, if_false]
      exact hi.pushNull
    · have h1 := s.live_of_get j ⟨some Y⟩ hq Y rfl
      simp only [IntrusivePtr.copy, ne_eq, reduceCtorEq, not_false_eq_true, if_true]
      refine hi.pushInc ⟨some Y⟩ ?_ hb
      intro Z hZ
      cases hZ
      exact ⟨IHInv.lt_next hi Y h1, IHInv.not_destroyed hi Y h1⟩

theorem IntrInv.intr_move {s : IntrState} (hi : IntrInv s) (j : Nat) :
    IntrInv (istep s (.move j)) := by
  simp only [istep]
  rcases hq : s.get j with _ | q
  · exact hi
  · apply IHInv.heap_congr hi
    intro x
    have hc := countP_set_getD (refI x) s.ptrs j q hq (some (IntrusivePtr.move q).2)
    simp only [IntrState.live, countP_push_toNat, refI_some] at hc ⊢
    rcases q with ⟨_ | Y⟩
    · simp only [IntrusivePtr.move, ne_eq, not_true_eq_false, if_false, reduceCtorEq] at hc ⊢
      omega
    · simp only [IntrusivePtr.move, ne_eq, reduceCtorEq, not_false_eq_true, if_true,
        if_false] at hc ⊢
      omega

theorem IntrInv.intr_swap {s : IntrState} (hi : IntrInv s) (i j : Nat) :
    IntrInv (istep s (.swap i j)) := by
  simp only [istep]
  rcases hp : s.get i with _ | p
  · exact hi
  · rcases hq : s.get j with _ | q
    · exact hi
    · simp only
      split_ifs with hij
      · exact hi
      · apply IHInv.heap_congr hi
        intro x
        have hc := countP_set_set (refI x) s.ptrs i j p q hij hp hq
          (some (IntrusivePtr.Swap p q).1) (some (IntrusivePtr.Swap p q).2)
        simp only [IntrState.live, refI_some, IntrusivePtr.Swap] at hc ⊢
        omega

/-- The pointer variable `i` drops its reference and is stored as `o`. -/
theorem IntrInv.drop {s : IntrState} (hi : IntrInv s) (i : Nat) (p : IntrusivePtr)
    (hp : s.get i = some p) (o : Option IntrusivePtr) (ho : ∀ x, (refI x o).toNat = 0)
    (hb : s.ptrs.length + 1 < 2 ^ 64) :
    IHInv (p.Dec s.heap).1 (fun x => (s.ptrs.set i o).countP (refI x)) := by
  refine IHInv.dec hi p ?_ ?_
  · intro X hX
    have := s.live_le X
    exact ⟨s.live_of_get i p hp X hX, by omega⟩
  · intro x
    have hc := countP_set_getD (refI x) s.ptrs i p hp o
    rw [ho x, refI_some] at hc
    simp only [IntrState.live]
    omega

theorem IntrInv.intr_reset {s : IntrState} (hi : IntrInv s) (i : Nat)
    (hb : s.ptrs.length + 1 < 2 ^ 64) : IntrInv (istep s (.reset i)) := by
  simp only [istep]
  rcases hp : s.get i with _ | p
  · exact hi
  · have e : (IntrusivePtr.Reset s.heap p).2 = ⟨none⟩ := by
      rcases p with ⟨_ | X⟩ <;> rfl
    simp only [e]
    exact hi.drop i p hp (some ⟨none⟩) (fun x => by simp [refI]) hb

theorem IntrInv.intr_dtor {s : IntrState} (hi : IntrInv s) (i : Nat)
    (hb : s.ptrs.length + 1 < 2 ^ 64) : IntrInv (istep s (.dtor i)) := by
  simp only [istep]
  rcases hp : s.get i with _ | p
  · exact hi
  · exact hi.drop i p hp none (fun x => rfl) hb
theorem IntrusivePtr.Dec_next (h : IHeap) (p : IntrusivePtr) : (p.Dec h).1.next = h.next := by
  rcases p with ⟨_ | X⟩
  · rfl
  · exact RefCounted.DecRef_next h X

theorem IntrusivePtr.Dec_inc_mem (h : IHeap) (p : IntrusivePtr) (x : Nat) :
    IEvent.inc x ∈ (p.Dec h).1.events ↔ IEvent.inc x ∈ h.events := by
  rcases p with ⟨_ | X⟩
  · rfl
  · exact RefCounted.DecRef_inc_mem h X x

theorem IntrInv.intr_alloc {s : IntrState} (hi : IntrInv s) : IntrInv (istep s .alloc) :=
  IHInv.heap_alloc hi

theorem IntrInv.intr_ofRaw {s : IntrState} (hi : IntrInv s) (r : Option Nat)
    (hok : okOp s (.ofRaw r) = true) (hb : s.ptrs.length + 1 < 2 ^ 64) :
    IntrInv (istep s (.ofRaw r)) := by
  simp only [istep, IntrusivePtr.ofRaw]
  refine hi.pushInc ⟨r⟩ ?_ hb
  intro Y hY
  simp only at hY
  subst hY
  simpa [okOp, IntrState.alive] using hok

/-- The pointer variable `i` releases its reference and takes one to `r`. -/
theorem IntrInv.retarget {s : IntrState} (hi : IntrInv s) (i : Nat) (p : IntrusivePtr)
    (hp : s.get i = some p) (r : Option Nat)
    (hr : ∀ Y, r = some Y → Y < s.heap.next ∧ s.heap.destroyRuns Y = 0 ∧
      ¬ (p.ptr_ = some Y ∧ s.live Y = 1))
    (hb : s.ptrs.length + 1 < 2 ^ 64) :
    IHInv (IntrusivePtr.Inc (p.Dec s.heap).1 ⟨r⟩)
      (fun x => (s.ptrs.set i (some ⟨r⟩)).countP (refI x)) := by
  have h1 := hi.drop i p hp (some ⟨none⟩) (fun x => by simp [refI]) hb
  have hc1 : ∀ x, (s.ptrs.set i (some ⟨none⟩)).countP (refI x) +
      (if p.ptr_ = some x then 1 else 0) = s.live x := by
    intro x
    have hc := countP_set_getD (refI x) s.ptrs i p hp (some ⟨none⟩)
    simp only [refI_some, reduceCtorEq, if_false] at hc
    simp only [IntrState.live]
    omega
  refine IHInv.inc h1 ⟨r⟩ ?_ ?_
  · intro Y hY
    simp only at hY
    obtain ⟨a1, a2, a3⟩ := hr Y hY
    refine ⟨by rw [IntrusivePtr.Dec_next]; exact a1, ?_, ?_⟩
    · rw [h1.destroy_eq Y, if_neg]
      rw [IntrusivePtr.Dec_inc_mem]
      intro hc
      have hd := hi.destroy_eq Y
      rw [a2] at hd
      have hcy := hc1 Y
      by_cases e : p.ptr_ = some Y
      · have := s.live_of_get i p hp Y e
        simp only [e, if_true] at hcy
        have : s.live Y ≠ 1 := fun h1 => a3 ⟨e, h1⟩
        omega
      · simp only [e, if_false] at hcy
        have : s.live Y = 0 := by omega
        rw [if_pos ⟨hc.1, this⟩] at hd
        omega
    · have hlen : (s.ptrs.set i (some (⟨none⟩ : IntrusivePtr))).countP (refI Y) ≤
          s.ptrs.length := by
        have h2 : (s.ptrs.set i (some (⟨none⟩ : IntrusivePtr))).countP (refI Y) ≤
            (s.ptrs.set i (some (⟨none⟩ : IntrusivePtr))).length := List.countP_le_length _
        simpa using h2
      omega
  · intro x
    have hc := countP_set_getD (refI x) s.ptrs i p hp (some ⟨none⟩)
    have hc2 := countP_set_getD (refI x) s.ptrs i p hp (some ⟨r⟩)
    simp only [refI_some, reduceCtorEq, if_false] at hc hc2 ⊢
    omega

theorem IntrInv.resetRaw {s : IntrState} (hi : IntrInv s) (i : Nat) (r : Option Nat)
    (hok : okOp s (.resetRaw i r) = true) (hb : s.ptrs.length + 1 < 2 ^ 64) :
    IntrInv (istep s (.resetRaw i r)) := by
  simp only [istep]
  rcases hp : s.get i with _ | p
  · exact hi
  · simp only [IntrusivePtr.ResetRaw]
    refine hi.retarget i p hp r ?_ hb
    intro Y hY
    subst hY
    simp only [okOp, IntrState.alive, hp, refI, Bool.and_eq_true, decide_eq_true_eq,
      Bool.not_eq_true', Bool.and_eq_false_iff, decide_eq_false_iff_not] at hok
    refine ⟨hok.1.1, hok.1.2, ?_⟩
    rintro ⟨e1, e2⟩
    rcases hok.2 with h | h
    · simp [e1] at h
    · exact h e2

theorem IntrInv.intr_same {s : IntrState} (hi : IntrInv s) (i : Nat) (p : IntrusivePtr)
    (hp : s.get i = some p) : IntrInv { s with ptrs := s.ptrs.set i (some p) } := by
  apply IHInv.heap_congr hi
  intro x
  have hc := countP_set_getD (refI x) s.ptrs i p hp (some p)
  simp only [IntrState.live] at hc ⊢
  omega

theorem IntrInv.assign {s : IntrState} (hi : IntrInv s) (i j : Nat)
    (hb : s.ptrs.length + 1 < 2 ^ 64) : IntrInv (istep s (.assign i j)) := by
  simp only [istep]
  rcases hp : s.get i with _ | p
  · exact hi
  · rcases hq : s.get j with _ | q
    · exact hi
    · simp only [IntrusivePtr.assign]
      split_ifs with e
      · exact hi.intr_same i p hp
      · refine hi.retarget i p hp q.ptr_ ?_ hb
        intro Y hY
        have h1 := s.live_of_get j q hq Y hY
        refine ⟨IHInv.lt_next hi Y h1, IHInv.not_destroyed hi Y h1, ?_⟩
        rintro ⟨e1, _⟩
        exact e (e1.trans hY.symm)

theorem IntrInv.intr_moveAssign {s : IntrState} (hi : IntrInv s) (i j : Nat)
    (hb : s.ptrs.length + 1 < 2 ^ 64) : IntrInv (istep s (.moveAssign i j)) := by
  simp only [istep]
  rcases hp : s.get i with _ | p
  · exact hi
  · rcases hq : s.get j with _ | q
    · exact hi
    · simp only
      split_ifs with hij
      · exact hi
      · simp only [IntrusivePtr.moveAssign]
        split_ifs with e
        · apply IHInv.heap_congr hi
          intro x
          have hc := countP_set_set (refI x) s.ptrs i j p q hij hp hq (some p) (some q)
          simp only [IntrState.live] at hc ⊢
          omega
        · refine IHInv.dec hi p ?_ ?_
          · intro X hX
            have := s.live_le X
            exact ⟨s.live_of_get i p hp X hX, by omega⟩
          · intro x
            have hc := countP_set_set (refI x) s.ptrs i j p q hij hp hq
              (some ⟨q.ptr_⟩) (some ⟨none⟩)
            simp only [refI_some, reduceCtorEq, if_false] at hc
            simp only [IntrState.live]
            omega

theorem IntrInv.intr_step {s : IntrState} (hi : IntrInv s) (op : IntrOp)
    (hok : okOp s op = true) (hb : s.ptrs.length + 1 < 2 ^ 64) : IntrInv (istep s op) := by
  cases op with
  | alloc => exact hi.intr_alloc
  | default => exact hi.pushNull
  | ofRaw r => exact hi.intr_ofRaw r hok hb
  | make => exact hi.make hb
  | copy j => exact hi.copy j hb
  | move j => exact hi.intr_move j
  | assign i j => exact hi.assign i j hb
  | moveAssign i j => exact hi.intr_moveAssign i j hb
  | reset i => exact hi.intr_reset i hb
  | resetRaw i r => exact hi.resetRaw i r hok hb
  | swap i j => exact hi.intr_swap i j
  | dtor i => exact hi.intr_dtor i hb

theorem istep_length (s : IntrState) (op : IntrOp) :
    (istep s op).ptrs.length ≤ s.ptrs.length + 1 := by
  cases op <;> simp only [istep] <;> (try split) <;> (try split_ifs) <;> simp

theorem IntrInv.intr_run (ops : List IntrOp) (s : IntrState) (hi : IntrInv s)
    (hok : okProgram s ops = true) (hb : s.ptrs.length + ops.length < 2 ^ 64) :
    IntrInv (irun s ops) := by
  induction ops generalizing s with
  | nil => exact hi
  | cons op ops ih =>
    simp only [okProgram, Bool.and_eq_true] at hok
    simp only [List.length_cons] at hb
    have hl := istep_length s op
    exact ih (istep s op) (hi.intr_step op hok.1 (by omega)) hok.2 (by omega)

theorem reachable_intr (ops : List IntrOp) (hok : okProgram IntrState.init ops = true)
    (hb : ops.length < 2 ^ 64) : IntrInv (irun IntrState.init ops) :=
  IntrInv.intr_run ops IntrState.init IntrInv.intr_init hok (by simpa [IntrState.init] using hb)
theorem RefCounted.DecRef_destroyRuns (h : IHeap) (o : Nat) :
    (RefCounted.DecRef h o).destroyRuns o =
      h.destroyRuns o + (if (RefCounted.DecRef h o).count_ o = 0 then 1 else 0) := by
  unfold RefCounted.DecRef
  simp only
  split_ifs with h1 h2 h2
  · simp [IHeap.destroyRuns]
  · exact absurd h1 h2
  · exact absurd h2 h1
  · simp [IHeap.destroyRuns]

/-- C25. The counter of an object is the number of live pointers that reference it, and
`Deleter::Destroy` runs once, when the counter comes to 0: this holds after every
program of `IntrusivePtr` operations in which a raw address given to the constructor or
to `Reset(T*)` names an object that is alive and `Reset(o)` is not called on the only
pointer that references `o` (`okProgram`).  After such a program every live pointer that
references `o` reports `UseCount()` equal to the number of live pointers referencing `o`,
that number is at least 1 and `o` was not destroyed; `Deleter::Destroy` was called on an
object once if it was referenced before and no pointer references it now, and not at
all otherwise; and every `DecRef` calls `Deleter::Destroy` exactly when it leaves the
counter at 0.  Without the restriction the claim fails: `p = MakeIntrusive<T>();
p.Reset(p.Get());` and the destructor of `p` call `Deleter::Destroy` on the object
twice, because `Reset(T*)` releases the old target before it counts the new one. -/
theorem C25_counter_is_the_number_of_live_pointers (ops : List IntrOp)
    (hok : okProgram IntrState.init ops = true) (hb : ops.length < 2 ^ 64) :
    (∀ i p o, (irun IntrState.init ops).get i = some p → p.Get = some o →
      p.UseCount (irun IntrState.init ops).heap = (irun IntrState.init ops).live o ∧
      1 ≤ (irun IntrState.init ops).live o ∧
      (irun IntrState.init ops).heap.destroyRuns o = 0) ∧
    (∀ o, (irun IntrState.init ops).heap.destroyRuns o =
      if IEvent.inc o ∈ (irun IntrState.init ops).heap.events ∧
        (irun IntrState.init ops).live o = 0 then 1 else 0) ∧
    (∀ (h : IHeap) (o : Nat), (RefCounted.DecRef h o).destroyRuns o =
      h.destroyRuns o + (if (RefCounted.DecRef h o).count_ o = 0 then 1 else 0)) ∧
    (okProgram IntrState.init resetToSelf = false ∧
      (irun IntrState.init resetToSelf).heap.destroyRuns 0 = 2) := by
  have hi := reachable_intr ops hok hb
  refine ⟨?_, hi.destroy_eq, RefCounted.DecRef_destroyRuns, by decide, by decide⟩
  intro i p o hp ho
  have h1 := (irun IntrState.init ops).live_of_get i p hp o ho
  refine ⟨?_, h1, IHInv.not_destroyed hi o h1⟩
  simp only [IntrusivePtr.Get] at ho
  simp only [IntrusivePtr.UseCount, ho, RefCounted.RefCount, SimpleCounter.RefCount]
  exact hi.count_eq o (IHInv.lt_next hi o h1)

theorem C25_witness :
    okProgram IntrState.init intrProgram = true ∧
    (irun IntrState.init intrProgram).heap.events =
      [IEvent.destroy 0, IEvent.dec 0, IEvent.dec 0, IEvent.inc 0, IEvent.dec 0,
        IEvent.inc 0, IEvent.inc 0] ∧
    (irun IntrState.init intrProgram).heap.destroyRuns 0 = 1 :=
  ⟨by decide, by decide,
    by
      rw [(C25_counter_is_the_number_of_live_pointers intrProgram (by decide)
        (by decide)).2.1 0]
      decide⟩


/-! ## `SimpleCounter`: copies do not carry the count -/

theorem RefCounted.assign_eq (h : IHeap) (dst src : Nat) : RefCounted.assign h dst src = h := by
  simp only [RefCounted.assign, SimpleCounter.assign, upd_self]

theorem IHInv.copyObject {h : IHeap} {live : Nat → Nat} (hi : IHInv h live) (src : Nat) :
    IHInv (RefCounted.copy h src).1 live := by
  refine ⟨?_, ?_, hi.owned, hi.destroy_eq⟩
  · intro o ho
    exact hi.out o (by simp only [RefCounted.copy] at ho; omega)
  · intro o ho
    simp only [RefCounted.copy] at ho ⊢
    by_cases e : o = h.next
    · subst e
      rw [upd_same, (hi.out h.next (le_refl _)).1]
      rfl
    · rw [upd_ne _ _ _ _ e]
      exact hi.count_eq o (by omega)

/-- C31. `SimpleCounter` does not carry the count over on a copy.  A counter
copy-constructed from a counter with count `c` has count 0, and after copy-assigning a
counter with count `c` into a counter with count `d` the destination has count `d`.
For ref-counted objects: the copy `new T(*src)` is a new object with `RefCount() == 0`,
the counter of every existing object (also of `src`) is what it was and no `IncRef`,
`DecRef` or `Deleter::Destroy` call is made; the assignment `*dst = *src` leaves the
whole heap as it was.  So if every counter was the number of live pointers referencing
its object before the copy, it still is afterwards, with no pointer accounted to the
new object. -/
theorem C31_copy_does_not_carry_the_count (c d : Nat) (h : IHeap) (live : Nat → Nat)
    (hi : IHInv h live) (src dst : Nat) :
    (SimpleCounter.RefCount (SimpleCounter.copy c) = 0 ∧
      SimpleCounter.RefCount (SimpleCounter.assign d c) = d) ∧
    ((RefCounted.copy h src).2 = h.next ∧
      RefCounted.RefCount (RefCounted.copy h src).1 (RefCounted.copy h src).2 = 0 ∧
      (∀ x, x ≠ h.next →
        RefCounted.RefCount (RefCounted.copy h src).1 x = RefCounted.RefCount h x) ∧
      (RefCounted.copy h src).1.events = h.events ∧
      IHInv (RefCounted.copy h src).1 live ∧
      live (RefCounted.copy h src).2 = 0) ∧
    (RefCounted.assign h dst src = h ∧
      RefCounted.RefCount (RefCounted.assign h dst src) dst = RefCounted.RefCount h dst ∧
      RefCounted.RefCount (RefCounted.assign h dst src) src = RefCounted.RefCount h src ∧
      IHInv (RefCounted.assign h dst src) live) := by
  refine ⟨⟨rfl, rfl⟩, ⟨rfl, ?_, ?_, rfl, hi.copyObject src, (hi.out h.next (le_refl _)).1⟩,
    ?_⟩
  · simp only [RefCounted.copy, RefCounted.RefCount, SimpleCounter.RefCount, upd_same,
      SimpleCounter.copy]
  · intro x hx
    simp only [RefCounted.copy, RefCounted.RefCount, SimpleCounter.RefCount,
      upd_ne _ _ _ _ hx]
  · rw [RefCounted.assign_eq]
    exact ⟨rfl, rfl, rfl, hi⟩

theorem C31_witness :
    (irun IntrState.init twoOwners).live 0 = 2 ∧
    RefCounted.RefCount (RefCounted.copy (irun IntrState.init twoOwners).heap 0).1 0 = 2 ∧
    RefCounted.RefCount (RefCounted.copy (irun IntrState.init twoOwners).heap 0).1 1 = 0 ∧
    RefCounted.RefCount (RefCounted.assign
      (RefCounted.copy (irun IntrState.init twoOwners).heap 0).1 1 0) 1 = 0 ∧
    IHInv (RefCounted.copy (irun IntrState.init twoOwners).heap 0).1
      (irun IntrState.init twoOwners).live :=
  ⟨by decide, by decide, by decide, by decide,
    (C31_copy_does_not_carry_the_count 2 0 (irun IntrState.init twoOwners).heap
      (irun IntrState.init twoOwners).live
      (reachable_intr twoOwners (by decide) (by decide)) 0 0).2.1.2.2.2.2.1⟩

/-! ## Programs with self-observing pointees: consistency -/

/-! ## Destruction leaves `ptr_` alone -/

theorem Heap.modify_ptr (h : Heap) (b : Nat) (f : BaseBlock → BaseBlock)
    (hf : ∀ c, (f c).ptr_ = c.ptr_) (x : Nat) :
    ((h.modify b f).blocks x).ptr_ = (h.blocks x).ptr_ := by
  simp only [Heap.modify_blocks, upd_apply]
  split_ifs with hx
  · rw [hx]; exact hf _
  · rfl

theorem deleteBlockWith_ptr (del : Heap → Addr → Heap)
    (hdel : ∀ (g : Heap) (a : Addr) (x : Nat), ((del g a).blocks x).ptr_ = (g.blocks x).ptr_)
    (h : Heap) (b x : Nat) :
    ((deleteBlockWith del h b).blocks x).ptr_ = (h.blocks x).ptr_ := by
  unfold deleteBlockWith
  rcases (h.blocks b).kind with _ | _
  · by_cases hp : (h.blocks b).ptr_ = Addr.null
    · simp only [hp, if_true, Heap.modify_blocks, upd_apply]
      split_ifs with hx
      · rw [hx]; exact hp.symm
      · rfl
    · simp only [hp, if_false, Heap.modify_blocks, upd_apply]
      split_ifs with hx
      · rw [hx]; exact hdel _ _ _
      · exact hdel _ _ _
  · simp only [Heap.modify_blocks, upd_apply]
    split_ifs with hx
    · rw [hx]
    · rfl

theorem DecWeakRefWith_ptr (del : Heap → Addr → Heap)
    (hdel : ∀ (g : Heap) (a : Addr) (x : Nat), ((del g a).blocks x).ptr_ = (g.blocks x).ptr_)
    (h : Heap) (w : WeakPtr) (x : Nat) :
    ((WeakPtr.DecWeakRefWith del h w).1.blocks x).ptr_ = (h.blocks x).ptr_ := by
  unfold WeakPtr.DecWeakRefWith
  rcases w.block_ with _ | b
  · rfl
  · have h1 : ((h.modify b BaseBlock.DecWeakRef).blocks x).ptr_ = (h.blocks x).ptr_ :=
      Heap.modify_ptr h b BaseBlock.DecWeakRef (fun _ => rfl) x
    simp only
    split_ifs
    · rw [deleteBlockWith_ptr del hdel, h1]
    · exact h1

theorem runDtor_ptr (n : Nat) (h : Heap) (a : Addr) (x : Nat) :
    ((runDtor n h a).blocks x).ptr_ = (h.blocks x).ptr_ := by
  induction n generalizing h a x with
  | zero => rfl
  | succ k ih =>
    simp only [runDtor]
    exact DecWeakRefWith_ptr (fun h2 a2 => runDtor k h2 a2) (fun g y z => ih g y z)
      ({ h with dtors := a :: h.dtors } : Heap) (h.weak_this_ a) x

theorem WeakPtr.DecWeakRef_ptr (h : Heap) (w : WeakPtr) (x : Nat) :
    ((w.DecWeakRef h).1.blocks x).ptr_ = (h.blocks x).ptr_ :=
  DecWeakRefWith_ptr _ (fun g a y => runDtor_ptr _ g a y) h w x

theorem WeakPtr.AddWeakRef_ptr (h : Heap) (w : WeakPtr) (x : Nat) :
    ((w.AddWeakRef h).blocks x).ptr_ = (h.blocks x).ptr_ := by
  unfold WeakPtr.AddWeakRef
  rcases w.block_ with _ | b
  · rfl
  · exact Heap.modify_ptr h b BaseBlock.AddWeakRef (fun _ => rfl) x

theorem Heap.deletePointee_ptr (h : Heap) (a : Addr) (x : Nat) :
    ((h.deletePointee a).blocks x).ptr_ = (h.blocks x).ptr_ := by
  unfold Heap.deletePointee
  split_ifs
  · rfl
  · exact runDtor_ptr _ _ _ _

theorem Heap.deleteBlock_ptr (h : Heap) (b x : Nat) :
    ((h.deleteBlock b).blocks x).ptr_ = (h.blocks x).ptr_ :=
  deleteBlockWith_ptr _ (fun g a y => runDtor_ptr _ g a y) h b x

/-- On every heap, `DecStrongRef` nulls `ptr_` of a `ControlBlock` whose strong count it
takes to 0, and changes no other `ptr_`. -/
theorem Heap.DecStrongRef_ptr (h : Heap) (b x : Nat) :
    ((h.DecStrongRef b).blocks x).ptr_ =
      (if x = b ∧ (h.blocks b).kind = BlockKind.ControlBlock ∧
          (h.blocks b).strong_ref_counter - 1 = 0 then Addr.null
       else (h.blocks x).ptr_) := by
  have hm : ((h.modify b BaseBlock.DecStrongRef).blocks x).ptr_ = (h.blocks x).ptr_ :=
    Heap.modify_ptr h b BaseBlock.DecStrongRef (fun _ => rfl) x
  unfold Heap.DecStrongRef ControlBlock.DecStrongRef Block.DecStrongRef
  rcases hk : (h.blocks b).kind with _ | _
  · by_cases h0 : (h.blocks b).strong_ref_counter - 1 = 0
    · have h0' : ((h.modify b BaseBlock.DecStrongRef).blocks b).strong_ref_counter = 0 := by
        simpa [BaseBlock.DecStrongRef] using h0
      simp only
      rw [if_pos h0']
      by_cases hx : x = b
      · subst hx
        simp [h0]
      · simp only [Heap.modify_blocks, upd_apply, hx, if_false, false_and]
        have h2 := Heap.deletePointee_ptr (h.modify b BaseBlock.DecStrongRef)
          ((h.modify b BaseBlock.DecStrongRef).blocks b).ptr_ x
        simp only [Heap.modify_blocks, upd_apply, hx, if_false, if_true] at h2
        exact h2
    · have h0' : ¬ ((h.modify b BaseBlock.DecStrongRef).blocks b).strong_ref_counter = 0 := by
        simpa [BaseBlock.DecStrongRef] using h0
      simp only
      rw [if_neg h0']
      simp only [h0, and_false, if_false]
      exact hm
  · simp only [reduceCtorEq, false_and, and_false, if_false]
    split_ifs
    · rw [runDtor_ptr]; exact hm
    · exact hm

theorem Heap.release_ptr (h : Heap) (b : Nat) (f : Addr) (x : Nat) :
    ((h.release ⟨some b, f⟩).blocks x).ptr_ =
      (if x = b ∧ (h.blocks b).kind = BlockKind.ControlBlock ∧
          (h.blocks b).strong_ref_counter - 1 = 0 then Addr.null
       else (h.blocks x).ptr_) := by
  rw [← Heap.DecStrongRef_ptr h b x]
  simp only [Heap.release, SharedPtr.CLear, SharedPtr.DecStrongRef]
  split_ifs
  · exact Heap.deleteBlock_ptr _ _ _
  · rfl

theorem SharedPtr.Reset_ptr (h : Heap) (b : Nat) (f : Addr) (x : Nat) :
    ((SharedPtr.Reset h ⟨some b, f⟩).1.blocks x).ptr_ =
      (if x = b ∧ (h.blocks b).kind = BlockKind.ControlBlock ∧
          (h.blocks b).strong_ref_counter - 1 = 0 then Addr.null
       else (h.blocks x).ptr_) := by
  have e1 : ((h.modify b BaseBlock.AddWeakRef).blocks x).ptr_ = (h.blocks x).ptr_ :=
    Heap.modify_ptr h b BaseBlock.AddWeakRef (fun _ => rfl) x
  have e2 := Heap.DecStrongRef_ptr (h.modify b BaseBlock.AddWeakRef) b x
  have e3 : ((((h.modify b BaseBlock.AddWeakRef).DecStrongRef b).DecWeakRef b).blocks x).ptr_ =
      (((h.modify b BaseBlock.AddWeakRef).DecStrongRef b).blocks x).ptr_ :=
    Heap.modify_ptr _ b BaseBlock.DecWeakRef (fun _ => rfl) x
  have e4 : ((h.modify b BaseBlock.AddWeakRef).blocks b).kind = (h.blocks b).kind := by
    simp [BaseBlock.AddWeakRef]
  have e5 : ((h.modify b BaseBlock.AddWeakRef).blocks b).strong_ref_counter =
      (h.blocks b).strong_ref_counter := by
    simp [BaseBlock.AddWeakRef]
  rw [e4, e5, e1] at e2
  rw [← e2, ← e3]
  simp only [SharedPtr.Reset, SharedPtr.CLear, SharedPtr.DecStrongRef]
  split_ifs
  · exact Heap.deleteBlock_ptr _ _ _
  · rfl

/-! ## Which members `weak_this_` a destruction can change -/

theorem deleteBlockWith_slots_of_null (del : Heap → Addr → Heap) (h : Heap) (b : Nat)
    (hp : (h.blocks b).kind = BlockKind.ControlBlock → (h.blocks b).ptr_ = Addr.null) :
    (deleteBlockWith del h b).weak_this_ = h.weak_this_ := by
  unfold deleteBlockWith
  rcases hk : (h.blocks b).kind with _ | _
  · simp [hp hk]
  · simp

theorem deleteBlockWith_slots (del : Heap → Addr → Heap) (h : Heap) (b : Nat) :
    (deleteBlockWith del h b).weak_this_ =
      if (h.blocks b).kind = BlockKind.ControlBlock ∧ (h.blocks b).ptr_ ≠ Addr.null then
        (del h (h.blocks b).ptr_).weak_this_
      else h.weak_this_ := by
  unfold deleteBlockWith
  rcases hk : (h.blocks b).kind with _ | _
  · by_cases hp : (h.blocks b).ptr_ = Addr.null <;> simp [hp]
  · simp

/-- The destructor of the object at `x`, whose member `weak_this_` is empty or refers to
a block `b` that knows no other object than `x`, changes no member of another object, and
leaves the member of `x` as it was or empty. -/
theorem runDtor_slots (b : Nat) (x : Addr) (n : Nat) (h : Heap)
    (hs : (h.weak_this_ x).block_ = none ∨ (h.weak_this_ x).block_ = some b)
    (hp : (h.blocks b).kind = BlockKind.ControlBlock →
      (h.blocks b).ptr_ = x ∨ (h.blocks b).ptr_ = Addr.null) :
    (∀ a, a ≠ x → (runDtor n h x).weak_this_ a = h.weak_this_ a) ∧
    ((runDtor n h x).weak_this_ x = h.weak_this_ x ∨
      ((runDtor n h x).weak_this_ x).block_ = none) := by
  induction n generalizing h with
  | zero => exact ⟨fun _ _ => rfl, Or.inl rfl⟩
  | succ k ih =>
    simp only [runDtor, WeakPtr.DecWeakRefWith]
    rcases hs with hs | hs
    · simp only [hs, Heap.setSlot]
      exact ⟨fun a ha => by simp [upd_apply, ha], Or.inl (by simp)⟩
    · simp only [hs]
      split_ifs with he
      · refine ⟨?_, Or.inr (by simp [Heap.setSlot])⟩
        intro a ha
        simp only [Heap.setSlot, upd_apply, ha, if_false]
        rw [deleteBlockWith_slots]
        have hgk : ((({ h with dtors := x :: h.dtors } : Heap).modify b
            BaseBlock.DecWeakRef).blocks b).kind = (h.blocks b).kind := by
          simp [BaseBlock.DecWeakRef]
        have hgp : ((({ h with dtors := x :: h.dtors } : Heap).modify b
            BaseBlock.DecWeakRef).blocks b).ptr_ = (h.blocks b).ptr_ := by
          simp [BaseBlock.DecWeakRef]
        rw [hgk, hgp]
        split_ifs with hc
        · have hx := (hp hc.1).resolve_right hc.2
          rw [hx]
          exact (ih (({ h with dtors := x :: h.dtors } : Heap).modify b BaseBlock.DecWeakRef)
            (Or.inr hs) (fun _ => by rw [hgp]; exact hp hc.1)).1 a ha
        · rfl
      · simp only [Heap.setSlot]
        exact ⟨fun a ha => by simp [upd_apply, ha], Or.inl (by simp)⟩

/-- An outside `WeakPtr` that gives up its reference changes no member `weak_this_`, if
the block it refers to has lost its pointee once its strong count is 0. -/
theorem WeakPtr.DecWeakRef_slots (h : Heap) (w : WeakPtr)
    (hp : ∀ b, w.block_ = some b → (h.blocks b).kind = BlockKind.ControlBlock →
      (h.blocks b).strong_ref_counter = 0 → (h.blocks b).ptr_ = Addr.null) :
    (w.DecWeakRef h).1.weak_this_ = h.weak_this_ := by
  unfold WeakPtr.DecWeakRef WeakPtr.DecWeakRefWith
  rcases hb : w.block_ with _ | b
  · rfl
  · simp only
    split_ifs with he
    · rw [deleteBlockWith_slots_of_null]
      · rfl
      · intro hk
        simp only [BaseBlock.WholeEmpty, Heap.modify_blocks, upd_same, BaseBlock.DecWeakRef,
          Bool.and_eq_true, decide_eq_true_eq] at he hk ⊢
        exact hp b hb hk he.1
    · rfl

/-- The call `DecStrongRef()` changes no member `weak_this_` but that of the pointee of the
block, which it leaves as it was or empty; the member of that pointee has to be empty or
refer to the block itself. -/
theorem Heap.DecStrongRef_slots (h : Heap) (b : Nat)
    (hs : (h.weak_this_ (h.pointee b)).block_ = none ∨
      (h.weak_this_ (h.pointee b)).block_ = some b) :
    (∀ a, a ≠ h.pointee b → (h.DecStrongRef b).weak_this_ a = h.weak_this_ a) ∧
    ((h.DecStrongRef b).weak_this_ (h.pointee b) = h.weak_this_ (h.pointee b) ∨
      ((h.DecStrongRef b).weak_this_ (h.pointee b)).block_ = none) := by
  unfold Heap.DecStrongRef ControlBlock.DecStrongRef Block.DecStrongRef Heap.deletePointee
  rcases hk : (h.blocks b).kind with _ | _ <;> simp only [Heap.pointee, hk] at hs ⊢
  · split_ifs with h0 hn
    · exact ⟨fun _ _ => rfl, Or.inl rfl⟩
    · have hpe : ((h.modify b BaseBlock.DecStrongRef).blocks b).ptr_ = (h.blocks b).ptr_ := by
        simp [BaseBlock.DecStrongRef]
      simp only [Heap.modify_weak_this, hpe]
      exact runDtor_slots b (h.blocks b).ptr_ _ (h.modify b BaseBlock.DecStrongRef) hs
        (fun _ => Or.inl hpe)
    · exact ⟨fun _ _ => rfl, Or.inl rfl⟩
  · split_ifs with h0
    · exact runDtor_slots b (Block.GetPtr b) _ (h.modify b BaseBlock.DecStrongRef) hs
        (fun hc => by simp [BaseBlock.DecStrongRef, hk] at hc)
    · exact ⟨fun _ _ => rfl, Or.inl rfl⟩

theorem SharedPtr.CLear_slots (g : Heap) (b : Nat) (f : Addr)
    (hp : (g.blocks b).kind = BlockKind.ControlBlock → (g.blocks b).strong_ref_counter = 0 →
      (g.blocks b).ptr_ = Addr.null) :
    (SharedPtr.CLear g ⟨some b, f⟩).1.weak_this_ = g.weak_this_ := by
  simp only [SharedPtr.CLear]
  split_ifs with he
  · apply deleteBlockWith_slots_of_null
    intro hk
    simp only [BaseBlock.IsEmpty, Bool.and_eq_true, decide_eq_true_eq] at he
    exact hp hk he.1
  · rfl

/-- After `DecStrongRef()` a `ControlBlock` without owners has a null `ptr_`. -/
theorem Heap.DecStrongRef_ptr_null (h : Heap) (b : Nat)
    (hk : ((h.DecStrongRef b).blocks b).kind = BlockKind.ControlBlock)
    (h0 : ((h.DecStrongRef b).blocks b).strong_ref_counter = 0) :
    ((h.DecStrongRef b).blocks b).ptr_ = Addr.null := by
  have hk0 : (h.blocks b).kind = BlockKind.ControlBlock := by
    rw [← ((Heap.DecStrongRef_sameObjs h b).1 b).2.1]; exact hk
  have h1 := Heap.DecStrongRef_strong h b b
  rw [h0] at h1
  simp only [if_true] at h1
  rw [Heap.DecStrongRef_ptr, if_pos ⟨rfl, hk0, by omega⟩]

/-- The release of an owner by `DecStrongRef(); CLear();` changes no member `weak_this_`
but that of the pointee of the block, which it leaves as it was or empty. -/
theorem Heap.release_slots (h : Heap) (b : Nat) (f : Addr)
    (hs : (h.weak_this_ (h.pointee b)).block_ = none ∨
      (h.weak_this_ (h.pointee b)).block_ = some b) :
    (∀ a, a ≠ h.pointee b → (h.release ⟨some b, f⟩).weak_this_ a = h.weak_this_ a) ∧
    ((h.release ⟨some b, f⟩).weak_this_ (h.pointee b) = h.weak_this_ (h.pointee b) ∨
      ((h.release ⟨some b, f⟩).weak_this_ (h.pointee b)).block_ = none) := by
  have hc : (h.release ⟨some b, f⟩).weak_this_ = (h.DecStrongRef b).weak_this_ :=
    SharedPtr.CLear_slots (h.DecStrongRef b) b f (Heap.DecStrongRef_ptr_null h b)
  rw [hc]
  exact Heap.DecStrongRef_slots h b hs

/-- The release of an owner by `Reset()` of shared-from-this/shared.h changes no member
`weak_this_` but that of the pointee of the block, which it leaves as it was or empty. -/
theorem SharedPtr.Reset_slots (h : Heap) (b : Nat) (f : Addr)
    (hs : (h.weak_this_ (h.pointee b)).block_ = none ∨
      (h.weak_this_ (h.pointee b)).block_ = some b) :
    (∀ a, a ≠ h.pointee b → (SharedPtr.Reset h ⟨some b, f⟩).1.weak_this_ a = h.weak_this_ a) ∧
    ((SharedPtr.Reset h ⟨some b, f⟩).1.weak_this_ (h.pointee b) = h.weak_this_ (h.pointee b) ∨
      ((SharedPtr.Reset h ⟨some b, f⟩).1.weak_this_ (h.pointee b)).block_ = none) := by
  have hpt : (h.modify b BaseBlock.AddWeakRef).pointee b = h.pointee b := by
    simp only [Heap.pointee, Heap.modify_blocks, upd_same]
    rfl
  have hd := Heap.DecStrongRef_slots (h.modify b BaseBlock.AddWeakRef) b
    (by rw [hpt]; exact hs)
  rw [hpt] at hd
  have hn := Heap.DecStrongRef_ptr_null (h.modify b BaseBlock.AddWeakRef) b
  have hc : (SharedPtr.Reset h ⟨some b, f⟩).1.weak_this_ =
      ((h.modify b BaseBlock.AddWeakRef).DecStrongRef b).weak_this_ := by
    simp only [SharedPtr.Reset, SharedPtr.DecStrongRef]
    rw [SharedPtr.CLear_slots]
    · rfl
    · intro hk h0
      have e1 : ((((h.modify b BaseBlock.AddWeakRef).DecStrongRef b).DecWeakRef b).blocks b).kind
          = (((h.modify b BaseBlock.AddWeakRef).DecStrongRef b).blocks b).kind := by
        simp [Heap.DecWeakRef, BaseBlock.DecWeakRef]
      have e2 : ((((h.modify b BaseBlock.AddWeakRef).DecStrongRef b).DecWeakRef b).blocks
          b).strong_ref_counter =
          (((h.modify b BaseBlock.AddWeakRef).DecStrongRef b).blocks b).strong_ref_counter := by
        simp [Heap.DecWeakRef, BaseBlock.DecWeakRef]
      have e3 : ((((h.modify b BaseBlock.AddWeakRef).DecStrongRef b).DecWeakRef b).blocks b).ptr_
          = (((h.modify b BaseBlock.AddWeakRef).DecStrongRef b).blocks b).ptr_ := by
        simp [Heap.DecWeakRef, BaseBlock.DecWeakRef]
      rw [e3]
      exact hn (e1 ▸ hk) (e2 ▸ h0)
  rw [hc]
  exact hd

/-! ## Consistency with self-observing pointees -/

theorem EHInv.e_congr {W : List Nat} {used : List Addr} {h : Heap} {cs cs' : Nat → Nat}
    (hi : EHInv W used h cs) (hcs : ∀ x, cs' x = cs x) : EHInv W used h cs' := by
  have e1 : cs' = cs := funext hcs
  rw [e1]; exact hi

theorem EHInv.e_mono {W : List Nat} {used used' : List Addr} {h : Heap} {cs : Nat → Nat}
    (hi : EHInv W used h cs) (hu : ∀ a, a ∈ used → a ∈ used') : EHInv W used' h cs := by
  refine { hi with obj_raw := ?_ }
  intro b hb hk
  rcases hi.obj_raw b hb hk with h0 | ⟨n, h1, h2⟩
  · exact Or.inl h0
  · exact Or.inr ⟨n, h1, hu _ h2⟩

theorem EHInv.e_lt_next {W : List Nat} {used : List Addr} {h : Heap} {cs : Nat → Nat}
    (hi : EHInv W used h cs) (b : Nat) (hb : cs b ≠ 0) : b < h.next := by
  by_contra hlt
  exact hb (hi.out_s b (by omega))

/-- The pointee of a block with owners is its object. -/
theorem EHInv.pointee_eq {W : List Nat} {used : List Addr} {h : Heap} {cs : Nat → Nat}
    (hi : EHInv W used h cs) (b : Nat) (hb : cs b ≠ 0) : h.pointee b = (h.blocks b).obj := by
  unfold Heap.pointee
  rcases hk : (h.blocks b).kind with _ | _
  · simp only
    rw [hi.ptr_eq b hk, if_pos hb]
  · simp only
    exact (hi.obj_fused b (hi.e_lt_next b hb) hk).symm

/-- The member `weak_this_` of the pointee of a block with owners is empty or refers to
that block. -/
theorem EHInv.slot_cases {W : List Nat} {used : List Addr} {h : Heap} {cs : Nat → Nat}
    (hi : EHInv W used h cs) (b : Nat) (hb : cs b ≠ 0) :
    (h.weak_this_ (h.pointee b)).block_ = none ∨
      (h.weak_this_ (h.pointee b)).block_ = some b := by
  rw [hi.pointee_eq b hb]
  rcases hc : (h.weak_this_ (h.blocks b).obj).block_ with _ | c
  · exact Or.inl rfl
  · right
    obtain ⟨h1, h2, h3⟩ := hi.slot_src _ c hc
    have := hi.obj_inj c b h1 (hi.e_lt_next b hb) h2 (by rw [h2]; exact h3)
    rw [this]

/-- A heap that differs from a consistent one in the ways an operation on existing
blocks can differ is consistent. -/
theorem EHInv.e_frame {W : List Nat} {used : List Addr} {h : Heap} {cs : Nat → Nat}
    (hi : EHInv W used h cs) (h' : Heap) (cs' : Nat → Nat)
    (hn : h'.next = h.next)
    (hk : ∀ b, (h'.blocks b).kind = (h.blocks b).kind)
    (ho : ∀ b, (h'.blocks b).obj = (h.blocks b).obj)
    (hstrong : ∀ b, (h'.blocks b).strong_ref_counter = cs' b)
    (hout : ∀ b, h.next ≤ b → cs' b = 0)
    (hptr : ∀ b, (h.blocks b).kind = BlockKind.ControlBlock →
      (h'.blocks b).ptr_ = if cs' b ≠ 0 then (h.blocks b).obj else Addr.null)
    (hslot : ∀ a, h'.weak_this_ a = h.weak_this_ a ∨ (h'.weak_this_ a).block_ = none)
    (hown : ∀ b, b ∈ W → cs' b ≠ 0 →
      cs b ≠ 0 ∧ h'.weak_this_ (h.blocks b).obj = h.weak_this_ (h.blocks b).obj) :
    EHInv W used h' cs' := by
  constructor
  · intro b hb; rw [hn] at hb; exact hout b hb
  · exact hstrong
  · intro b hkb
    rw [hk] at hkb
    rw [hptr b hkb, ho]
  · intro b hb hkb
    rw [hn] at hb; rw [hk] at hkb; rw [ho]
    exact hi.obj_fused b hb hkb
  · intro b hb hkb
    rw [hn] at hb; rw [hk] at hkb; rw [ho]
    exact hi.obj_raw b hb hkb
  · intro b c hb hc he hne
    rw [hn] at hb hc; rw [ho, ho] at he; rw [ho] at hne
    exact hi.obj_inj b c hb hc he hne
  · intro a b hab
    rcases hslot a with e | e
    · rw [e] at hab
      rw [hn, ho]
      exact hi.slot_src a b hab
    · rw [e] at hab; cases hab
  · intro b hb hc
    obtain ⟨h1, h2⟩ := hown b hb hc
    rw [ho, h2]
    exact hi.slot_own b hb h1
  · intro b hb; rw [hn]; exact hi.wired_lt b hb

theorem EHInv.e_addStrong {W : List Nat} {used : List Addr} {h : Heap} {cs cs' : Nat → Nat}
    (hi : EHInv W used h cs) (b : Nat) (hc : cs b ≠ 0)
    (hcs : ∀ x, cs' x = cs x + if x = b then 1 else 0) :
    EHInv W used (h.modify b BaseBlock.AddStrongRef) cs' := by
  have hm : ∀ x, x ≠ b → (h.modify b BaseBlock.AddStrongRef).blocks x = h.blocks x := by
    intro x hx; simp [upd_apply, hx]
  have hb : (h.modify b BaseBlock.AddStrongRef).blocks b = (h.blocks b).AddStrongRef := by
    simp
  apply hi.e_frame
  · rfl
  · intro x
    by_cases hx : x = b
    · subst hx; rw [hb]; rfl
    · rw [hm x hx]
  · intro x
    by_cases hx : x = b
    · subst hx; rw [hb]; rfl
    · rw [hm x hx]
  · intro x
    by_cases hx : x = b
    · subst hx
      rw [hb, hcs]
      simp only [BaseBlock.AddStrongRef, if_true]
      rw [hi.strong_eq]
      push_cast; rfl
    · rw [hm x hx, hcs, if_neg hx, hi.strong_eq]; simp
  · intro x hx
    rw [hcs, hi.out_s x hx]
    have : x ≠ b := by
      intro e; subst e; exact hc (hi.out_s x hx)
    simp [this]
  · intro x hkx
    by_cases hx : x = b
    · subst hx
      rw [hb]
      have : cs' x ≠ 0 := by rw [hcs]; simp
      rw [if_pos this]
      simp only [BaseBlock.AddStrongRef]
      rw [hi.ptr_eq x hkx, if_pos hc]
    · rw [hm x hx, hcs, if_neg hx, hi.ptr_eq x hkx]; simp
  · intro a; exact Or.inl rfl
  · intro x _ hx'
    refine ⟨?_, rfl⟩
    intro h0
    by_cases hx : x = b
    · subst hx; exact hc h0
    · rw [hcs, if_neg hx, h0] at hx'; exact hx' rfl

/-- The general shape of a release: the strong count of `b` goes down by one, `ptr_` is
nulled if it reaches 0, and only the member of the pointee of `b` may be cleared, and
only if it reaches 0. -/
theorem EHInv.releaseLike {W : List Nat} {used : List Addr} {h : Heap} {cs cs' : Nat → Nat}
    (hi : EHInv W used h cs) (b : Nat) (hc : cs b ≠ 0)
    (hcs : ∀ x, cs' x + (if x = b then 1 else 0) = cs x) (h' : Heap)
    (hn : h'.next = h.next) (hso : h.SameObjs h')
    (hstrong : ∀ x, (h'.blocks x).strong_ref_counter =
      (h.blocks x).strong_ref_counter - (if x = b then 1 else 0))
    (hptr : ∀ x, (h'.blocks x).ptr_ =
      (if x = b ∧ (h.blocks b).kind = BlockKind.ControlBlock ∧
          (h.blocks b).strong_ref_counter - 1 = 0 then Addr.null
       else (h.blocks x).ptr_))
    (hslots : (∀ a, a ≠ h.pointee b → h'.weak_this_ a = h.weak_this_ a) ∧
      (h'.weak_this_ (h.pointee b) = h.weak_this_ (h.pointee b) ∨
        (h'.weak_this_ (h.pointee b)).block_ = none))
    (hshared : (h.blocks b).strong_ref_counter - 1 ≠ 0 → h'.weak_this_ = h.weak_this_) :
    EHInv W used h' cs' := by
  have hcb := hcs b
  simp only [if_true] at hcb
  have hsb := hi.strong_eq b
  apply hi.e_frame
  · exact hn
  · intro x; exact (hso.1 x).2.1
  · intro x; exact (hso.1 x).1
  · intro x
    rw [hstrong, hi.strong_eq]
    have := hcs x
    split_ifs at this ⊢ <;> omega
  · intro x hx
    have := hcs x
    have h0 := hi.out_s x hx
    omega
  · intro x hkx
    rw [hptr]
    by_cases hx : x = b
    · subst hx
      by_cases h0 : cs' x = 0
      · rw [if_pos ⟨rfl, hkx, by omega⟩, if_neg (by simpa using h0)]
      · rw [if_neg (by intro hcon; omega), if_pos h0, hi.ptr_eq x hkx, if_pos hc]
    · have := hcs x
      simp only [hx, if_false, Nat.add_zero, false_and] at this ⊢
      rw [this, hi.ptr_eq x hkx]
  · intro a
    by_cases ha : a = h.pointee b
    · subst ha; exact hslots.2
    · exact Or.inl (hslots.1 a ha)
  · intro x hxW hx'
    have hx0 : cs x ≠ 0 := by
      have := hcs x
      omega
    refine ⟨hx0, ?_⟩
    by_cases hx : x = b
    · subst hx
      rw [hshared (by omega)]
    · apply hslots.1
      rw [hi.pointee_eq b hc]
      intro he
      have hw := hi.slot_own x hxW hx0
      have hne : (h.blocks x).obj ≠ Addr.null :=
        (hi.slot_src _ x (by rw [hw])).2.2
      exact hx (hi.obj_inj x b (hi.e_lt_next x hx0) (hi.e_lt_next b hc) he hne)

theorem EHInv.e_release {W : List Nat} {used : List Addr} {h : Heap} {cs cs' : Nat → Nat}
    (hi : EHInv W used h cs) (b : Nat) (f : Addr) (hc : cs b ≠ 0)
    (hcs : ∀ x, cs' x + (if x = b then 1 else 0) = cs x) :
    EHInv W used (h.release ⟨some b, f⟩) cs' := by
  apply hi.releaseLike b hc hcs
  · exact Heap.release_next _ _
  · exact Heap.release_sameObjs _ _
  · intro x
    have := Heap.release_strong h ⟨some b, f⟩ x
    rw [this]
    by_cases hx : x = b
    · subst hx; simp
    · have hx' : ¬ b = x := fun e => hx e.symm
      simp [hx, hx']
  · exact Heap.release_ptr h b f
  · exact Heap.release_slots h b f (hi.slot_cases b hc)
  · intro hn
    rw [Heap.release_of_shared h b f hn]
    rfl

theorem EHInv.resetS {W : List Nat} {used : List Addr} {h : Heap} {cs cs' : Nat → Nat}
    (hi : EHInv W used h cs) (b : Nat) (f : Addr) (hc : cs b ≠ 0)
    (hcs : ∀ x, cs' x + (if x = b then 1 else 0) = cs x) :
    EHInv W used (SharedPtr.Reset h ⟨some b, f⟩).1 cs' := by
  apply hi.releaseLike b hc hcs
  · exact SharedPtr.Reset_next _ _
  · exact SharedPtr.Reset_sameObjs _ _
  · intro x
    have := SharedPtr.Reset_strong h ⟨some b, f⟩ x
    rw [this]
    by_cases hx : x = b
    · subst hx; simp
    · have hx' : ¬ b = x := fun e => hx e.symm
      simp [hx, hx']
  · exact SharedPtr.Reset_ptr h b f
  · exact SharedPtr.Reset_slots h b f (hi.slot_cases b hc)
  · intro hn
    rw [SharedPtr.Reset_of_shared h b f hn]
    rfl

/-- A change of weak counters and `deleted` marks only. -/
theorem EHInv.weakOnly {W : List Nat} {used : List Addr} {h : Heap} {cs : Nat → Nat}
    (hi : EHInv W used h cs) (h' : Heap) (hn : h'.next = h.next) (hso : h.SameObjs h')
    (hstrong : ∀ x, (h'.blocks x).strong_ref_counter = (h.blocks x).strong_ref_counter)
    (hptr : ∀ x, (h'.blocks x).ptr_ = (h.blocks x).ptr_)
    (hsl : h'.weak_this_ = h.weak_this_) : EHInv W used h' cs := by
  apply hi.e_frame
  · exact hn
  · intro x; exact (hso.1 x).2.1
  · intro x; exact (hso.1 x).1
  · intro x; rw [hstrong]; exact hi.strong_eq x
  · exact hi.out_s
  · intro x hkx; rw [hptr]; exact hi.ptr_eq x hkx
  · intro a; rw [hsl]; exact Or.inl rfl
  · intro x _ hx; exact ⟨hx, by rw [hsl]⟩

theorem EHInv.e_addWeak {W : List Nat} {used : List Addr} {h : Heap} {cs : Nat → Nat}
    (hi : EHInv W used h cs) (w : WeakPtr) : EHInv W used (w.AddWeakRef h) cs :=
  hi.weakOnly _ (WeakPtr.AddWeakRef_next h w) (WeakPtr.AddWeakRef_sameObjs h w)
    (WeakPtr.AddWeakRef_strong h w) (WeakPtr.AddWeakRef_ptr h w)
    (by unfold WeakPtr.AddWeakRef; rcases w.block_ with _ | b <;> rfl)

theorem EHInv.decWeak {W : List Nat} {used : List Addr} {h : Heap} {cs : Nat → Nat}
    (hi : EHInv W used h cs) (w : WeakPtr) : EHInv W used (w.DecWeakRef h).1 cs :=
  hi.weakOnly _ (WeakPtr.DecWeakRef_next h w) (WeakPtr.DecWeakRef_sameObjs h w)
    (WeakPtr.DecWeakRef_strong h w) (WeakPtr.DecWeakRef_ptr h w)
    (WeakPtr.DecWeakRef_slots h w (by
      intro b _ hk h0
      rw [hi.ptr_eq b hk, if_neg]
      intro hc
      have := hi.strong_eq b
      rw [h0] at this
      exact hc (by exact_mod_cast this.symm)))

theorem ofRaw_true_spec (h : Heap) (n : Nat)
    (hfresh : (h.weak_this_ (Addr.raw n)).block_ = none) :
    (SharedPtr.ofRaw true h (Addr.raw n)).2 = ⟨some h.next, Addr.raw n⟩ ∧
    (SharedPtr.ofRaw true h (Addr.raw n)).1.next = h.next + 1 ∧
    (SharedPtr.ofRaw true h (Addr.raw n)).1.blocks h.next =
      ⟨BlockKind.ControlBlock, 1, 1, Addr.raw n, Addr.raw n, 0⟩ ∧
    (∀ x, x ≠ h.next → (SharedPtr.ofRaw true h (Addr.raw n)).1.blocks x = h.blocks x) ∧
    (SharedPtr.ofRaw true h (Addr.raw n)).1.weak_this_ (Addr.raw n) =
      ⟨Addr.raw n, some h.next⟩ ∧
    (∀ a, a ≠ Addr.raw n →
      (SharedPtr.ofRaw true h (Addr.raw n)).1.weak_this_ a = h.weak_this_ a) ∧
    (SharedPtr.ofRaw true h (Addr.raw n)).1.dtors = h.dtors := by
  simp +contextual [SharedPtr.ofRaw, Heap.newControlBlock, SharedPtr.AddStrongRef,
    SharedPtr.Assign, SharedPtr.Helper, WeakPtr.ofShared, WeakPtr.assign, WeakPtr.dtor,
    WeakPtr.DecWeakRef, WeakPtr.DecWeakRefWith, WeakPtr.AddWeakRef, BaseBlock.AddStrongRef,
    BaseBlock.AddWeakRef, BaseBlock.DecWeakRef, BaseBlock.WholeEmpty, upd_apply, Heap.setSlot,
    hfresh]

/-- A heap with one more block, allocated for an object that no older block knows, is
consistent. -/
theorem EHInv.e_alloc (W' : List Nat) (used' : List Addr) {W : List Nat} {used : List Addr}
    {h h' : Heap} {cs cs' : Nat → Nat} (hi : EHInv W used h cs)
    (hused : ∀ a, a ∈ used → a ∈ used')
    (hW : ∀ b, b ∈ W' → b ∈ W ∨ b = h.next)
    (hn : h'.next = h.next + 1)
    (hblk : ∀ x, x ≠ h.next → h'.blocks x = h.blocks x)
    (hcs : ∀ x, cs' x = if x = h.next then 1 else cs x)
    (hstrong : (h'.blocks h.next).strong_ref_counter = 1)
    (hptr : (h'.blocks h.next).kind = BlockKind.ControlBlock →
      (h'.blocks h.next).ptr_ = (h'.blocks h.next).obj)
    (hfused : (h'.blocks h.next).kind = BlockKind.Block →
      (h'.blocks h.next).obj = Addr.storage h.next)
    (hraw : (h'.blocks h.next).kind = BlockKind.ControlBlock →
      (h'.blocks h.next).obj = Addr.null ∨
        ∃ n, (h'.blocks h.next).obj = Addr.raw n ∧ Addr.raw n ∈ used' ∧ Addr.raw n ∉ used)
    (hslot : ∀ a, a ≠ (h'.blocks h.next).obj → h'.weak_this_ a = h.weak_this_ a)
    (hnew : h'.weak_this_ (h'.blocks h.next).obj = h.weak_this_ (h'.blocks h.next).obj ∨
      (h'.weak_this_ (h'.blocks h.next).obj).block_ = none ∨
      ((h'.blocks h.next).obj ≠ Addr.null ∧
        h'.weak_this_ (h'.blocks h.next).obj = ⟨(h'.blocks h.next).obj, some h.next⟩))
    (hwired : h.next ∈ W' →
      h'.weak_this_ (h'.blocks h.next).obj = ⟨(h'.blocks h.next).obj, some h.next⟩) :
    EHInv W' used' h' cs' := by
  -- the object of the new block is not the object of an older block
  have hfresh : ∀ x, x < h.next → (h.blocks x).obj ≠ Addr.null →
      (h.blocks x).obj ≠ (h'.blocks h.next).obj := by
    intro x hx hne he
    rcases hk : (h'.blocks h.next).kind with _ | _
    · rcases hraw hk with h0 | ⟨n, h1, _, h3⟩
      · exact hne (he.trans h0)
      · rcases hkx : (h.blocks x).kind with _ | _
        · rcases hi.obj_raw x hx hkx with h4 | ⟨m, h5, h6⟩
          · exact hne h4
          · rw [he, h1] at h5; rw [h5] at h3; exact h3 h6
        · have := hi.obj_fused x hx hkx
          rw [he, h1] at this; cases this
    · have h1 := hfused hk
      rcases hkx : (h.blocks x).kind with _ | _
      · rcases hi.obj_raw x hx hkx with h4 | ⟨m, h5, _⟩
        · exact hne h4
        · rw [he, h1] at h5; cases h5
      · have := hi.obj_fused x hx hkx
        rw [he, h1] at this
        injection this with this
        omega
  -- so no member refers to a block of that object yet
  have hold : (h.weak_this_ (h'.blocks h.next).obj).block_ = none := by
    rcases hc : (h.weak_this_ (h'.blocks h.next).obj).block_ with _ | c
    · rfl
    · obtain ⟨c1, c2, c3⟩ := hi.slot_src _ c hc
      exact absurd c2 (hfresh c c1 (by rw [c2]; exact c3))
  have hout := hi.out_s h.next (le_refl _)
  constructor
  · intro x hx
    rw [hn] at hx
    rw [hcs, if_neg (by omega)]; exact hi.out_s x (by omega)
  · intro x
    by_cases hxn : x = h.next
    · subst hxn; rw [hstrong, hcs]; simp
    · rw [hblk x hxn, hcs, if_neg hxn]; exact hi.strong_eq x
  · intro x hkx
    by_cases hxn : x = h.next
    · subst hxn; rw [hptr hkx, hcs]; simp
    · rw [hblk x hxn] at hkx ⊢
      rw [hcs, if_neg hxn]; exact hi.ptr_eq x hkx
  · intro x hx hkx
    rw [hn] at hx
    by_cases hxn : x = h.next
    · subst hxn; exact hfused hkx
    · rw [hblk x hxn] at hkx ⊢; exact hi.obj_fused x (by omega) hkx
  · intro x hx hkx
    rw [hn] at hx
    by_cases hxn : x = h.next
    · subst hxn
      rcases hraw hkx with h0 | ⟨n, h1, h2, _⟩
      · exact Or.inl h0
      · exact Or.inr ⟨n, h1, h2⟩
    · rw [hblk x hxn] at hkx ⊢
      rcases hi.obj_raw x (by omega) hkx with h0 | ⟨n, h1, h2⟩
      · exact Or.inl h0
      · exact Or.inr ⟨n, h1, hused _ h2⟩
  · intro x y hx hy he hne
    rw [hn] at hx hy
    by_cases hxn : x = h.next <;> by_cases hyn : y = h.next
    · rw [hxn, hyn]
    · subst hxn
      rw [hblk y hyn] at he
      have hy' : y < h.next := by omega
      exact absurd he.symm (hfresh y hy' (by rw [← he]; exact hne))
    · subst hyn
      rw [hblk x hxn] at he hne
      exact absurd he (hfresh x (by omega) hne)
    · rw [hblk x hxn] at he hne; rw [hblk y hyn] at he
      exact hi.obj_inj x y (by omega) (by omega) he hne
  · intro a b hab
    by_cases ha : a = (h'.blocks h.next).obj
    · subst ha
      rcases hnew with e | e | ⟨e0, e⟩
      · rw [e, hold] at hab; cases hab
      · rw [e] at hab; cases hab
      · rw [e] at hab
        simp only [Option.some.injEq] at hab
        subst hab
        exact ⟨by omega, rfl, e0⟩
    · rw [hslot a ha] at hab
      obtain ⟨c1, c2, c3⟩ := hi.slot_src a b hab
      refine ⟨by omega, ?_, c3⟩
      rw [hblk b (by omega)]; exact c2
  · intro x hxW hx
    by_cases hxn : x = h.next
    · subst hxn; exact hwired hxW
    · have hxW0 : x ∈ W := (hW x hxW).resolve_right hxn
      rw [hcs, if_neg hxn] at hx
      rw [hblk x hxn]
      have hw := hi.slot_own x hxW0 hx
      have hne : (h.blocks x).obj ≠ Addr.null := (hi.slot_src _ x (by rw [hw])).2.2
      rw [hslot _ (hfresh x (hi.e_lt_next x hx) hne)]
      exact hw
  · intro x hxW
    rcases hW x hxW with hx | hx
    · have := hi.wired_lt x hx; omega
    · omega

theorem EInv.e_store {W : List Nat} {used : List Addr} {s : State} (hi : EInv W used s)
    (sp' : List (Option SharedPtr)) (wp' : List (Option WeakPtr))
    (h1 : ∀ x, sp'.countP (refS x) = s.sp.countP (refS x)) :
    EInv W used ⟨s.heap, sp', wp'⟩ :=
  EHInv.e_congr hi h1

theorem EInv.e_acquireS {W : List Nat} {used : List Addr} {s : State} (hi : EInv W used s)
    (q : SharedPtr) (sp' : List (Option SharedPtr)) (wp' : List (Option WeakPtr))
    (hq : ∀ b, q.block_ = some b → 1 ≤ s.liveS b)
    (hcount : ∀ x, sp'.countP (refS x) = s.sp.countP (refS x) + (refS x (some q)).toNat) :
    EInv W used ⟨q.AddStrongRef s.heap, sp', wp'⟩ := by
  rcases q with ⟨blk, f⟩
  cases blk with
  | none =>
    apply EHInv.e_congr hi
    intro x; simpa using hcount x
  | some b =>
    have hb := hq b rfl
    apply EHInv.e_addStrong hi b (by omega)
    intro x
    have := hcount x
    simp only [refS_some, Option.some.injEq] at this
    show sp'.countP (refS x) = _
    rw [this]
    by_cases hx : x = b
    · subst hx; simp [State.liveS]
    · have : ¬ b = x := fun e => hx e.symm
      simp [hx, this, State.liveS]

theorem EInv.e_releaseS {W : List Nat} {used : List Addr} {s : State} (hi : EInv W used s)
    (p : SharedPtr) (sp' : List (Option SharedPtr)) (wp' : List (Option WeakPtr))
    (hcount : ∀ x, sp'.countP (refS x) + (refS x (some p)).toNat = s.sp.countP (refS x)) :
    EInv W used ⟨s.heap.release p, sp', wp'⟩ := by
  rcases p with ⟨blk, f⟩
  cases blk with
  | none =>
    apply EHInv.e_congr hi
    intro x; simpa using hcount x
  | some b =>
    have hb : 1 ≤ s.liveS b := by
      have := hcount b
      simp at this
      simp only [State.liveS]; omega
    apply EHInv.e_release hi b f (by omega)
    intro x
    have := hcount x
    simp only [refS_some, Option.some.injEq] at this
    show sp'.countP (refS x) + _ = _
    by_cases hx : x = b
    · subst hx; simp at this; simp [State.liveS]; omega
    · have hx' : ¬ b = x := fun e => hx e.symm
      simp [hx'] at this; simp [hx, State.liveS, this]

theorem EInv.e_resetS {W : List Nat} {used : List Addr} {s : State} (hi : EInv W used s)
    (p : SharedPtr) (sp' : List (Option SharedPtr)) (wp' : List (Option WeakPtr))
    (hcount : ∀ x, sp'.countP (refS x) + (refS x (some p)).toNat = s.sp.countP (refS x)) :
    EInv W used ⟨(p.Reset s.heap).1, sp', wp'⟩ := by
  rcases p with ⟨blk, f⟩
  cases blk with
  | none =>
    apply EHInv.e_congr hi
    intro x; simpa using hcount x
  | some b =>
    have hb : 1 ≤ s.liveS b := by
      have := hcount b
      simp at this
      simp only [State.liveS]; omega
    apply EHInv.resetS hi b f (by omega)
    intro x
    have := hcount x
    simp only [refS_some, Option.some.injEq] at this
    show sp'.countP (refS x) + _ = _
    by_cases hx : x = b
    · subst hx; simp at this; simp [State.liveS]; omega
    · have hx' : ¬ b = x := fun e => hx e.symm
      simp [hx'] at this; simp [hx, State.liveS, this]

theorem EInv.e_addW {W : List Nat} {used : List Addr} {s : State} (hi : EInv W used s)
    (w : WeakPtr) (wp' : List (Option WeakPtr)) :
    EInv W used ⟨w.AddWeakRef s.heap, s.sp, wp'⟩ :=
  EHInv.e_addWeak hi w

theorem EInv.e_dropW {W : List Nat} {used : List Addr} {s : State} (hi : EInv W used s)
    (w : WeakPtr) (wp' : List (Option WeakPtr)) :
    EInv W used ⟨(w.DecWeakRef s.heap).1, s.sp, wp'⟩ :=
  EHInv.decWeak hi w

theorem EInv.e_wp {W : List Nat} {used : List Addr} {s : State} (hi : EInv W used s)
    (wp' : List (Option WeakPtr)) : EInv W used ⟨s.heap, s.sp, wp'⟩ := hi

theorem EInv.e_allocRaw {W : List Nat} {used : List Addr} {s : State} (hi : EInv W used s)
    (a : Addr) (ha : a = Addr.null ∨ ∃ n, a = Addr.raw n ∧ Addr.raw n ∉ used)
    (sp' : List (Option SharedPtr)) (wp' : List (Option WeakPtr))
    (hcount : ∀ x, sp'.countP (refS x) =
      s.sp.countP (refS x) + (if x = s.heap.next then 1 else 0)) :
    EInv W (a :: used) ⟨(SharedPtr.ofRaw_weak s.heap a).1, sp', wp'⟩ := by
  obtain ⟨r1, r2, r3, r4, r5, r6, _⟩ := ofRaw_weak_heap s.heap a
  apply EHInv.e_alloc W (a :: used) hi
  · intro x hx; exact List.mem_cons_of_mem _ hx
  · intro b hb; exact Or.inl hb
  · exact r1
  · exact r2
  · intro x
    show sp'.countP (refS x) = _
    rw [hcount x]
    by_cases hx : x = s.heap.next
    · subst hx
      have := hi.out_s s.heap.next (le_refl _)
      simp only [State.liveS] at this
      simp [this]
    · simp [hx, State.liveS]
  · simp [r3]
  · simp [r3]
  · simp [r3]
  · intro _
    simp only [r3]
    rcases ha with h0 | ⟨n, h1, h2⟩
    · exact Or.inl h0
    · exact Or.inr ⟨n, h1, by simp [h1], h2⟩
  · intro x _; simp only [r5]
  · left; simp only [r5]
  · intro hw
    have := hi.wired_lt _ hw
    omega

theorem EInv.e_allocFused {W : List Nat} {used : List Addr} {s : State} (hi : EInv W used s)
    (sp' : List (Option SharedPtr)) (wp' : List (Option WeakPtr))
    (hcount : ∀ x, sp'.countP (refS x) =
      s.sp.countP (refS x) + (if x = s.heap.next then 1 else 0)) :
    EInv W used ⟨(MakeShared_weak s.heap).1, sp', wp'⟩ := by
  obtain ⟨r1, r2, r3, r4, r5, r6, _⟩ := MakeShared_weak_heap s.heap
  apply EHInv.e_alloc W used hi
  · intro x hx; exact hx
  · intro b hb; exact Or.inl hb
  · exact r1
  · exact r2
  · intro x
    show sp'.countP (refS x) = _
    rw [hcount x]
    by_cases hx : x = s.heap.next
    · subst hx
      have := hi.out_s s.heap.next (le_refl _)
      simp only [State.liveS] at this
      simp [this]
    · simp [hx, State.liveS]
  · simp [r3]
  · simp [r3]
  · simp [r3]
  · simp [r3]
  · intro x hx
    simp only [r3] at hx
    simp only [r5, upd_apply, hx, if_false]
  · right; left
    simp only [r3, r5, upd_same]
  · intro hw
    have := hi.wired_lt _ hw
    omega

theorem EInv.e_allocRawWired {W : List Nat} {used : List Addr} {s : State}
    (hi : EInv W used s) (n : Nat) (hn : Addr.raw n ∉ used)
    (sp' : List (Option SharedPtr)) (wp' : List (Option WeakPtr))
    (hcount : ∀ x, sp'.countP (refS x) =
      s.sp.countP (refS x) + (if x = s.heap.next then 1 else 0)) :
    EInv (s.heap.next :: W) (Addr.raw n :: used)
      ⟨(SharedPtr.ofRaw true s.heap (Addr.raw n)).1, sp', wp'⟩ := by
  have hfresh : (s.heap.weak_this_ (Addr.raw n)).block_ = none := by
    rcases hc : (s.heap.weak_this_ (Addr.raw n)).block_ with _ | c
    · rfl
    · obtain ⟨c1, c2, _⟩ := hi.slot_src _ c hc
      rcases hk : (s.heap.blocks c).kind with _ | _
      · rcases hi.obj_raw c c1 hk with h0 | ⟨m, h1, h2⟩
        · rw [c2] at h0; cases h0
        · rw [c2] at h1; rw [← h1] at h2; exact absurd h2 hn
      · have := hi.obj_fused c c1 hk
        rw [c2] at this; cases this
  obtain ⟨_, r1, r3, r2, r5, r6, _⟩ := ofRaw_true_spec s.heap n hfresh
  apply EHInv.e_alloc (s.heap.next :: W) (Addr.raw n :: used) hi
  · intro x hx; exact List.mem_cons_of_mem _ hx
  · intro b hb
    rcases List.mem_cons.mp hb with e | e
    · exact Or.inr e
    · exact Or.inl e
  · exact r1
  · exact r2
  · intro x
    show sp'.countP (refS x) = _
    rw [hcount x]
    by_cases hx : x = s.heap.next
    · subst hx
      have := hi.out_s s.heap.next (le_refl _)
      simp only [State.liveS] at this
      simp [this]
    · simp [hx, State.liveS]
  · simp [r3]
  · simp [r3]
  · simp [r3]
  · intro _
    simp only [r3]
    exact Or.inr ⟨n, rfl, by simp, hn⟩
  · intro x hx
    simp only [r3] at hx
    exact r6 x hx
  · right; right
    simp only [r3]
    exact ⟨by simp, r5⟩
  · intro _
    simp only [r3]
    exact r5

theorem EInv.e_allocFusedWired {W : List Nat} {used : List Addr} {s : State}
    (hi : EInv W used s) (sp' : List (Option SharedPtr)) (wp' : List (Option WeakPtr))
    (hcount : ∀ x, sp'.countP (refS x) =
      s.sp.countP (refS x) + (if x = s.heap.next then 1 else 0)) :
    EInv (s.heap.next :: W) used ⟨(MakeShared true s.heap).1, sp', wp'⟩ := by
  obtain ⟨_, r1, r3, r2, r5, r6, _, _⟩ := MakeShared_spec true s.heap
  simp only [if_true] at r3 r5
  apply EHInv.e_alloc (s.heap.next :: W) used hi
  · intro x hx; exact hx
  · intro b hb
    rcases List.mem_cons.mp hb with e | e
    · exact Or.inr e
    · exact Or.inl e
  · exact r1
  · exact r2
  · intro x
    show sp'.countP (refS x) = _
    rw [hcount x]
    by_cases hx : x = s.heap.next
    · subst hx
      have := hi.out_s s.heap.next (le_refl _)
      simp only [State.liveS] at this
      simp [this]
    · simp [hx, State.liveS]
  · simp [r3]
  · simp [r3]
  · simp [r3]
  · simp [r3]
  · intro x hx
    simp only [r3] at hx
    exact r6 x hx
  · right; right
    simp only [r3]
    exact ⟨by simp, r5⟩
  · intro _
    simp only [r3]
    exact r5

theorem EInv.e_live_of_not_expired {W : List Nat} {used : List Addr} {s : State}
    (hi : EInv W used s) (v : WeakPtr) (he : ¬ v.Expired s.heap = true) (b : Nat)
    (hb : v.block_ = some b) : 1 ≤ s.liveS b := by
  have hs := hi.strong_eq b
  simp [WeakPtr.Expired, hb, BaseBlock.IsEmpty] at he
  have : (s.liveS b : Int) ≠ 0 := by rw [← hs]; exact he
  have : s.liveS b ≠ 0 := by exact_mod_cast this
  omega

theorem EInv.e_lock {W : List Nat} {used : List Addr} {s : State} (hi : EInv W used s)
    (v : WeakPtr) : EInv W used (s.pushS (v.Lock s.heap)) := by
  simp only [State.pushS, WeakPtr.Lock_eq]
  split_ifs with he
  · apply hi.e_store
    intro x; rw [countP_push_toNat]; simp
  · apply hi.e_acquireS
    · intro b hb
      exact hi.e_live_of_not_expired v he b hb
    · intro x; rw [countP_push_toNat]

theorem EInv.e_releaseAt {W : List Nat} {used : List Addr} {s : State} (hi : EInv W used s)
    (i : Nat) (p : SharedPtr) (hp : s.getS i = some p) (o : Option SharedPtr)
    (ho : ∀ b, refS b o = false) :
    EInv W used ⟨s.heap.release p, s.sp.set i o, s.wp⟩ := by
  apply hi.e_releaseS p
  intro x
  have := s.countS_set i p hp o x
  rw [ho x] at this
  simpa using this

theorem EInv.e_resetAt {W : List Nat} {used : List Addr} {s : State} (hi : EInv W used s)
    (i : Nat) (p : SharedPtr) (hp : s.getS i = some p) (o : Option SharedPtr)
    (ho : ∀ b, refS b o = false) :
    EInv W used ⟨(p.Reset s.heap).1, s.sp.set i o, s.wp⟩ := by
  apply hi.e_resetS p
  intro x
  have := s.countS_set i p hp o x
  rw [ho x] at this
  simpa using this

theorem EInv.e_base {W : List Nat} {used : List Addr} {s : State} (hi : EInv W used s)
    (op : Op) (hf : ∀ n, n ∈ handed [op] → Addr.raw n ∉ used) :
    EInv W (op.gives ++ used) (step s op) := by
  have hraw : ∀ r : Option Nat, (∀ n, r = some n → Addr.raw n ∉ used) →
      EInv W (Addr.ofNew r :: used) (s.pushS (SharedPtr.ofRaw_weak s.heap (Addr.ofNew r))) := by
    intro r hr
    apply hi.e_allocRaw (Addr.ofNew r) (Addr.ofNew_cases r used hr)
    intro x
    rw [countP_push_toNat, (ofRaw_weak_heap s.heap (Addr.ofNew r)).2.2.2.2.2.2]
    by_cases hx : x = s.heap.next
    · simp [hx]
    · have : ¬ s.heap.next = x := fun e => hx e.symm
      simp [hx, this]
  have hmake : EInv W used (s.pushS (MakeShared_weak s.heap)) := by
    apply hi.e_allocFused
    intro x
    rw [countP_push_toNat, (MakeShared_weak_heap s.heap).2.2.2.2.2.2]
    by_cases hx : x = s.heap.next
    · simp [hx]
    · have : ¬ s.heap.next = x := fun e => hx e.symm
      simp [hx, this]
  cases op with
  | spDefault =>
    apply hi.e_store
    intro x; rw [countP_push_toNat]; simp [SharedPtr.default]
  | spRaw r => exact hraw r (fun n hn => hf n (by simp [handed, hn]))
  | spMake => exact hmake
  | spCopy j =>
    simp only [step, Op.gives, List.nil_append]
    cases hq : s.getS j with
    | none => exact hi
    | some q =>
      simp only [SharedPtr.copy, State.pushS]
      split_ifs with hf
      · apply hi.e_acquireS
        · intro b hb; exact s.liveS_of_get j q hq b hb
        · intro x; rw [countP_push_toNat]
      · apply hi.e_store
        intro x; rw [countP_push_toNat]; simp
  | spMove j =>
    simp only [step, Op.gives, List.nil_append]
    cases hq : s.getS j with
    | none => exact hi
    | some q =>
      apply hi.e_store
      intro x
      have := s.countS_set j q hq (some ⟨none, Addr.null⟩) x
      simp only [SharedPtr.move]
      rw [countP_push_toNat]
      simp [refS_some'] at this ⊢
      omega
  | spAlias j a =>
    simp only [step, Op.gives, List.nil_append]
    cases hq : s.getS j with
    | none => exact hi
    | some q =>
      simp only [SharedPtr.alias, State.pushS]
      apply hi.e_acquireS
      · intro b hb; exact s.liveS_of_get j q hq b hb
      · intro x; rw [countP_push_toNat]
  | spPromote w =>
    simp only [step, Op.gives, List.nil_append]
    cases hv : s.getW w with
    | none => exact hi
    | some v =>
      simp only [SharedPtr.ofWeak]
      split_ifs with he
      · exact hi
      · simp only [State.pushS, WeakPtr.GetBlock, WeakPtr.GetField]
        apply hi.e_acquireS
        · intro b hb
          exact hi.e_live_of_not_expired v he b hb
        · intro x; rw [countP_push_toNat]
  | spAssign i j =>
    simp only [step, Op.gives, List.nil_append]
    cases hp : s.getS i with
    | none => exact hi
    | some p =>
      cases hq : s.getS j with
      | none => exact hi
      | some q =>
        simp only
        have hkeep : EInv W used ⟨s.heap, s.sp.set i (some p), s.wp⟩ := by
          apply hi.e_store
          intro x
          have := s.countS_set i p hp (some p) x
          omega
        split_ifs with hij
        · simp only [SharedPtr.assignSelf, State.putS, ne_eq, not_true_eq_false, if_false]
          exact hkeep
        · simp only [SharedPtr.assign, State.putS]
          split_ifs with hf
          · have h1 := hi.e_releaseAt i p hp (some ⟨none, Addr.null⟩) (by simp)
            have hq1 : (State.mk (s.heap.release p) (s.sp.set i (some ⟨none, Addr.null⟩))
                s.wp).getS j = some q := by
              rw [State.getS_set_ne s i j _ hij]; exact hq
            have h2 := h1.e_acquireS ⟨q.block_, q.field_⟩
              (s.sp.set i (some ⟨q.block_, q.field_⟩)) s.wp
              (by intro b hb; exact State.liveS_of_get _ j q hq1 b hb)
              (by
                intro x
                have e1 := s.countS_set i p hp (some ⟨none, Addr.null⟩) x
                have e2 := s.countS_set i p hp (some ⟨q.block_, q.field_⟩) x
                simp at e1 e2 ⊢
                omega)
            exact h2
          · exact hkeep
  | spMoveAssign i j =>
    simp only [step, Op.gives, List.nil_append]
    cases hp : s.getS i with
    | none => exact hi
    | some p =>
      cases hq : s.getS j with
      | none => exact hi
      | some q =>
        simp only
        have h1 := hi.e_releaseAt i p hp (some ⟨none, Addr.null⟩) (by simp)
        split_ifs with hij
        · exact h1
        · simp only [SharedPtr.moveAssign]
          have hq2 : (State.mk (s.heap.release p) (s.sp.set i (some ⟨q.block_, q.field_⟩))
              s.wp).getS j = some q := by
            rw [State.getS_set_ne s i j _ hij]; exact hq
          apply h1.e_store
          intro x
          have e1 := s.countS_set i p hp (some ⟨none, Addr.null⟩) x
          have e2 := s.countS_set i p hp (some ⟨q.block_, q.field_⟩) x
          have e3 := State.countS_set _ j q hq2 (some ⟨none, Addr.null⟩) x
          simp [refS_some'] at e1 e2 e3 ⊢
          omega
  | spReset i =>
    simp only [step, Op.gives, List.nil_append]
    cases hp : s.getS i with
    | none => exact hi
    | some p => exact hi.e_releaseAt i p hp (some ⟨none, Addr.null⟩) (by simp)
  | spResetRaw i r =>
    have ha := Addr.ofNew_cases r used (fun n hn => hf n (by simp [handed, hn]))
    simp only [step, Op.gives, List.singleton_append]
    generalize Addr.ofNew r = a at ha ⊢
    cases hp : s.getS i with
    | none => exact EHInv.e_mono hi (fun x hx => List.mem_cons_of_mem _ hx)
    | some p =>
      simp only [State.putS, ResetRaw_eq]
      have h1 := hi.e_releaseAt i p hp (some ⟨none, Addr.null⟩) (by simp)
      have h2 := h1.e_allocRaw a ha
        (s.sp.set i (some (SharedPtr.ofRaw_weak (s.heap.release p) a).2)) s.wp (by
          intro x
          have e1 := s.countS_set i p hp (some ⟨none, Addr.null⟩) x
          have e2 := s.countS_set i p hp (some (SharedPtr.ofRaw_weak (s.heap.release p) a).2) x
          rw [(ofRaw_weak_heap (s.heap.release p) a).2.2.2.2.2.2] at e2 ⊢
          have hn : (s.heap.release p).next = s.heap.next := Heap.release_next _ _
          simp only [hn] at e1 e2 ⊢
          by_cases hx : x = s.heap.next
          · subst hx
            simp at e1 e2 ⊢
            omega
          · have : ¬ s.heap.next = x := fun e => hx e.symm
            simp [hx, this] at e1 e2 ⊢
            omega)
      exact h2
  | spSwap i j =>
    simp only [step, Op.gives, List.nil_append]
    cases hp : s.getS i with
    | none => exact hi
    | some p =>
      cases hq : s.getS j with
      | none => exact hi
      | some q =>
        simp only
        split_ifs with hij
        · exact hi
        · simp only [SharedPtr.Swap]
          have hq2 : (State.mk s.heap (s.sp.set i (some ⟨q.block_, q.field_⟩)) s.wp).getS j
              = some q := by
            rw [State.getS_set_ne s i j _ hij]; exact hq
          apply hi.e_store
          intro x
          have e2 := s.countS_set i p hp (some ⟨q.block_, q.field_⟩) x
          have e3 := State.countS_set _ j q hq2 (some ⟨p.block_, p.field_⟩) x
          simp [refS_some'] at e2 e3 ⊢
          omega
  | spDtor i =>
    simp only [step, Op.gives, List.nil_append]
    cases hp : s.getS i with
    | none => exact hi
    | some p => exact hi.e_releaseAt i p hp none (by simp)
  | wpDefault => exact hi.e_wp _
  | wpCopy v =>
    simp only [step, Op.gives, List.nil_append]
    cases hx : s.getW v with
    | none => exact hi
    | some x => exact hi.e_addW _ _
  | wpMove v =>
    simp only [step, Op.gives, List.nil_append]
    cases hx : s.getW v with
    | none => exact hi
    | some x => exact hi.e_wp _
  | wpOfShared j =>
    simp only [step, Op.gives, List.nil_append]
    cases hq : s.getS j with
    | none => exact hi
    | some q => exact hi.e_addW _ _
  | wpAssignShared w j =>
    simp only [step, Op.gives, List.nil_append]
    cases hx : s.getW w with
    | none => exact hi
    | some x =>
      cases hq : s.getS j with
      | none => exact hi
      | some q => exact (hi.e_dropW x s.wp).e_addW _ _
  | wpAssign w v =>
    simp only [step, Op.gives, List.nil_append]
    cases hx : s.getW w with
    | none => exact hi
    | some x =>
      cases hy : s.getW v with
      | none => exact hi
      | some y =>
        simp only
        split_ifs with hwv
        · exact (hi.e_dropW x s.wp).e_addW _ _
        · exact (hi.e_dropW x s.wp).e_addW _ _
  | wpMoveAssign w v =>
    simp only [step, Op.gives, List.nil_append]
    cases hx : s.getW w with
    | none => exact hi
    | some x =>
      cases hy : s.getW v with
      | none => exact hi
      | some y =>
        simp only
        split_ifs with hwv
        · exact hi.e_dropW x _
        · exact hi.e_dropW x _
  | wpReset w =>
    simp only [step, Op.gives, List.nil_append]
    cases hx : s.getW w with
    | none => exact hi
    | some x => exact hi.e_dropW x _
  | wpSwap w v =>
    simp only [step, Op.gives, List.nil_append]
    cases hx : s.getW w with
    | none => exact hi
    | some x =>
      cases hy : s.getW v with
      | none => exact hi
      | some y =>
        simp only
        split_ifs with hwv
        · exact hi
        · exact hi.e_wp _
  | wpDtor w =>
    simp only [step, Op.gives, List.nil_append]
    cases hx : s.getW w with
    | none => exact hi
    | some x => exact hi.e_dropW x _
  | wpLock w =>
    simp only [step, Op.gives, List.nil_append]
    cases hv : s.getW w with
    | none => exact hi
    | some v => exact hi.e_lock v
  | sftRaw r =>
    rw [step_sftRaw]
    exact hraw r (fun n hn => hf n (by simp [handed, hn]))
  | sftMake => rw [step_sftMake]; exact hmake
  | sftReset i =>
    simp only [step, Op.gives, List.nil_append]
    cases hp : s.getS i with
    | none => exact hi
    | some p =>
      have := hi.e_resetAt i p hp (some (p.Reset s.heap).2) (by
        intro b
        rcases p with ⟨blk, f⟩
        cases blk <;> simp [SharedPtr.Reset, SharedPtr.CLear, refS])
      exact this
  | sftDtor i =>
    simp only [step, Op.gives, List.nil_append]
    cases hp : s.getS i with
    | none => exact hi
    | some p => exact hi.e_resetAt i p hp none (by simp)

theorem EInv.e_init : EInv [] [] State.init := by
  constructor <;> simp [State.init, Heap.init, State.liveS]

theorem EInv.e_fresh {W : List Nat} {used : List Addr} {s : State} (hi : EInv W used s)
    (n : Nat) (hn : Addr.raw n ∉ used) : (s.heap.weak_this_ (Addr.raw n)).block_ = none := by
  rcases hc : (s.heap.weak_this_ (Addr.raw n)).block_ with _ | c
  · rfl
  · obtain ⟨c1, c2, _⟩ := hi.slot_src _ c hc
    rcases hk : (s.heap.blocks c).kind with _ | _
    · rcases hi.obj_raw c c1 hk with h0 | ⟨m, h1, h2⟩
      · rw [c2] at h0; cases h0
      · rw [c2] at h1; rw [← h1] at h2; exact absurd h2 hn
    · have := hi.obj_fused c c1 hk
      rw [c2] at this; cases this

theorem handedE_cons (c : EOp) (ops : List EOp) :
    handedE (c :: ops) = handedE [c] ++ handedE ops := by
  cases c <;> simp [handedE]

theorem handedE_append (ops ops' : List EOp) :
    handedE (ops ++ ops') = handedE ops ++ handedE ops' := by
  induction ops with
  | nil => rfl
  | cons c ops ih =>
    rw [List.cons_append, handedE_cons, handedE_cons c ops, ih, List.append_assoc]

theorem EOp.e_gives_raw (c : EOp) (n : Nat) (h : Addr.raw n ∈ c.gives) : n ∈ handedE [c] := by
  cases c with
  | base op =>
    have := op.gives_raw n h
    simpa [handedE] using this
  | raw m => simp_all [EOp.gives, handedE]
  | _ => simp [EOp.gives] at h

theorem erun_append (s : State) (ops ops2 : List EOp) :
    erun s (ops ++ ops2) = erun (erun s ops) ops2 := by
  simp [erun, List.foldl_append]

theorem erun_cons (s : State) (c : EOp) (ops : List EOp) :
    erun s (c :: ops) = erun (estep s c) ops := rfl

/-- What the raw constructor for a type with the base leaves, in a consistent state. -/
theorem EInv.e_raw {W : List Nat} {used : List Addr} {s : State} (hi : EInv W used s)
    (n : Nat) (hn : Addr.raw n ∉ used) :
    EInv (s.heap.next :: W) (Addr.raw n :: used) (estep s (.raw n)) ∧
    s.heap.Extends (estep s (.raw n)).heap ∧
    (estep s (.raw n)).sp = s.sp ++ [some ⟨some s.heap.next, Addr.raw n⟩] ∧
    (estep s (.raw n)).heap.next = s.heap.next + 1 ∧
    (estep s (.raw n)).heap.blocks s.heap.next =
      ⟨BlockKind.ControlBlock, 1, 1, Addr.raw n, Addr.raw n, 0⟩ := by
  obtain ⟨r0, r1, r3, r2, r5, r6, r7⟩ := ofRaw_true_spec s.heap n (hi.e_fresh n hn)
  refine ⟨?_, ?_, ?_, r1, r3⟩
  · apply hi.e_allocRawWired n hn
    intro x
    rw [countP_push_toNat, r0]
    by_cases hx : x = s.heap.next
    · simp [hx]
    · have : ¬ s.heap.next = x := fun e => hx e.symm
      simp [hx, this]
  · refine ⟨fun b hb => ?_, ?_, ?_⟩
    · have e : (estep s (.raw n)).heap.blocks b = s.heap.blocks b := r2 b (by omega)
      rw [e]
      exact ⟨rfl, rfl, le_refl _⟩
    · show s.heap.dtors <:+ (SharedPtr.ofRaw true s.heap (Addr.raw n)).1.dtors
      rw [r7]
    · show s.heap.next ≤ (SharedPtr.ofRaw true s.heap (Addr.raw n)).1.next
      omega
  · show s.sp ++ [some (SharedPtr.ofRaw true s.heap (Addr.raw n)).2] = _
    rw [r0]

/-- What `MakeShared` for a type with the base leaves, in a consistent state. -/
theorem EInv.e_make {W : List Nat} {used : List Addr} {s : State} (hi : EInv W used s) :
    EInv (s.heap.next :: W) used (estep s .make) ∧
    s.heap.Extends (estep s .make).heap ∧
    (estep s .make).sp = s.sp ++ [some ⟨some s.heap.next, Addr.storage s.heap.next⟩] ∧
    (estep s .make).heap.next = s.heap.next + 1 ∧
    (estep s .make).heap.blocks s.heap.next =
      ⟨BlockKind.Block, 1, 1, Addr.null, Addr.storage s.heap.next, 0⟩ := by
  obtain ⟨r0, r1, r3, r2, r5, r6, r7, _⟩ := MakeShared_spec true s.heap
  simp only [if_true] at r3
  refine ⟨?_, ?_, ?_, r1, r3⟩
  · apply hi.e_allocFusedWired
    intro x
    rw [countP_push_toNat, r0]
    by_cases hx : x = s.heap.next
    · simp [hx]
    · have : ¬ s.heap.next = x := fun e => hx e.symm
      simp [hx, this]
  · refine ⟨fun b hb => ?_, ?_, ?_⟩
    · have e : (estep s .make).heap.blocks b = s.heap.blocks b := r2 b (by omega)
      rw [e]
      exact ⟨rfl, rfl, le_refl _⟩
    · show s.heap.dtors <:+ (MakeShared true s.heap).1.dtors
      rw [r7]
    · show s.heap.next ≤ (MakeShared true s.heap).1.next
      omega
  · show s.sp ++ [some (MakeShared true s.heap).2] = _
    rw [r0]

theorem WeakPtr.Lock_extends (h : Heap) (w : WeakPtr) : h.Extends (w.Lock h).1 := by
  rw [WeakPtr.Lock_eq]
  split_ifs
  · exact Heap.Extends.same _
  · exact (SharedPtr.AddStrongRef_sameObjs _ _).extends (by simp)

/-- Every operation preserves consistency; the blocks it wires and the objects it is
handed are added to the records. -/
theorem EInv.e_step {W : List Nat} {used : List Addr} {s : State} (hi : EInv W used s)
    (c : EOp) (hf : ∀ n, n ∈ handedE [c] → Addr.raw n ∉ used) :
    EInv (c.wires s.heap.next ++ W) (c.gives ++ used) (estep s c) ∧
    s.heap.Extends (estep s c).heap := by
  cases c with
  | base op =>
    exact ⟨hi.e_base op (fun n hn => hf n (by simpa [handedE] using hn)), step_extends s op⟩
  | raw n =>
    have := hi.e_raw n (hf n (by simp [handedE]))
    exact ⟨this.1, this.2.1⟩
  | make => exact ⟨hi.e_make.1, hi.e_make.2.1⟩
  | sharedFromThis x => exact ⟨hi.e_lock _, WeakPtr.Lock_extends _ _⟩
  | weakFromThis x =>
    exact ⟨hi.e_addW _ _, (WeakPtr.AddWeakRef_sameObjs _ _).extends (by simp)⟩

theorem EInv.e_run {W : List Nat} {used : List Addr} {s : State} (hi : EInv W used s)
    (ops : List EOp) (h2 : (handedE ops).Nodup)
    (h3 : ∀ n, n ∈ handedE ops → Addr.raw n ∉ used) :
    ∃ W' used', EInv W' used' (erun s ops) ∧ (∀ b, b ∈ W → b ∈ W') ∧
      (∀ n, Addr.raw n ∈ used' → Addr.raw n ∈ used ∨ n ∈ handedE ops) ∧
      s.heap.Extends (erun s ops).heap := by
  induction ops generalizing W used s with
  | nil => exact ⟨W, used, hi, fun _ hb => hb, fun _ hn => Or.inl hn, Heap.Extends.same _⟩
  | cons c ops ih =>
    rw [handedE_cons] at h2 h3
    have hstep := hi.e_step c (fun n hn => h3 n (List.mem_append_left _ hn))
    obtain ⟨W', used', k1, k2, k3, k4⟩ := ih hstep.1 (List.nodup_append.mp h2).2.1 (by
      intro n hn hm
      rcases List.mem_append.mp hm with hm | hm
      · exact (List.nodup_append.mp h2).2.2 (c.e_gives_raw n hm) hn
      · exact h3 n (List.mem_append_right _ hn) hm)
    refine ⟨W', used', k1, fun b hb => k2 b (List.mem_append_right _ hb), ?_,
      hstep.2.chain k4⟩
    intro n hn
    rw [handedE_cons]
    rcases k3 n hn with k | k
    · rcases List.mem_append.mp k with k | k
      · exact Or.inr (List.mem_append_left _ (c.e_gives_raw n k))
      · exact Or.inl k
    · exact Or.inr (List.mem_append_right _ k)

/-- Every state a disciplined program with self-observing pointees reaches is
consistent. -/
theorem reachable_einv (ops : List EOp) (hd : DisciplinedE ops) :
    ∃ W used, EInv W used (erun State.init ops) ∧
      ∀ n, Addr.raw n ∈ used → n ∈ handedE ops := by
  obtain ⟨W, used, k1, _, k3, _⟩ := EInv.e_init.e_run ops hd (by intro n _; simp)
  refine ⟨W, used, k1, fun n hn => ?_⟩
  rcases k3 n hn with k | k
  · simp at k
  · exact k

/-- The created block stays wired: in every later state of a disciplined program, the
block `B` that a creating operation allocated for the object `x` has object `x`, its
strong count is the number of its owners, and while it has owners the member
`weak_this_` of `x` refers to it. -/
theorem created_block_stays_wired (ops ops2 : List EOp) (c : EOp) (x : Addr)
    (hd : DisciplinedE (ops ++ c :: ops2))
    (hc : c.created (erun State.init ops).heap.next = some x) :
    (erun State.init (ops ++ [c])).sp =
      (erun State.init ops).sp ++ [some ⟨some (erun State.init ops).heap.next, x⟩] ∧
    ((erun State.init (ops ++ [c])).heap.blocks
      (erun State.init ops).heap.next).strong_ref_counter = 1 ∧
    ((erun State.init (ops ++ c :: ops2)).heap.blocks
      (erun State.init ops).heap.next).strong_ref_counter =
      (erun State.init (ops ++ c :: ops2)).liveS (erun State.init ops).heap.next ∧
    ((erun State.init (ops ++ c :: ops2)).liveS (erun State.init ops).heap.next ≠ 0 →
      (erun State.init (ops ++ c :: ops2)).heap.weak_this_ x =
        ⟨x, some (erun State.init ops).heap.next⟩) := by
  unfold DisciplinedE at hd
  rw [handedE_append, handedE_cons] at hd
  obtain ⟨W1, u1, hi1, hu1⟩ := reachable_einv ops (List.nodup_append.mp hd).1
  have hd2 := (List.nodup_append.mp hd).2.1
  have hdis := (List.nodup_append.mp hd).2.2
  have hf : ∀ n, n ∈ handedE [c] → Addr.raw n ∉ u1 := by
    intro n hn hm
    exact hdis (hu1 n hm) (List.mem_append_left _ hn)
  have hstep := hi1.e_step c hf
  have hcr : (estep (erun State.init ops) c).sp =
        (erun State.init ops).sp ++ [some ⟨some (erun State.init ops).heap.next, x⟩] ∧
      (estep (erun State.init ops) c).heap.next = (erun State.init ops).heap.next + 1 ∧
      ((estep (erun State.init ops) c).heap.blocks (erun State.init ops).heap.next).obj = x ∧
      ((estep (erun State.init ops) c).heap.blocks
        (erun State.init ops).heap.next).strong_ref_counter = 1 ∧
      (erun State.init ops).heap.next ∈ c.wires (erun State.init ops).heap.next := by
    cases c with
    | raw n =>
      simp only [EOp.created, Option.some.injEq] at hc
      subst hc
      obtain ⟨_, _, k1, k2, k3⟩ := hi1.e_raw n (hf n (by simp [handedE]))
      exact ⟨k1, k2, by rw [k3], by rw [k3], by simp [EOp.wires]⟩
    | make =>
      simp only [EOp.created, Option.some.injEq] at hc
      subst hc
      obtain ⟨_, _, k1, k2, k3⟩ := hi1.e_make
      exact ⟨k1, k2, by rw [k3], by rw [k3], by simp [EOp.wires]⟩
    | _ => simp [EOp.created] at hc
  obtain ⟨c1, c2, c3, c4, c5⟩ := hcr
  obtain ⟨W', used', k1, k2, _, k4⟩ := hstep.1.e_run ops2 (List.nodup_append.mp hd2).2.1 (by
    intro n hn hm
    rcases List.mem_append.mp hm with hm | hm
    · exact (List.nodup_append.mp hd2).2.2 (c.e_gives_raw n hm) hn
    · exact hdis (hu1 n hm) (List.mem_append_right _ hn))
  have e1 : erun State.init (ops ++ [c]) = estep (erun State.init ops) c := by
    rw [erun_append]; rfl
  have e2 : erun State.init (ops ++ c :: ops2) = erun (estep (erun State.init ops) c) ops2 := by
    rw [erun_append]; rfl
  rw [e1, e2]
  refine ⟨c1, c4, k1.strong_eq _, ?_⟩
  intro hl
  have hw := k1.slot_own _ (k2 _ (List.mem_append_left _ c5)) hl
  have ho := (k4.1 (erun State.init ops).heap.next (by omega)).1
  rw [c3] at ho
  rw [ho] at hw
  exact hw

end SmartPtrs
